import Mathlib

/-!
# Collapsed Gibbs sampling for LDA: the count tables of `gibbs_sampling.cc`

A shallow embedding of `src/gibbs_sampling.cc`.

* The five file-level `static` tables become the fields of `Store`; every function that reads
  or writes them takes the store and returns the new one.
* `std::vector<T>` is a `List T`.  Indexing outside the vector is undefined behaviour in C++;
  here it is the fault `Fault.outOfRange`.
* `std::map<std::string,int>` is an association list kept in key order (`TermMap`).
  `operator[]` inserts the key with value `0` when it is absent, also when the map is only read.
* `int` is `Int`, `std::size_t` is `Nat`.  In the states the sampling loop reaches a counter
  never exceeds the number of tokens of the corpus, so the overflow of a 32-bit `int` is not
  modelled.
* `double` in `UpdateTopic` is `Dbl`, a model of IEEE 754 binary64 with rounding to nearest
  (ties to even), gradual underflow, signed zeros, infinities and NaN.  The parameters `alpha`
  and `beta` are given by their values in `ℚ`; `UpdateTopic` computes with the `double`
  nearest to each, which is the value itself whenever a `double` can hold it.
* `EstimateTheta` and `EstimatePhi` are read in exact arithmetic: there `double` is `ℚ`.
* `rand()` and `GenerateMultiSample` (declared in `multi_sampler.h`) are oracles: the value
  returned by the `n`-th call is given by a function of `n` (and of the arguments).
-/

namespace Ldacc

/-! ## Faults, vectors and maps -/

/-- Ways in which a call stops without producing a store. -/
inductive Fault where
  /-- The error message was printed and `std::exit` was called. -/
  | configExit
  /-- A vector was indexed outside its bounds. -/
  | outOfRange
  /-- A vector was resized to a negative `int` (converted to a huge `size_t`). -/
  | lengthError
  deriving DecidableEq, Repr

/-- Read `v[i]` for a `size_t` index. -/
def vAt {α : Type} (v : List α) (i : Nat) : Except Fault α :=
  match v[i]? with
  | some x => Except.ok x
  | none => Except.error Fault.outOfRange

/-- Read `v[i]` for an `int` index. -/
def vAtInt {α : Type} (v : List α) (i : Int) : Except Fault α :=
  if 0 ≤ i then vAt v i.toNat else Except.error Fault.outOfRange

/-- Read `v[i][j]`. -/
def vAt2 {α : Type} (v : List (List α)) (i j : Nat) : Except Fault α :=
  match v[i]? with
  | some row => vAt row j
  | none => Except.error Fault.outOfRange

/-- The vector after `v.resize(n)`: existing elements are kept, new ones are value-initialised
to `d`. -/
def vResize {α : Type} (v : List α) (n : Nat) (d : α) : List α :=
  v.take n ++ List.replicate (n - v.length) d

/-- The vector after `v.resize(n)` for an `int` argument `n`. -/
def vResizeInt {α : Type} (v : List α) (n : Int) (d : α) : Except Fault (List α) :=
  if 0 ≤ n then Except.ok (vResize v n.toNat d) else Except.error Fault.lengthError

/-- A `std::map<std::string,int>`: its entries in iteration (key) order. -/
abbrev TermMap := List (String × Int)

/-- Order of `std::string` keys: lexicographic on the characters. -/
def keyLt (a b : String) : Prop := a.data < b.data

instance keyLtDecidable (a b : String) : Decidable (keyLt a b) := by
  unfold keyLt; infer_instance

namespace TermMap

/-- Whether the map stores the key `t`. -/
def hasKey (m : TermMap) (t : String) : Bool := m.any (fun e => decide (e.1 = t))

/-- The value stored under `t`, an absent key read as `0` (the value `m[t]` evaluates to). -/
def read : TermMap → String → Int
  | [], _ => 0
  | (k, v) :: rest, t => if k = t then v else read rest t

/-- Insert the new key `t` with the value-initialised count `0` at its place in key order. -/
def insertKey (t : String) : TermMap → TermMap
  | [] => [(t, 0)]
  | (k, v) :: rest => if keyLt t k then (t, 0) :: (k, v) :: rest else (k, v) :: insertKey t rest

/-- The map after evaluating `m[t]`: unchanged when `t` is stored, otherwise `t` is inserted
with count `0`. -/
def index (m : TermMap) (t : String) : TermMap :=
  if m.hasKey t then m else insertKey t m

/-- Apply `f` to the count stored under `t`. -/
def update (f : Int → Int) : TermMap → String → TermMap
  | [], _ => []
  | (k, v) :: rest, t => if k = t then (k, f v) :: rest else (k, v) :: update f rest t

/-- The map after `++m[t]`. -/
def incr (m : TermMap) (t : String) : TermMap := update (fun v => v + 1) (index m t) t

/-- The map after `--m[t]`. -/
def decr (m : TermMap) (t : String) : TermMap := update (fun v => v - 1) (index m t) t

/-- The keys stored in the map, in iteration order. -/
def keys (m : TermMap) : List String := m.map Prod.fst

/-- Sum of the counts of all stored terms. -/
def total (m : TermMap) : Int := (m.map Prod.snd).sum

end TermMap

/-! ## The store -/

/-- The file-level tables of `gibbs_sampling.cc`. -/
structure Store where
  /-- The topic of every token, `z_(m,n)`. -/
  topic_index_Zmn : List (List Int)
  /-- Per document and topic, `n^(k)_m`. -/
  doc_topic_count : List (List Int)
  /-- Per document, `n_m`. -/
  doc_topic_sum : List Int
  /-- Per topic and term, `n^(t)_k`. -/
  topic_term_count : List TermMap
  /-- Per topic, `n_k`. -/
  topic_term_sum : List Int
  deriving DecidableEq, Repr

/-- The tables at process start: five empty vectors. -/
def Store.empty : Store := ⟨[], [], [], [], []⟩

/-- The token matrix: documents, each a sequence of terms. -/
abbrev WordMatrix := List (List String)

/-! ## Increment and decrement -/

/-- `IncreDocTopic`: `++doc_topic_count[index_doc][i]; ++doc_topic_sum[index_doc]` with
`i = topic_index_Zmn[index_doc][index_word]`.  The four increment and decrement functions are
declared `int` in the source but return nothing, and no caller reads a value; `word_matrix`
is passed to all four and read by two. -/
def IncreDocTopic (s : Store) (index_doc index_word : Nat) : Except Fault Store := do
  let i ← vAt2 s.topic_index_Zmn index_doc index_word
  let row ← vAt s.doc_topic_count index_doc
  let c ← vAtInt row i
  let n ← vAt s.doc_topic_sum index_doc
  pure { s with
    doc_topic_count := s.doc_topic_count.set index_doc (row.set i.toNat (c + 1))
    doc_topic_sum := s.doc_topic_sum.set index_doc (n + 1) }

/-- `IncreTopicTerm`: `++topic_term_count[i][term]; ++topic_term_sum[i]`. -/
def IncreTopicTerm (s : Store) (index_doc index_word : Nat) (word_matrix : WordMatrix) :
    Except Fault Store := do
  let i ← vAt2 s.topic_index_Zmn index_doc index_word
  let term ← vAt2 word_matrix index_doc index_word
  let m ← vAtInt s.topic_term_count i
  let n ← vAtInt s.topic_term_sum i
  pure { s with
    topic_term_count := s.topic_term_count.set i.toNat (m.incr term)
    topic_term_sum := s.topic_term_sum.set i.toNat (n + 1) }

/-- `DecreDocTopic`: `--doc_topic_count[index_doc][i]; --doc_topic_sum[index_doc]`. -/
def DecreDocTopic (s : Store) (index_doc index_word : Nat) : Except Fault Store := do
  let i ← vAt2 s.topic_index_Zmn index_doc index_word
  let row ← vAt s.doc_topic_count index_doc
  let c ← vAtInt row i
  let n ← vAt s.doc_topic_sum index_doc
  pure { s with
    doc_topic_count := s.doc_topic_count.set index_doc (row.set i.toNat (c - 1))
    doc_topic_sum := s.doc_topic_sum.set index_doc (n - 1) }

/-- `DecreTopicTerm`: `--topic_term_count[i][term]; --topic_term_sum[i]`. -/
def DecreTopicTerm (s : Store) (index_doc index_word : Nat) (word_matrix : WordMatrix) :
    Except Fault Store := do
  let i ← vAt2 s.topic_index_Zmn index_doc index_word
  let term ← vAt2 word_matrix index_doc index_word
  let m ← vAtInt s.topic_term_count i
  let n ← vAtInt s.topic_term_sum i
  pure { s with
    topic_term_count := s.topic_term_count.set i.toNat (m.decr term)
    topic_term_sum := s.topic_term_sum.set i.toNat (n - 1) }

/-! ## Initialisation -/

/-- `InitCountVariables`: the four count tables are resized, on top of what they held
(`word_matrix` is passed in the source and not read). -/
def InitCountVariables (s : Store) (num_of_docs num_of_topics : Int) : Except Fault Store := do
  let dtc ← vResizeInt s.doc_topic_count num_of_docs []
  let dtc ← dtc.mapM (fun vt => vResizeInt vt num_of_topics 0)
  let dts ← vResizeInt s.doc_topic_sum num_of_docs 0
  let ttc ← vResizeInt s.topic_term_count num_of_topics []
  let tts ← vResizeInt s.topic_term_sum num_of_topics 0
  pure { s with
    doc_topic_count := dtc
    doc_topic_sum := dts
    topic_term_count := ttc
    topic_term_sum := tts }

/-- The body of the generator in `InitTopicIndex`:
`(int)((double)rand() / RAND_MAX * num_of_topics)` for the value `r` of `rand()`, in exact
arithmetic (the cast truncates towards zero). -/
def initTopicDraw (RAND_MAX : Nat) (num_of_topics : Int) (r : Nat) : Int :=
  Int.tdiv ((r : Int) * num_of_topics) (RAND_MAX : Int)

/-- The rows produced by `generate` over rows of the given lengths, in row-major order:
the element filled by the `n`-th call of the generator is `gen n`. -/
def generateRows (gen : Nat → Int) : Nat → List Nat → List (List Int)
  | _, [] => []
  | start, len :: rest =>
      (List.range len).map (fun j => gen (start + j)) :: generateRows gen (start + len) rest

/-- `InitTopicIndex`: `topic_index_Zmn` gets `num_of_docs` rows, row `m` as long as
`word_matrix[m]`, and every element is overwritten by a fresh draw.  Walking `word_matrix`
beyond its last row is out of range. -/
def InitTopicIndex (RAND_MAX : Nat) (rand : Nat → Nat) (s : Store)
    (num_of_docs num_of_topics : Int) (word_matrix : WordMatrix) : Except Fault Store := do
  let z ← vResizeInt s.topic_index_Zmn num_of_docs []
  if word_matrix.length < z.length then Except.error Fault.outOfRange
  else
    let lens := (word_matrix.take z.length).map List.length
    pure { s with
      topic_index_Zmn :=
        generateRows (fun n => initTopicDraw RAND_MAX num_of_topics (rand n)) 0 lens }

/-- The inner loop of `InitSampling` for one document. -/
def initDoc (word_matrix : WordMatrix) (s : Store) (index_doc : Nat) : Except Fault Store := do
  let zrow ← vAt s.topic_index_Zmn index_doc
  (List.range zrow.length).foldlM
    (fun s index_word => do
      let s ← IncreDocTopic s index_doc index_word
      IncreTopicTerm s index_doc index_word word_matrix)
    s

/-- `InitSampling`.  The guard is the conjunction written in the source. -/
def InitSampling (RAND_MAX : Nat) (rand : Nat → Nat) (s : Store)
    (num_of_docs num_of_topics : Int) (word_matrix : WordMatrix) : Except Fault Store := do
  if 0 = num_of_docs ∧ num_of_docs ≠ (word_matrix.length : Int) then
    Except.error Fault.configExit
  else
    let s ← InitCountVariables s num_of_docs num_of_topics
    let s ← InitTopicIndex RAND_MAX rand s num_of_docs num_of_topics word_matrix
    (List.range s.topic_index_Zmn.length).foldlM (initDoc word_matrix) s

/-! ## The arithmetic of `double` -/

/-- A value of the type `double` (IEEE 754 binary64): the finite value
`(-1)^neg * m * 2^e`, an infinity, or a NaN.  Finite values are kept in the form the format
stores them in: `m < 2^53`, `-1074 ≤ e ≤ 971`, and `2^52 ≤ m` unless `e = -1074`. -/
inductive Dbl where
  | fin (neg : Bool) (m : Nat) (e : Int)
  | inf (neg : Bool)
  | nan
  deriving DecidableEq, Repr

namespace Dbl

/-- The value `0.0`. -/
def zero : Dbl := fin false 0 (-1074)

/-- The number of binary digits of `n`, counted with at most `fuel` halvings. -/
def bitsAux : Nat → Nat → Nat
  | 0, _ => 0
  | fuel + 1, n => if n = 0 then 0 else bitsAux fuel (n / 2) + 1

/-- The number of binary digits of `n`. -/
def bits (n : Nat) : Nat := bitsAux n n

/-- The largest `t` with `2^t ≤ n / d`, for `n, d > 0`. -/
def floorLog2 (n d : Nat) : Int :=
  let lb : Int := (bits n : Int) - (bits d : Int)
  if d * 2 ^ lb.toNat ≤ n * 2 ^ (-lb).toNat then lb else lb - 1

/-- Rounding to nearest, ties to even: the `double` nearest to `(-1)^neg * (n / d) * 2^e`,
for `d > 0`.  Results below the subnormal range round to a zero, results of magnitude
`2^1024 - 2^970` and above to an infinity. -/
def round (neg : Bool) (n d : Nat) (e : Int) : Dbl :=
  if n = 0 then fin neg 0 (-1074)
  else
    let E : Int := max (floorLog2 n d + e - 52) (-1074)
    let N : Nat := n * 2 ^ (e - E).toNat
    let D : Nat := d * 2 ^ (E - e).toNat
    let q : Nat := N / D
    let r : Nat := N % D
    let m : Nat := if D < 2 * r ∨ (2 * r = D ∧ q % 2 = 1) then q + 1 else q
    if m = 2 ^ 53 then
      (if 971 < E + 1 then inf neg else fin neg (2 ^ 52) (E + 1))
    else if 971 < E then inf neg
    else if m = 0 then fin neg 0 (-1074)
    else fin neg m E

/-- Conversion of an integer (`int`, `std::size_t`) to `double`. -/
def ofInt (i : Int) : Dbl := round (decide (i < 0)) i.natAbs 1 0

/-- The `double` nearest to the rational `q`. -/
def ofRat (q : ℚ) : Dbl := round (decide (q.num < 0)) q.num.natAbs q.den 0

/-- The product `x * y` of two `double`s. -/
def mul : Dbl → Dbl → Dbl
  | nan, _ => nan
  | _, nan => nan
  | inf s, inf t => inf (xor s t)
  | inf s, fin t m _ => if m = 0 then nan else inf (xor s t)
  | fin s m _, inf t => if m = 0 then nan else inf (xor s t)
  | fin s m1 e1, fin t m2 e2 => round (xor s t) (m1 * m2) 1 (e1 + e2)

/-- The quotient `x / y` of two `double`s. -/
def div : Dbl → Dbl → Dbl
  | nan, _ => nan
  | _, nan => nan
  | inf _, inf _ => nan
  | inf s, fin t _ _ => inf (xor s t)
  | fin s _ _, inf t => fin (xor s t) 0 (-1074)
  | fin s m1 e1, fin t m2 e2 =>
      if m2 = 0 then (if m1 = 0 then nan else inf (xor s t))
      else round (xor s t) m1 m2 (e1 - e2)

/-- The sum `x + y` of two `double`s. -/
def add : Dbl → Dbl → Dbl
  | nan, _ => nan
  | _, nan => nan
  | inf s, inf t => if s = t then inf s else nan
  | inf s, fin _ _ _ => inf s
  | fin _ _ _, inf t => inf t
  | fin s m1 e1, fin t m2 e2 =>
      let e0 : Int := min e1 e2
      let a : Nat := m1 * 2 ^ (e1 - e0).toNat
      let b : Nat := m2 * 2 ^ (e2 - e0).toNat
      if s = t then round s (a + b) 1 e0
      else if a = b then fin false 0 (-1074)
      else if b < a then round s (a - b) 1 e0
      else round t (b - a) 1 e0

/-- The comparison `0 < x`. -/
def isPos : Dbl → Bool
  | fin neg m _ => !neg && decide (m ≠ 0)
  | inf neg => !neg
  | nan => false

end Dbl

/-! ## The update step and the sampling loop -/

/-- The categorical sampler `GenerateMultiSample(num_of_topics, pro_vt)` as an oracle: the
value returned by call number `n` of a run. -/
abbrev Sampler := Nat → Int → List Dbl → Int

/-- One pass of the loop body of `UpdateTopic` for topic `k`: the probability pushed to
`temp_vt`, and the store after the read `topic_term_count[k][term]`. -/
def topicWeight (index_doc num_of_words : Nat) (num_of_topics : Int) (alpha beta : ℚ)
    (term : String) (s : Store) (k : Nat) : Except Fault (Store × Dbl) := do
  let nk ← vAt s.topic_term_sum k
  let nm ← vAt s.doc_topic_sum index_doc
  let denominator : Dbl :=
    Dbl.mul
      (Dbl.add (Dbl.ofInt nk) (Dbl.mul (Dbl.ofInt (num_of_words : Int)) (Dbl.ofRat beta)))
      (Dbl.add (Dbl.ofInt nm) (Dbl.mul (Dbl.ofInt num_of_topics) (Dbl.ofRat alpha)))
  let m ← vAt s.topic_term_count k
  let row ← vAt s.doc_topic_count index_doc
  let c ← vAt row k
  let numerator : Dbl :=
    Dbl.mul (Dbl.add (Dbl.ofInt (m.read term)) (Dbl.ofRat beta))
      (Dbl.add (Dbl.ofInt c) (Dbl.ofRat alpha))
  pure ({ s with topic_term_count := s.topic_term_count.set k (m.index term) },
    Dbl.div numerator denominator)

/-- The loop of `UpdateTopic` over `k = 0, ..., num_of_topics - 1`: the store after it and
`temp_vt`. -/
def topicWeights (index_doc num_of_words : Nat) (num_of_topics : Int) (alpha beta : ℚ)
    (term : String) (s : Store) : Except Fault (Store × List Dbl) :=
  (List.range num_of_topics.toNat).foldlM
    (fun (acc : Store × List Dbl) k => do
      let (s1, w) ← topicWeight index_doc num_of_words num_of_topics alpha beta term acc.1 k
      pure (s1, acc.2 ++ [w]))
    (s, [])

/-- The vector `pro_vt` of `UpdateTopic`: every element of `temp_vt` divided by
`sum = std::accumulate(temp_vt.begin(), temp_vt.end(), 0.0)`. -/
def normalise (temp_vt : List Dbl) : List Dbl :=
  let sum : Dbl := temp_vt.foldl Dbl.add Dbl.zero
  temp_vt.map (fun temp => Dbl.div temp sum)

/-- `UpdateTopic`: the new topic drawn by `GenerateMultiSample`, and the store as the reads
of the function leave it. -/
def UpdateTopic (GenerateMultiSample : Int → List Dbl → Int) (s : Store)
    (index_doc index_word num_of_words : Nat) (num_of_topics : Int) (alpha beta : ℚ)
    (word_matrix : WordMatrix) : Except Fault (Int × Store) := do
  let _k ← vAt2 s.topic_index_Zmn index_doc index_word
  let term ← vAt2 word_matrix index_doc index_word
  let (s1, temp_vt) ← topicWeights index_doc num_of_words num_of_topics alpha beta term s
  pure (GenerateMultiSample num_of_topics (normalise temp_vt), s1)

/-- The assignment `topic_index_Zmn[index_doc][index_word] = k`. -/
def assignTopic (s : Store) (index_doc index_word : Nat) (k : Int) : Except Fault Store := do
  let zrow ← vAt s.topic_index_Zmn index_doc
  let _old ← vAt zrow index_word
  pure { s with topic_index_Zmn := s.topic_index_Zmn.set index_doc (zrow.set index_word k) }

/-- A run of the sampling loop: the store, and the tokens for which the sampler has been
called so far, oldest first. -/
structure Run where
  /-- The count tables and `Z`. -/
  store : Store
  /-- The `(index_doc, index_word)` of every sampler call made so far. -/
  calls : List (Nat × Nat)
  deriving DecidableEq, Repr

/-- The body of the innermost loop of `GibbsSampling`: one visit to a token. -/
def visit (sampler : Sampler) (num_of_words : Nat) (num_of_topics : Int) (alpha beta : ℚ)
    (word_matrix : WordMatrix) (index_doc : Nat) (r : Run) (index_word : Nat) :
    Except Fault Run := do
  let s ← DecreDocTopic r.store index_doc index_word
  let s ← DecreTopicTerm s index_doc index_word word_matrix
  let (k, s) ← UpdateTopic (sampler r.calls.length) s index_doc index_word num_of_words
    num_of_topics alpha beta word_matrix
  let s ← assignTopic s index_doc index_word k
  let s ← IncreDocTopic s index_doc index_word
  let s ← IncreTopicTerm s index_doc index_word word_matrix
  pure ⟨s, r.calls ++ [(index_doc, index_word)]⟩

/-- The loop over the words of one document. -/
def sweepDoc (sampler : Sampler) (num_of_words : Nat) (num_of_topics : Int) (alpha beta : ℚ)
    (word_matrix : WordMatrix) (r : Run) (index_doc : Nat) : Except Fault Run := do
  let words ← vAt word_matrix index_doc
  (List.range words.length).foldlM
    (visit sampler num_of_words num_of_topics alpha beta word_matrix index_doc) r

/-- One pass of the `while` loop of `GibbsSampling`: a sweep over all documents. -/
def sweep (sampler : Sampler) (num_of_words : Nat) (num_of_topics : Int) (alpha beta : ℚ)
    (word_matrix : WordMatrix) (r : Run) : Except Fault Run :=
  (List.range word_matrix.length).foldlM
    (sweepDoc sampler num_of_words num_of_topics alpha beta word_matrix) r

/-- The `while` loop of `GibbsSampling`, run `n` times. -/
def sweeps (sampler : Sampler) (num_of_words : Nat) (num_of_topics : Int) (alpha beta : ℚ)
    (word_matrix : WordMatrix) : Nat → Run → Except Fault Run
  | 0, r => pure r
  | n + 1, r => do
      let r1 ← sweep sampler num_of_words num_of_topics alpha beta word_matrix r
      sweeps sampler num_of_words num_of_topics alpha beta word_matrix n r1

/-- `GibbsSampling`, started with the tables holding `s0`. -/
def GibbsSampling (RAND_MAX : Nat) (rand : Nat → Nat) (sampler : Sampler) (s0 : Store)
    (num_of_docs num_of_topics : Int) (num_of_words : Nat) (alpha beta : ℚ) (iter_num : Int)
    (word_matrix : WordMatrix) : Except Fault Run := do
  let s ← InitSampling RAND_MAX rand s0 num_of_docs num_of_topics word_matrix
  sweeps sampler num_of_words num_of_topics alpha beta word_matrix iter_num.toNat ⟨s, []⟩

/-! ## The estimators -/

/-- The inner loop of `EstimateTheta` for document `i`: the row `theta[i]` after
`theta[i][j] = (doc_topic_count[i][j] + alpha) / (doc_topic_sum[i] + alpha * num_of_topics)`
for `j = 0, ..., num_of_topics - 1`. -/
def thetaRow (s : Store) (i : Nat) (num_of_topics : Int) (alpha : ℚ) (row : List ℚ) :
    Except Fault (List ℚ) :=
  (List.range num_of_topics.toNat).foldlM
    (fun row j => do
      let c ← vAt2 s.doc_topic_count i j
      let n ← vAt s.doc_topic_sum i
      let _old ← vAt row j
      pure (row.set j (((c : ℚ) + alpha) / ((n : ℚ) + alpha * (num_of_topics : ℚ)))))
    row

/-- `EstimateTheta`, as far as it writes `theta` (the printing at its end is left out;
`beta` is passed in the source and not read). -/
def EstimateTheta (s : Store) (num_of_docs num_of_topics : Int) (alpha beta : ℚ)
    (theta : List (List ℚ)) : Except Fault (List (List ℚ)) :=
  (List.range num_of_docs.toNat).foldlM
    (fun theta i => do
      let row ← vAt theta i
      let row ← vResizeInt row num_of_topics 0
      let row ← thetaRow s i num_of_topics alpha row
      pure (theta.set i row))
    theta

/-- A `std::map<std::string,double>`: its entries in iteration (key) order. -/
abbrev PhiMap := List (String × ℚ)

/-- The map after `m[t] = v`. -/
def PhiMap.assign : PhiMap → String → ℚ → PhiMap
  | [], t, v => [(t, v)]
  | (k, w) :: rest, t, v =>
      if k = t then (k, v) :: rest
      else if keyLt t k then (t, v) :: (k, w) :: rest
      else (k, w) :: PhiMap.assign rest t v

/-- The value `m[t]` of a stored key (`0` for an absent one). -/
def PhiMap.read : PhiMap → String → ℚ
  | [], _ => 0
  | (k, w) :: rest, t => if k = t then w else PhiMap.read rest t

/-- Insert `x` into a range ordered by `comp`, before the first element it must precede. -/
def sortInsert {α : Type} (comp : α → α → Bool) (x : α) : List α → List α
  | [] => [x]
  | y :: rest => if comp x y then x :: y :: rest else y :: sortInsert comp x rest

/-- The range after `std::sort(first, last, comp)`.  The standard leaves the order of
equivalent elements open; this is the insertion sort the library runs on short ranges. -/
def stdSort {α : Type} (comp : α → α → Bool) (l : List α) : List α :=
  l.foldl (fun acc x => sortInsert comp x acc) []

/-- The comparator handed to `std::sort` in `EstimatePhi`: `!(x.second <= y.second)`. -/
def phiComp (x y : String × ℚ) : Bool := !decide (x.2 ≤ y.2)

/-- The body of the inner loop of `EstimatePhi` for one entry of `topic_term_count[i]`. -/
def phiEntry (s : Store) (i : Nat) (num_of_words : Int) (beta : ℚ)
    (acc : List PhiMap × List (List (String × ℚ))) (e : String × Int) :
    Except Fault (List PhiMap × List (List (String × ℚ))) := do
  let n ← vAt s.topic_term_sum i
  let phi_i ← vAt acc.1 i
  let phi_i := phi_i.assign e.1 (((e.2 : ℚ) + beta) / ((n : ℚ) + beta * (num_of_words : ℚ)))
  let sorted_i ← vAt acc.2 i
  pure (acc.1.set i phi_i, acc.2.set i (sorted_i ++ [(e.1, phi_i.read e.1)]))

/-- The body of the first loop of `EstimatePhi` for topic `i`. -/
def phiTopic (s : Store) (num_of_words : Int) (beta : ℚ)
    (acc : List PhiMap × List (List (String × ℚ))) (i : Nat) :
    Except Fault (List PhiMap × List (List (String × ℚ))) := do
  let tm ← vAt s.topic_term_count i
  let acc ← tm.foldlM (phiEntry s i num_of_words beta) acc
  let sorted_i ← vAt acc.2 i
  pure (acc.1, acc.2.set i (stdSort phiComp sorted_i))

/-- The first loop of `EstimatePhi`: `phi` and `phi_sorted` as the function leaves them. -/
def phiTables (s : Store) (num_of_topics num_of_words : Int) (beta : ℚ)
    (phi : List PhiMap) (phi_sorted : List (List (String × ℚ))) :
    Except Fault (List PhiMap × List (List (String × ℚ))) :=
  (List.range num_of_topics.toNat).foldlM (phiTopic s num_of_words beta) (phi, phi_sorted)

/-- The last loop of `EstimatePhi`: the entries `phi_sorted[i][j]` it prints, for
`i < num_of_topics` and `j < 50`. -/
def printTop (phi_sorted : List (List (String × ℚ))) (num_of_topics : Int) :
    Except Fault (List (List (String × ℚ))) :=
  (List.range num_of_topics.toNat).mapM
    (fun i => (List.range 50).mapM (fun j => vAt2 phi_sorted i j))

/-- `EstimatePhi`: the two tables it fills, provided the listing at its end stays in range
(`alpha` is passed in the source and not read). -/
def EstimatePhi (s : Store) (num_of_topics num_of_words : Int) (alpha beta : ℚ)
    (phi : List PhiMap) (phi_sorted : List (List (String × ℚ))) :
    Except Fault (List PhiMap × List (List (String × ℚ))) := do
  let out ← phiTables s num_of_topics num_of_words beta phi phi_sorted
  let _printed ← printTop out.2 num_of_topics
  pure out

/-! ## Reading the tables -/

/-- The topic `Z[m][p]`, when the token exists in `Z`. -/
def Store.zAt (s : Store) (m p : Nat) : Option Int :=
  (s.topic_index_Zmn[m]?).bind (fun row => row[p]?)

/-- The count `doc_topic_count[m][k]` (`0` outside the table). -/
def Store.dtc (s : Store) (m k : Nat) : Int :=
  ((s.doc_topic_count[m]?).bind (fun row => row[k]?)).getD 0

/-- The count `doc_topic_sum[m]` (`0` outside the table). -/
def Store.dts (s : Store) (m : Nat) : Int := (s.doc_topic_sum[m]?).getD 0

/-- The map `topic_term_count[k]` (empty outside the table). -/
def Store.ttcMap (s : Store) (k : Nat) : TermMap := (s.topic_term_count[k]?).getD []

/-- The count `topic_term_count[k][t]`, an absent term read as `0`. -/
def Store.ttc (s : Store) (k : Nat) (t : String) : Int := (s.ttcMap k).read t

/-- The count `topic_term_sum[k]` (`0` outside the table). -/
def Store.tts (s : Store) (k : Nat) : Int := (s.topic_term_sum[k]?).getD 0

/-- The term `word_matrix[m][p]`, when the token exists. -/
def termAt (wm : WordMatrix) (m p : Nat) : Option String :=
  (wm[m]?).bind (fun row => row[p]?)

/-- The number of tokens of document `m`. -/
def rowLen (wm : WordMatrix) (m : Nat) : Nat := ((wm[m]?).getD []).length

/-- The total number of tokens of the corpus. -/
def numTokens (wm : WordMatrix) : Nat := (wm.map List.length).sum

/-! ## Counting tokens -/

/-- The number of positions `p` of document `m` that satisfy `h`. -/
def countRow (wm : WordMatrix) (m : Nat) (h : Nat → Bool) : Nat :=
  (List.range (rowLen wm m)).countP h

/-- The number of tokens `(m, p)` of the corpus that satisfy `h`. -/
def countAll (wm : WordMatrix) (h : Nat → Nat → Bool) : Nat :=
  ((List.range wm.length).map (fun m => countRow wm m (h m))).sum

/-- The tables have the dimensions `M` documents by `K` topics. -/
structure Shaped (M K : Nat) (s : Store) : Prop where
  dtc_len : s.doc_topic_count.length = M
  dtc_row : ∀ row ∈ s.doc_topic_count, row.length = K
  dts_len : s.doc_topic_sum.length = M
  ttc_len : s.topic_term_count.length = K
  tts_len : s.topic_term_sum.length = K

/-- The assignment `Z` has the shape of the token matrix and all its topics lie in `[0, K)`. -/
structure ZValid (wm : WordMatrix) (K : Nat) (s : Store) : Prop where
  len : s.topic_index_Zmn.length = wm.length
  row : ∀ m, m < wm.length → ((s.topic_index_Zmn[m]?).getD []).length = rowLen wm m
  range : ∀ m p k, s.zAt m p = some k → 0 ≤ k ∧ k < (K : Int)

/-- The tables are the tallies of the tokens that are currently counted: `c m p` is the topic
under which token `(m, p)` is counted, `none` while the token is taken out. -/
structure Tallied (wm : WordMatrix) (K : Nat) (c : Nat → Nat → Option Int) (s : Store) :
    Prop where
  shaped : Shaped wm.length K s
  dtc_eq : ∀ m k, m < wm.length → k < K →
    s.dtc m k = (countRow wm m (fun p => c m p == some (k : Int)) : Nat)
  dts_eq : ∀ m, m < wm.length → s.dts m = (countRow wm m (fun p => (c m p).isSome) : Nat)
  ttc_eq : ∀ k t, k < K →
    s.ttc k t = (countAll wm (fun m p => c m p == some (k : Int) && termAt wm m p == some t) : Nat)
  tts_eq : ∀ k, k < K → s.tts k = (countAll wm (fun m p => c m p == some (k : Int)) : Nat)
  total_eq : ∀ k, k < K → (s.ttcMap k).total = s.tts k

/-- The counted topics with token `(d, p)` set to `v`. -/
def setCounted (c : Nat → Nat → Option Int) (d p : Nat) (v : Option Int) :
    Nat → Nat → Option Int :=
  fun m q => if m = d ∧ q = p then v else c m q

/-- The states the sampling loop can be in between two visits: the result of `InitSampling` on
the empty tables, and the result of a visit to any token from such a state. -/
inductive Reachable (RAND_MAX : Nat) (rand : Nat → Nat) (sampler : Sampler)
    (num_of_topics : Int) (num_of_words : Nat) (alpha beta : ℚ) (wm : WordMatrix) :
    Run → Prop where
  | init (s : Store)
      (h : InitSampling RAND_MAX rand Store.empty (wm.length : Int) num_of_topics wm
        = Except.ok s) :
      Reachable RAND_MAX rand sampler num_of_topics num_of_words alpha beta wm ⟨s, []⟩
  | visit (r r1 : Run) (index_doc index_word : Nat)
      (hr : Reachable RAND_MAX rand sampler num_of_topics num_of_words alpha beta wm r)
      (h : visit sampler num_of_words num_of_topics alpha beta wm index_doc r index_word
        = Except.ok r1) :
      Reachable RAND_MAX rand sampler num_of_topics num_of_words alpha beta wm r1

/-- Two stores have tables of the same dimensions. -/
structure SameDims (s s1 : Store) : Prop where
  dtc_rows : s1.doc_topic_count.map List.length = s.doc_topic_count.map List.length
  dts_len : s1.doc_topic_sum.length = s.doc_topic_sum.length
  ttc_len : s1.topic_term_count.length = s.topic_term_count.length
  tts_len : s1.topic_term_sum.length = s.topic_term_sum.length

/-- Store `s1` is `s` with `delta` added to `doc_topic_count[d][i]` and to
`doc_topic_sum[d]`, both cells inside the tables. -/
structure DocBump (s s1 : Store) (d i : Nat) (delta : Int) : Prop where
  z_eq : s1.topic_index_Zmn = s.topic_index_Zmn
  ttc_eq : s1.topic_term_count = s.topic_term_count
  tts_eq : s1.topic_term_sum = s.topic_term_sum
  dtc : ∀ m k, s1.dtc m k = s.dtc m k + if m = d ∧ k = i then delta else 0
  dts : ∀ m, s1.dts m = s.dts m + if m = d then delta else 0
  dims : SameDims s s1

/-- Store `s1` is `s` with `delta` added to `topic_term_count[i][t]` and to
`topic_term_sum[i]`, both cells inside the tables. -/
structure TermBump (s s1 : Store) (i : Nat) (t : String) (delta : Int) : Prop where
  z_eq : s1.topic_index_Zmn = s.topic_index_Zmn
  dtc_eq : s1.doc_topic_count = s.doc_topic_count
  dts_eq : s1.doc_topic_sum = s.doc_topic_sum
  ttc : ∀ k u, s1.ttc k u = s.ttc k u + if k = i ∧ u = t then delta else 0
  tts : ∀ k, s1.tts k = s.tts k + if k = i then delta else 0
  total : ∀ k, (s1.ttcMap k).total = (s.ttcMap k).total + if k = i then delta else 0
  dims : SameDims s s1
  inb : i < s.topic_term_sum.length

/-- Store `s1` holds the same `Z` and the same counts as `s`: the tables are equal except
that a map of `topic_term_count` may store more terms, with count `0`. -/
structure SameCounts (s s1 : Store) : Prop where
  z_eq : s1.topic_index_Zmn = s.topic_index_Zmn
  dtc_eq : s1.doc_topic_count = s.doc_topic_count
  dts_eq : s1.doc_topic_sum = s.doc_topic_sum
  tts_eq : s1.topic_term_sum = s.topic_term_sum
  ttc_len : s1.topic_term_count.length = s.topic_term_count.length
  ttc : ∀ k u, s1.ttc k u = s.ttc k u
  total : ∀ k, (s1.ttcMap k).total = (s.ttcMap k).total

/-- The state between two visits: `Z` is a valid assignment for the token matrix and the
tables are the tallies of all tokens under `Z`. -/
structure Quiet (wm : WordMatrix) (K : Nat) (s : Store) : Prop where
  zvalid : ZValid wm K s
  tallied : Tallied wm K s.zAt s

/-- The tokens counted while `InitSampling` is about to process token `(d, p)`: those before
it in row-major order, under the topics `z0`. -/
def countedBefore (z0 : Nat → Nat → Option Int) (d p : Nat) : Nat → Nat → Option Int :=
  fun m q => if m < d ∨ (m = d ∧ q < p) then z0 m q else none

/-! ## The invariants of the specification -/

/-- Every initial topic computed from the `rand()` stream lies in `[0, K)`. -/
def DrawsInRange (RAND_MAX K : Nat) (rand : Nat → Nat) : Prop :=
  ∀ n, 0 ≤ initTopicDraw RAND_MAX (K : Int) (rand n) ∧
    initTopicDraw RAND_MAX (K : Int) (rand n) < (K : Int)

/-- Every index returned by the sampler for `K` topics lies in `[0, K)`. -/
def SamplerInRange (K : Nat) (sampler : Sampler) : Prop :=
  ∀ n v, 0 ≤ sampler n (K : Int) v ∧ sampler n (K : Int) v < (K : Int)

/-- Document count invariant: for every document `m`,
`sum_k doc_topic_count[m][k] == doc_topic_sum[m] == length(word_matrix[m])`. -/
def DocCountInvariant (wm : WordMatrix) (s : Store) : Prop :=
  ∀ (m : Nat) (ws : List String), wm[m]? = some ws →
    ∃ row, s.doc_topic_count[m]? = some row ∧ row.sum = (ws.length : Int) ∧
      s.doc_topic_sum[m]? = some (ws.length : Int)

/-- Topic-term count invariant: for every topic `k`, the counts of the terms stored in
`topic_term_count[k]` add up to `topic_term_sum[k]`. -/
def TopicTermInvariant (K : Nat) (s : Store) : Prop :=
  ∀ k : Nat, k < K →
    ∃ tm n, s.topic_term_count[k]? = some tm ∧ s.topic_term_sum[k]? = some n ∧ tm.total = n

/-- The count tables are the tallies of `Z`. -/
def TalliesOfZ (wm : WordMatrix) (K : Nat) (s : Store) : Prop :=
  (∀ m k : Nat, m < wm.length → k < K →
    ∃ row, s.doc_topic_count[m]? = some row ∧
      row[k]? = some ((countRow wm m (fun p => s.zAt m p == some (k : Int)) : Nat) : Int)) ∧
  (∀ k : Nat, k < K →
    ∃ tm, s.topic_term_count[k]? = some tm ∧
      (∀ t, tm.read t = ((countAll wm
        (fun m p => s.zAt m p == some (k : Int) && termAt wm m p == some t) : Nat) : Int)) ∧
      s.topic_term_sum[k]? =
        some ((countAll wm (fun m p => s.zAt m p == some (k : Int)) : Nat) : Int))

/-! ## Concrete inputs -/

/-- Scenario A of the specification: one document of four tokens `x`. -/
def scenarioA : WordMatrix := [["x", "x", "x", "x"]]

/-- Scenario B of the specification: `doc0 = [a, b]`, `doc1 = [a, a]`. -/
def scenarioB : WordMatrix := [["a", "b"], ["a", "a"]]

/-- A `rand()` stream that alternates between `0` and `1500000000`. -/
def demoRand : Nat → Nat := fun n => if n % 2 = 0 then 0 else 1500000000

/-- The value of `RAND_MAX` used with `demoRand`. -/
def demoRandMax : Nat := 2147483647

/-- A sampler that answers `1` on even calls and `0` on odd calls. -/
def demoSampler : Sampler := fun n _ _ => if n % 2 = 0 then 1 else 0

/-- A store with the tables of Scenario B under `Z = [[0, 1], [0, 1]]`. -/
def demoStore : Store :=
  { topic_index_Zmn := [[0, 1], [0, 1]]
    doc_topic_count := [[1, 1], [1, 1]]
    doc_topic_sum := [2, 2]
    topic_term_count := [[("a", 2)], [("a", 1), ("b", 1)]]
    topic_term_sum := [2, 2] }

/-- The entries `EstimatePhi` computes for one topic from its map of counts `tm` and its sum
`n`: term `t` with count `c` gets `(c + beta) / (n + beta * V)`. -/
def phiOf (tm : TermMap) (n : Int) (beta : ℚ) (V : Int) : PhiMap :=
  tm.map (fun e => (e.1, ((e.2 : ℚ) + beta) / ((n : ℚ) + beta * (V : ℚ))))

/-- The representation invariant of `std::map`: the keys are strictly increasing. -/
def KeysSorted (ks : List String) : Prop := ks.Pairwise keyLt

/-- What `EstimatePhi` needs of the store for `K` topics: `topic_term_count[k]` and
`topic_term_sum[k]` exist for `k < K`, and every map is a well-formed `std::map`. -/
def PhiReady (K : Nat) (s : Store) : Prop :=
  ∀ k : Nat, k < K → ∃ (tm : TermMap) (n : Int), s.topic_term_count[k]? = some tm ∧
    s.topic_term_sum[k]? = some n ∧ KeysSorted tm.keys

/-- The output tables hold an empty entry for each of the `K` topics on entry. -/
def EmptyOnEntry (K : Nat) (phi : List PhiMap) (phi_sorted : List (List (String × ℚ))) : Prop :=
  ∀ k : Nat, k < K → phi[k]? = some [] ∧ phi_sorted[k]? = some []

/-- Every map of `topic_term_count` is a well-formed `std::map`. -/
def MapsSorted (s : Store) : Prop := ∀ tm ∈ s.topic_term_count, KeysSorted (TermMap.keys tm)

/-- Fifty distinct terms, in key order. -/
def fiftyTerms : List String :=
  [
    "t00", "t01", "t02", "t03", "t04", "t05", "t06", "t07", "t08", "t09",
    "t10", "t11", "t12", "t13", "t14", "t15", "t16", "t17", "t18", "t19",
    "t20", "t21", "t22", "t23", "t24", "t25", "t26", "t27", "t28", "t29",
    "t30", "t31", "t32", "t33", "t34", "t35", "t36", "t37", "t38", "t39",
    "t40", "t41", "t42", "t43", "t44", "t45", "t46", "t47", "t48", "t49"]

/-- A corpus of one document holding each of the fifty terms once. -/
def corpus50 : WordMatrix := [fiftyTerms]

/-- Whether a run completed with a result that passes `check`. -/
def runOk (x : Except Fault Run) (check : Run → Bool) : Bool :=
  match x with
  | Except.ok r => check r
  | Except.error _ => false

/-- What a returning call of `UpdateTopic` for the token with term `term` leaves of the store
`s` in `s1`: everything but the stored terms of `topic_term_count` is as it was, and the
term is stored for every topic below `num_of_topics`. -/
def UpdateTopicFrame (s s1 : Store) (num_of_topics : Int) (term : String) : Prop :=
  s1.topic_index_Zmn = s.topic_index_Zmn ∧
  s1.doc_topic_count = s.doc_topic_count ∧
  s1.doc_topic_sum = s.doc_topic_sum ∧
  s1.topic_term_sum = s.topic_term_sum ∧
  s1.topic_term_count.length = s.topic_term_count.length ∧
  (∀ (k : Nat) (u : String), s1.ttc k u = s.ttc k u) ∧
  (∀ k : Nat, (s1.ttcMap k).total = (s.ttcMap k).total) ∧
  ∀ (k : Nat) (u : String), TermMap.hasKey (s1.ttcMap k) u = true ↔
    TermMap.hasKey (s.ttcMap k) u = true ∨ (k < num_of_topics.toNat ∧ u = term)

/-- The store `demoStore` after `UpdateTopic` has read the term `b` under both topics. -/
def demoStoreRead : Store :=
  { demoStore with topic_term_count := [[("a", 2), ("b", 0)], [("a", 1), ("b", 1)]] }

/-- Store `s1` holds the same `Z` and the same count values as `s`: the three vectors of
counts are equal, and every `topic_term_count[k][t]` (an absent term read as `0`) is. -/
def SameValues (s s1 : Store) : Prop :=
  s1.topic_index_Zmn = s.topic_index_Zmn ∧
  s1.doc_topic_count = s.doc_topic_count ∧
  s1.doc_topic_sum = s.doc_topic_sum ∧
  s1.topic_term_sum = s.topic_term_sum ∧
  ∀ (k : Nat) (u : String), s1.ttc k u = s.ttc k u

/-- The run stops with a fault other than the configuration error, or returns. -/
def NoExit {α : Type} (x : Except Fault α) : Prop := x ≠ Except.error Fault.configExit

/-! ## The conditional of the specification -/

/-- The number of tokens other than `(d, p)` that satisfy `h`. -/
def countOthers (wm : WordMatrix) (d p : Nat) (h : Nat → Nat → Bool) : Nat :=
  countAll wm (fun m q => !(decide (m = d ∧ q = p)) && h m q)

/-- The weight of topic `k` in the conditional of token `(d, p)` with term `t`, as the
specification writes it: `((n_kt + beta) * (n_dk + alpha)) / ((n_k + V*beta) * (len(d) - 1 +
K*alpha))`, the three counts taken over the tokens other than `(d, p)` under the
assignment `z`, every operation being the operation of `double`. -/
def conditionalWeight (wm : WordMatrix) (z : Nat → Nat → Option Int) (d p : Nat) (t : String)
    (V K : Nat) (alpha beta : ℚ) (k : Nat) : Dbl :=
  let n_kt := countOthers wm d p (fun m q => termAt wm m q == some t && z m q == some (k : Int))
  let n_dk := countOthers wm d p (fun m q => decide (m = d) && z m q == some (k : Int))
  let n_k := countOthers wm d p (fun m q => z m q == some (k : Int))
  Dbl.div
    (Dbl.mul (Dbl.add (Dbl.ofInt (n_kt : Int)) (Dbl.ofRat beta))
      (Dbl.add (Dbl.ofInt (n_dk : Int)) (Dbl.ofRat alpha)))
    (Dbl.mul (Dbl.add (Dbl.ofInt (n_k : Int)) (Dbl.mul (Dbl.ofInt (V : Int)) (Dbl.ofRat beta)))
      (Dbl.add (Dbl.ofInt ((rowLen wm d : Int) - 1))
        (Dbl.mul (Dbl.ofInt (K : Int)) (Dbl.ofRat alpha))))

/-- The same weight in exact arithmetic, over the rationals. -/
def exactWeight (wm : WordMatrix) (z : Nat → Nat → Option Int) (d p : Nat) (t : String)
    (V K : Nat) (alpha beta : ℚ) (k : Nat) : ℚ :=
  let n_kt := countOthers wm d p (fun m q => termAt wm m q == some t && z m q == some (k : Int))
  let n_dk := countOthers wm d p (fun m q => decide (m = d) && z m q == some (k : Int))
  let n_k := countOthers wm d p (fun m q => z m q == some (k : Int))
  (((n_kt : ℚ) + beta) * ((n_dk : ℚ) + alpha)) /
    (((n_k : ℚ) + (V : ℚ) * beta) * (((rowLen wm d : ℚ) - 1) + (K : ℚ) * alpha))

/-- The vector `W` with every element divided by the sum of the elements, the sum taken from
`0.0` in the order of the vector. -/
def dividedBySum (W : List Dbl) : List Dbl :=
  W.map (fun w => Dbl.div w (W.foldl Dbl.add Dbl.zero))

/-- The weight of topic `k` as `UpdateTopic` computes it from the cells of the store `s`. -/
def Store.weight (s : Store) (index_doc num_of_words : Nat) (num_of_topics : Int)
    (alpha beta : ℚ) (term : String) (k : Nat) : Dbl :=
  Dbl.div
    (Dbl.mul (Dbl.add (Dbl.ofInt (s.ttc k term)) (Dbl.ofRat beta))
      (Dbl.add (Dbl.ofInt (s.dtc index_doc k)) (Dbl.ofRat alpha)))
    (Dbl.mul
      (Dbl.add (Dbl.ofInt (s.tts k)) (Dbl.mul (Dbl.ofInt (num_of_words : Int)) (Dbl.ofRat beta)))
      (Dbl.add (Dbl.ofInt (s.dts index_doc))
        (Dbl.mul (Dbl.ofInt num_of_topics) (Dbl.ofRat alpha))))

/-- The value of the weight expression of `UpdateTopic` for topic `k` on the cells of the
store `s`, in exact arithmetic over the rationals. -/
def Store.exactWeight (s : Store) (index_doc num_of_words : Nat) (num_of_topics : Int)
    (alpha beta : ℚ) (term : String) (k : Nat) : ℚ :=
  (((s.ttc k term : ℚ) + beta) * ((s.dtc index_doc k : ℚ) + alpha)) /
    (((s.tts k : ℚ) + (num_of_words : ℚ) * beta) *
      ((s.dts index_doc : ℚ) + (num_of_topics : ℚ) * alpha))

/-! ## The order of the visits -/

/-- The tokens of document `d` in position order. -/
def docTokens (wm : WordMatrix) (d : Nat) : List (Nat × Nat) :=
  (List.range (rowLen wm d)).map (fun p => (d, p))

/-- The tokens of the corpus in row-major order: document order, then position order within
the document. -/
def tokenOrder (wm : WordMatrix) : List (Nat × Nat) :=
  (List.range wm.length).flatMap (docTokens wm)

/-- Token `a` comes before token `b` in (document, then position) order. -/
def tokenBefore (a b : Nat × Nat) : Prop := a.1 < b.1 ∨ (a.1 = b.1 ∧ a.2 < b.2)

/-- The visits to the tokens of the list `ts`, one after the other. -/
def visitAll (sampler : Sampler) (num_of_words : Nat) (num_of_topics : Int) (alpha beta : ℚ)
    (word_matrix : WordMatrix) (r : Run) (ts : List (Nat × Nat)) : Except Fault Run :=
  ts.foldlM (fun x t => visit sampler num_of_words num_of_topics alpha beta word_matrix t.1 x t.2)
    r

/-! ## The single-term corpus -/

/-- Every token of the corpus is the term `x`. -/
def SingleTerm (wm : WordMatrix) (x : String) : Prop := ∀ row ∈ wm, ∀ t ∈ row, t = x

/-- Only terms of the corpus are stored in the maps of `topic_term_count`. -/
def KeysFromCorpus (wm : WordMatrix) (s : Store) : Prop :=
  ∀ (k : Nat) (u : String), TermMap.hasKey (s.ttcMap k) u = true → ∃ d p, termAt wm d p = some u

/-- Every map of `topic_term_count` for a topic below `K` stores the term `t`. -/
def StoresTerm (K : Nat) (s : Store) (t : String) : Prop :=
  ∀ k : Nat, k < K → TermMap.hasKey (s.ttcMap k) t = true

/-- The tables have a cell for every document and topic and their counts are the tallies of
the tokens counted under `c`: `doc_topic_count[m][k]` and `doc_topic_sum[m]` tally the tokens
of document `m`, `topic_term_count[k][t]` (an absent term read as `0`) and `topic_term_sum[k]`
tally the tokens of the corpus. -/
structure Counted (wm : WordMatrix) (K : Nat) (c : Nat → Nat → Option Int) (s : Store) :
    Prop where
  shaped : Shaped wm.length K s
  dtc_eq : ∀ m k, m < wm.length → k < K →
    s.dtc m k = (countRow wm m (fun p => c m p == some (k : Int)) : Nat)
  dts_eq : ∀ m, m < wm.length → s.dts m = (countRow wm m (fun p => (c m p).isSome) : Nat)
  ttc_eq : ∀ k t, k < K →
    s.ttc k t = (countAll wm (fun m p => c m p == some (k : Int) && termAt wm m p == some t) : Nat)
  tts_eq : ∀ k, k < K → s.tts k = (countAll wm (fun m p => c m p == some (k : Int)) : Nat)

/-! ## The vocabulary of the corpus -/

/-- The distinct terms of the corpus. -/
def distinctTerms (wm : WordMatrix) : List String := wm.flatten.dedup

/-- Every read `phi_sorted[i][j]` of the listing loop of `EstimatePhi`, for
`i < num_of_topics` and `j < 50`, is in range. -/
def ListingInRange (phi_sorted : List (List (String × ℚ))) (num_of_topics : Int) : Prop :=
  ∀ i j : Nat, i < num_of_topics.toNat → j < 50 →
    ∃ e, (phi_sorted[i]?).bind (fun row => row[j]?) = some e

/-- Every term stored in a map of `topic_term_count` has a strictly positive count. -/
def KeysCounted (s : Store) : Prop :=
  ∀ (k : Nat) (u : String), TermMap.hasKey (s.ttcMap k) u = true → 0 < s.ttc k u

/-! ## Basic facts about faults, vectors and maps -/

theorem bind_eq_ok {α β : Type} (x : Except Fault α) (f : α → Except Fault β) (b : β) :
    (x >>= f) = Except.ok b ↔ ∃ a, x = Except.ok a ∧ f a = Except.ok b := by
  cases x <;> simp [bind, Except.bind]

theorem vAt_eq_ok {α : Type} (v : List α) (i : Nat) (x : α) :
    vAt v i = Except.ok x ↔ v[i]? = some x := by
  unfold vAt
  cases h : v[i]? <;> simp

theorem vAtInt_eq_ok {α : Type} (v : List α) (i : Int) (x : α) :
    vAtInt v i = Except.ok x ↔ 0 ≤ i ∧ v[i.toNat]? = some x := by
  unfold vAtInt
  by_cases h : 0 ≤ i <;> simp [h, vAt_eq_ok]

theorem vAt2_eq_ok {α : Type} (v : List (List α)) (i j : Nat) (x : α) :
    vAt2 v i j = Except.ok x ↔ ∃ row, v[i]? = some row ∧ row[j]? = some x := by
  unfold vAt2
  cases h : v[i]? <;> simp [vAt_eq_ok]

theorem vResize_length {α : Type} (v : List α) (n : Nat) (d : α) :
    (vResize v n d).length = n := by
  simp [vResize]; omega

namespace TermMap

theorem read_of_not_hasKey (m : TermMap) (t : String) (h : hasKey m t = false) :
    read m t = 0 := by
  induction m with
  | nil => rfl
  | cons e rest ih =>
    obtain ⟨k, v⟩ := e
    simp only [hasKey, List.any_cons, Bool.or_eq_false_iff, decide_eq_false_iff_not] at h
    simp only [read, h.1, if_false]
    exact ih h.2

theorem read_insertKey (m : TermMap) (t u : String) (h : hasKey m t = false) :
    read (insertKey t m) u = read m u := by
  induction m with
  | nil => simp [insertKey, read]
  | cons e rest ih =>
    obtain ⟨k, v⟩ := e
    have h0 := read_of_not_hasKey _ _ h
    simp only [hasKey, List.any_cons, Bool.or_eq_false_iff, decide_eq_false_iff_not] at h
    simp only [insertKey]
    split
    · by_cases htu : t = u
      · subst htu; simp [read, h.1]
        simpa [read, h.1] using h0.symm
      · simp [read, htu]
    · simp only [read, ih h.2]

theorem total_insertKey (m : TermMap) (t : String) : total (insertKey t m) = total m := by
  induction m with
  | nil => simp [insertKey, total]
  | cons e rest ih =>
    obtain ⟨k, v⟩ := e
    simp only [insertKey]
    split
    · simp [total]
    · simp only [total, List.map_cons, List.sum_cons] at ih ⊢; rw [ih]

theorem hasKey_insertKey (m : TermMap) (t : String) : hasKey (insertKey t m) t = true := by
  induction m with
  | nil => simp [insertKey, hasKey]
  | cons e rest ih =>
    obtain ⟨k, v⟩ := e
    simp only [insertKey]
    split
    · simp [hasKey]
    · simp only [hasKey, List.any_cons] at ih ⊢; simp [ih]

theorem read_index (m : TermMap) (t u : String) : read (index m t) u = read m u := by
  unfold index; split
  · rfl
  · exact read_insertKey m t u (by simpa using ‹¬ hasKey m t = true›)

theorem total_index (m : TermMap) (t : String) : total (index m t) = total m := by
  unfold index; split
  · rfl
  · exact total_insertKey m t

theorem hasKey_index (m : TermMap) (t : String) : hasKey (index m t) t = true := by
  unfold index; split
  · assumption
  · exact hasKey_insertKey m t

theorem read_update (f : Int → Int) (m : TermMap) (t u : String) (h : hasKey m t = true) :
    read (update f m t) u = if u = t then f (read m t) else read m u := by
  induction m with
  | nil => simp [hasKey] at h
  | cons e rest ih =>
    obtain ⟨k, v⟩ := e
    simp only [update]
    by_cases hk : k = t
    · subst hk
      by_cases hu : u = k
      · subst hu; simp [read]
      · have : ¬ k = u := fun h => hu h.symm
        simp [read, hu, this]
    · have hr : hasKey rest t = true := by
        simpa [hasKey, hk] using h
      simp only [hk, if_false, read, ih hr]
      by_cases hu : u = t
      · subst hu; simp [hk]
      · simp [hu]

theorem total_update (f : Int → Int) (m : TermMap) (t : String) (h : hasKey m t = true) :
    total (update f m t) = total m + (f (read m t) - read m t) := by
  induction m with
  | nil => simp [hasKey] at h
  | cons e rest ih =>
    obtain ⟨k, v⟩ := e
    simp only [update]
    by_cases hk : k = t
    · subst hk
      simp [total, read]; ring
    · have hr : hasKey rest t = true := by
        simpa [hasKey, hk] using h
      have := ih hr
      simp only [total, List.map_cons, List.sum_cons, hk, if_false, read] at this ⊢
      rw [this]; ring

theorem read_incr (m : TermMap) (t u : String) :
    read (incr m t) u = read m u + if u = t then 1 else 0 := by
  unfold incr
  rw [read_update _ _ _ _ (hasKey_index m t)]
  by_cases hu : u = t
  · subst hu; simp [read_index]
  · simp [hu, read_index]

theorem read_decr (m : TermMap) (t u : String) :
    read (decr m t) u = read m u - if u = t then 1 else 0 := by
  unfold decr
  rw [read_update _ _ _ _ (hasKey_index m t)]
  by_cases hu : u = t
  · subst hu; simp [read_index]
  · simp [hu, read_index]

theorem total_incr (m : TermMap) (t : String) : total (incr m t) = total m + 1 := by
  unfold incr
  rw [total_update _ _ _ (hasKey_index m t), total_index]; ring

theorem total_decr (m : TermMap) (t : String) : total (decr m t) = total m - 1 := by
  unfold decr
  rw [total_update _ _ _ (hasKey_index m t), total_index]; ring

end TermMap

/-! ## Counting over index ranges -/

theorem foldlM_range_inv {σ : Type} (P : Nat → σ → Prop) (f : σ → Nat → Except Fault σ)
    (n : Nat) (hf : ∀ k s, k < n → P k s → ∃ s1, f s k = Except.ok s1 ∧ P (k + 1) s1)
    (s : σ) (h0 : P 0 s) : ∃ s1, (List.range n).foldlM f s = Except.ok s1 ∧ P n s1 := by
  induction n with
  | zero => exact ⟨s, rfl, h0⟩
  | succ n ih =>
    obtain ⟨s1, h1, hP1⟩ := ih (fun k s hk hP => hf k s (Nat.lt_succ_of_lt hk) hP)
    obtain ⟨s2, h2, hP2⟩ := hf n s1 (Nat.lt_succ_self n) hP1
    refine ⟨s2, ?_, hP2⟩
    rw [List.range_succ, List.foldlM_append, h1]
    simp [bind, Except.bind, h2, pure, Except.pure]

theorem countP_range_congr (h h1 : Nat → Bool) (n : Nat) (hh : ∀ q, q < n → h1 q = h q) :
    (List.range n).countP h1 = (List.range n).countP h := by
  apply List.countP_congr
  intro q hq
  rw [hh q (List.mem_range.mp hq)]

theorem countP_range_update (h h1 : Nat → Bool) (n p : Nat) (hp : p < n)
    (hh : ∀ q, q ≠ p → h1 q = h q) :
    (List.range n).countP h1 + (h p).toNat = (List.range n).countP h + (h1 p).toNat := by
  induction n with
  | zero => omega
  | succ n ih =>
    rw [List.range_succ, List.countP_append, List.countP_append]
    by_cases hpn : p < n
    · have := ih hpn
      have hn : h1 n = h n := hh n (by omega)
      simp only [List.countP_cons, List.countP_nil, hn]
      omega
    · have hpe : p = n := by omega
      subst hpe
      have := countP_range_congr h h1 p (fun q hq => hh q (by omega))
      simp only [List.countP_cons, List.countP_nil, this]
      cases h p <;> cases h1 p <;> simp

theorem sum_range_congr (f f1 : Nat → Nat) (n : Nat) (hh : ∀ m, m < n → f1 m = f m) :
    ((List.range n).map f1).sum = ((List.range n).map f).sum := by
  congr 1
  apply List.map_congr_left
  intro m hm
  exact hh m (List.mem_range.mp hm)

theorem sum_range_update (f f1 : Nat → Nat) (n d a b : Nat) (hd : d < n)
    (hh : ∀ m, m ≠ d → f1 m = f m) (hd1 : f1 d + a = f d + b) :
    ((List.range n).map f1).sum + a = ((List.range n).map f).sum + b := by
  induction n with
  | zero => omega
  | succ n ih =>
    rw [List.range_succ, List.map_append, List.map_append, List.sum_append, List.sum_append]
    by_cases hdn : d < n
    · have := ih hdn
      have hn : f1 n = f n := hh n (by omega)
      simp only [List.map_cons, List.map_nil, List.sum_cons, List.sum_nil, hn]
      omega
    · have hde : d = n := by omega
      subst hde
      have := sum_range_congr f f1 d (fun m hm => hh m (by omega))
      simp only [List.map_cons, List.map_nil, List.sum_cons, List.sum_nil, this]
      omega

theorem countRow_update (wm : WordMatrix) (m p : Nat) (h h1 : Nat → Bool)
    (hp : p < rowLen wm m) (hh : ∀ q, q ≠ p → h1 q = h q) :
    countRow wm m h1 + (h p).toNat = countRow wm m h + (h1 p).toNat :=
  countP_range_update h h1 _ p hp hh

theorem countRow_congr (wm : WordMatrix) (m : Nat) (h h1 : Nat → Bool)
    (hh : ∀ q, q < rowLen wm m → h1 q = h q) : countRow wm m h1 = countRow wm m h :=
  countP_range_congr h h1 _ hh

theorem countAll_congr (wm : WordMatrix) (h h1 : Nat → Nat → Bool)
    (hh : ∀ m q, m < wm.length → q < rowLen wm m → h1 m q = h m q) :
    countAll wm h1 = countAll wm h := by
  unfold countAll
  apply sum_range_congr
  intro m hm
  exact countRow_congr wm m _ _ (fun q hq => hh m q hm hq)

theorem countAll_update (wm : WordMatrix) (d p : Nat) (h h1 : Nat → Nat → Bool)
    (hd : d < wm.length) (hp : p < rowLen wm d)
    (hh : ∀ m q, ¬ (m = d ∧ q = p) → h1 m q = h m q) :
    countAll wm h1 + (h d p).toNat = countAll wm h + (h1 d p).toNat := by
  unfold countAll
  apply sum_range_update _ _ _ d _ _ hd
  · intro m hm
    exact countRow_congr wm m _ _ (fun q _ => hh m q (fun hc => hm hc.1))
  · exact countRow_update wm d p (h d) (h1 d) hp (fun q hq => hh d q (fun hc => hq hc.2))

theorem countRow_false (wm : WordMatrix) (m : Nat) : countRow wm m (fun _ => false) = 0 := by
  simp [countRow]

theorem countAll_false (wm : WordMatrix) : countAll wm (fun _ _ => false) = 0 := by
  simp [countAll, countRow]

theorem countRow_true (wm : WordMatrix) (m : Nat) :
    countRow wm m (fun _ => true) = rowLen wm m := by
  simp [countRow]

/-! ## What the increments and decrements do -/

theorem pure_eq_ok {α : Type} (a b : α) : (pure a : Except Fault α) = Except.ok b ↔ a = b := by
  simp [pure, Except.pure]

theorem zAt_eq_some (s : Store) (d p : Nat) (i : Int) :
    s.zAt d p = some i ↔ ∃ row, s.topic_index_Zmn[d]? = some row ∧ row[p]? = some i := by
  unfold Store.zAt
  cases h : s.topic_index_Zmn[d]? <;> simp

theorem termAt_eq_some (wm : WordMatrix) (d p : Nat) (t : String) :
    termAt wm d p = some t ↔ ∃ row, wm[d]? = some row ∧ row[p]? = some t := by
  unfold termAt
  cases h : wm[d]? <;> simp

theorem termAt_bounds {wm : WordMatrix} {d p : Nat} {t : String} (h : termAt wm d p = some t) :
    d < wm.length ∧ p < rowLen wm d := by
  obtain ⟨row, h1, h2⟩ := (termAt_eq_some wm d p t).mp h
  obtain ⟨hd, _⟩ := List.getElem?_eq_some_iff.mp h1
  obtain ⟨hp, _⟩ := List.getElem?_eq_some_iff.mp h2
  exact ⟨hd, by simpa [rowLen, h1] using hp⟩

theorem termAt_of_bounds {wm : WordMatrix} {d p : Nat} (hd : d < wm.length)
    (hp : p < rowLen wm d) : ∃ t, termAt wm d p = some t := by
  have h1 : wm[d]? = some wm[d] := List.getElem?_eq_getElem hd
  have hp1 : p < wm[d].length := by simpa [rowLen, h1] using hp
  exact ⟨wm[d][p], (termAt_eq_some wm d p _).mpr ⟨wm[d], h1, List.getElem?_eq_getElem hp1⟩⟩

theorem getD_set {α : Type} (l : List α) (d m : Nat) (v a : α) (hd : d < l.length) :
    ((l.set d v)[m]?).getD a = if m = d then v else (l[m]?).getD a := by
  rw [List.getElem?_set]
  by_cases h : d = m
  · subst h; simp [hd]
  · have : ¬ m = d := fun e => h e.symm
    simp [h, this]

theorem getD_set2 (T : List (List Int)) (d i m k : Nat) (row : List Int) (v : Int)
    (hrow : T[d]? = some row) (hi : i < row.length) :
    (((T.set d (row.set i v))[m]?).bind (fun r => r[k]?)).getD 0
      = if m = d ∧ k = i then v else ((T[m]?).bind (fun r => r[k]?)).getD 0 := by
  obtain ⟨hd, _⟩ := List.getElem?_eq_some_iff.mp hrow
  rw [List.getElem?_set]
  by_cases h : d = m
  · subst h
    simp only [hd, if_true, Option.bind_some, true_and, hrow, Option.some_bind]
    rw [List.getElem?_set]
    by_cases h2 : i = k
    · subst h2; simp [hi]
    · have : ¬ k = i := fun e => h2 e.symm
      simp [h2, this]
  · have : ¬ m = d := fun e => h e.symm
    simp [h, this]

theorem SameDims.shaped {s s1 : Store} (h : SameDims s s1) {M K : Nat} (hs : Shaped M K s) :
    Shaped M K s1 := by
  have hlen : s1.doc_topic_count.length = s.doc_topic_count.length := by
    simpa using congrArg List.length h.dtc_rows
  refine ⟨hlen.trans hs.dtc_len, ?_, h.dts_len.trans hs.dts_len, h.ttc_len.trans hs.ttc_len,
    h.tts_len.trans hs.tts_len⟩
  intro row hrow
  have h1 : row.length ∈ s1.doc_topic_count.map List.length := List.mem_map_of_mem _ hrow
  rw [h.dtc_rows] at h1
  obtain ⟨r0, hr0, he⟩ := List.mem_map.mp h1
  rw [← he]; exact hs.dtc_row r0 hr0

theorem sameDims_refl (s : Store) : SameDims s s := ⟨rfl, rfl, rfl, rfl⟩

theorem SameDims.trans_dims {s s1 s2 : Store} (h : SameDims s s1) (h1 : SameDims s1 s2) :
    SameDims s s2 :=
  ⟨h1.dtc_rows.trans h.dtc_rows, h1.dts_len.trans h.dts_len, h1.ttc_len.trans h.ttc_len,
    h1.tts_len.trans h.tts_len⟩

theorem map_length_set2 (T : List (List Int)) (d i : Nat) (row : List Int) (v : Int)
    (hrow : T[d]? = some row) :
    (T.set d (row.set i v)).map List.length = T.map List.length := by
  apply List.ext_getElem?
  intro m
  simp only [List.getElem?_map, List.getElem?_set]
  by_cases h : d = m
  · subst h
    obtain ⟨hd, _⟩ := List.getElem?_eq_some_iff.mp hrow
    simp [hd, hrow]
  · simp [h]

theorem docBump_of_set (s : Store) (d i : Nat) (row : List Int) (c n delta : Int)
    (hrow : s.doc_topic_count[d]? = some row) (hc : row[i]? = some c)
    (hn : s.doc_topic_sum[d]? = some n) :
    DocBump s { s with
      doc_topic_count := s.doc_topic_count.set d (row.set i (c + delta))
      doc_topic_sum := s.doc_topic_sum.set d (n + delta) } d i delta := by
  obtain ⟨hi, _⟩ := List.getElem?_eq_some_iff.mp hc
  obtain ⟨hd, _⟩ := List.getElem?_eq_some_iff.mp hn
  refine ⟨rfl, rfl, rfl, ?_, ?_, ⟨?_, ?_, rfl, rfl⟩⟩
  · intro m k
    simp only [Store.dtc]
    rw [getD_set2 _ _ _ _ _ _ _ hrow hi]
    by_cases h : m = d ∧ k = i
    · obtain ⟨rfl, rfl⟩ := h
      simp [hrow, hc]
    · simp [h]
  · intro m
    simp only [Store.dts]
    rw [getD_set _ _ _ _ _ hd]
    by_cases h : m = d
    · subst h; simp [hn]
    · simp [h]
  · exact map_length_set2 _ _ _ _ _ hrow
  · simp

theorem termBump_of_set (s : Store) (i : Nat) (t : String) (m0 m1 : TermMap) (n delta : Int)
    (hm : s.topic_term_count[i]? = some m0) (hn : s.topic_term_sum[i]? = some n)
    (hread : ∀ u, m1.read u = m0.read u + if u = t then delta else 0)
    (htotal : m1.total = m0.total + delta) :
    TermBump s { s with
      topic_term_count := s.topic_term_count.set i m1
      topic_term_sum := s.topic_term_sum.set i (n + delta) } i t delta := by
  obtain ⟨hi, _⟩ := List.getElem?_eq_some_iff.mp hm
  obtain ⟨hi2, _⟩ := List.getElem?_eq_some_iff.mp hn
  refine ⟨rfl, rfl, rfl, ?_, ?_, ?_, ⟨rfl, rfl, ?_, ?_⟩, hi2⟩
  · intro k u
    simp only [Store.ttc, Store.ttcMap]
    rw [getD_set _ _ _ _ _ hi]
    by_cases h : k = i
    · subst h; simp [hm, hread]
    · simp [h]
  · intro k
    simp only [Store.tts]
    rw [getD_set _ _ _ _ _ hi2]
    by_cases h : k = i
    · subst h; simp [hn]
    · simp [h]
  · intro k
    simp only [Store.ttcMap]
    rw [getD_set _ _ _ _ _ hi]
    by_cases h : k = i
    · subst h; simp [hm, htotal]
    · simp [h]
  · simp
  · simp

theorem IncreDocTopic_eq_ok (s s1 : Store) (d p : Nat) :
    IncreDocTopic s d p = Except.ok s1 ↔
      ∃ i row c n, s.zAt d p = some i ∧ s.doc_topic_count[d]? = some row ∧ 0 ≤ i ∧
        row[i.toNat]? = some c ∧ s.doc_topic_sum[d]? = some n ∧
        s1 = { s with
          doc_topic_count := s.doc_topic_count.set d (row.set i.toNat (c + 1))
          doc_topic_sum := s.doc_topic_sum.set d (n + 1) } := by
  simp only [IncreDocTopic, bind_eq_ok, vAt2_eq_ok, vAt_eq_ok, vAtInt_eq_ok, pure_eq_ok,
    zAt_eq_some]
  constructor
  · rintro ⟨i, ⟨zrow, h1, h2⟩, row, h3, c, ⟨h4, h5⟩, n, h6, h7⟩
    exact ⟨i, row, c, n, ⟨zrow, h1, h2⟩, h3, h4, h5, h6, h7.symm⟩
  · rintro ⟨i, row, c, n, ⟨zrow, h1, h2⟩, h3, h4, h5, h6, h7⟩
    exact ⟨i, ⟨zrow, h1, h2⟩, row, h3, c, ⟨h4, h5⟩, n, h6, h7.symm⟩

theorem DecreDocTopic_eq_ok (s s1 : Store) (d p : Nat) :
    DecreDocTopic s d p = Except.ok s1 ↔
      ∃ i row c n, s.zAt d p = some i ∧ s.doc_topic_count[d]? = some row ∧ 0 ≤ i ∧
        row[i.toNat]? = some c ∧ s.doc_topic_sum[d]? = some n ∧
        s1 = { s with
          doc_topic_count := s.doc_topic_count.set d (row.set i.toNat (c - 1))
          doc_topic_sum := s.doc_topic_sum.set d (n - 1) } := by
  simp only [DecreDocTopic, bind_eq_ok, vAt2_eq_ok, vAt_eq_ok, vAtInt_eq_ok, pure_eq_ok,
    zAt_eq_some]
  constructor
  · rintro ⟨i, ⟨zrow, h1, h2⟩, row, h3, c, ⟨h4, h5⟩, n, h6, h7⟩
    exact ⟨i, row, c, n, ⟨zrow, h1, h2⟩, h3, h4, h5, h6, h7.symm⟩
  · rintro ⟨i, row, c, n, ⟨zrow, h1, h2⟩, h3, h4, h5, h6, h7⟩
    exact ⟨i, ⟨zrow, h1, h2⟩, row, h3, c, ⟨h4, h5⟩, n, h6, h7.symm⟩

theorem IncreTopicTerm_eq_ok (s s1 : Store) (d p : Nat) (wm : WordMatrix) :
    IncreTopicTerm s d p wm = Except.ok s1 ↔
      ∃ i t m n, s.zAt d p = some i ∧ termAt wm d p = some t ∧ 0 ≤ i ∧
        s.topic_term_count[i.toNat]? = some m ∧ s.topic_term_sum[i.toNat]? = some n ∧
        s1 = { s with
          topic_term_count := s.topic_term_count.set i.toNat (m.incr t)
          topic_term_sum := s.topic_term_sum.set i.toNat (n + 1) } := by
  simp only [IncreTopicTerm, bind_eq_ok, vAt2_eq_ok, vAtInt_eq_ok, pure_eq_ok,
    zAt_eq_some, termAt_eq_some]
  constructor
  · rintro ⟨i, ⟨zrow, h1, h2⟩, t, ⟨wrow, h3, h4⟩, m, ⟨h5, h6⟩, n, ⟨_, h7⟩, h8⟩
    exact ⟨i, t, m, n, ⟨zrow, h1, h2⟩, ⟨wrow, h3, h4⟩, h5, h6, h7, h8.symm⟩
  · rintro ⟨i, t, m, n, ⟨zrow, h1, h2⟩, ⟨wrow, h3, h4⟩, h5, h6, h7, h8⟩
    exact ⟨i, ⟨zrow, h1, h2⟩, t, ⟨wrow, h3, h4⟩, m, ⟨h5, h6⟩, n, ⟨h5, h7⟩, h8.symm⟩

theorem DecreTopicTerm_eq_ok (s s1 : Store) (d p : Nat) (wm : WordMatrix) :
    DecreTopicTerm s d p wm = Except.ok s1 ↔
      ∃ i t m n, s.zAt d p = some i ∧ termAt wm d p = some t ∧ 0 ≤ i ∧
        s.topic_term_count[i.toNat]? = some m ∧ s.topic_term_sum[i.toNat]? = some n ∧
        s1 = { s with
          topic_term_count := s.topic_term_count.set i.toNat (m.decr t)
          topic_term_sum := s.topic_term_sum.set i.toNat (n - 1) } := by
  simp only [DecreTopicTerm, bind_eq_ok, vAt2_eq_ok, vAtInt_eq_ok, pure_eq_ok,
    zAt_eq_some, termAt_eq_some]
  constructor
  · rintro ⟨i, ⟨zrow, h1, h2⟩, t, ⟨wrow, h3, h4⟩, m, ⟨h5, h6⟩, n, ⟨_, h7⟩, h8⟩
    exact ⟨i, t, m, n, ⟨zrow, h1, h2⟩, ⟨wrow, h3, h4⟩, h5, h6, h7, h8.symm⟩
  · rintro ⟨i, t, m, n, ⟨zrow, h1, h2⟩, ⟨wrow, h3, h4⟩, h5, h6, h7, h8⟩
    exact ⟨i, ⟨zrow, h1, h2⟩, t, ⟨wrow, h3, h4⟩, m, ⟨h5, h6⟩, n, ⟨h5, h7⟩, h8.symm⟩

theorem IncreDocTopic_bump {s s1 : Store} {d p : Nat} (h : IncreDocTopic s d p = Except.ok s1) :
    ∃ i, s.zAt d p = some i ∧ 0 ≤ i ∧ DocBump s s1 d i.toNat 1 := by
  obtain ⟨i, row, c, n, hz, hrow, hi, hc, hn, rfl⟩ := (IncreDocTopic_eq_ok s s1 d p).mp h
  exact ⟨i, hz, hi, docBump_of_set s d i.toNat row c n 1 hrow hc hn⟩

theorem DecreDocTopic_bump {s s1 : Store} {d p : Nat} (h : DecreDocTopic s d p = Except.ok s1) :
    ∃ i, s.zAt d p = some i ∧ 0 ≤ i ∧ DocBump s s1 d i.toNat (-1) := by
  obtain ⟨i, row, c, n, hz, hrow, hi, hc, hn, rfl⟩ := (DecreDocTopic_eq_ok s s1 d p).mp h
  exact ⟨i, hz, hi, docBump_of_set s d i.toNat row c n (-1) hrow hc hn⟩

theorem IncreTopicTerm_bump {s s1 : Store} {d p : Nat} {wm : WordMatrix}
    (h : IncreTopicTerm s d p wm = Except.ok s1) :
    ∃ i t, s.zAt d p = some i ∧ termAt wm d p = some t ∧ 0 ≤ i ∧
      TermBump s s1 i.toNat t 1 := by
  obtain ⟨i, t, m, n, hz, ht, hi, hm, hn, rfl⟩ := (IncreTopicTerm_eq_ok s s1 d p wm).mp h
  exact ⟨i, t, hz, ht, hi, termBump_of_set s i.toNat t m (m.incr t) n 1 hm hn
    (fun u => TermMap.read_incr m t u) (TermMap.total_incr m t)⟩

theorem DecreTopicTerm_bump {s s1 : Store} {d p : Nat} {wm : WordMatrix}
    (h : DecreTopicTerm s d p wm = Except.ok s1) :
    ∃ i t, s.zAt d p = some i ∧ termAt wm d p = some t ∧ 0 ≤ i ∧
      TermBump s s1 i.toNat t (-1) := by
  obtain ⟨i, t, m, n, hz, ht, hi, hm, hn, rfl⟩ := (DecreTopicTerm_eq_ok s s1 d p wm).mp h
  refine ⟨i, t, hz, ht, hi, termBump_of_set s i.toNat t m (m.decr t) n (-1) hm hn ?_ ?_⟩
  · intro u
    rw [TermMap.read_decr]
    by_cases hu : u = t <;> simp [hu]
    rfl
  · rw [TermMap.total_decr]; rfl

theorem Shaped.dtc_cell {M K : Nat} {s : Store} (hs : Shaped M K s) {d i : Nat} (hd : d < M)
    (hi : i < K) :
    ∃ row c, s.doc_topic_count[d]? = some row ∧ row[i]? = some c := by
  have hd1 : d < s.doc_topic_count.length := by rw [hs.dtc_len]; exact hd
  have hrow : s.doc_topic_count[d]? = some s.doc_topic_count[d] := List.getElem?_eq_getElem hd1
  have hlen : s.doc_topic_count[d].length = K := hs.dtc_row _ (List.getElem_mem hd1)
  have hi1 : i < s.doc_topic_count[d].length := by rw [hlen]; exact hi
  exact ⟨_, _, hrow, List.getElem?_eq_getElem hi1⟩

theorem Shaped.dts_cell {M K : Nat} {s : Store} (hs : Shaped M K s) {d : Nat} (hd : d < M) :
    ∃ n, s.doc_topic_sum[d]? = some n :=
  ⟨_, List.getElem?_eq_getElem (by rw [hs.dts_len]; exact hd)⟩

theorem Shaped.ttc_cell {M K : Nat} {s : Store} (hs : Shaped M K s) {i : Nat} (hi : i < K) :
    ∃ m, s.topic_term_count[i]? = some m :=
  ⟨_, List.getElem?_eq_getElem (by rw [hs.ttc_len]; exact hi)⟩

theorem Shaped.tts_cell {M K : Nat} {s : Store} (hs : Shaped M K s) {i : Nat} (hi : i < K) :
    ∃ n, s.topic_term_sum[i]? = some n :=
  ⟨_, List.getElem?_eq_getElem (by rw [hs.tts_len]; exact hi)⟩

theorem toNat_lt_of {i : Int} {K : Nat} (h0 : 0 ≤ i) (hi : i < (K : Int)) : i.toNat < K := by
  omega

theorem IncreDocTopic_ok {M K : Nat} {s : Store} (hs : Shaped M K s) {d p : Nat} {i : Int}
    (hz : s.zAt d p = some i) (h0 : 0 ≤ i) (hi : i < (K : Int)) (hd : d < M) :
    ∃ s1, IncreDocTopic s d p = Except.ok s1 := by
  obtain ⟨row, c, hrow, hc⟩ := hs.dtc_cell hd (toNat_lt_of h0 hi)
  obtain ⟨n, hn⟩ := hs.dts_cell hd
  exact ⟨_, (IncreDocTopic_eq_ok s _ d p).mpr ⟨i, row, c, n, hz, hrow, h0, hc, hn, rfl⟩⟩

theorem DecreDocTopic_ok {M K : Nat} {s : Store} (hs : Shaped M K s) {d p : Nat} {i : Int}
    (hz : s.zAt d p = some i) (h0 : 0 ≤ i) (hi : i < (K : Int)) (hd : d < M) :
    ∃ s1, DecreDocTopic s d p = Except.ok s1 := by
  obtain ⟨row, c, hrow, hc⟩ := hs.dtc_cell hd (toNat_lt_of h0 hi)
  obtain ⟨n, hn⟩ := hs.dts_cell hd
  exact ⟨_, (DecreDocTopic_eq_ok s _ d p).mpr ⟨i, row, c, n, hz, hrow, h0, hc, hn, rfl⟩⟩

theorem IncreTopicTerm_ok {M K : Nat} {s : Store} (hs : Shaped M K s) {d p : Nat} {i : Int}
    {wm : WordMatrix} {t : String} (hz : s.zAt d p = some i) (ht : termAt wm d p = some t)
    (h0 : 0 ≤ i) (hi : i < (K : Int)) :
    ∃ s1, IncreTopicTerm s d p wm = Except.ok s1 := by
  obtain ⟨m, hm⟩ := hs.ttc_cell (toNat_lt_of h0 hi)
  obtain ⟨n, hn⟩ := hs.tts_cell (toNat_lt_of h0 hi)
  exact ⟨_, (IncreTopicTerm_eq_ok s _ d p wm).mpr ⟨i, t, m, n, hz, ht, h0, hm, hn, rfl⟩⟩

theorem DecreTopicTerm_ok {M K : Nat} {s : Store} (hs : Shaped M K s) {d p : Nat} {i : Int}
    {wm : WordMatrix} {t : String} (hz : s.zAt d p = some i) (ht : termAt wm d p = some t)
    (h0 : 0 ≤ i) (hi : i < (K : Int)) :
    ∃ s1, DecreTopicTerm s d p wm = Except.ok s1 := by
  obtain ⟨m, hm⟩ := hs.ttc_cell (toNat_lt_of h0 hi)
  obtain ⟨n, hn⟩ := hs.tts_cell (toNat_lt_of h0 hi)
  exact ⟨_, (DecreTopicTerm_eq_ok s _ d p wm).mpr ⟨i, t, m, n, hz, ht, h0, hm, hn, rfl⟩⟩

/-! ## The tallies follow the increments and decrements -/

theorem Store.dtc_congr {s s1 : Store} (h : s1.doc_topic_count = s.doc_topic_count) (m k : Nat) :
    s1.dtc m k = s.dtc m k := by simp [Store.dtc, h]

theorem Store.dts_congr {s s1 : Store} (h : s1.doc_topic_sum = s.doc_topic_sum) (m : Nat) :
    s1.dts m = s.dts m := by simp [Store.dts, h]

theorem Store.ttcMap_congr {s s1 : Store} (h : s1.topic_term_count = s.topic_term_count)
    (k : Nat) : s1.ttcMap k = s.ttcMap k := by simp [Store.ttcMap, h]

theorem Store.tts_congr {s s1 : Store} (h : s1.topic_term_sum = s.topic_term_sum) (k : Nat) :
    s1.tts k = s.tts k := by simp [Store.tts, h]

theorem Store.zAt_congr {s s1 : Store} (h : s1.topic_index_Zmn = s.topic_index_Zmn)
    (m p : Nat) : s1.zAt m p = s.zAt m p := by simp [Store.zAt, h]

theorem Tallied.step {wm : WordMatrix} {K : Nat} {c : Nat → Nat → Option Int}
    {s s1 s2 : Store} {d p i : Nat} {t : String} {delta : Int} {v : Option Int}
    (hT : Tallied wm K c s) (hd : d < wm.length) (hp : p < rowLen wm d)
    (ht : termAt wm d p = some t)
    (hdoc : DocBump s s1 d i delta) (hterm : TermBump s1 s2 i t delta)
    (hv : ∀ k : Nat, (((v == some (k : Int)).toNat : Nat) : Int)
      = (((c d p == some (k : Int)).toNat : Nat) : Int) + if k = i then delta else 0)
    (hvs : (((v.isSome).toNat : Nat) : Int) = ((((c d p).isSome).toNat : Nat) : Int) + delta) :
    Tallied wm K (setCounted c d p v) s2 := by
  have hoff : ∀ m q, ¬ (m = d ∧ q = p) → setCounted c d p v m q = c m q := by
    intro m q h; simp [setCounted, h]
  have hon : setCounted c d p v d p = v := by simp [setCounted]
  refine ⟨hterm.dims.shaped (hdoc.dims.shaped hT.shaped), ?_, ?_, ?_, ?_, ?_⟩
  · intro m k hm hk
    rw [Store.dtc_congr hterm.dtc_eq, hdoc.dtc, hT.dtc_eq m k hm hk]
    by_cases hmd : m = d
    · subst hmd
      have := countRow_update wm m p (fun q => c m q == some (k : Int))
        (fun q => setCounted c m p v m q == some (k : Int)) hp
        (fun q hq => by simp only [hoff m q (fun hc => hq hc.2)])
      simp only [hon] at this
      have h2 := hv k
      by_cases hki : k = i
      · subst hki; simp only [and_self, if_true] at h2 ⊢; omega
      · simp only [hki, and_false, if_false] at h2 ⊢; omega
    · have := countRow_congr wm m (fun q => c m q == some (k : Int))
        (fun q => setCounted c d p v m q == some (k : Int))
        (fun q _ => by simp only [hoff m q (fun hc => hmd hc.1)])
      simp only [hmd, false_and, if_false, this]; omega
  · intro m hm
    rw [Store.dts_congr hterm.dts_eq, hdoc.dts, hT.dts_eq m hm]
    by_cases hmd : m = d
    · subst hmd
      have := countRow_update wm m p (fun q => (c m q).isSome)
        (fun q => (setCounted c m p v m q).isSome) hp
        (fun q hq => by simp only [hoff m q (fun hc => hq hc.2)])
      simp only [hon] at this
      simp only [if_true]; omega
    · have := countRow_congr wm m (fun q => (c m q).isSome)
        (fun q => (setCounted c d p v m q).isSome)
        (fun q _ => by simp only [hoff m q (fun hc => hmd hc.1)])
      simp only [hmd, if_false, this]; omega
  · intro k u hk
    rw [hterm.ttc]
    have e1 : s1.ttc k u = s.ttc k u := by
      simp only [Store.ttc, Store.ttcMap_congr hdoc.ttc_eq]
    rw [e1, hT.ttc_eq k u hk]
    have := countAll_update wm d p
      (fun m q => c m q == some (k : Int) && termAt wm m q == some u)
      (fun m q => setCounted c d p v m q == some (k : Int) && termAt wm m q == some u) hd hp
      (fun m q hq => by simp only [hoff m q hq])
    simp only [hon, ht] at this
    have h2 := hv k
    by_cases hut : u = t
    · subst hut
      simp only [beq_self_eq_true, Bool.and_true] at this
      by_cases hki : k = i
      · subst hki; simp only [and_self, if_true] at h2 ⊢; omega
      · simp only [hki, false_and, if_false] at h2 ⊢; omega
    · have hne : (some t == some u) = false := by
        simp only [beq_eq_false_iff_ne, ne_eq, Option.some.injEq]
        exact fun e => hut e.symm
      simp only [hne, Bool.and_false, Bool.toNat_false, add_zero] at this
      simp only [hut, and_false, if_false, this]; omega
  · intro k hk
    rw [hterm.tts, Store.tts_congr hdoc.tts_eq, hT.tts_eq k hk]
    have := countAll_update wm d p
      (fun m q => c m q == some (k : Int))
      (fun m q => setCounted c d p v m q == some (k : Int)) hd hp
      (fun m q hq => by simp only [hoff m q hq])
    simp only [hon] at this
    have h2 := hv k
    by_cases hki : k = i
    · subst hki; simp only [if_true] at h2 ⊢; omega
    · simp only [hki, if_false] at h2 ⊢; omega
  · intro k hk
    rw [hterm.total, hterm.tts, Store.ttcMap_congr hdoc.ttc_eq, Store.tts_congr hdoc.tts_eq,
      hT.total_eq k hk]

/-! ## The update step leaves the counts alone -/

theorem foldlM_preserves {σ : Type} (P : σ → Prop) (f : σ → Nat → Except Fault σ)
    (hf : ∀ s k s1, P s → f s k = Except.ok s1 → P s1) (l : List Nat) (s s1 : σ)
    (h0 : P s) (h : l.foldlM f s = Except.ok s1) : P s1 := by
  induction l generalizing s with
  | nil =>
    simp only [List.foldlM_nil, pure_eq_ok] at h
    exact h ▸ h0
  | cons k rest ih =>
    rw [List.foldlM_cons, bind_eq_ok] at h
    obtain ⟨s2, h2, h3⟩ := h
    exact ih s2 (hf s k s2 h0 h2) h3

theorem sameCounts_refl (s : Store) : SameCounts s s :=
  ⟨rfl, rfl, rfl, rfl, rfl, fun _ _ => rfl, fun _ => rfl⟩

theorem SameCounts.trans_counts {s s1 s2 : Store} (h : SameCounts s s1) (h1 : SameCounts s1 s2) :
    SameCounts s s2 :=
  ⟨h1.z_eq.trans h.z_eq, h1.dtc_eq.trans h.dtc_eq, h1.dts_eq.trans h.dts_eq,
    h1.tts_eq.trans h.tts_eq, h1.ttc_len.trans h.ttc_len,
    fun k u => (h1.ttc k u).trans (h.ttc k u), fun k => (h1.total k).trans (h.total k)⟩

theorem SameCounts.dims {s s1 : Store} (h : SameCounts s s1) : SameDims s s1 :=
  ⟨by rw [h.dtc_eq], by rw [h.dts_eq], h.ttc_len, by rw [h.tts_eq]⟩

theorem SameCounts.tallied {s s1 : Store} (h : SameCounts s s1) {wm : WordMatrix} {K : Nat}
    {c : Nat → Nat → Option Int} (hT : Tallied wm K c s) : Tallied wm K c s1 := by
  refine ⟨h.dims.shaped hT.shaped, ?_, ?_, ?_, ?_, ?_⟩
  · intro m k hm hk; rw [Store.dtc_congr h.dtc_eq]; exact hT.dtc_eq m k hm hk
  · intro m hm; rw [Store.dts_congr h.dts_eq]; exact hT.dts_eq m hm
  · intro k u hk; rw [h.ttc]; exact hT.ttc_eq k u hk
  · intro k hk; rw [Store.tts_congr h.tts_eq]; exact hT.tts_eq k hk
  · intro k hk; rw [h.total, Store.tts_congr h.tts_eq]; exact hT.total_eq k hk

theorem topicWeight_eq_ok (index_doc num_of_words : Nat) (num_of_topics : Int) (alpha beta : ℚ)
    (term : String) (s : Store) (k : Nat) (out : Store × Dbl) :
    topicWeight index_doc num_of_words num_of_topics alpha beta term s k = Except.ok out ↔
      ∃ nk nm m row c, s.topic_term_sum[k]? = some nk ∧ s.doc_topic_sum[index_doc]? = some nm ∧
        s.topic_term_count[k]? = some m ∧ s.doc_topic_count[index_doc]? = some row ∧
        row[k]? = some c ∧
        out = ({ s with topic_term_count := s.topic_term_count.set k (m.index term) },
          Dbl.div
            (Dbl.mul (Dbl.add (Dbl.ofInt (m.read term)) (Dbl.ofRat beta))
              (Dbl.add (Dbl.ofInt c) (Dbl.ofRat alpha)))
            (Dbl.mul
              (Dbl.add (Dbl.ofInt nk)
                (Dbl.mul (Dbl.ofInt (num_of_words : Int)) (Dbl.ofRat beta)))
              (Dbl.add (Dbl.ofInt nm) (Dbl.mul (Dbl.ofInt num_of_topics) (Dbl.ofRat alpha))))) := by
  simp only [topicWeight, bind_eq_ok, vAt_eq_ok, pure_eq_ok]
  constructor
  · rintro ⟨nk, h1, nm, h2, m, h3, row, h4, c, h5, h6⟩
    exact ⟨nk, nm, m, row, c, h1, h2, h3, h4, h5, h6.symm⟩
  · rintro ⟨nk, nm, m, row, c, h1, h2, h3, h4, h5, h6⟩
    exact ⟨nk, h1, nm, h2, m, h3, row, h4, c, h5, h6.symm⟩

theorem sameCounts_index (s : Store) (k : Nat) (m : TermMap) (term : String)
    (hm : s.topic_term_count[k]? = some m) :
    SameCounts s { s with topic_term_count := s.topic_term_count.set k (m.index term) } := by
  obtain ⟨hk, _⟩ := List.getElem?_eq_some_iff.mp hm
  refine ⟨rfl, rfl, rfl, rfl, by simp, ?_, ?_⟩
  · intro j u
    simp only [Store.ttc, Store.ttcMap]
    rw [getD_set _ _ _ _ _ hk]
    by_cases h : j = k
    · subst h; simp [hm, TermMap.read_index]
    · simp [h]
  · intro j
    simp only [Store.ttcMap]
    rw [getD_set _ _ _ _ _ hk]
    by_cases h : j = k
    · subst h; simp [hm, TermMap.total_index]
    · simp [h]

theorem topicWeight_sameCounts {index_doc num_of_words : Nat} {num_of_topics : Int}
    {alpha beta : ℚ} {term : String} {s : Store} {k : Nat} {out : Store × Dbl}
    (h : topicWeight index_doc num_of_words num_of_topics alpha beta term s k = Except.ok out) :
    SameCounts s out.1 := by
  obtain ⟨nk, nm, m, row, c, _, _, h3, _, _, rfl⟩ := (topicWeight_eq_ok _ _ _ _ _ _ _ _ _).mp h
  exact sameCounts_index s k m term h3

theorem topicWeight_ok {M K : Nat} {s : Store} (hs : Shaped M K s) {index_doc k : Nat}
    (hd : index_doc < M) (hk : k < K) (num_of_words : Nat) (num_of_topics : Int)
    (alpha beta : ℚ) (term : String) :
    ∃ out, topicWeight index_doc num_of_words num_of_topics alpha beta term s k
      = Except.ok out := by
  obtain ⟨row, c, hrow, hc⟩ := hs.dtc_cell hd hk
  obtain ⟨nm, hnm⟩ := hs.dts_cell hd
  obtain ⟨m, hm⟩ := hs.ttc_cell hk
  obtain ⟨nk, hnk⟩ := hs.tts_cell hk
  exact ⟨_, (topicWeight_eq_ok _ _ _ _ _ _ _ _ _).mpr
    ⟨nk, nm, m, row, c, hnk, hnm, hm, hrow, hc, rfl⟩⟩

theorem topicWeights_sameCounts {index_doc num_of_words : Nat} {num_of_topics : Int}
    {alpha beta : ℚ} {term : String} {s : Store} {out : Store × List Dbl}
    (h : topicWeights index_doc num_of_words num_of_topics alpha beta term s = Except.ok out) :
    SameCounts s out.1 := by
  unfold topicWeights at h
  refine foldlM_preserves (fun acc : Store × List Dbl => SameCounts s acc.1) _ ?_ _ _ _
    (sameCounts_refl s) h
  intro acc k acc1 hacc hstep
  simp only [bind_eq_ok, pure_eq_ok] at hstep
  obtain ⟨o, ho, rfl⟩ := hstep
  exact hacc.trans_counts (topicWeight_sameCounts ho)

theorem topicWeights_ok {M K : Nat} {s : Store} (hs : Shaped M K s) {index_doc : Nat}
    (hd : index_doc < M) (num_of_words : Nat) (num_of_topics : Int)
    (hK : num_of_topics.toNat ≤ K) (alpha beta : ℚ) (term : String) :
    ∃ out, topicWeights index_doc num_of_words num_of_topics alpha beta term s
      = Except.ok out ∧ SameCounts s out.1 ∧ out.2.length = num_of_topics.toNat := by
  unfold topicWeights
  apply foldlM_range_inv
    (fun k (acc : Store × List Dbl) => SameCounts s acc.1 ∧ acc.2.length = k) _
    num_of_topics.toNat ?_ (s, []) ⟨sameCounts_refl s, rfl⟩
  intro k acc hk ⟨hacc, hlen⟩
  obtain ⟨o, ho⟩ := topicWeight_ok (hacc.dims.shaped hs) hd (Nat.lt_of_lt_of_le hk hK)
    num_of_words num_of_topics alpha beta term
  refine ⟨(o.1, acc.2 ++ [o.2]), ?_, hacc.trans_counts (topicWeight_sameCounts ho), by simp [hlen]⟩
  simp only [bind_eq_ok, pure_eq_ok]
  exact ⟨o, ho, rfl⟩

theorem UpdateTopic_eq_ok (g : Int → List Dbl → Int) (s : Store)
    (index_doc index_word num_of_words : Nat) (num_of_topics : Int) (alpha beta : ℚ)
    (wm : WordMatrix) (out : Int × Store) :
    UpdateTopic g s index_doc index_word num_of_words num_of_topics alpha beta wm
        = Except.ok out ↔
      ∃ k term s1 temp_vt, s.zAt index_doc index_word = some k ∧
        termAt wm index_doc index_word = some term ∧
        topicWeights index_doc num_of_words num_of_topics alpha beta term s
          = Except.ok (s1, temp_vt) ∧
        out = (g num_of_topics (normalise temp_vt), s1) := by
  simp only [UpdateTopic, bind_eq_ok, vAt2_eq_ok, pure_eq_ok, zAt_eq_some, termAt_eq_some]
  constructor
  · rintro ⟨k, hk, term, ht, ⟨s1, w⟩, h1, h2⟩
    exact ⟨k, term, s1, w, hk, ht, h1, h2.symm⟩
  · rintro ⟨k, term, s1, w, hk, ht, h1, h2⟩
    exact ⟨k, hk, term, ht, (s1, w), h1, h2.symm⟩

theorem UpdateTopic_sameCounts {g : Int → List Dbl → Int} {s : Store}
    {index_doc index_word num_of_words : Nat} {num_of_topics : Int} {alpha beta : ℚ}
    {wm : WordMatrix} {out : Int × Store}
    (h : UpdateTopic g s index_doc index_word num_of_words num_of_topics alpha beta wm
      = Except.ok out) :
    SameCounts s out.2 ∧ ∃ v, out.1 = g num_of_topics v := by
  obtain ⟨k, term, s1, w, _, _, h1, rfl⟩ := (UpdateTopic_eq_ok _ _ _ _ _ _ _ _ _ _).mp h
  exact ⟨topicWeights_sameCounts h1, _, rfl⟩

theorem UpdateTopic_ok {M K : Nat} {s : Store} (hs : Shaped M K s) {index_doc index_word : Nat}
    (hd : index_doc < M) {k : Int} (hz : s.zAt index_doc index_word = some k)
    {wm : WordMatrix} {term : String} (ht : termAt wm index_doc index_word = some term)
    (g : Int → List Dbl → Int) (num_of_words : Nat) (num_of_topics : Int)
    (hK : num_of_topics.toNat ≤ K) (alpha beta : ℚ) :
    ∃ out, UpdateTopic g s index_doc index_word num_of_words num_of_topics alpha beta wm
      = Except.ok out := by
  obtain ⟨o, ho, _, _⟩ := topicWeights_ok hs hd num_of_words num_of_topics hK alpha beta term
  exact ⟨_, (UpdateTopic_eq_ok _ _ _ _ _ _ _ _ _ _).mpr ⟨k, term, o.1, o.2, hz, ht, ho, rfl⟩⟩

theorem assignTopic_eq_ok (s s1 : Store) (d p : Nat) (k : Int) :
    assignTopic s d p k = Except.ok s1 ↔
      ∃ zrow old, s.topic_index_Zmn[d]? = some zrow ∧ zrow[p]? = some old ∧
        s1 = { s with topic_index_Zmn := s.topic_index_Zmn.set d (zrow.set p k) } := by
  simp only [assignTopic, bind_eq_ok, vAt_eq_ok, pure_eq_ok]
  constructor
  · rintro ⟨zrow, h1, old, h2, h3⟩
    exact ⟨zrow, old, h1, h2, h3.symm⟩
  · rintro ⟨zrow, old, h1, h2, h3⟩
    exact ⟨zrow, h1, old, h2, h3.symm⟩

theorem zAt_set (s : Store) (d p : Nat) (k : Int) (zrow : List Int) (old : Int)
    (hrow : s.topic_index_Zmn[d]? = some zrow) (hold : zrow[p]? = some old) (m q : Nat) :
    Store.zAt { s with topic_index_Zmn := s.topic_index_Zmn.set d (zrow.set p k) } m q
      = setCounted s.zAt d p (some k) m q := by
  obtain ⟨hd, _⟩ := List.getElem?_eq_some_iff.mp hrow
  obtain ⟨hp, _⟩ := List.getElem?_eq_some_iff.mp hold
  simp only [Store.zAt, setCounted, List.getElem?_set]
  by_cases h : d = m
  · subst h
    simp only [hd, if_true, Option.some_bind, true_and, List.getElem?_set]
    by_cases h2 : p = q
    · subst h2; simp [hp]
    · have : ¬ q = p := fun e => h2 e.symm
      simp [h2, this, hrow]
  · have : ¬ m = d := fun e => h e.symm
    simp [h, this]

/-! ## One visit -/

theorem Tallied.of_tables {wm : WordMatrix} {K : Nat} {c : Nat → Nat → Option Int}
    {s s1 : Store} (hT : Tallied wm K c s)
    (h1 : s1.doc_topic_count = s.doc_topic_count) (h2 : s1.doc_topic_sum = s.doc_topic_sum)
    (h3 : s1.topic_term_count = s.topic_term_count)
    (h4 : s1.topic_term_sum = s.topic_term_sum) : Tallied wm K c s1 := by
  have hs : Shaped wm.length K s1 := by
    have := hT.shaped
    exact ⟨by rw [h1]; exact this.dtc_len, by rw [h1]; exact this.dtc_row,
      by rw [h2]; exact this.dts_len, by rw [h3]; exact this.ttc_len,
      by rw [h4]; exact this.tts_len⟩
  refine ⟨hs, ?_, ?_, ?_, ?_, ?_⟩
  · intro m k hm hk; rw [Store.dtc_congr h1]; exact hT.dtc_eq m k hm hk
  · intro m hm; rw [Store.dts_congr h2]; exact hT.dts_eq m hm
  · intro k u hk
    have : s1.ttc k u = s.ttc k u := by simp only [Store.ttc, Store.ttcMap_congr h3]
    rw [this]; exact hT.ttc_eq k u hk
  · intro k hk; rw [Store.tts_congr h4]; exact hT.tts_eq k hk
  · intro k hk; rw [Store.ttcMap_congr h3, Store.tts_congr h4]; exact hT.total_eq k hk

theorem beq_some_cast (i : Int) (k : Nat) (h0 : 0 ≤ i) :
    (((some i == some (k : Int)).toNat : Nat) : Int) = if k = i.toNat then 1 else 0 := by
  by_cases h : k = i.toNat
  · have e : i = (k : Int) := by omega
    subst e
    simp
  · have e : ¬ i = (k : Int) := by omega
    simp [h, e]

theorem Tallied.decrePair {wm : WordMatrix} {K : Nat} {c : Nat → Nat → Option Int} {s : Store}
    (hT : Tallied wm K c s) {d p : Nat} {i : Int} {t : String}
    (hc : c d p = some i) (hz : s.zAt d p = some i) (h0 : 0 ≤ i) (hi : i < (K : Int))
    (ht : termAt wm d p = some t) :
    ∃ s1 s2, DecreDocTopic s d p = Except.ok s1 ∧ DecreTopicTerm s1 d p wm = Except.ok s2 ∧
      Tallied wm K (setCounted c d p none) s2 ∧
      s2.topic_index_Zmn = s.topic_index_Zmn := by
  obtain ⟨hd, hp⟩ := termAt_bounds ht
  obtain ⟨s1, h1⟩ := DecreDocTopic_ok hT.shaped hz h0 hi hd
  obtain ⟨i1, hz1, _, hb1⟩ := DecreDocTopic_bump h1
  have e1 : i1 = i := by rw [hz] at hz1; exact (Option.some.inj hz1).symm
  subst e1
  have hz2 : s1.zAt d p = some i1 := by rw [Store.zAt_congr hb1.z_eq]; exact hz
  obtain ⟨s2, h2⟩ := DecreTopicTerm_ok (hb1.dims.shaped hT.shaped) hz2 ht h0 hi
  obtain ⟨i2, t2, hz3, ht2, _, hb2⟩ := DecreTopicTerm_bump h2
  have e2 : i2 = i1 := by rw [hz2] at hz3; exact (Option.some.inj hz3).symm
  have e3 : t2 = t := by rw [ht] at ht2; exact (Option.some.inj ht2).symm
  subst e2; subst e3
  refine ⟨s1, s2, h1, h2, ?_, hb2.z_eq.trans hb1.z_eq⟩
  apply hT.step hd hp ht hb1 hb2
  · intro k
    rw [hc, beq_some_cast i2 k h0]
    by_cases h : k = i2.toNat <;> simp [h]
  · simp [hc]

theorem Tallied.increPair {wm : WordMatrix} {K : Nat} {c : Nat → Nat → Option Int} {s : Store}
    (hT : Tallied wm K c s) {d p : Nat} {i : Int} {t : String}
    (hc : c d p = none) (hz : s.zAt d p = some i) (h0 : 0 ≤ i) (hi : i < (K : Int))
    (ht : termAt wm d p = some t) :
    ∃ s1 s2, IncreDocTopic s d p = Except.ok s1 ∧ IncreTopicTerm s1 d p wm = Except.ok s2 ∧
      Tallied wm K (setCounted c d p (some i)) s2 ∧
      s2.topic_index_Zmn = s.topic_index_Zmn := by
  obtain ⟨hd, hp⟩ := termAt_bounds ht
  obtain ⟨s1, h1⟩ := IncreDocTopic_ok hT.shaped hz h0 hi hd
  obtain ⟨i1, hz1, _, hb1⟩ := IncreDocTopic_bump h1
  have e1 : i1 = i := by rw [hz] at hz1; exact (Option.some.inj hz1).symm
  subst e1
  have hz2 : s1.zAt d p = some i1 := by rw [Store.zAt_congr hb1.z_eq]; exact hz
  obtain ⟨s2, h2⟩ := IncreTopicTerm_ok (hb1.dims.shaped hT.shaped) hz2 ht h0 hi
  obtain ⟨i2, t2, hz3, ht2, _, hb2⟩ := IncreTopicTerm_bump h2
  have e2 : i2 = i1 := by rw [hz2] at hz3; exact (Option.some.inj hz3).symm
  have e3 : t2 = t := by rw [ht] at ht2; exact (Option.some.inj ht2).symm
  subst e2; subst e3
  refine ⟨s1, s2, h1, h2, ?_, hb2.z_eq.trans hb1.z_eq⟩
  apply hT.step hd hp ht hb1 hb2
  · intro k
    rw [hc, beq_some_cast i2 k h0]
    by_cases h : k = i2.toNat <;> simp [h]
  · simp [hc]

theorem ZValid.zAt_some {wm : WordMatrix} {K : Nat} {s : Store} (hZ : ZValid wm K s)
    {d p : Nat} (hd : d < wm.length) (hp : p < rowLen wm d) :
    ∃ i, s.zAt d p = some i ∧ 0 ≤ i ∧ i < (K : Int) := by
  have hd1 : d < s.topic_index_Zmn.length := by rw [hZ.len]; exact hd
  have hrow : s.topic_index_Zmn[d]? = some s.topic_index_Zmn[d] := List.getElem?_eq_getElem hd1
  have hlen := hZ.row d hd
  rw [hrow] at hlen
  simp only [Option.getD_some] at hlen
  have hp1 : p < s.topic_index_Zmn[d].length := by rw [hlen]; exact hp
  have hz : s.zAt d p = some s.topic_index_Zmn[d][p] :=
    (zAt_eq_some s d p _).mpr ⟨_, hrow, List.getElem?_eq_getElem hp1⟩
  exact ⟨_, hz, hZ.range d p _ hz⟩

theorem visit_eq_ok (sampler : Sampler) (V : Nat) (K : Int) (alpha beta : ℚ) (wm : WordMatrix)
    (d : Nat) (r : Run) (p : Nat) (r1 : Run) :
    visit sampler V K alpha beta wm d r p = Except.ok r1 ↔
      ∃ s1 s2 k s3 s4 s5 s6, DecreDocTopic r.store d p = Except.ok s1 ∧
        DecreTopicTerm s1 d p wm = Except.ok s2 ∧
        UpdateTopic (sampler r.calls.length) s2 d p V K alpha beta wm = Except.ok (k, s3) ∧
        assignTopic s3 d p k = Except.ok s4 ∧
        IncreDocTopic s4 d p = Except.ok s5 ∧
        IncreTopicTerm s5 d p wm = Except.ok s6 ∧
        r1 = ⟨s6, r.calls ++ [(d, p)]⟩ := by
  simp only [visit, bind_eq_ok, pure_eq_ok]
  constructor
  · rintro ⟨s1, h1, s2, h2, ⟨k, s3⟩, h3, s4, h4, s5, h5, s6, h6, h7⟩
    exact ⟨s1, s2, k, s3, s4, s5, s6, h1, h2, h3, h4, h5, h6, h7.symm⟩
  · rintro ⟨s1, s2, k, s3, s4, s5, s6, h1, h2, h3, h4, h5, h6, h7⟩
    exact ⟨s1, h1, s2, h2, (k, s3), h3, s4, h4, s5, h5, s6, h6, h7.symm⟩

theorem setCounted_setCounted (c : Nat → Nat → Option Int) (d p : Nat) (v w : Option Int) :
    setCounted (setCounted c d p v) d p w = setCounted c d p w := by
  funext m q
  simp only [setCounted]
  split <;> rfl

theorem visit_quiet {wm : WordMatrix} {K : Nat} {r : Run} (hQ : Quiet wm K r.store)
    {d p : Nat} (hd : d < wm.length) (hp : p < rowLen wm d) (sampler : Sampler)
    (hsamp : ∀ n v, 0 ≤ sampler n (K : Int) v ∧ sampler n (K : Int) v < (K : Int))
    (V : Nat) (alpha beta : ℚ) :
    ∃ r1, visit sampler V (K : Int) alpha beta wm d r p = Except.ok r1 ∧
      Quiet wm K r1.store ∧ r1.calls = r.calls ++ [(d, p)] := by
  obtain ⟨i, hz, h0, hi⟩ := hQ.zvalid.zAt_some hd hp
  obtain ⟨t, ht⟩ := termAt_of_bounds hd hp
  obtain ⟨s1, s2, h1, h2, hT2, hZ2⟩ := hQ.tallied.decrePair hz hz h0 hi ht
  have hz2 : s2.zAt d p = some i := by rw [Store.zAt_congr hZ2]; exact hz
  obtain ⟨⟨k, s3⟩, h3⟩ := UpdateTopic_ok hT2.shaped hd hz2 ht (sampler r.calls.length) V
    (K : Int) (by simp) alpha beta
  obtain ⟨hS3, v, hk⟩ := UpdateTopic_sameCounts h3
  simp only at hS3 hk
  have hT3 := hS3.tallied hT2
  have hkr := hsamp r.calls.length v
  rw [← hk] at hkr
  have hZ3 : s3.topic_index_Zmn = r.store.topic_index_Zmn := hS3.z_eq.trans hZ2
  obtain ⟨zrow, hrow, hold⟩ := (zAt_eq_some r.store d p i).mp hz
  have hrow3 : s3.topic_index_Zmn[d]? = some zrow := by rw [hZ3]; exact hrow
  have h4 := (assignTopic_eq_ok s3 _ d p k).mpr ⟨zrow, i, hrow3, hold, rfl⟩
  have hzAt4 := zAt_set s3 d p k zrow i hrow3 hold
  have hzAt3 : s3.zAt = r.store.zAt := by
    funext m q; exact Store.zAt_congr hZ3 m q
  rw [hzAt3] at hzAt4
  have hT4 : Tallied wm K (setCounted r.store.zAt d p none) { s3 with
      topic_index_Zmn := s3.topic_index_Zmn.set d (zrow.set p k) } :=
    hT3.of_tables rfl rfl rfl rfl
  have hz4 : Store.zAt { s3 with
      topic_index_Zmn := s3.topic_index_Zmn.set d (zrow.set p k) } d p = some k := by
    rw [hzAt4]; simp [setCounted]
  obtain ⟨s5, s6, h5, h6, hT6, hZ6⟩ := hT4.increPair (by simp [setCounted]) hz4 hkr.1 hkr.2 ht
  rw [setCounted_setCounted] at hT6
  have hzAt6 : s6.zAt = setCounted r.store.zAt d p (some k) := by
    funext m q
    rw [Store.zAt_congr hZ6, hzAt4]
  refine ⟨⟨s6, r.calls ++ [(d, p)]⟩, ?_, ⟨?_, ?_⟩, rfl⟩
  · exact (visit_eq_ok _ _ _ _ _ _ _ _ _ _).mpr
      ⟨s1, s2, k, s3, _, s5, s6, h1, h2, h3, h4, h5, h6, rfl⟩
  · have hZ := hQ.zvalid
    refine ⟨?_, ?_, ?_⟩
    · simp only [hZ6, List.length_set, hZ3]; exact hZ.len
    · intro m hm
      have := hZ.row m hm
      simp only [hZ6, hZ3, List.getElem?_set]
      by_cases hdm : d = m
      · subst hdm
        have hd1 : d < r.store.topic_index_Zmn.length := by rw [hZ.len]; exact hd
        rw [hrow] at this
        simpa [hd1] using this
      · simpa [hdm] using this
    · intro m q k1 hk1
      simp only [hzAt6, setCounted] at hk1
      split at hk1
      · have := Option.some.inj hk1
        rw [← this]; exact hkr
      · exact hZ.range m q k1 hk1
  · show Tallied wm K s6.zAt s6
    rw [hzAt6]; exact hT6

/-! ## Initialisation -/

theorem Tallied.congr {wm : WordMatrix} {K : Nat} {c c1 : Nat → Nat → Option Int} {s : Store}
    (hT : Tallied wm K c s)
    (hc : ∀ m q, m < wm.length → q < rowLen wm m → c1 m q = c m q) : Tallied wm K c1 s := by
  refine ⟨hT.shaped, ?_, ?_, ?_, ?_, hT.total_eq⟩
  · intro m k hm hk
    rw [hT.dtc_eq m k hm hk]
    congr 1
    exact (countRow_congr wm m _ _ (fun q hq => by simp only [hc m q hm hq])).symm
  · intro m hm
    rw [hT.dts_eq m hm]
    congr 1
    exact (countRow_congr wm m _ _ (fun q hq => by simp only [hc m q hm hq])).symm
  · intro k u hk
    rw [hT.ttc_eq k u hk]
    congr 1
    exact (countAll_congr wm _ _ (fun m q hm hq => by simp only [hc m q hm hq])).symm
  · intro k hk
    rw [hT.tts_eq k hk]
    congr 1
    exact (countAll_congr wm _ _ (fun m q hm hq => by simp only [hc m q hm hq])).symm

theorem mapM_vResizeInt (l : List (List Int)) (K : Int) (hK : 0 ≤ K) :
    l.mapM (fun vt => vResizeInt vt K 0) = Except.ok (l.map (fun vt => vResize vt K.toNat 0)) := by
  induction l with
  | nil => rfl
  | cons a rest ih =>
    rw [List.mapM_cons, ih]
    simp [vResizeInt, hK, bind, Except.bind, pure, Except.pure]

theorem InitCountVariables_empty (M K : Nat) :
    InitCountVariables Store.empty (M : Int) (K : Int) = Except.ok
      ⟨[], List.replicate M (List.replicate K 0), List.replicate M 0, List.replicate K [],
        List.replicate K 0⟩ := by
  have hK : (0 : Int) ≤ (K : Int) := Int.ofNat_nonneg K
  have e1 : vResizeInt ([] : List (List Int)) (M : Int) [] = Except.ok (List.replicate M []) := by
    simp [vResizeInt, vResize]
  have e2 : vResizeInt ([] : List Int) (M : Int) 0 = Except.ok (List.replicate M 0) := by
    simp [vResizeInt, vResize]
  have e3 : vResizeInt ([] : List TermMap) (K : Int) [] = Except.ok (List.replicate K []) := by
    simp [vResizeInt, vResize]
  have e4 : vResizeInt ([] : List Int) (K : Int) 0 = Except.ok (List.replicate K 0) := by
    simp [vResizeInt, vResize]
  have e5 : (List.replicate M ([] : List Int)).mapM (fun vt => vResizeInt vt (K : Int) 0)
      = Except.ok (List.replicate M (List.replicate K 0)) := by
    rw [mapM_vResizeInt _ _ hK]
    simp [vResize]
  unfold InitCountVariables
  show (vResizeInt ([] : List (List Int)) (M : Int) [] >>= fun dtc =>
    dtc.mapM (fun vt => vResizeInt vt (K : Int) 0) >>= fun dtc =>
    vResizeInt ([] : List Int) (M : Int) 0 >>= fun dts =>
    vResizeInt ([] : List TermMap) (K : Int) [] >>= fun ttc =>
    vResizeInt ([] : List Int) (K : Int) 0 >>= fun tts =>
    pure (⟨[], dtc, dts, ttc, tts⟩ : Store)) = _
  rw [e1]
  show ((List.replicate M ([] : List Int)).mapM (fun vt => vResizeInt vt (K : Int) 0) >>= _) = _
  rw [e5, e2, e3, e4]
  rfl

theorem length_generateRows (g : Nat → Int) (start : Nat) (lens : List Nat) :
    (generateRows g start lens).length = lens.length := by
  induction lens generalizing start with
  | nil => rfl
  | cons a rest ih => simp [generateRows, ih]

theorem getElem?_generateRows (g : Nat → Int) (start : Nat) (lens : List Nat) (m : Nat)
    (row : List Int) (h : (generateRows g start lens)[m]? = some row) :
    ∃ len st, lens[m]? = some len ∧ row = (List.range len).map (fun j => g (st + j)) := by
  induction lens generalizing start m with
  | nil => simp [generateRows] at h
  | cons a rest ih =>
    cases m with
    | zero =>
      simp only [generateRows, List.getElem?_cons_zero, Option.some.injEq] at h
      exact ⟨a, start, by simp, h.symm⟩
    | succ m =>
      simp only [generateRows, List.getElem?_cons_succ] at h
      obtain ⟨len, st, h1, h2⟩ := ih (start + a) m h
      exact ⟨len, st, by simpa using h1, h2⟩

theorem zValid_generateRows (wm : WordMatrix) (K : Nat) (g : Nat → Int)
    (hg : ∀ n, 0 ≤ g n ∧ g n < (K : Int)) (s : Store)
    (hz : s.topic_index_Zmn = generateRows g 0 (wm.map List.length)) : ZValid wm K s := by
  refine ⟨?_, ?_, ?_⟩
  · rw [hz, length_generateRows, List.length_map]
  · intro m hm
    have hm1 : m < (generateRows g 0 (wm.map List.length)).length := by
      rw [length_generateRows, List.length_map]; exact hm
    have hrow := List.getElem?_eq_getElem hm1
    obtain ⟨len, st, h1, h2⟩ := getElem?_generateRows g 0 _ m _ hrow
    rw [hz, hrow, Option.getD_some, h2]
    simp only [List.getElem?_map] at h1
    have hw : wm[m]? = some wm[m] := List.getElem?_eq_getElem hm
    rw [hw] at h1
    simp only [Option.map_some', Option.some.injEq] at h1
    simp [rowLen, hw, h1]
  · intro m p k hk
    obtain ⟨row, h1, h2⟩ := (zAt_eq_some s m p k).mp hk
    rw [hz] at h1
    obtain ⟨len, st, _, h4⟩ := getElem?_generateRows g 0 _ m _ h1
    rw [h4] at h2
    have hmem := List.getElem?_mem h2
    obtain ⟨j, _, hj⟩ := List.mem_map.mp hmem
    rw [← hj]; exact hg _

theorem tallied_zero (wm : WordMatrix) (K : Nat) (z : List (List Int)) :
    Tallied wm K (fun _ _ => none)
      ⟨z, List.replicate wm.length (List.replicate K 0), List.replicate wm.length 0,
        List.replicate K [], List.replicate K 0⟩ := by
  refine ⟨⟨by simp, ?_, by simp, by simp, by simp⟩, ?_, ?_, ?_, ?_, ?_⟩
  · intro row hrow
    rw [List.eq_of_mem_replicate hrow]; simp
  · intro m k hm hk
    simp [Store.dtc, List.getElem?_replicate, hm, hk, countRow]
  · intro m hm
    simp [Store.dts, List.getElem?_replicate, hm, countRow]
  · intro k u hk
    simp [Store.ttc, Store.ttcMap, List.getElem?_replicate, hk, countAll, countRow,
      TermMap.read]
  · intro k hk
    simp [Store.tts, List.getElem?_replicate, hk, countAll, countRow]
  · intro k hk
    simp [Store.tts, Store.ttcMap, List.getElem?_replicate, hk, TermMap.total]

theorem initDoc_tallied {wm : WordMatrix} {K : Nat} {s0 s : Store} (hZ : ZValid wm K s0)
    {d : Nat} (hd : d < wm.length) (hzs : s.topic_index_Zmn = s0.topic_index_Zmn)
    (hT : Tallied wm K (countedBefore s0.zAt d 0) s) :
    ∃ s1, initDoc wm s d = Except.ok s1 ∧ s1.topic_index_Zmn = s0.topic_index_Zmn ∧
      Tallied wm K (countedBefore s0.zAt (d + 1) 0) s1 := by
  have hd1 : d < s.topic_index_Zmn.length := by rw [hzs, hZ.len]; exact hd
  have hrow : s.topic_index_Zmn[d]? = some s.topic_index_Zmn[d] := List.getElem?_eq_getElem hd1
  have hlen : s.topic_index_Zmn[d].length = rowLen wm d := by
    have := hZ.row d hd
    rw [← hzs, hrow] at this
    simpa using this
  have hvat : vAt s.topic_index_Zmn d = Except.ok s.topic_index_Zmn[d] :=
    (vAt_eq_ok _ _ _).mpr hrow
  obtain ⟨s1, h1, hz1, hT1⟩ := foldlM_range_inv
    (fun p (x : Store) => x.topic_index_Zmn = s0.topic_index_Zmn ∧
      Tallied wm K (countedBefore s0.zAt d p) x)
    (fun s index_word => do
      let s ← IncreDocTopic s d index_word
      IncreTopicTerm s d index_word wm)
    (rowLen wm d)
    (by
      intro p x hp ⟨hzx, hTx⟩
      obtain ⟨i, hz, h0, hi⟩ := hZ.zAt_some hd hp
      obtain ⟨t, ht⟩ := termAt_of_bounds hd hp
      have hzx1 : x.zAt d p = some i := by rw [Store.zAt_congr hzx]; exact hz
      obtain ⟨x1, x2, e1, e2, hT2, hz2⟩ :=
        hTx.increPair (by simp [countedBefore]) hzx1 h0 hi ht
      refine ⟨x2, ?_, hz2.trans hzx, hT2.congr ?_⟩
      · simp only [bind_eq_ok]; exact ⟨x1, e1, e2⟩
      · intro m q _ _
        simp only [countedBefore, setCounted]
        by_cases hmq : m = d ∧ q = p
        · obtain ⟨rfl, rfl⟩ := hmq
          simp [hz]
        · simp only [hmq, if_false]
          have : (m < d ∨ m = d ∧ q < p + 1) ↔ (m < d ∨ m = d ∧ q < p) := by
            constructor
            · rintro (h | ⟨h1, h2⟩)
              · exact Or.inl h
              · exact Or.inr ⟨h1, by
                  rcases Nat.lt_succ_iff_lt_or_eq.mp h2 with h3 | h3
                  · exact h3
                  · exact absurd ⟨h1, h3⟩ hmq⟩
            · rintro (h | ⟨h1, h2⟩)
              · exact Or.inl h
              · exact Or.inr ⟨h1, Nat.lt_succ_of_lt h2⟩
          simp only [this])
    s ⟨hzs, hT⟩
  refine ⟨s1, ?_, hz1, hT1.congr ?_⟩
  · simp only [initDoc, hvat, bind, Except.bind, hlen]
    exact h1
  · intro m q _ hq
    simp only [countedBefore]
    have : (m < d + 1 ∨ m = d + 1 ∧ q < 0) ↔ (m < d ∨ m = d ∧ q < rowLen wm d) := by
      constructor
      · rintro (h | ⟨_, h2⟩)
        · rcases Nat.lt_succ_iff_lt_or_eq.mp h with h3 | h3
          · exact Or.inl h3
          · subst h3; exact Or.inr ⟨rfl, hq⟩
        · exact absurd h2 (Nat.not_lt_zero q)
      · rintro (h | ⟨h1, _⟩)
        · exact Or.inl (Nat.lt_succ_of_lt h)
        · exact Or.inl (by rw [h1]; exact Nat.lt_succ_self d)
    simp only [this]

theorem InitSampling_quiet (RAND_MAX : Nat) (rand : Nat → Nat) (K : Nat) (wm : WordMatrix)
    (hdraw : ∀ n, 0 ≤ initTopicDraw RAND_MAX (K : Int) (rand n) ∧
      initTopicDraw RAND_MAX (K : Int) (rand n) < (K : Int)) :
    ∃ s, InitSampling RAND_MAX rand Store.empty (wm.length : Int) (K : Int) wm = Except.ok s ∧
      Quiet wm K s ∧
      s.topic_index_Zmn = generateRows (fun n => initTopicDraw RAND_MAX (K : Int) (rand n)) 0
        (wm.map List.length) := by
  let g : Nat → Int := fun n => initTopicDraw RAND_MAX (K : Int) (rand n)
  let s0 : Store := ⟨generateRows g 0 (wm.map List.length),
    List.replicate wm.length (List.replicate K 0), List.replicate wm.length 0,
    List.replicate K [], List.replicate K 0⟩
  have hZ0 : ZValid wm K s0 := zValid_generateRows wm K g hdraw s0 rfl
  have hT0 : Tallied wm K (countedBefore s0.zAt 0 0) s0 :=
    (tallied_zero wm K _).congr (fun m q _ _ => by simp [countedBefore])
  obtain ⟨s1, h1, hz1, hT1⟩ := foldlM_range_inv
    (fun d (x : Store) => x.topic_index_Zmn = s0.topic_index_Zmn ∧
      Tallied wm K (countedBefore s0.zAt d 0) x)
    (initDoc wm) wm.length
    (fun d x hd ⟨hzx, hTx⟩ => initDoc_tallied hZ0 hd hzx hTx)
    s0 ⟨rfl, hT0⟩
  have hzAt : s1.zAt = s0.zAt := by
    funext m q; exact Store.zAt_congr hz1 m q
  have hQ : Quiet wm K s1 := by
    refine ⟨⟨?_, ?_, ?_⟩, ?_⟩
    · rw [hz1]; exact hZ0.len
    · intro m hm; rw [hz1]; exact hZ0.row m hm
    · intro m p k hk; rw [hzAt] at hk; exact hZ0.range m p k hk
    · rw [hzAt]
      exact hT1.congr (fun m q hm _ => by simp [countedBefore, hm])
  refine ⟨s1, ?_, hQ, hz1⟩
  have hguard : ¬ (0 = (wm.length : Int) ∧ (wm.length : Int) ≠ (wm.length : Int)) := by
    rintro ⟨_, h⟩; exact h rfl
  have hlen0 : s0.topic_index_Zmn.length = wm.length := hZ0.len
  have e2 : InitTopicIndex RAND_MAX rand
      ⟨[], List.replicate wm.length (List.replicate K 0), List.replicate wm.length 0,
        List.replicate K [], List.replicate K 0⟩ (wm.length : Int) (K : Int) wm
      = Except.ok s0 := by
    have hM : (0 : Int) ≤ (wm.length : Int) := Int.ofNat_nonneg _
    simp [InitTopicIndex, vResizeInt, hM, vResize, bind, Except.bind, pure, Except.pure, s0, g]
  unfold InitSampling
  rw [if_neg hguard, InitCountVariables_empty]
  show (InitTopicIndex RAND_MAX rand _ (wm.length : Int) (K : Int) wm >>= _) = _
  rw [e2]
  show (List.range s0.topic_index_Zmn.length).foldlM (initDoc wm) s0 = _
  rw [hlen0]
  exact h1

/-! ## Reachable states -/

theorem Reachable.quiet {RAND_MAX : Nat} {rand : Nat → Nat} {sampler : Sampler} {K V : Nat}
    {alpha beta : ℚ} {wm : WordMatrix}
    (hdraw : ∀ n, 0 ≤ initTopicDraw RAND_MAX (K : Int) (rand n) ∧
      initTopicDraw RAND_MAX (K : Int) (rand n) < (K : Int))
    (hsamp : ∀ n v, 0 ≤ sampler n (K : Int) v ∧ sampler n (K : Int) v < (K : Int))
    {r : Run} (hr : Reachable RAND_MAX rand sampler (K : Int) V alpha beta wm r) :
    Quiet wm K r.store := by
  induction hr with
  | init s h =>
    obtain ⟨s1, h1, hQ, _⟩ := InitSampling_quiet RAND_MAX rand K wm hdraw
    rw [h] at h1
    cases h1
    exact hQ
  | visit r r1 d p _ h ih =>
    obtain ⟨s1, s2, k, s3, s4, s5, s6, _, h2, _⟩ := (visit_eq_ok _ _ _ _ _ _ _ _ _ _).mp h
    obtain ⟨_, t, _, ht, _⟩ := DecreTopicTerm_bump h2
    obtain ⟨hd, hp⟩ := termAt_bounds ht
    obtain ⟨r2, h3, hQ, _⟩ := visit_quiet ih hd hp sampler hsamp V alpha beta
    rw [h] at h3
    cases h3
    exact hQ

theorem sweepDoc_reachable {RAND_MAX : Nat} {rand : Nat → Nat} {sampler : Sampler} {K V : Nat}
    {alpha beta : ℚ} {wm : WordMatrix}
    (hdraw : ∀ n, 0 ≤ initTopicDraw RAND_MAX (K : Int) (rand n) ∧
      initTopicDraw RAND_MAX (K : Int) (rand n) < (K : Int))
    (hsamp : ∀ n v, 0 ≤ sampler n (K : Int) v ∧ sampler n (K : Int) v < (K : Int))
    {r : Run} (hr : Reachable RAND_MAX rand sampler (K : Int) V alpha beta wm r)
    {d : Nat} (hd : d < wm.length) :
    ∃ r1, sweepDoc sampler V (K : Int) alpha beta wm r d = Except.ok r1 ∧
      Reachable RAND_MAX rand sampler (K : Int) V alpha beta wm r1 := by
  have hw : wm[d]? = some wm[d] := List.getElem?_eq_getElem hd
  have hvat : vAt wm d = Except.ok wm[d] := (vAt_eq_ok _ _ _).mpr hw
  have hlen : wm[d].length = rowLen wm d := by simp [rowLen, hw]
  obtain ⟨r1, h1, hr1⟩ := foldlM_range_inv
    (fun _ (x : Run) => Reachable RAND_MAX rand sampler (K : Int) V alpha beta wm x)
    (visit sampler V (K : Int) alpha beta wm d) (rowLen wm d)
    (by
      intro p x hp hx
      obtain ⟨x1, e1, _, _⟩ := visit_quiet (hx.quiet hdraw hsamp) hd hp sampler hsamp V alpha beta
      exact ⟨x1, e1, Reachable.visit x x1 d p hx e1⟩)
    r hr
  refine ⟨r1, ?_, hr1⟩
  simp only [sweepDoc, hvat, bind, Except.bind, hlen]
  exact h1

theorem sweep_reachable {RAND_MAX : Nat} {rand : Nat → Nat} {sampler : Sampler} {K V : Nat}
    {alpha beta : ℚ} {wm : WordMatrix}
    (hdraw : ∀ n, 0 ≤ initTopicDraw RAND_MAX (K : Int) (rand n) ∧
      initTopicDraw RAND_MAX (K : Int) (rand n) < (K : Int))
    (hsamp : ∀ n v, 0 ≤ sampler n (K : Int) v ∧ sampler n (K : Int) v < (K : Int))
    {r : Run} (hr : Reachable RAND_MAX rand sampler (K : Int) V alpha beta wm r) :
    ∃ r1, sweep sampler V (K : Int) alpha beta wm r = Except.ok r1 ∧
      Reachable RAND_MAX rand sampler (K : Int) V alpha beta wm r1 :=
  foldlM_range_inv
    (fun _ (x : Run) => Reachable RAND_MAX rand sampler (K : Int) V alpha beta wm x)
    (sweepDoc sampler V (K : Int) alpha beta wm) wm.length
    (fun _ _ hd hx => sweepDoc_reachable hdraw hsamp hx hd) r hr

theorem sweeps_reachable {RAND_MAX : Nat} {rand : Nat → Nat} {sampler : Sampler} {K V : Nat}
    {alpha beta : ℚ} {wm : WordMatrix}
    (hdraw : ∀ n, 0 ≤ initTopicDraw RAND_MAX (K : Int) (rand n) ∧
      initTopicDraw RAND_MAX (K : Int) (rand n) < (K : Int))
    (hsamp : ∀ n v, 0 ≤ sampler n (K : Int) v ∧ sampler n (K : Int) v < (K : Int))
    (n : Nat) {r : Run} (hr : Reachable RAND_MAX rand sampler (K : Int) V alpha beta wm r) :
    ∃ r1, sweeps sampler V (K : Int) alpha beta wm n r = Except.ok r1 ∧
      Reachable RAND_MAX rand sampler (K : Int) V alpha beta wm r1 := by
  induction n generalizing r with
  | zero => exact ⟨r, rfl, hr⟩
  | succ n ih =>
    obtain ⟨r1, h1, hr1⟩ := sweep_reachable hdraw hsamp hr
    obtain ⟨r2, h2, hr2⟩ := ih hr1
    refine ⟨r2, ?_, hr2⟩
    simp only [sweeps, bind_eq_ok]
    exact ⟨r1, h1, h2⟩

theorem GibbsSampling_reachable {RAND_MAX : Nat} {rand : Nat → Nat} {sampler : Sampler}
    {K : Nat} (V : Nat) (alpha beta : ℚ) (wm : WordMatrix)
    (hdraw : ∀ n, 0 ≤ initTopicDraw RAND_MAX (K : Int) (rand n) ∧
      initTopicDraw RAND_MAX (K : Int) (rand n) < (K : Int))
    (hsamp : ∀ n v, 0 ≤ sampler n (K : Int) v ∧ sampler n (K : Int) v < (K : Int))
    (iter_num : Int) :
    ∃ r, GibbsSampling RAND_MAX rand sampler Store.empty (wm.length : Int) (K : Int) V alpha
        beta iter_num wm = Except.ok r ∧
      Reachable RAND_MAX rand sampler (K : Int) V alpha beta wm r := by
  obtain ⟨s, h1, _, _⟩ := InitSampling_quiet RAND_MAX rand K wm hdraw
  obtain ⟨r, h2, hr⟩ := sweeps_reachable hdraw hsamp iter_num.toNat
    (@Reachable.init RAND_MAX rand sampler (K : Int) V alpha beta wm s h1)
  refine ⟨r, ?_, hr⟩
  simp only [GibbsSampling, bind_eq_ok]
  exact ⟨s, h1, h2⟩

/-! ## Sums over topics -/

theorem sum_range_indicator (K j : Nat) :
    ((List.range K).map (fun k => if k = j then 1 else 0)).sum = if j < K then 1 else 0 := by
  induction K with
  | zero => simp
  | succ K ih =>
    rw [List.range_succ, List.map_append, List.sum_append, ih]
    by_cases h : j < K
    · have : ¬ K = j := by omega
      have h2 : j < K + 1 := by omega
      simp [h, this, h2]
    · by_cases h3 : K = j
      · subst h3; simp
      · have h2 : ¬ j < K + 1 := by omega
        simp [h, h3, h2]

theorem sum_range_swap (a : Nat → Nat → Nat) (K M : Nat) :
    ((List.range K).map (fun k => ((List.range M).map (fun m => a k m)).sum)).sum
      = ((List.range M).map (fun m => ((List.range K).map (fun k => a k m)).sum)).sum := by
  induction K with
  | zero => simp
  | succ K ih =>
    rw [List.range_succ, List.map_append, List.sum_append, ih]
    simp only [List.map_cons, List.map_nil, List.sum_cons, List.sum_nil, add_zero,
      List.map_append, List.sum_append]
    rw [List.sum_map_add]

theorem countP_sum_topics (f : Nat → Option Int) (n K : Nat)
    (hf : ∀ p i, p < n → f p = some i → 0 ≤ i ∧ i < (K : Int)) :
    ((List.range K).map
        (fun k : Nat => (List.range n).countP (fun p => f p == some (k : Int)))).sum
      = (List.range n).countP (fun p => (f p).isSome) := by
  induction n with
  | zero => simp
  | succ n ih =>
    have ih1 := ih (fun p i hp => hf p i (Nat.lt_succ_of_lt hp))
    simp only [List.range_succ, List.countP_append, List.countP_cons, List.countP_nil,
      zero_add]
    rw [List.sum_map_add, ih1]
    congr 1
    cases hfn : f n with
    | none => simp
    | some i =>
      obtain ⟨h0, hi⟩ := hf n i (Nat.lt_succ_self n) hfn
      have : ∀ k : Nat, (if (some i == some (k : Int)) = true then 1 else 0)
          = if k = i.toNat then 1 else 0 := by
        intro k
        by_cases hk : k = i.toNat
        · have e : i = (k : Int) := by omega
          subst e; simp
        · have e : ¬ i = (k : Int) := by omega
          simp [hk, e]
      simp only [this, sum_range_indicator, Option.isSome_some, if_true]
      have : i.toNat < K := by omega
      simp [this]

theorem list_sum_eq_range (l : List Int) :
    l.sum = ((List.range l.length).map (fun k => (l[k]?).getD 0)).sum := by
  induction l using List.reverseRecOn with
  | nil => simp
  | append_singleton l a ih =>
    rw [List.sum_append, List.length_append, List.length_singleton, List.range_succ,
      List.map_append, List.sum_append, ih]
    congr 1
    · congr 1
      apply List.map_congr_left
      intro k hk
      rw [List.getElem?_append_left (List.mem_range.mp hk)]
    · simp

theorem nat_sum_eq_range (l : List Nat) :
    l.sum = ((List.range l.length).map (fun k => (l[k]?).getD 0)).sum := by
  induction l using List.reverseRecOn with
  | nil => simp
  | append_singleton l a ih =>
    rw [List.sum_append, List.length_append, List.length_singleton, List.range_succ,
      List.map_append, List.sum_append, ih]
    congr 1
    · congr 1
      apply List.map_congr_left
      intro k hk
      rw [List.getElem?_append_left (List.mem_range.mp hk)]
    · simp

theorem numTokens_eq (wm : WordMatrix) :
    numTokens wm = ((List.range wm.length).map (fun m => rowLen wm m)).sum := by
  unfold numTokens
  rw [nat_sum_eq_range, List.length_map]
  congr 1
  apply List.map_congr_left
  intro m hm
  have hm1 : m < wm.length := List.mem_range.mp hm
  have hw : wm[m]? = some wm[m] := List.getElem?_eq_getElem hm1
  simp [rowLen, hw]

/-! ## Consequences of the tallies -/

theorem Quiet.countRow_isSome {wm : WordMatrix} {K : Nat} {s : Store} (hQ : Quiet wm K s)
    {m : Nat} (hm : m < wm.length) :
    countRow wm m (fun p => (s.zAt m p).isSome) = rowLen wm m := by
  rw [← countRow_true wm m]
  apply countRow_congr
  intro q hq
  obtain ⟨i, hi, _⟩ := hQ.zvalid.zAt_some hm hq
  simp [hi]

theorem Quiet.dts_len {wm : WordMatrix} {K : Nat} {s : Store} (hQ : Quiet wm K s)
    {m : Nat} (hm : m < wm.length) :
    s.doc_topic_sum[m]? = some (rowLen wm m : Int) := by
  obtain ⟨n, hn⟩ := hQ.tallied.shaped.dts_cell hm
  have h1 := hQ.tallied.dts_eq m hm
  rw [hQ.countRow_isSome hm] at h1
  simp only [Store.dts, hn, Option.getD_some] at h1
  rw [hn, h1]

theorem Quiet.dtc_tally {wm : WordMatrix} {K : Nat} {s : Store} (hQ : Quiet wm K s)
    {m k : Nat} (hm : m < wm.length) (hk : k < K) :
    ∃ row, s.doc_topic_count[m]? = some row ∧ row.length = K ∧
      row[k]? = some ((countRow wm m (fun p => s.zAt m p == some (k : Int)) : Nat) : Int) := by
  obtain ⟨row, c, hrow, hc⟩ := hQ.tallied.shaped.dtc_cell hm hk
  have h1 := hQ.tallied.dtc_eq m k hm hk
  simp only [Store.dtc, hrow, Option.some_bind, hc, Option.getD_some] at h1
  exact ⟨row, hrow, hQ.tallied.shaped.dtc_row row (List.getElem?_mem hrow), by rw [hc, h1]⟩

theorem Quiet.doc_row_sum {wm : WordMatrix} {K : Nat} {s : Store} (hQ : Quiet wm K s)
    {m : Nat} (hm : m < wm.length) :
    ∃ row, s.doc_topic_count[m]? = some row ∧ row.sum = (rowLen wm m : Int) := by
  obtain ⟨row, c, hrow, _⟩ : ∃ row c, s.doc_topic_count[m]? = some row ∧ c = row.length :=
    ⟨_, _, List.getElem?_eq_getElem (by rw [hQ.tallied.shaped.dtc_len]; exact hm), rfl⟩
  have hlen : row.length = K := hQ.tallied.shaped.dtc_row row (List.getElem?_mem hrow)
  refine ⟨row, hrow, ?_⟩
  rw [list_sum_eq_range, hlen]
  have h1 : (List.range K).map (fun k => (row[k]?).getD 0)
      = (List.range K).map (fun k : Nat =>
          ((countRow wm m (fun p => s.zAt m p == some (k : Int)) : Nat) : Int)) := by
    apply List.map_congr_left
    intro k hk
    have := hQ.tallied.dtc_eq m k hm (List.mem_range.mp hk)
    simpa [Store.dtc, hrow] using this
  rw [h1]
  have h2 := countP_sum_topics (fun p => s.zAt m p) (rowLen wm m) K
    (fun p i _ hpi => hQ.zvalid.range m p i hpi)
  have h3 := hQ.countRow_isSome hm
  simp only [countRow] at h3
  rw [h3] at h2
  have h5 : ((List.range K).map (fun k : Nat =>
      ((countRow wm m (fun p => s.zAt m p == some (k : Int)) : Nat) : Int))).sum
      = (((List.range K).map (fun k : Nat =>
          countRow wm m (fun p => s.zAt m p == some (k : Int)))).sum : Nat) := by
    rw [Nat.cast_list_sum, List.map_map]
    rfl
  rw [h5]
  exact congrArg Nat.cast h2

theorem Quiet.topic_cells {wm : WordMatrix} {K : Nat} {s : Store} (hQ : Quiet wm K s)
    {k : Nat} (hk : k < K) :
    ∃ tm, s.topic_term_count[k]? = some tm ∧
      s.topic_term_sum[k]? = some tm.total ∧
      tm.total = ((countAll wm (fun m p => s.zAt m p == some (k : Int)) : Nat) : Int) ∧
      ∀ t, tm.read t = ((countAll wm
        (fun m p => s.zAt m p == some (k : Int) && termAt wm m p == some t) : Nat) : Int) := by
  obtain ⟨tm, htm⟩ := hQ.tallied.shaped.ttc_cell hk
  obtain ⟨n, hn⟩ := hQ.tallied.shaped.tts_cell hk
  have h1 := hQ.tallied.total_eq k hk
  have h2 := hQ.tallied.tts_eq k hk
  simp only [Store.ttcMap, htm, Option.getD_some, Store.tts, hn] at h1 h2
  refine ⟨tm, htm, by rw [hn, h1], by rw [h1, h2], ?_⟩
  intro t
  have h3 := hQ.tallied.ttc_eq k t hk
  simpa [Store.ttc, Store.ttcMap, htm] using h3

theorem countAll_sum_topics {wm : WordMatrix} {K : Nat} {s : Store} (hQ : Quiet wm K s) :
    ((List.range K).map
        (fun k : Nat => countAll wm (fun m p => s.zAt m p == some (k : Int)))).sum
      = numTokens wm := by
  unfold countAll
  rw [sum_range_swap (fun k m => countRow wm m (fun p => s.zAt m p == some (k : Int))),
    numTokens_eq]
  congr 1
  apply List.map_congr_left
  intro m hm
  have hm1 : m < wm.length := List.mem_range.mp hm
  have h2 := countP_sum_topics (fun p => s.zAt m p) (rowLen wm m) K
    (fun p i _ hpi => hQ.zvalid.range m p i hpi)
  have h3 := hQ.countRow_isSome hm1
  simp only [countRow] at h3 ⊢
  rw [h2, h3]

theorem Quiet.tts_sum {wm : WordMatrix} {K : Nat} {s : Store} (hQ : Quiet wm K s) :
    s.topic_term_sum.sum = (numTokens wm : Int) := by
  rw [list_sum_eq_range, hQ.tallied.shaped.tts_len, ← countAll_sum_topics hQ,
    Nat.cast_list_sum, List.map_map]
  apply congrArg
  apply List.map_congr_left
  intro k hk
  have := hQ.tallied.tts_eq k (List.mem_range.mp hk)
  simpa [Store.tts] using this

/-! ## The count invariants (C1 to C4) -/

theorem Quiet.docCountInvariant {wm : WordMatrix} {K : Nat} {s : Store} (hQ : Quiet wm K s) :
    DocCountInvariant wm s := by
  intro m ws hws
  obtain ⟨hm, _⟩ := List.getElem?_eq_some_iff.mp hws
  have hlen : rowLen wm m = ws.length := by simp [rowLen, hws]
  obtain ⟨row, hrow, hsum⟩ := hQ.doc_row_sum hm
  have hdts := hQ.dts_len hm
  rw [hlen] at hsum hdts
  exact ⟨row, hrow, hsum, hdts⟩

theorem Quiet.topicTermInvariant {wm : WordMatrix} {K : Nat} {s : Store} (hQ : Quiet wm K s) :
    TopicTermInvariant K s := by
  intro k hk
  obtain ⟨tm, h1, h2, _⟩ := hQ.topic_cells hk
  exact ⟨tm, tm.total, h1, h2, rfl⟩

theorem Quiet.talliesOfZ {wm : WordMatrix} {K : Nat} {s : Store} (hQ : Quiet wm K s) :
    TalliesOfZ wm K s := by
  refine ⟨?_, ?_⟩
  · intro m k hm hk
    obtain ⟨row, h1, _, h2⟩ := hQ.dtc_tally hm hk
    exact ⟨row, h1, h2⟩
  · intro k hk
    obtain ⟨tm, h1, h2, h3, h4⟩ := hQ.topic_cells hk
    exact ⟨tm, h1, h4, by rw [h2, h3]⟩

theorem demoRand_inRange : DrawsInRange demoRandMax 2 demoRand := by
  intro n
  unfold demoRand demoRandMax initTopicDraw
  by_cases h : n % 2 = 0
  · simp only [h, if_true]; decide
  · simp only [h, if_false]; decide

theorem demoSampler_inRange : SamplerInRange 2 demoSampler := by
  intro n v
  unfold demoSampler
  by_cases h : n % 2 = 0
  · simp only [h, if_true]; decide
  · simp only [h, if_false]; decide

/-- C1. Document count invariant over reachable states: with initial topics and sampler
results in `[0, K)`, in every state reached from the empty tables by `InitSampling` and any
number of complete visits, and in the state `GibbsSampling` returns for any iteration count,
every document `m` has `sum_k doc_topic_count[m][k] = doc_topic_sum[m] = length(word_matrix[m])`. -/
theorem doc_count_invariant (RAND_MAX : Nat) (rand : Nat → Nat) (sampler : Sampler)
    (K V : Nat) (alpha beta : ℚ) (wm : WordMatrix)
    (hdraw : DrawsInRange RAND_MAX K rand) (hsamp : SamplerInRange K sampler) :
    (∀ r, Reachable RAND_MAX rand sampler (K : Int) V alpha beta wm r →
      DocCountInvariant wm r.store) ∧
    (∀ iter_num : Int, ∃ r,
      GibbsSampling RAND_MAX rand sampler Store.empty (wm.length : Int) (K : Int) V alpha beta
        iter_num wm = Except.ok r ∧ DocCountInvariant wm r.store) := by
  refine ⟨fun r hr => (hr.quiet hdraw hsamp).docCountInvariant, fun iter_num => ?_⟩
  obtain ⟨r, h, hr⟩ := GibbsSampling_reachable V alpha beta wm hdraw hsamp iter_num
  exact ⟨r, h, (hr.quiet hdraw hsamp).docCountInvariant⟩

/-- C1, Scenario B: the alternating draws and sampler stay in `[0, 2)`, and the document count
invariant follows for the two documents `[a, b]` and `[a, a]`. -/
theorem doc_count_invariant_witness :
    DrawsInRange demoRandMax 2 demoRand ∧ SamplerInRange 2 demoSampler ∧
    ((∀ r, Reachable demoRandMax demoRand demoSampler ((2 : Nat) : Int) 2 (1 / 10) (1 / 10)
        scenarioB r → DocCountInvariant scenarioB r.store) ∧
      (∀ iter_num : Int, ∃ r,
        GibbsSampling demoRandMax demoRand demoSampler Store.empty (scenarioB.length : Int)
          ((2 : Nat) : Int) 2 (1 / 10) (1 / 10) iter_num scenarioB = Except.ok r ∧
        DocCountInvariant scenarioB r.store)) :=
  ⟨demoRand_inRange, demoSampler_inRange,
    doc_count_invariant demoRandMax demoRand demoSampler 2 2 (1 / 10) (1 / 10) scenarioB
      demoRand_inRange demoSampler_inRange⟩

/-- C2. Topic-term count invariant over reachable states: with initial topics and sampler
results in `[0, K)`, in every state reached from the empty tables by `InitSampling` and any
number of complete visits, and in the state `GibbsSampling` returns, for every topic `k` the
counts of the terms stored in `topic_term_count[k]` add up to `topic_term_sum[k]`. -/
theorem topic_term_invariant (RAND_MAX : Nat) (rand : Nat → Nat) (sampler : Sampler)
    (K V : Nat) (alpha beta : ℚ) (wm : WordMatrix)
    (hdraw : DrawsInRange RAND_MAX K rand) (hsamp : SamplerInRange K sampler) :
    (∀ r, Reachable RAND_MAX rand sampler (K : Int) V alpha beta wm r →
      TopicTermInvariant K r.store) ∧
    (∀ iter_num : Int, ∃ r,
      GibbsSampling RAND_MAX rand sampler Store.empty (wm.length : Int) (K : Int) V alpha beta
        iter_num wm = Except.ok r ∧ TopicTermInvariant K r.store) := by
  refine ⟨fun r hr => (hr.quiet hdraw hsamp).topicTermInvariant, fun iter_num => ?_⟩
  obtain ⟨r, h, hr⟩ := GibbsSampling_reachable V alpha beta wm hdraw hsamp iter_num
  exact ⟨r, h, (hr.quiet hdraw hsamp).topicTermInvariant⟩

/-- C2, Scenario B: the alternating draws and sampler stay in `[0, 2)`, and the topic-term
invariant follows for both topics. -/
theorem topic_term_invariant_witness :
    DrawsInRange demoRandMax 2 demoRand ∧ SamplerInRange 2 demoSampler ∧
    ((∀ r, Reachable demoRandMax demoRand demoSampler ((2 : Nat) : Int) 2 (1 / 10) (1 / 10)
        scenarioB r → TopicTermInvariant 2 r.store) ∧
      (∀ iter_num : Int, ∃ r,
        GibbsSampling demoRandMax demoRand demoSampler Store.empty (scenarioB.length : Int)
          ((2 : Nat) : Int) 2 (1 / 10) (1 / 10) iter_num scenarioB = Except.ok r ∧
        TopicTermInvariant 2 r.store)) :=
  ⟨demoRand_inRange, demoSampler_inRange,
    topic_term_invariant demoRandMax demoRand demoSampler 2 2 (1 / 10) (1 / 10) scenarioB
      demoRand_inRange demoSampler_inRange⟩

/-- C3. Initializer postcondition: with initial topics in `[0, K)`, `InitSampling` on the empty
tables returns a store whose `Z` holds the draws in row-major order, with
`doc_topic_sum[m] = length(word_matrix[m])` for every document, `topic_term_sum[k]` equal to
the number of tokens whose initial topic is `k` for every topic, and the entries of
`topic_term_sum` adding up to the number of tokens of the corpus. -/
theorem init_postcondition (RAND_MAX : Nat) (rand : Nat → Nat) (K : Nat) (wm : WordMatrix)
    (hdraw : DrawsInRange RAND_MAX K rand) :
    ∃ s, InitSampling RAND_MAX rand Store.empty (wm.length : Int) (K : Int) wm = Except.ok s ∧
      s.topic_index_Zmn = generateRows (fun n => initTopicDraw RAND_MAX (K : Int) (rand n)) 0
        (wm.map List.length) ∧
      (∀ (m : Nat) (ws : List String), wm[m]? = some ws → s.doc_topic_sum[m]? = some (ws.length : Int)) ∧
      (∀ k : Nat, k < K → s.topic_term_sum[k]? =
        some ((countAll wm (fun m p => s.zAt m p == some (k : Int)) : Nat) : Int)) ∧
      s.topic_term_sum.length = K ∧
      s.topic_term_sum.sum = (numTokens wm : Int) := by
  obtain ⟨s, h, hQ, hz⟩ := InitSampling_quiet RAND_MAX rand K wm hdraw
  refine ⟨s, h, hz, ?_, ?_, hQ.tallied.shaped.tts_len, hQ.tts_sum⟩
  · intro m ws hws
    obtain ⟨_, _, _, h3⟩ := hQ.docCountInvariant m ws hws
    exact h3
  · intro k hk
    obtain ⟨_, _, _, h3⟩ := hQ.talliesOfZ.2 k hk
    exact h3

/-- C3, Scenario A: one document of four tokens `x` and `K = 2`. -/
theorem init_postcondition_witness :
    DrawsInRange demoRandMax 2 demoRand ∧
    ∃ s, InitSampling demoRandMax demoRand Store.empty (scenarioA.length : Int)
        ((2 : Nat) : Int) scenarioA = Except.ok s ∧
      s.topic_index_Zmn = generateRows
        (fun n => initTopicDraw demoRandMax ((2 : Nat) : Int) (demoRand n)) 0
        (scenarioA.map List.length) ∧
      (∀ (m : Nat) (ws : List String), scenarioA[m]? = some ws → s.doc_topic_sum[m]? = some (ws.length : Int)) ∧
      (∀ k : Nat, k < 2 → s.topic_term_sum[k]? =
        some ((countAll scenarioA (fun m p => s.zAt m p == some (k : Int)) : Nat) : Int)) ∧
      s.topic_term_sum.length = 2 ∧
      s.topic_term_sum.sum = (numTokens scenarioA : Int) :=
  ⟨demoRand_inRange, init_postcondition demoRandMax demoRand 2 scenarioA demoRand_inRange⟩

/-- C4. The count tables are exactly the tallies of `Z`: in every state reached from the empty
tables by `InitSampling` and any number of complete visits, and in the state `GibbsSampling`
returns, `doc_topic_count[m][k]` is the number of positions `p` of document `m` with
`Z[m][p] = k`, `topic_term_count[k][t]` (an absent term read as `0`) is the number of tokens
with term `t` and topic `k`, and `topic_term_sum[k]` is the number of tokens with topic `k`. -/
theorem tables_are_tallies (RAND_MAX : Nat) (rand : Nat → Nat) (sampler : Sampler)
    (K V : Nat) (alpha beta : ℚ) (wm : WordMatrix)
    (hdraw : DrawsInRange RAND_MAX K rand) (hsamp : SamplerInRange K sampler) :
    (∀ r, Reachable RAND_MAX rand sampler (K : Int) V alpha beta wm r →
      TalliesOfZ wm K r.store) ∧
    (∀ iter_num : Int, ∃ r,
      GibbsSampling RAND_MAX rand sampler Store.empty (wm.length : Int) (K : Int) V alpha beta
        iter_num wm = Except.ok r ∧ TalliesOfZ wm K r.store) := by
  refine ⟨fun r hr => (hr.quiet hdraw hsamp).talliesOfZ, fun iter_num => ?_⟩
  obtain ⟨r, h, hr⟩ := GibbsSampling_reachable V alpha beta wm hdraw hsamp iter_num
  exact ⟨r, h, (hr.quiet hdraw hsamp).talliesOfZ⟩

/-- C4, Scenario B: the alternating draws and sampler stay in `[0, 2)`, and the tables are
the tallies of `Z`. -/
theorem tables_are_tallies_witness :
    DrawsInRange demoRandMax 2 demoRand ∧ SamplerInRange 2 demoSampler ∧
    ((∀ r, Reachable demoRandMax demoRand demoSampler ((2 : Nat) : Int) 2 (1 / 10) (1 / 10)
        scenarioB r → TalliesOfZ scenarioB 2 r.store) ∧
      (∀ iter_num : Int, ∃ r,
        GibbsSampling demoRandMax demoRand demoSampler Store.empty (scenarioB.length : Int)
          ((2 : Nat) : Int) 2 (1 / 10) (1 / 10) iter_num scenarioB = Except.ok r ∧
        TalliesOfZ scenarioB 2 r.store)) :=
  ⟨demoRand_inRange, demoSampler_inRange,
    tables_are_tallies demoRandMax demoRand demoSampler 2 2 (1 / 10) (1 / 10) scenarioB
      demoRand_inRange demoSampler_inRange⟩

/-! ## Conservation under a visit (C5) -/

theorem list_ext_getD (l l1 : List Int) (hlen : l1.length = l.length)
    (h : ∀ m : Nat, (l1[m]?).getD 0 = (l[m]?).getD 0) : l1 = l := by
  apply List.ext_getElem?
  intro m
  by_cases hm : m < l.length
  · have hm1 : m < l1.length := by rw [hlen]; exact hm
    have := h m
    rw [List.getElem?_eq_getElem hm, List.getElem?_eq_getElem hm1] at this ⊢
    simpa using this
  · have hm1 : ¬ m < l1.length := by rw [hlen]; exact hm
    rw [List.getElem?_eq_none (by omega), List.getElem?_eq_none (by omega)]

theorem sum_range_bump (f : Nat → Int) (n i : Nat) (delta : Int) :
    ((List.range n).map (fun k => f k + if k = i then delta else 0)).sum
      = ((List.range n).map f).sum + if i < n then delta else 0 := by
  induction n with
  | zero => simp
  | succ n ih =>
    rw [List.range_succ, List.map_append, List.sum_append, ih, List.map_append,
      List.sum_append]
    by_cases h : i < n
    · have h1 : ¬ n = i := by omega
      have h2 : i < n + 1 := by omega
      simp [h, h1, h2]; ring
    · by_cases h3 : n = i
      · subst h3; simp; ring
      · have h2 : ¬ i < n + 1 := by omega
        simp [h, h3, h2]

theorem TermBump.sum_bump {s s1 : Store} {i : Nat} {t : String} {delta : Int}
    (h : TermBump s s1 i t delta) :
    s1.topic_term_sum.sum = s.topic_term_sum.sum + delta := by
  rw [list_sum_eq_range, list_sum_eq_range s.topic_term_sum, h.dims.tts_len]
  have := sum_range_bump (fun k => s.tts k) s.topic_term_sum.length i delta
  simp only [h.inb, if_true] at this
  rw [← show ((List.range s.topic_term_sum.length).map (fun k => s.tts k)).sum
      = ((List.range s.topic_term_sum.length).map
          (fun k => (s.topic_term_sum[k]?).getD 0)).sum from rfl, ← this]
  congr 1
  apply List.map_congr_left
  intro k _
  exact h.tts k

theorem assignTopic_tables {s s1 : Store} {d p : Nat} {k : Int}
    (h : assignTopic s d p k = Except.ok s1) :
    s1.doc_topic_count = s.doc_topic_count ∧ s1.doc_topic_sum = s.doc_topic_sum ∧
      s1.topic_term_count = s.topic_term_count ∧ s1.topic_term_sum = s.topic_term_sum ∧
      s1.zAt d p = some k ∧
      ∀ m q, s1.zAt m q = setCounted s.zAt d p (some k) m q := by
  obtain ⟨zrow, old, h1, h2, rfl⟩ := (assignTopic_eq_ok s s1 d p k).mp h
  refine ⟨rfl, rfl, rfl, rfl, ?_, zAt_set s d p k zrow old h1 h2⟩
  rw [zAt_set s d p k zrow old h1 h2]
  simp [setCounted]

theorem assignTopic_ok {s : Store} {d p : Nat} {i : Int} (hz : s.zAt d p = some i) (k : Int) :
    ∃ s1, assignTopic s d p k = Except.ok s1 := by
  obtain ⟨zrow, h1, h2⟩ := (zAt_eq_some s d p i).mp hz
  exact ⟨_, (assignTopic_eq_ok s _ d p k).mpr ⟨zrow, i, h1, h2, rfl⟩⟩

/-- The six steps of a visit in terms of the cells they change. -/
theorem visit_bumps {sampler : Sampler} {V : Nat} {K : Int} {alpha beta : ℚ} {wm : WordMatrix}
    {d p : Nat} {r r1 : Run} (h : visit sampler V K alpha beta wm d r p = Except.ok r1) :
    ∃ (k_old k_new : Int) (t : String) (s1 s2 s3 s4 s5 : Store),
      r.store.zAt d p = some k_old ∧ termAt wm d p = some t ∧
      (∃ v, k_new = sampler r.calls.length K v) ∧
      DocBump r.store s1 d k_old.toNat (-1) ∧ TermBump s1 s2 k_old.toNat t (-1) ∧
      SameCounts s2 s3 ∧
      (s4.doc_topic_count = s3.doc_topic_count ∧ s4.doc_topic_sum = s3.doc_topic_sum ∧
        s4.topic_term_count = s3.topic_term_count ∧ s4.topic_term_sum = s3.topic_term_sum ∧
        s4.zAt d p = some k_new ∧
        ∀ m q, s4.zAt m q = setCounted r.store.zAt d p (some k_new) m q) ∧
      DocBump s4 s5 d k_new.toNat 1 ∧ TermBump s5 r1.store k_new.toNat t 1 ∧
      0 ≤ k_old ∧ 0 ≤ k_new ∧ r1.calls = r.calls ++ [(d, p)] := by
  obtain ⟨s1, s2, k, s3, s4, s5, s6, h1, h2, h3, h4, h5, h6, rfl⟩ :=
    (visit_eq_ok _ _ _ _ _ _ _ _ _ _).mp h
  obtain ⟨i1, hz1, h01, hb1⟩ := DecreDocTopic_bump h1
  obtain ⟨i2, t2, hz2, ht2, _, hb2⟩ := DecreTopicTerm_bump h2
  have e2 : i2 = i1 := by
    rw [Store.zAt_congr hb1.z_eq, hz1] at hz2; exact (Option.some.inj hz2).symm
  subst e2
  obtain ⟨hS3, v, hk⟩ := UpdateTopic_sameCounts h3
  simp only at hS3 hk
  obtain ⟨a1, a2, a3, a4, a5, a6⟩ := assignTopic_tables h4
  obtain ⟨i5, hz5, h05, hb5⟩ := IncreDocTopic_bump h5
  have e5 : i5 = k := by rw [a5] at hz5; exact (Option.some.inj hz5).symm
  subst e5
  obtain ⟨i6, t6, hz6, ht6, _, hb6⟩ := IncreTopicTerm_bump h6
  have e6 : i6 = i5 := by
    rw [Store.zAt_congr hb5.z_eq, a5] at hz6; exact (Option.some.inj hz6).symm
  have e7 : t6 = t2 := by rw [ht2] at ht6; exact (Option.some.inj ht6).symm
  subst e6; subst e7
  have hz3 : ∀ m q, s3.zAt m q = r.store.zAt m q := fun m q =>
    Store.zAt_congr (hS3.z_eq.trans (hb2.z_eq.trans hb1.z_eq)) m q
  refine ⟨i2, i6, t6, s1, s2, s3, s4, s5, hz1, ht2, ⟨v, hk⟩, hb1, hb2, hS3,
    ⟨a1, a2, a3, a4, a5, ?_⟩, hb5, hb6, h01, h05, rfl⟩
  intro m q
  rw [a6 m q]
  simp only [setCounted, hz3]

theorem visit_ok_of_shaped {M K : Nat} {r : Run} (hsh : Shaped M K r.store) {d p : Nat}
    (hd : d < M) {k_old : Int} (hz : r.store.zAt d p = some k_old) (h0 : 0 ≤ k_old)
    (hK : k_old < (K : Int)) {wm : WordMatrix} {t : String} (ht : termAt wm d p = some t)
    (sampler : Sampler)
    (hnew : ∀ v, 0 ≤ sampler r.calls.length (K : Int) v ∧
      sampler r.calls.length (K : Int) v < (K : Int))
    (V : Nat) (alpha beta : ℚ) :
    ∃ r1, visit sampler V (K : Int) alpha beta wm d r p = Except.ok r1 := by
  obtain ⟨s1, h1⟩ := DecreDocTopic_ok hsh hz h0 hK hd
  obtain ⟨_, _, _, hb1⟩ := DecreDocTopic_bump h1
  have hz1 : s1.zAt d p = some k_old := by rw [Store.zAt_congr hb1.z_eq]; exact hz
  have hsh1 := hb1.dims.shaped hsh
  obtain ⟨s2, h2⟩ := DecreTopicTerm_ok hsh1 hz1 ht h0 hK
  obtain ⟨_, _, _, _, _, hb2⟩ := DecreTopicTerm_bump h2
  have hz2 : s2.zAt d p = some k_old := by rw [Store.zAt_congr hb2.z_eq]; exact hz1
  have hsh2 := hb2.dims.shaped hsh1
  obtain ⟨⟨k, s3⟩, h3⟩ := UpdateTopic_ok hsh2 hd hz2 ht (sampler r.calls.length) V
    (K : Int) (by simp) alpha beta
  obtain ⟨hS3, v, hk⟩ := UpdateTopic_sameCounts h3
  simp only at hS3 hk
  have hsh3 := hS3.dims.shaped hsh2
  have hz3 : s3.zAt d p = some k_old := by rw [Store.zAt_congr hS3.z_eq]; exact hz2
  obtain ⟨s4, h4⟩ := assignTopic_ok hz3 k
  obtain ⟨a1, a2, a3, a4, a5, _⟩ := assignTopic_tables h4
  have hsh4 : Shaped M K s4 :=
    ⟨by rw [a1]; exact hsh3.dtc_len, by rw [a1]; exact hsh3.dtc_row,
      by rw [a2]; exact hsh3.dts_len, by rw [a3]; exact hsh3.ttc_len,
      by rw [a4]; exact hsh3.tts_len⟩
  have hkr := hnew v
  rw [← hk] at hkr
  obtain ⟨s5, h5⟩ := IncreDocTopic_ok hsh4 a5 hkr.1 hkr.2 hd
  obtain ⟨_, _, _, hb5⟩ := IncreDocTopic_bump h5
  have hz5 : s5.zAt d p = some k := by rw [Store.zAt_congr hb5.z_eq]; exact a5
  obtain ⟨s6, h6⟩ := IncreTopicTerm_ok (hb5.dims.shaped hsh4) hz5 ht hkr.1 hkr.2
  exact ⟨_, (visit_eq_ok _ _ _ _ _ _ _ _ _ _).mpr
    ⟨s1, s2, k, s3, s4, s5, s6, h1, h2, h3, h4, h5, h6, rfl⟩⟩

/-- C5. Conservation under a visit: in any state whose tables have `M` rows and `K` topics, a
visit to a token `(doc, pos)` with `Z[doc][pos] = k_old` in `[0, K)` and a sampler result in
`[0, K)` completes; and every visit that completes leaves the whole of `doc_topic_sum`
unchanged (so `doc_topic_sum[doc]` is), leaves `topic_term_sum[k_old] + topic_term_sum[k_new]`
unchanged, where `k_new = Z[doc][pos]` afterwards is the sampler's result, and leaves the sum
of all `topic_term_sum[k]` unchanged. -/
theorem visit_conservation (sampler : Sampler) (V K : Nat) (alpha beta : ℚ) (wm : WordMatrix)
    (r : Run) (d p : Nat) (k_old : Int) (hz : r.store.zAt d p = some k_old) :
    (∀ M t, Shaped M K r.store → d < M → 0 ≤ k_old → k_old < (K : Int) →
      termAt wm d p = some t →
      (∀ v, 0 ≤ sampler r.calls.length (K : Int) v ∧
        sampler r.calls.length (K : Int) v < (K : Int)) →
      ∃ r1, visit sampler V (K : Int) alpha beta wm d r p = Except.ok r1) ∧
    (∀ r1, visit sampler V (K : Int) alpha beta wm d r p = Except.ok r1 →
      ∃ k_new, r1.store.zAt d p = some k_new ∧
        (∃ v, k_new = sampler r.calls.length (K : Int) v) ∧
        r1.store.doc_topic_sum = r.store.doc_topic_sum ∧
        k_old.toNat < r.store.topic_term_sum.length ∧
        k_new.toNat < r.store.topic_term_sum.length ∧
        r1.store.tts k_old.toNat + r1.store.tts k_new.toNat
          = r.store.tts k_old.toNat + r.store.tts k_new.toNat ∧
        r1.store.topic_term_sum.sum = r.store.topic_term_sum.sum) := by
  refine ⟨fun M t hsh hd h0 hK ht hnew =>
    visit_ok_of_shaped hsh hd hz h0 hK ht sampler hnew V alpha beta, ?_⟩
  intro r1 h
  obtain ⟨i, j, t, s1, s2, s3, s4, s5, hz1, _, hv, hb1, hb2, hS3, ⟨_, a2, _, a4, a5, _⟩, hb5, hb6,
    _, _, _⟩ := visit_bumps h
  have e : i = k_old := by rw [hz] at hz1; exact (Option.some.inj hz1).symm
  subst e
  have hzj : r1.store.zAt d p = some j := by
    rw [Store.zAt_congr hb6.z_eq, Store.zAt_congr hb5.z_eq]; exact a5
  have hdts : ∀ m, r1.store.dts m = r.store.dts m := by
    intro m
    rw [Store.dts_congr hb6.dts_eq, hb5.dts, Store.dts_congr a2, Store.dts_congr hS3.dts_eq,
      Store.dts_congr hb2.dts_eq, hb1.dts]
    by_cases hm : m = d <;> simp [hm]
  have hlen5 : s5.topic_term_sum.length = r.store.topic_term_sum.length := by
    rw [hb5.tts_eq, a4, hS3.tts_eq, hb2.dims.tts_len, hb1.tts_eq]
  have hlen1 : s1.topic_term_sum.length = r.store.topic_term_sum.length := by
    rw [hb1.tts_eq]
  have htts : ∀ k, r1.store.tts k
      = r.store.tts k + (if k = i.toNat then -1 else 0) + (if k = j.toNat then 1 else 0) := by
    intro k
    rw [hb6.tts, Store.tts_congr hb5.tts_eq, Store.tts_congr a4, Store.tts_congr hS3.tts_eq,
      hb2.tts, Store.tts_congr hb1.tts_eq]
  refine ⟨j, hzj, hv, ?_, by rw [← hlen1]; exact hb2.inb, by rw [← hlen5]; exact hb6.inb,
    ?_, ?_⟩
  · apply list_ext_getD
    · rw [hb6.dts_eq, hb5.dims.dts_len, a2, hS3.dts_eq, hb2.dts_eq, hb1.dims.dts_len]
    · exact hdts
  · rw [htts i.toNat, htts j.toNat]
    by_cases hij : i.toNat = j.toNat
    · simp [hij]
    · have hji : ¬ j.toNat = i.toNat := fun e => hij e.symm
      simp [hij, hji]; ring
  · rw [hb6.sum_bump, hb5.tts_eq, a4, hS3.tts_eq, hb2.sum_bump, hb1.tts_eq]
    ring

/-- C5, Scenario B: the visit to token `(0, 1)` of `demoStore`, whose topic is `1`. -/
theorem visit_conservation_witness :
    demoStore.zAt 0 1 = some 1 ∧
    ((∀ M t, Shaped M 2 demoStore → 0 < M → (0 : Int) ≤ 1 → (1 : Int) < ((2 : Nat) : Int) →
      termAt scenarioB 0 1 = some t →
      (∀ v, 0 ≤ demoSampler 0 ((2 : Nat) : Int) v ∧
        demoSampler 0 ((2 : Nat) : Int) v < ((2 : Nat) : Int)) →
      ∃ r1, visit demoSampler 2 ((2 : Nat) : Int) (1 / 10) (1 / 10) scenarioB 0
        ⟨demoStore, []⟩ 1 = Except.ok r1) ∧
    (∀ r1, visit demoSampler 2 ((2 : Nat) : Int) (1 / 10) (1 / 10) scenarioB 0
        ⟨demoStore, []⟩ 1 = Except.ok r1 →
      ∃ k_new, r1.store.zAt 0 1 = some k_new ∧
        (∃ v, k_new = demoSampler 0 ((2 : Nat) : Int) v) ∧
        r1.store.doc_topic_sum = demoStore.doc_topic_sum ∧
        (1 : Int).toNat < demoStore.topic_term_sum.length ∧
        k_new.toNat < demoStore.topic_term_sum.length ∧
        r1.store.tts (1 : Int).toNat + r1.store.tts k_new.toNat
          = demoStore.tts (1 : Int).toNat + demoStore.tts k_new.toNat ∧
        r1.store.topic_term_sum.sum = demoStore.topic_term_sum.sum)) :=
  ⟨by decide, visit_conservation demoSampler 2 2 (1 / 10) (1 / 10) scenarioB ⟨demoStore, []⟩
    0 1 1 (by decide)⟩

/-! ## Theta is row-stochastic (C6) -/

theorem vAt2_dtc {s : Store} {i j : Nat} {row : List Int} (hrow : s.doc_topic_count[i]? = some row)
    (hj : j < row.length) : vAt2 s.doc_topic_count i j = Except.ok (s.dtc i j) := by
  rw [vAt2_eq_ok]
  refine ⟨row, hrow, ?_⟩
  simp [Store.dtc, hrow, List.getElem?_eq_getElem hj]

theorem vAt_dts {s : Store} {i : Nat} {n : Int} (hn : s.doc_topic_sum[i]? = some n) :
    vAt s.doc_topic_sum i = Except.ok (s.dts i) := by
  rw [vAt_eq_ok]
  simp [Store.dts, hn]

theorem list_eq_map_range {α : Type} (l : List α) (n : Nat) (f : Nat → α) (hlen : l.length = n)
    (h : ∀ j, j < n → l[j]? = some (f j)) : l = (List.range n).map f := by
  apply List.ext_getElem?
  intro j
  by_cases hj : j < n
  · rw [h j hj, List.getElem?_map, List.getElem?_range hj]; rfl
  · rw [List.getElem?_eq_none (by omega), List.getElem?_eq_none (by simp; omega)]

theorem thetaRow_eq {s : Store} {i K : Nat} {drow : List Int} {n : Int}
    (hrow : s.doc_topic_count[i]? = some drow) (hlen : drow.length = K)
    (hn : s.doc_topic_sum[i]? = some n) (alpha : ℚ) (row0 : List ℚ) (h0 : row0.length = K) :
    thetaRow s i (K : Int) alpha row0 = Except.ok
      ((List.range K).map
        (fun k => ((s.dtc i k : ℚ) + alpha) / ((s.dts i : ℚ) + alpha * ((K : Int) : ℚ)))) := by
  unfold thetaRow
  rw [Int.toNat_ofNat]
  obtain ⟨row, h1, h2, h3⟩ := foldlM_range_inv
    (fun j (row : List ℚ) => row.length = K ∧ ∀ k, k < j → row[k]? =
      some (((s.dtc i k : ℚ) + alpha) / ((s.dts i : ℚ) + alpha * ((K : Int) : ℚ))))
    (fun row j => do
      let c ← vAt2 s.doc_topic_count i j
      let n ← vAt s.doc_topic_sum i
      let _old ← vAt row j
      pure (row.set j (((c : ℚ) + alpha) / ((n : ℚ) + alpha * ((K : Int) : ℚ)))))
    K
    (by
      intro j row hj ⟨hl, hv⟩
      have hjr : j < row.length := by rw [hl]; exact hj
      refine ⟨row.set j (((s.dtc i j : ℚ) + alpha) / ((s.dts i : ℚ) + alpha * ((K : Int) : ℚ))),
        ?_, by rw [List.length_set]; exact hl, ?_⟩
      · simp only [bind_eq_ok, pure_eq_ok]
        exact ⟨_, vAt2_dtc hrow (by rw [hlen]; exact hj), _, vAt_dts hn, row[j],
          (vAt_eq_ok _ _ _).mpr (List.getElem?_eq_getElem hjr), rfl⟩
      · intro k hk
        rw [List.getElem?_set]
        by_cases hjk : j = k
        · subst hjk; simp [hjr]
        · simp only [hjk, if_false]
          exact hv k (by omega))
    row0 ⟨h0, fun k hk => absurd hk (Nat.not_lt_zero k)⟩
  rw [h1]
  exact congrArg Except.ok (list_eq_map_range row K _ h2 h3)

theorem theta_row_sum {s : Store} {m K : Nat} {drow : List Int} {len : Nat}
    (hrow : s.doc_topic_count[m]? = some drow) (hlen : drow.length = K)
    (hsum : drow.sum = (len : Int)) (hn : s.doc_topic_sum[m]? = some (len : Int))
    (hK : 0 < K) (alpha : ℚ) (halpha : 0 < alpha) :
    ((List.range K).map
      (fun k => ((s.dtc m k : ℚ) + alpha) / ((s.dts m : ℚ) + alpha * ((K : Int) : ℚ)))).sum
      = 1 := by
  have hdts : s.dts m = (len : Int) := by simp [Store.dts, hn]
  have hden : ((s.dts m : ℚ) + alpha * ((K : Int) : ℚ)) ≠ 0 := by
    rw [hdts]
    have h1 : (0 : ℚ) ≤ (((len : Int)) : ℚ) := by exact_mod_cast Nat.zero_le len
    have h2 : (0 : ℚ) < alpha * ((K : Int) : ℚ) := by
      apply mul_pos halpha
      exact_mod_cast hK
    exact ne_of_gt (by linarith)
  have hnum : ((List.range K).map (fun k => ((s.dtc m k : ℚ) + alpha))).sum
      = (s.dts m : ℚ) + alpha * ((K : Int) : ℚ) := by
    rw [List.sum_map_add]
    have e1 : ((List.range K).map (fun k => (s.dtc m k : ℚ))).sum = ((drow.sum : Int) : ℚ) := by
      rw [list_sum_eq_range drow, hlen, Int.cast_list_sum, List.map_map]
      congr 1
      apply List.map_congr_left
      intro k _
      simp [Store.dtc, hrow]
    rw [e1, hsum, hdts]
    simp [mul_comm]
  simp only [div_eq_mul_inv]
  rw [List.sum_map_mul_right, hnum]
  exact mul_inv_cancel₀ hden

/-- C6. Theta is row-stochastic: in a state satisfying the document count invariant for the
documents `m < num_of_docs` (the `K` entries of `doc_topic_count[m]` add up to
`doc_topic_sum[m]`, which is a document length), with `K > 0`, `alpha > 0` and `theta` holding
at least `num_of_docs` rows, `EstimateTheta` returns, every row `theta[m]` has `K` entries,
`theta[m][k] = (doc_topic_count[m][k] + alpha) / (doc_topic_sum[m] + alpha * K)` and, in
exact arithmetic, the entries of `theta[m]` add up to `1`. -/
theorem theta_row_stochastic (s : Store) (M K : Nat) (alpha beta : ℚ) (theta : List (List ℚ))
    (hK : 0 < K) (halpha : 0 < alpha) (htheta : M ≤ theta.length)
    (hinv : ∀ m, m < M → ∃ (row : List Int) (len : Nat), s.doc_topic_count[m]? = some row ∧
      row.length = K ∧ row.sum = (len : Int) ∧ s.doc_topic_sum[m]? = some (len : Int)) :
    ∃ theta1, EstimateTheta s (M : Int) (K : Int) alpha beta theta = Except.ok theta1 ∧
      ∀ m, m < M → ∃ trow, theta1[m]? = some trow ∧ trow.length = K ∧
        (∀ k, k < K → trow[k]? =
          some (((s.dtc m k : ℚ) + alpha) / ((s.dts m : ℚ) + alpha * ((K : Int) : ℚ)))) ∧
        trow.sum = 1 := by
  unfold EstimateTheta
  rw [Int.toNat_ofNat]
  obtain ⟨th, h1, h2, h3⟩ := foldlM_range_inv
    (fun i (th : List (List ℚ)) => th.length = theta.length ∧ ∀ m, m < i → th[m]? =
      some ((List.range K).map
        (fun k => ((s.dtc m k : ℚ) + alpha) / ((s.dts m : ℚ) + alpha * ((K : Int) : ℚ)))))
    (fun theta i => do
      let row ← vAt theta i
      let row ← vResizeInt row (K : Int) 0
      let row ← thetaRow s i (K : Int) alpha row
      pure (theta.set i row))
    M
    (by
      intro i th hi ⟨hl, hv⟩
      obtain ⟨drow, len, hrow, hlen, _, hn⟩ := hinv i hi
      have hit : i < th.length := by rw [hl]; omega
      refine ⟨th.set i ((List.range K).map
        (fun k => ((s.dtc i k : ℚ) + alpha) / ((s.dts i : ℚ) + alpha * ((K : Int) : ℚ)))),
        ?_, by rw [List.length_set]; exact hl, ?_⟩
      · simp only [bind_eq_ok, pure_eq_ok]
        refine ⟨th[i], (vAt_eq_ok _ _ _).mpr (List.getElem?_eq_getElem hit),
          vResize th[i] K 0, by simp [vResizeInt], _,
          thetaRow_eq hrow hlen hn alpha _ (vResize_length _ _ _), rfl⟩
      · intro m hm
        rw [List.getElem?_set]
        by_cases him : i = m
        · subst him; simp [hit]
        · simp only [him, if_false]
          exact hv m (by omega))
    theta ⟨rfl, fun m hm => absurd hm (Nat.not_lt_zero m)⟩
  refine ⟨th, h1, ?_⟩
  intro m hm
  obtain ⟨drow, len, hrow, hlen, hsum, hn⟩ := hinv m hm
  refine ⟨_, h3 m hm, by simp, ?_, theta_row_sum hrow hlen hsum hn hK alpha halpha⟩
  intro k hk
  rw [List.getElem?_map, List.getElem?_range hk]
  rfl

/-- C6, Scenario B: `EstimateTheta` on `demoStore` with `K = 2` and `alpha = 1/10`. -/
theorem theta_row_stochastic_witness :
    (0 < 2) ∧ ((0 : ℚ) < 1 / 10) ∧ (2 ≤ [([] : List ℚ), []].length) ∧
    (∀ m, m < 2 → ∃ (row : List Int) (len : Nat), demoStore.doc_topic_count[m]? = some row ∧
      row.length = 2 ∧ row.sum = (len : Int) ∧ demoStore.doc_topic_sum[m]? = some (len : Int)) ∧
    ∃ theta1, EstimateTheta demoStore ((2 : Nat) : Int) ((2 : Nat) : Int) (1 / 10) (1 / 10)
        [[], []] = Except.ok theta1 ∧
      ∀ m, m < 2 → ∃ trow, theta1[m]? = some trow ∧ trow.length = 2 ∧
        (∀ k, k < 2 → trow[k]? =
          some (((demoStore.dtc m k : ℚ) + 1 / 10) /
            ((demoStore.dts m : ℚ) + 1 / 10 * (((2 : Nat) : Int) : ℚ)))) ∧
        trow.sum = 1 :=
  have hinv : ∀ m, m < 2 → ∃ (row : List Int) (len : Nat),
      demoStore.doc_topic_count[m]? = some row ∧ row.length = 2 ∧ row.sum = (len : Int) ∧
      demoStore.doc_topic_sum[m]? = some (len : Int) := by
    intro m hm
    have hcases : m = 0 ∨ m = 1 := by omega
    rcases hcases with h | h <;> subst h <;> exact ⟨[1, 1], 2, rfl, rfl, rfl, rfl⟩
  ⟨by decide, by norm_num, by decide, hinv,
    theta_row_stochastic demoStore 2 2 (1 / 10) (1 / 10) [[], []] (by decide) (by norm_num)
      (by decide) hinv⟩

/-! ## The phi estimator -/

theorem keyLt_ne {a b : String} (h : keyLt a b) : a ≠ b := by
  intro e
  subst e
  exact lt_irrefl a.data h

theorem keyLt_asymm {a b : String} (h : keyLt a b) : ¬ keyLt b a := fun h1 =>
  lt_asymm (a := a.data) h h1

theorem PhiMap.assign_last (m : PhiMap) (t : String) (v : ℚ)
    (h : ∀ e ∈ m, keyLt e.1 t) : PhiMap.assign m t v = m ++ [(t, v)] := by
  induction m with
  | nil => rfl
  | cons e rest ih =>
    obtain ⟨k, w⟩ := e
    have hk : keyLt k t := h (k, w) (List.mem_cons_self _ _)
    simp only [PhiMap.assign, keyLt_ne hk, if_false, keyLt_asymm hk, List.cons_append]
    rw [ih (fun e he => h e (List.mem_cons_of_mem _ he))]

theorem PhiMap.read_assign (m : PhiMap) (t : String) (v : ℚ) :
    PhiMap.read (PhiMap.assign m t v) t = v := by
  induction m with
  | nil => simp [PhiMap.assign, PhiMap.read]
  | cons e rest ih =>
    obtain ⟨k, w⟩ := e
    simp only [PhiMap.assign]
    by_cases hk : k = t
    · simp [hk, PhiMap.read]
    · by_cases hlt : keyLt t k
      · simp [hk, hlt, PhiMap.read]
      · simp [hk, hlt, PhiMap.read, ih]

theorem set_self {α : Type} (l : List α) (i : Nat) (a : α) (h : l[i]? = some a) :
    l.set i a = l := by
  apply List.ext_getElem?
  intro j
  rw [List.getElem?_set]
  by_cases hij : i = j
  · subst hij
    obtain ⟨hi, _⟩ := List.getElem?_eq_some_iff.mp h
    simp [hi, h]
  · simp [hij]

theorem getElem?_set_self {α : Type} (l : List α) (i : Nat) (a b : α) (h : l[i]? = some a) :
    (l.set i b)[i]? = some b := by
  obtain ⟨hi, _⟩ := List.getElem?_eq_some_iff.mp h
  rw [List.getElem?_set]
  simp [hi]

theorem foldlM_phiEntry (s : Store) (i : Nat) (V : Int) (beta : ℚ) (n : Int)
    (hn : s.topic_term_sum[i]? = some n) (tm : TermMap) (htm : KeysSorted tm.keys)
    (acc : List PhiMap × List (List (String × ℚ))) (p0 : PhiMap) (so0 : List (String × ℚ))
    (hp0 : acc.1[i]? = some p0) (hso0 : acc.2[i]? = some so0)
    (hbelow : ∀ e ∈ p0, ∀ e1 ∈ tm, keyLt e.1 e1.1) :
    tm.foldlM (phiEntry s i V beta) acc = Except.ok
      (acc.1.set i (p0 ++ phiOf tm n beta V), acc.2.set i (so0 ++ phiOf tm n beta V)) := by
  induction tm generalizing acc p0 so0 with
  | nil =>
    simp only [List.foldlM_nil, phiOf, List.map_nil, List.append_nil, set_self _ _ _ hp0,
      set_self _ _ _ hso0]
    rfl
  | cons e rest ih =>
    have hsorted : KeysSorted (TermMap.keys rest) := by
      simp only [KeysSorted, TermMap.keys, List.map_cons, List.pairwise_cons] at htm ⊢
      exact htm.2
    have hhead : ∀ e1 ∈ rest, keyLt e.1 e1.1 := by
      simp only [KeysSorted, TermMap.keys, List.map_cons, List.pairwise_cons] at htm
      intro e1 he1
      exact htm.1 e1.1 (List.mem_map_of_mem _ he1)
    have hassign := PhiMap.assign_last p0 e.1
      (((e.2 : ℚ) + beta) / ((n : ℚ) + beta * (V : ℚ)))
      (fun x hx => hbelow x hx e (List.mem_cons_self _ _))
    have hstep : phiEntry s i V beta acc e = Except.ok
        (acc.1.set i (p0 ++ [(e.1, ((e.2 : ℚ) + beta) / ((n : ℚ) + beta * (V : ℚ)))]),
          acc.2.set i (so0 ++ [(e.1, ((e.2 : ℚ) + beta) / ((n : ℚ) + beta * (V : ℚ)))])) := by
      simp only [phiEntry, bind_eq_ok, pure_eq_ok, vAt_eq_ok]
      refine ⟨n, hn, p0, hp0, so0, hso0, ?_⟩
      rw [PhiMap.read_assign, hassign]
    rw [List.foldlM_cons, hstep]
    show List.foldlM (phiEntry s i V beta) _ rest = _
    rw [ih hsorted _ _ _ (getElem?_set_self _ _ _ _ hp0) (getElem?_set_self _ _ _ _ hso0)]
    · simp only [List.set_set, phiOf, List.map_cons, List.append_assoc, List.singleton_append]
    · intro x hx e1 he1
      rcases List.mem_append.mp hx with h | h
      · exact hbelow x h e1 (List.mem_cons_of_mem _ he1)
      · simp only [List.mem_singleton] at h
        rw [h]
        exact hhead e1 he1

theorem phiTopic_eq (s : Store) (i : Nat) (V : Int) (beta : ℚ) (tm : TermMap) (n : Int)
    (htmc : s.topic_term_count[i]? = some tm) (hn : s.topic_term_sum[i]? = some n)
    (htm : KeysSorted tm.keys) (acc : List PhiMap × List (List (String × ℚ)))
    (hp0 : acc.1[i]? = some []) (hso0 : acc.2[i]? = some []) :
    phiTopic s V beta acc i = Except.ok
      (acc.1.set i (phiOf tm n beta V), acc.2.set i (stdSort phiComp (phiOf tm n beta V))) := by
  have h1 := foldlM_phiEntry s i V beta n hn tm htm acc [] [] hp0 hso0
    (fun e he => absurd he (List.not_mem_nil e))
  simp only [List.nil_append] at h1
  simp only [phiTopic, bind_eq_ok, pure_eq_ok, vAt_eq_ok]
  refine ⟨tm, htmc, _, h1, phiOf tm n beta V, getElem?_set_self _ _ _ _ hso0, ?_⟩
  simp only [List.set_set]

theorem phiTables_spec (s : Store) (K : Nat) (V : Int) (beta : ℚ) (phi : List PhiMap)
    (phi_sorted : List (List (String × ℚ))) (hs : PhiReady K s)
    (hempty : EmptyOnEntry K phi phi_sorted) :
    ∃ out, phiTables s (K : Int) V beta phi phi_sorted = Except.ok out ∧
      ∀ k : Nat, k < K →
        out.1[k]? = some (phiOf (s.ttcMap k) (s.tts k) beta V) ∧
        out.2[k]? = some (stdSort phiComp (phiOf (s.ttcMap k) (s.tts k) beta V)) := by
  unfold phiTables
  rw [Int.toNat_ofNat]
  obtain ⟨out, h1, h2⟩ := foldlM_range_inv
    (fun i (acc : List PhiMap × List (List (String × ℚ))) => ∀ k : Nat,
      (k < i → acc.1[k]? = some (phiOf (s.ttcMap k) (s.tts k) beta V) ∧
        acc.2[k]? = some (stdSort phiComp (phiOf (s.ttcMap k) (s.tts k) beta V))) ∧
      (i ≤ k → acc.1[k]? = phi[k]? ∧ acc.2[k]? = phi_sorted[k]?))
    (phiTopic s V beta) K
    (by
      intro i acc hi hacc
      obtain ⟨tm, n, htmc, hn, htm⟩ := hs i hi
      obtain ⟨e1, e2⟩ := (hacc i).2 (Nat.le_refl i)
      rw [(hempty i hi).1] at e1
      rw [(hempty i hi).2] at e2
      refine ⟨_, phiTopic_eq s i V beta tm n htmc hn htm acc e1 e2, ?_⟩
      have hmap : s.ttcMap i = tm := by simp [Store.ttcMap, htmc]
      have htts : s.tts i = n := by simp [Store.tts, hn]
      intro k
      refine ⟨fun hk => ?_, fun hk => ?_⟩
      · by_cases hki : k = i
        · subst hki
          rw [hmap, htts]
          exact ⟨getElem?_set_self _ _ _ _ e1, getElem?_set_self _ _ _ _ e2⟩
        · have hik : ¬ i = k := fun e => hki e.symm
          simp only [List.getElem?_set, hik, if_false]
          exact (hacc k).1 (by omega)
      · have hik : ¬ i = k := by omega
        simp only [List.getElem?_set, hik, if_false]
        exact (hacc k).2 (by omega))
    (phi, phi_sorted) (fun k => ⟨fun hk => absurd hk (Nat.not_lt_zero k), fun _ => ⟨rfl, rfl⟩⟩)
  exact ⟨out, h1, fun k hk => (h2 k).1 hk⟩

theorem EstimatePhi_eq_ok {s : Store} {K V : Int} {alpha beta : ℚ} {phi : List PhiMap}
    {phi_sorted : List (List (String × ℚ))} {out : List PhiMap × List (List (String × ℚ))}
    (h : EstimatePhi s K V alpha beta phi phi_sorted = Except.ok out) :
    phiTables s K V beta phi phi_sorted = Except.ok out := by
  simp only [EstimatePhi, bind_eq_ok, pure_eq_ok] at h
  obtain ⟨o, h1, _, _, h3⟩ := h
  rw [h1, h3]

theorem sortInsert_perm {α : Type} (comp : α → α → Bool) (x : α) (l : List α) :
    (sortInsert comp x l).Perm (x :: l) := by
  induction l with
  | nil => exact List.Perm.refl _
  | cons y rest ih =>
    simp only [sortInsert]
    split
    · exact List.Perm.refl _
    · exact ((List.Perm.cons y ih).trans (List.Perm.swap x y rest))

theorem foldl_sortInsert_perm {α : Type} (comp : α → α → Bool) (l acc : List α) :
    (l.foldl (fun acc x => sortInsert comp x acc) acc).Perm (l ++ acc) := by
  induction l generalizing acc with
  | nil => exact List.Perm.refl _
  | cons x rest ih =>
    simp only [List.foldl_cons, List.cons_append]
    refine (ih (sortInsert comp x acc)).trans ?_
    refine (List.Perm.append_left rest (sortInsert_perm comp x acc)).trans ?_
    exact List.perm_middle

theorem stdSort_perm {α : Type} (comp : α → α → Bool) (l : List α) :
    (stdSort comp l).Perm l := by
  have := foldl_sortInsert_perm comp l []
  simpa [stdSort] using this

theorem sortInsert_descending (x : String × ℚ) (l : List (String × ℚ))
    (h : l.Pairwise (fun a b => b.2 ≤ a.2)) :
    (sortInsert phiComp x l).Pairwise (fun a b => b.2 ≤ a.2) := by
  induction l with
  | nil => simp [sortInsert]
  | cons y rest ih =>
    rw [List.pairwise_cons] at h
    simp only [sortInsert]
    split
    · rename_i hc
      have hlt : y.2 < x.2 := by
        simpa [phiComp] using hc
      rw [List.pairwise_cons]
      refine ⟨?_, List.pairwise_cons.mpr h⟩
      intro z hz
      rcases List.mem_cons.mp hz with e | e
      · rw [e]; exact le_of_lt hlt
      · exact le_trans (h.1 z e) (le_of_lt hlt)
    · rename_i hc
      have hle : x.2 ≤ y.2 := by
        simpa [phiComp] using hc
      rw [List.pairwise_cons]
      refine ⟨?_, ih h.2⟩
      intro z hz
      have hz1 : z ∈ x :: rest := (sortInsert_perm phiComp x rest).mem_iff.mp hz
      rcases List.mem_cons.mp hz1 with e | e
      · rw [e]; exact hle
      · exact h.1 z e

theorem foldl_sortInsert_descending (l acc : List (String × ℚ))
    (h : acc.Pairwise (fun a b => b.2 ≤ a.2)) :
    (l.foldl (fun acc x => sortInsert phiComp x acc) acc).Pairwise (fun a b => b.2 ≤ a.2) := by
  induction l generalizing acc with
  | nil => exact h
  | cons x rest ih =>
    simp only [List.foldl_cons]
    exact ih _ (sortInsert_descending x acc h)

theorem stdSort_descending (l : List (String × ℚ)) :
    (stdSort phiComp l).Pairwise (fun a b => b.2 ≤ a.2) :=
  foldl_sortInsert_descending l [] List.Pairwise.nil

theorem PhiMap.read_of_mem (m : PhiMap) (h : (m.map Prod.fst).Nodup) (e : String × ℚ)
    (he : e ∈ m) : PhiMap.read m e.1 = e.2 := by
  induction m with
  | nil => exact absurd he (List.not_mem_nil e)
  | cons x rest ih =>
    obtain ⟨k, w⟩ := x
    rw [List.map_cons, List.nodup_cons] at h
    rcases List.mem_cons.mp he with h1 | h1
    · subst h1; simp [PhiMap.read]
    · have hne : ¬ k = e.1 := by
        intro hk
        have hmem : e.1 ∈ rest.map Prod.fst := List.mem_map_of_mem Prod.fst h1
        rw [← hk] at hmem
        exact h.1 hmem
      simp only [PhiMap.read, hne, if_false]
      exact ih h.2 h1

/-! ## Phi over its support and its ranking (C7, C9) -/

theorem keysSorted_nodup {ks : List String} (h : KeysSorted ks) : ks.Nodup :=
  List.Pairwise.imp (fun hab => keyLt_ne hab) h

theorem phiOf_keys (tm : TermMap) (n : Int) (beta : ℚ) (V : Int) :
    (phiOf tm n beta V).map Prod.fst = tm.keys := by
  simp [phiOf, TermMap.keys, List.map_map, Function.comp_def]

theorem phiOf_sum (tm : TermMap) (n : Int) (beta : ℚ) (V : Int) :
    ((phiOf tm n beta V).map Prod.snd).sum
      = ((tm.total : ℚ) + beta * ((phiOf tm n beta V).length : ℚ))
        / ((n : ℚ) + beta * (V : ℚ)) := by
  have h1 : (phiOf tm n beta V).map Prod.snd
      = tm.map (fun e => ((e.2 : ℚ) + beta) * ((n : ℚ) + beta * (V : ℚ))⁻¹) := by
    simp [phiOf, List.map_map, Function.comp_def, div_eq_mul_inv]
  rw [h1, List.sum_map_mul_right, List.sum_map_add, div_eq_mul_inv]
  congr 1
  have h2 : (tm.map (fun e => (e.2 : ℚ))).sum = (tm.total : ℚ) := by
    rw [TermMap.total, Int.cast_list_sum, List.map_map]
    rfl
  rw [h2]
  simp [phiOf, mul_comm]

theorem PhiReady.cell {K : Nat} {s : Store} (hs : PhiReady K s) {k : Nat} (hk : k < K) :
    s.topic_term_count[k]? = some (s.ttcMap k) ∧ s.topic_term_sum[k]? = some (s.tts k) ∧
      KeysSorted (s.ttcMap k).keys := by
  obtain ⟨tm, n, h1, h2, h3⟩ := hs k hk
  simp [Store.ttcMap, Store.tts, h1, h2, h3]

/-- C7. Phi mass over its support: in a state that satisfies the topic-term invariant, with
well-formed maps and `phi`, `phi_sorted` empty on entry, the first loop of `EstimatePhi`
returns; the tables `EstimatePhi` returns, when it returns, are the ones this loop leaves; and
for every topic `k` the terms of `phi[k]` are distinct and the values of `phi[k]` add up to
`(topic_term_sum[k] + beta * |support(k)|) / (topic_term_sum[k] + beta * V)`, where
`|support(k)|` is the number of entries of `phi[k]` and the denominator is non-zero. -/
theorem phi_mass_over_support (s : Store) (K : Nat) (V : Int) (alpha beta : ℚ)
    (phi : List PhiMap) (phi_sorted : List (List (String × ℚ)))
    (hs : PhiReady K s) (hinv : TopicTermInvariant K s)
    (hempty : EmptyOnEntry K phi phi_sorted)
    (_hden : ∀ k : Nat, k < K → (s.tts k : ℚ) + beta * (V : ℚ) ≠ 0) :
    ∃ out, phiTables s (K : Int) V beta phi phi_sorted = Except.ok out ∧
      (∀ out1, EstimatePhi s (K : Int) V alpha beta phi phi_sorted = Except.ok out1 →
        out1 = out) ∧
      ∀ k : Nat, k < K → ∃ pm, out.1[k]? = some pm ∧ (pm.map Prod.fst).Nodup ∧
        (pm.map Prod.snd).sum
          = ((s.tts k : ℚ) + beta * (pm.length : ℚ)) / ((s.tts k : ℚ) + beta * (V : ℚ)) := by
  obtain ⟨out, h1, h2⟩ := phiTables_spec s K V beta phi phi_sorted hs hempty
  refine ⟨out, h1, ?_, ?_⟩
  · intro out1 ho
    have := EstimatePhi_eq_ok ho
    rw [h1] at this
    exact (Except.ok.inj this).symm
  · intro k hk
    obtain ⟨c1, c2, c3⟩ := hs.cell hk
    refine ⟨_, (h2 k hk).1, ?_, ?_⟩
    · rw [phiOf_keys]; exact keysSorted_nodup c3
    · rw [phiOf_sum]
      obtain ⟨tm, n, e1, e2, e3⟩ := hinv k hk
      have : (s.ttcMap k).total = s.tts k := by
        simp [Store.ttcMap, Store.tts, e1, e2, e3]
      rw [this]

theorem demoStore_phiReady : PhiReady 2 demoStore := by
  intro k hk
  have hcases : k = 0 ∨ k = 1 := by omega
  rcases hcases with h | h <;> subst h
  · exact ⟨[("a", 2)], 2, rfl, rfl, by simp [KeysSorted, TermMap.keys]⟩
  · exact ⟨[("a", 1), ("b", 1)], 2, rfl, rfl, by
      simp only [KeysSorted, TermMap.keys, List.map_cons, List.map_nil]; decide⟩

theorem demoStore_topicTermInvariant : TopicTermInvariant 2 demoStore := by
  intro k hk
  have hcases : k = 0 ∨ k = 1 := by omega
  rcases hcases with h | h <;> subst h
  · exact ⟨[("a", 2)], 2, rfl, rfl, rfl⟩
  · exact ⟨[("a", 1), ("b", 1)], 2, rfl, rfl, rfl⟩

theorem demo_emptyOnEntry : EmptyOnEntry 2 [[], []] [[], []] := by
  intro k hk
  have hcases : k = 0 ∨ k = 1 := by omega
  rcases hcases with h | h <;> subst h <;> exact ⟨rfl, rfl⟩

theorem demoStore_den : ∀ k : Nat, k < 2 →
    (demoStore.tts k : ℚ) + 1 / 10 * ((2 : Int) : ℚ) ≠ 0 := by
  intro k hk
  have hcases : k = 0 ∨ k = 1 := by omega
  rcases hcases with h | h <;> subst h <;> simp [Store.tts, demoStore] <;> norm_num

/-- C7, Scenario B: `demoStore` with `K = 2`, `V = 2` and `beta = 1/10`. -/
theorem phi_mass_over_support_witness :
    PhiReady 2 demoStore ∧ TopicTermInvariant 2 demoStore ∧
    EmptyOnEntry 2 [[], []] [[], []] ∧
    (∀ k : Nat, k < 2 → (demoStore.tts k : ℚ) + 1 / 10 * ((2 : Int) : ℚ) ≠ 0) ∧
    ∃ out, phiTables demoStore ((2 : Nat) : Int) 2 (1 / 10) [[], []] [[], []]
        = Except.ok out ∧
      (∀ out1, EstimatePhi demoStore ((2 : Nat) : Int) 2 (1 / 10) (1 / 10) [[], []] [[], []]
        = Except.ok out1 → out1 = out) ∧
      ∀ k : Nat, k < 2 → ∃ pm, out.1[k]? = some pm ∧ (pm.map Prod.fst).Nodup ∧
        (pm.map Prod.snd).sum
          = ((demoStore.tts k : ℚ) + 1 / 10 * (pm.length : ℚ))
            / ((demoStore.tts k : ℚ) + 1 / 10 * ((2 : Int) : ℚ)) :=
  ⟨demoStore_phiReady, demoStore_topicTermInvariant, demo_emptyOnEntry, demoStore_den,
    phi_mass_over_support demoStore 2 2 (1 / 10) (1 / 10) [[], []] [[], []]
      demoStore_phiReady demoStore_topicTermInvariant demo_emptyOnEntry demoStore_den⟩

/-- C9. `phi_sorted` is a descending ranking of `phi`: for every state with well-formed maps
and every topic `k`, with `phi[k]` and `phi_sorted[k]` empty on entry, the first loop of
`EstimatePhi` returns; the tables `EstimatePhi` returns, when it returns, are the ones this
loop leaves; `phi_sorted[k]` is a permutation of the `(term, probability)` pairs of `phi[k]`
(so it has the same length), the terms of `phi[k]` are distinct, every pair of
`phi_sorted[k]` carries `phi[k][term]` as its probability, and every entry of `phi_sorted[k]`
has a probability `>=` that of each entry after it. -/
theorem phi_sorted_ranking (s : Store) (K : Nat) (V : Int) (alpha beta : ℚ)
    (phi : List PhiMap) (phi_sorted : List (List (String × ℚ)))
    (hs : PhiReady K s) (hempty : EmptyOnEntry K phi phi_sorted) :
    ∃ out, phiTables s (K : Int) V beta phi phi_sorted = Except.ok out ∧
      (∀ out1, EstimatePhi s (K : Int) V alpha beta phi phi_sorted = Except.ok out1 →
        out1 = out) ∧
      ∀ k : Nat, k < K → ∃ pm so, out.1[k]? = some pm ∧ out.2[k]? = some so ∧
        so.Perm pm ∧ so.length = pm.length ∧ (pm.map Prod.fst).Nodup ∧
        (so.map Prod.fst).Nodup ∧
        (∀ e ∈ so, e.2 = PhiMap.read pm e.1) ∧
        so.Pairwise (fun a b => b.2 ≤ a.2) := by
  obtain ⟨out, h1, h2⟩ := phiTables_spec s K V beta phi phi_sorted hs hempty
  refine ⟨out, h1, ?_, ?_⟩
  · intro out1 ho
    have := EstimatePhi_eq_ok ho
    rw [h1] at this
    exact (Except.ok.inj this).symm
  · intro k hk
    obtain ⟨_, _, c3⟩ := hs.cell hk
    have hperm := stdSort_perm phiComp (phiOf (s.ttcMap k) (s.tts k) beta V)
    have hnodup : ((phiOf (s.ttcMap k) (s.tts k) beta V).map Prod.fst).Nodup := by
      rw [phiOf_keys]; exact keysSorted_nodup c3
    refine ⟨_, _, (h2 k hk).1, (h2 k hk).2, hperm, hperm.length_eq, hnodup,
      (List.Perm.nodup_iff (hperm.map Prod.fst)).mpr hnodup, ?_, stdSort_descending _⟩
    intro e he
    have hmem : e ∈ phiOf (s.ttcMap k) (s.tts k) beta V := hperm.mem_iff.mp he
    exact (PhiMap.read_of_mem _ hnodup e hmem).symm

/-- C9, Scenario B: `demoStore` with `K = 2`, `V = 2` and `beta = 1/10`. -/
theorem phi_sorted_ranking_witness :
    PhiReady 2 demoStore ∧ EmptyOnEntry 2 [[], []] [[], []] ∧
    ∃ out, phiTables demoStore ((2 : Nat) : Int) 2 (1 / 10) [[], []] [[], []]
        = Except.ok out ∧
      (∀ out1, EstimatePhi demoStore ((2 : Nat) : Int) 2 (1 / 10) (1 / 10) [[], []] [[], []]
        = Except.ok out1 → out1 = out) ∧
      ∀ k : Nat, k < 2 → ∃ pm so, out.1[k]? = some pm ∧ out.2[k]? = some so ∧
        so.Perm pm ∧ so.length = pm.length ∧ (pm.map Prod.fst).Nodup ∧
        (so.map Prod.fst).Nodup ∧
        (∀ e ∈ so, e.2 = PhiMap.read pm e.1) ∧
        so.Pairwise (fun a b => b.2 ≤ a.2) :=
  ⟨demoStore_phiReady, demo_emptyOnEntry,
    phi_sorted_ranking demoStore 2 2 (1 / 10) (1 / 10) [[], []] [[], []]
      demoStore_phiReady demo_emptyOnEntry⟩

/-! ## The maps stay in key order -/

theorem keyLt_trans {a b c : String} (h : keyLt a b) (h1 : keyLt b c) : keyLt a c :=
  lt_trans (a := a.data) h h1

theorem keyLt_of_not {t k : String} (h : ¬ keyLt t k) (hne : ¬ k = t) : keyLt k t := by
  rcases lt_trichotomy t.data k.data with h1 | h1 | h1
  · exact absurd h1 h
  · exact absurd (String.ext h1).symm hne
  · exact h1

namespace TermMap

theorem keys_update (f : Int → Int) (m : TermMap) (t : String) :
    keys (update f m t) = keys m := by
  induction m with
  | nil => rfl
  | cons e rest ih =>
    obtain ⟨k, v⟩ := e
    simp only [update]
    split
    · rfl
    · simp only [keys, List.map_cons] at ih ⊢
      rw [ih]

theorem hasKey_iff_mem_keys (m : TermMap) (t : String) : hasKey m t = true ↔ t ∈ keys m := by
  simp only [hasKey, keys, List.any_eq_true, decide_eq_true_eq, List.mem_map]

theorem mem_keys_insertKey (m : TermMap) (t x : String) :
    x ∈ keys (insertKey t m) ↔ x = t ∨ x ∈ keys m := by
  induction m with
  | nil => simp [insertKey, keys]
  | cons e rest ih =>
    obtain ⟨k, v⟩ := e
    simp only [insertKey]
    split
    · simp [keys]
    · simp only [keys, List.map_cons, List.mem_cons] at ih ⊢
      rw [ih]
      constructor
      · rintro (h | h | h)
        · exact Or.inr (Or.inl h)
        · exact Or.inl h
        · exact Or.inr (Or.inr h)
      · rintro (h | h | h)
        · exact Or.inr (Or.inl h)
        · exact Or.inl h
        · exact Or.inr (Or.inr h)

theorem keysSorted_insertKey (m : TermMap) (t : String) (hs : KeysSorted (keys m))
    (ht : hasKey m t = false) : KeysSorted (keys (insertKey t m)) := by
  induction m with
  | nil => simp [insertKey, keys, KeysSorted]
  | cons e rest ih =>
    obtain ⟨k, v⟩ := e
    simp only [hasKey, List.any_cons, Bool.or_eq_false_iff, decide_eq_false_iff_not] at ht
    have hs1 : (∀ x ∈ keys rest, keyLt k x) ∧ KeysSorted (keys rest) := by
      simpa [KeysSorted, keys] using hs
    simp only [insertKey]
    split
    · rename_i hlt
      have : keys ((t, 0) :: (k, v) :: rest) = t :: keys ((k, v) :: rest) := rfl
      rw [this, KeysSorted, List.pairwise_cons]
      refine ⟨?_, hs⟩
      intro x hx
      have hx1 : x = k ∨ x ∈ keys rest := by simpa [keys] using hx
      rcases hx1 with h | h
      · rw [h]; exact hlt
      · exact keyLt_trans hlt (hs1.1 x h)
    · rename_i hlt
      have hkt : keyLt k t := keyLt_of_not hlt ht.1
      have : keys ((k, v) :: insertKey t rest) = k :: keys (insertKey t rest) := rfl
      rw [this, KeysSorted, List.pairwise_cons]
      refine ⟨?_, ih hs1.2 ht.2⟩
      intro x hx
      rcases (mem_keys_insertKey rest t x).mp hx with h | h
      · rw [h]; exact hkt
      · exact hs1.1 x h

theorem keysSorted_index (m : TermMap) (t : String) (hs : KeysSorted (keys m)) :
    KeysSorted (keys (index m t)) := by
  unfold index
  split
  · exact hs
  · exact keysSorted_insertKey m t hs (by simpa using ‹¬ hasKey m t = true›)

theorem keysSorted_incr (m : TermMap) (t : String) (hs : KeysSorted (keys m)) :
    KeysSorted (keys (incr m t)) := by
  unfold incr
  rw [keys_update]
  exact keysSorted_index m t hs

theorem keysSorted_decr (m : TermMap) (t : String) (hs : KeysSorted (keys m)) :
    KeysSorted (keys (decr m t)) := by
  unfold decr
  rw [keys_update]
  exact keysSorted_index m t hs

theorem hasKey_of_read_ne_zero (m : TermMap) (t : String) (h : read m t ≠ 0) :
    hasKey m t = true := by
  by_contra hc
  exact h (read_of_not_hasKey m t (by simpa using hc))

end TermMap

theorem mapsSorted_of_eq {s s1 : Store} (h : s1.topic_term_count = s.topic_term_count)
    (hs : MapsSorted s) : MapsSorted s1 := by
  intro tm htm
  rw [h] at htm
  exact hs tm htm

theorem mapsSorted_set (l : List TermMap) (i : Nat) (tm1 : TermMap)
    (hl : ∀ tm ∈ l, KeysSorted (TermMap.keys tm)) (h1 : KeysSorted (TermMap.keys tm1)) :
    ∀ tm ∈ l.set i tm1, KeysSorted (TermMap.keys tm) := by
  intro tm htm
  rcases List.mem_or_eq_of_mem_set htm with h | h
  · exact hl tm h
  · rw [h]; exact h1

theorem IncreDocTopic_sorted {s s1 : Store} {d p : Nat} (h : IncreDocTopic s d p = Except.ok s1)
    (hs : MapsSorted s) : MapsSorted s1 := by
  obtain ⟨_, _, _, hb⟩ := IncreDocTopic_bump h
  exact mapsSorted_of_eq hb.ttc_eq hs

theorem DecreDocTopic_sorted {s s1 : Store} {d p : Nat} (h : DecreDocTopic s d p = Except.ok s1)
    (hs : MapsSorted s) : MapsSorted s1 := by
  obtain ⟨_, _, _, hb⟩ := DecreDocTopic_bump h
  exact mapsSorted_of_eq hb.ttc_eq hs

theorem IncreTopicTerm_sorted {s s1 : Store} {d p : Nat} {wm : WordMatrix}
    (h : IncreTopicTerm s d p wm = Except.ok s1) (hs : MapsSorted s) : MapsSorted s1 := by
  obtain ⟨i, t, m, n, _, _, _, hm, _, rfl⟩ := (IncreTopicTerm_eq_ok s s1 d p wm).mp h
  exact mapsSorted_set _ _ _ hs
    (TermMap.keysSorted_incr m t (hs m (List.getElem?_mem hm)))

theorem DecreTopicTerm_sorted {s s1 : Store} {d p : Nat} {wm : WordMatrix}
    (h : DecreTopicTerm s d p wm = Except.ok s1) (hs : MapsSorted s) : MapsSorted s1 := by
  obtain ⟨i, t, m, n, _, _, _, hm, _, rfl⟩ := (DecreTopicTerm_eq_ok s s1 d p wm).mp h
  exact mapsSorted_set _ _ _ hs
    (TermMap.keysSorted_decr m t (hs m (List.getElem?_mem hm)))

theorem topicWeights_sorted {index_doc num_of_words : Nat} {num_of_topics : Int}
    {alpha beta : ℚ} {term : String} {s : Store} {out : Store × List Dbl}
    (h : topicWeights index_doc num_of_words num_of_topics alpha beta term s = Except.ok out)
    (hs : MapsSorted s) : MapsSorted out.1 := by
  unfold topicWeights at h
  refine foldlM_preserves (fun acc : Store × List Dbl => MapsSorted acc.1) _ ?_ _ _ _ hs h
  intro acc k acc1 hacc hstep
  simp only [bind_eq_ok, pure_eq_ok] at hstep
  obtain ⟨o, ho, rfl⟩ := hstep
  obtain ⟨nk, nm, m, row, c, _, _, h3, _, _, rfl⟩ := (topicWeight_eq_ok _ _ _ _ _ _ _ _ _).mp ho
  exact mapsSorted_set _ _ _ hacc
    (TermMap.keysSorted_index m term (hacc m (List.getElem?_mem h3)))

theorem visit_sorted {sampler : Sampler} {V : Nat} {K : Int} {alpha beta : ℚ}
    {wm : WordMatrix} {d p : Nat} {r r1 : Run}
    (h : visit sampler V K alpha beta wm d r p = Except.ok r1) (hs : MapsSorted r.store) :
    MapsSorted r1.store := by
  obtain ⟨s1, s2, k, s3, s4, s5, s6, h1, h2, h3, h4, h5, h6, rfl⟩ :=
    (visit_eq_ok _ _ _ _ _ _ _ _ _ _).mp h
  have e1 := DecreTopicTerm_sorted h2 (DecreDocTopic_sorted h1 hs)
  obtain ⟨_, term, s3a, w, _, _, hw, he⟩ := (UpdateTopic_eq_ok _ _ _ _ _ _ _ _ _ _).mp h3
  have e3 : MapsSorted s3 := by
    have := topicWeights_sorted hw e1
    simp only [Prod.mk.injEq] at he
    rw [he.2]; exact this
  obtain ⟨_, _, a3, _⟩ := assignTopic_tables h4
  exact IncreTopicTerm_sorted h6 (IncreDocTopic_sorted h5 (mapsSorted_of_eq a3 e3))

theorem initDoc_sorted {wm : WordMatrix} {s s1 : Store} {d : Nat}
    (h : initDoc wm s d = Except.ok s1) (hs : MapsSorted s) : MapsSorted s1 := by
  simp only [initDoc, bind_eq_ok] at h
  obtain ⟨zrow, _, h2⟩ := h
  refine foldlM_preserves MapsSorted _ ?_ _ _ _ hs h2
  intro x p x1 hx hstep
  simp only [bind_eq_ok] at hstep
  obtain ⟨y, hy1, hy2⟩ := hstep
  exact IncreTopicTerm_sorted hy2 (IncreDocTopic_sorted hy1 hx)

theorem InitSampling_sorted {RAND_MAX : Nat} {rand : Nat → Nat} {K : Nat} {wm : WordMatrix}
    {s : Store}
    (h : InitSampling RAND_MAX rand Store.empty (wm.length : Int) (K : Int) wm = Except.ok s) :
    MapsSorted s := by
  unfold InitSampling at h
  have hguard : ¬ (0 = (wm.length : Int) ∧ (wm.length : Int) ≠ (wm.length : Int)) := by
    rintro ⟨_, h⟩; exact h rfl
  rw [if_neg hguard, InitCountVariables_empty] at h
  have h' : (InitTopicIndex RAND_MAX rand
      ⟨[], List.replicate wm.length (List.replicate K 0), List.replicate wm.length 0,
        List.replicate K [], List.replicate K 0⟩ (wm.length : Int) (K : Int) wm >>= fun s =>
      (List.range s.topic_index_Zmn.length).foldlM (initDoc wm) s) = Except.ok s := h
  rw [bind_eq_ok] at h'
  obtain ⟨s0, h0, h1⟩ := h'
  have hs0 : MapsSorted s0 := by
    simp only [InitTopicIndex, bind_eq_ok] at h0
    obtain ⟨z, _, hz⟩ := h0
    split at hz
    · cases hz
    · simp only [pure_eq_ok] at hz
      rw [← hz]
      intro tm htm
      have : tm = [] := List.eq_of_mem_replicate htm
      rw [this]
      simp [KeysSorted, TermMap.keys]
  exact foldlM_preserves MapsSorted _ (fun x d x1 hx hstep => initDoc_sorted hstep hx) _ _ _
    hs0 h1

theorem Reachable.sorted {RAND_MAX : Nat} {rand : Nat → Nat} {sampler : Sampler} {K V : Nat}
    {alpha beta : ℚ} {wm : WordMatrix} {r : Run}
    (hr : Reachable RAND_MAX rand sampler (K : Int) V alpha beta wm r) :
    MapsSorted r.store := by
  induction hr with
  | init s h => exact InitSampling_sorted h
  | visit r r1 d p _ h ih => exact visit_sorted h ih

theorem Reachable.phiReady {RAND_MAX : Nat} {rand : Nat → Nat} {sampler : Sampler} {K V : Nat}
    {alpha beta : ℚ} {wm : WordMatrix}
    (hdraw : DrawsInRange RAND_MAX K rand) (hsamp : SamplerInRange K sampler) {r : Run}
    (hr : Reachable RAND_MAX rand sampler (K : Int) V alpha beta wm r) :
    PhiReady K r.store := by
  intro k hk
  have hsh := (hr.quiet hdraw hsamp).tallied.shaped
  obtain ⟨tm, htm⟩ := hsh.ttc_cell hk
  obtain ⟨n, hn⟩ := hsh.tts_cell hk
  exact ⟨tm, n, htm, hn, hr.sorted tm (List.getElem?_mem htm)⟩

/-! ## The support of phi (C8) -/

theorem mapM_ok {α β : Type} (f : α → Except Fault β) (g : α → β) (l : List α)
    (h : ∀ x ∈ l, f x = Except.ok (g x)) : l.mapM f = Except.ok (l.map g) := by
  induction l with
  | nil => rfl
  | cons a rest ih =>
    rw [List.mapM_cons, h a (List.mem_cons_self _ _),
      ih (fun x hx => h x (List.mem_cons_of_mem _ hx))]
    rfl

theorem printTop_ok (phi_sorted : List (List (String × ℚ))) (K : Nat)
    (h : ∀ i : Nat, i < K → ∃ row, phi_sorted[i]? = some row ∧ 50 ≤ row.length) :
    ∃ printed, printTop phi_sorted (K : Int) = Except.ok printed := by
  unfold printTop
  rw [Int.toNat_ofNat]
  refine ⟨_, mapM_ok _
    (fun i => (List.range 50).map
      (fun j => ((((phi_sorted[i]?).getD [])[j]?).getD ("", 0)))) _ ?_⟩
  intro i hi
  obtain ⟨row, hrow, hlen⟩ := h i (List.mem_range.mp hi)
  apply mapM_ok
  intro j hj
  have hj1 : j < row.length := Nat.lt_of_lt_of_le (List.mem_range.mp hj) hlen
  rw [vAt2_eq_ok]
  exact ⟨row, hrow, by simp [hrow, List.getElem?_eq_getElem hj1]⟩

theorem EstimatePhi_ok_of_tables {s : Store} {K : Nat} {V : Int} {alpha beta : ℚ}
    {phi : List PhiMap} {phi_sorted : List (List (String × ℚ))}
    {out : List PhiMap × List (List (String × ℚ))}
    (h : phiTables s (K : Int) V beta phi phi_sorted = Except.ok out)
    (hlen : ∀ i : Nat, i < K → ∃ row, out.2[i]? = some row ∧ 50 ≤ row.length) :
    EstimatePhi s (K : Int) V alpha beta phi phi_sorted = Except.ok out := by
  obtain ⟨printed, hp⟩ := printTop_ok out.2 K hlen
  simp only [EstimatePhi, bind_eq_ok, pure_eq_ok]
  exact ⟨out, h, printed, hp, rfl⟩

theorem phiOf_read (tm : TermMap) (n : Int) (beta : ℚ) (V : Int) (t : String)
    (h : tm.hasKey t = true) :
    PhiMap.read (phiOf tm n beta V) t
      = ((tm.read t : ℚ) + beta) / ((n : ℚ) + beta * (V : ℚ)) := by
  induction tm with
  | nil => simp [TermMap.hasKey] at h
  | cons e rest ih =>
    obtain ⟨k, v⟩ := e
    by_cases hk : k = t
    · simp [phiOf, PhiMap.read, TermMap.read, hk]
    · have hr : TermMap.hasKey rest t = true := by
        simpa [TermMap.hasKey, hk] using h
      have := ih hr
      simp only [phiOf, List.map_cons, PhiMap.read, TermMap.read, hk, if_false] at this ⊢
      exact this

theorem emptyOnEntry_replicate (K : Nat) :
    EmptyOnEntry K (List.replicate K []) (List.replicate K []) := by
  intro k hk
  simp [List.getElem?_replicate, hk]

theorem stdSort_length {α : Type} (comp : α → α → Bool) (l : List α) :
    (stdSort comp l).length = l.length :=
  (stdSort_perm comp l).length_eq

set_option maxRecDepth 100000 in
theorem corpus50_run :
    runOk (GibbsSampling demoRandMax demoRand demoSampler Store.empty 1 ((2 : Nat) : Int) 50
        (1 / 10) (1 / 10) 1 corpus50)
      (fun r => decide (r.store.topic_term_count.map TermMap.keys = [fiftyTerms, fiftyTerms] ∧
        r.store.ttc 0 "t00" = 0)) = true := by
  decide

/-- C8 fails as stated: after one sweep of `GibbsSampling` over a document of fifty distinct
terms with two topics, `EstimatePhi` returns, `phi[0]` has an entry for the term `t00`, and the
count of `t00` under topic `0` is `0`. -/
theorem phi_support_counterexample :
    ∃ r out pm,
      GibbsSampling demoRandMax demoRand demoSampler Store.empty 1 ((2 : Nat) : Int) 50
        (1 / 10) (1 / 10) 1 corpus50 = Except.ok r ∧
      EstimatePhi r.store ((2 : Nat) : Int) 50 (1 / 10) (1 / 10)
        (List.replicate 2 []) (List.replicate 2 []) = Except.ok out ∧
      out.1[0]? = some pm ∧ "t00" ∈ pm.map Prod.fst ∧ r.store.ttc 0 "t00" = 0 := by
  have hrun := corpus50_run
  obtain ⟨r1, hr1, hreach⟩ := GibbsSampling_reachable 50 (1 / 10) (1 / 10) corpus50
    demoRand_inRange demoSampler_inRange 1
  have hr1' : GibbsSampling demoRandMax demoRand demoSampler Store.empty 1 ((2 : Nat) : Int) 50
      (1 / 10) (1 / 10) 1 corpus50 = Except.ok r1 := hr1
  rw [hr1'] at hrun
  simp only [runOk, decide_eq_true_eq] at hrun
  obtain ⟨hkeys, hzero⟩ := hrun
  have hready := hreach.phiReady demoRand_inRange demoSampler_inRange
  obtain ⟨out, hout, hspec⟩ := phiTables_spec r1.store 2 50 (1 / 10) _ _ hready
    (emptyOnEntry_replicate 2)
  have hk : ∀ k : Nat, k < 2 → (r1.store.ttcMap k).keys = fiftyTerms := by
    intro k hk
    have h1 : (r1.store.topic_term_count.map TermMap.keys)[k]? = some fiftyTerms := by
      rw [hkeys]
      have hcases : k = 0 ∨ k = 1 := by omega
      rcases hcases with h | h <;> subst h <;> rfl
    rw [List.getElem?_map] at h1
    cases hc : r1.store.topic_term_count[k]? with
    | none => rw [hc] at h1; cases h1
    | some tm =>
      rw [hc] at h1
      simp only [Option.map_some', Option.some.injEq] at h1
      simp [Store.ttcMap, hc, h1]
  have hlen : ∀ k : Nat, k < 2 → (r1.store.ttcMap k).length = 50 := by
    intro k hk2
    have := congrArg List.length (hk k hk2)
    simpa [TermMap.keys, fiftyTerms] using this
  refine ⟨r1, out, _, hr1', EstimatePhi_ok_of_tables hout ?_, (hspec 0 (by decide)).1, ?_,
    hzero⟩
  · intro i hi
    refine ⟨_, (hspec i hi).2, ?_⟩
    rw [stdSort_length, phiOf, List.length_map, hlen i hi]
  · rw [phiOf_keys, hk 0 (by decide)]
    decide

/-- C8 as amended: with initial topics and sampler results in `[0, K)`, `GibbsSampling`
returns a state on which the first loop of `EstimatePhi`, started with empty `phi` and
`phi_sorted`, returns; the tables `EstimatePhi` returns, when it returns, are the ones this loop
leaves; and for every topic `k`, `phi[k]` has an entry for term `t` if and only if
`topic_term_count[k]` stores the key `t`.  Every term with a nonzero count under `k` has an
entry, and the entry of a stored term is
`(topic_term_count[k][t] + beta) / (topic_term_sum[k] + beta * V)`. -/
theorem phi_support_is_stored_keys (RAND_MAX : Nat) (rand : Nat → Nat) (sampler : Sampler)
    (K V : Nat) (alpha beta : ℚ) (wm : WordMatrix)
    (hdraw : DrawsInRange RAND_MAX K rand) (hsamp : SamplerInRange K sampler)
    (iter_num : Int) :
    ∃ r out,
      GibbsSampling RAND_MAX rand sampler Store.empty (wm.length : Int) (K : Int) V alpha beta
        iter_num wm = Except.ok r ∧
      phiTables r.store (K : Int) (V : Int) beta (List.replicate K []) (List.replicate K [])
        = Except.ok out ∧
      (∀ out1, EstimatePhi r.store (K : Int) (V : Int) alpha beta (List.replicate K [])
        (List.replicate K []) = Except.ok out1 → out1 = out) ∧
      ∀ k : Nat, k < K → ∃ pm, out.1[k]? = some pm ∧
        ∀ t : String,
          (t ∈ pm.map Prod.fst ↔ (r.store.ttcMap k).hasKey t = true) ∧
          (r.store.ttc k t ≠ 0 → t ∈ pm.map Prod.fst) ∧
          (t ∈ pm.map Prod.fst → PhiMap.read pm t
            = ((r.store.ttc k t : ℚ) + beta) / ((r.store.tts k : ℚ) + beta * ((V : Int) : ℚ))) := by
  obtain ⟨r, hr, hreach⟩ := GibbsSampling_reachable V alpha beta wm hdraw hsamp iter_num
  have hready := hreach.phiReady hdraw hsamp
  obtain ⟨out, hout, hspec⟩ := phiTables_spec r.store K (V : Int) beta _ _ hready
    (emptyOnEntry_replicate K)
  refine ⟨r, out, hr, hout, ?_, ?_⟩
  · intro out1 ho
    have := EstimatePhi_eq_ok ho
    rw [hout] at this
    exact (Except.ok.inj this).symm
  · intro k hk
    refine ⟨_, (hspec k hk).1, ?_⟩
    intro t
    rw [phiOf_keys, ← TermMap.hasKey_iff_mem_keys]
    refine ⟨Iff.rfl, fun h => TermMap.hasKey_of_read_ne_zero _ _ h, fun h => ?_⟩
    exact phiOf_read _ _ _ _ _ h

/-- C8 as amended, Scenario B with the alternating draws and sampler and one sweep. -/
theorem phi_support_is_stored_keys_witness :
    DrawsInRange demoRandMax 2 demoRand ∧ SamplerInRange 2 demoSampler ∧
    ∃ r out,
      GibbsSampling demoRandMax demoRand demoSampler Store.empty (scenarioB.length : Int)
        ((2 : Nat) : Int) 2 (1 / 10) (1 / 10) 1 scenarioB = Except.ok r ∧
      phiTables r.store ((2 : Nat) : Int) ((2 : Nat) : Int) (1 / 10) (List.replicate 2 [])
        (List.replicate 2 []) = Except.ok out ∧
      (∀ out1, EstimatePhi r.store ((2 : Nat) : Int) ((2 : Nat) : Int) (1 / 10) (1 / 10)
        (List.replicate 2 []) (List.replicate 2 []) = Except.ok out1 → out1 = out) ∧
      ∀ k : Nat, k < 2 → ∃ pm, out.1[k]? = some pm ∧
        ∀ t : String,
          (t ∈ pm.map Prod.fst ↔ (r.store.ttcMap k).hasKey t = true) ∧
          (r.store.ttc k t ≠ 0 → t ∈ pm.map Prod.fst) ∧
          (t ∈ pm.map Prod.fst → PhiMap.read pm t
            = ((r.store.ttc k t : ℚ) + 1 / 10)
              / ((r.store.tts k : ℚ) + 1 / 10 * (((2 : Nat) : Int) : ℚ))) :=
  ⟨demoRand_inRange, demoSampler_inRange,
    phi_support_is_stored_keys demoRandMax demoRand demoSampler 2 2 (1 / 10) (1 / 10) scenarioB
      demoRand_inRange demoSampler_inRange 1⟩

/-! ## The document-count guard (C10) -/

/-- C10 fails on the code: with `num_of_docs = 1` and a token matrix of two documents,
`InitSampling` does not stop with the configuration error but returns count tables built for
document `0` alone; with `num_of_docs = 3` it runs past the end of the matrix instead of
stopping with the configuration error.  The guard fires only for `num_of_docs = 0`. -/
theorem init_accepts_mismatch :
    InitSampling demoRandMax demoRand Store.empty 1 2 [["a"], ["b"]]
        = Except.ok ⟨[[0]], [[1, 0]], [1], [[("a", 1)], []], [1, 0]⟩ ∧
      InitSampling demoRandMax demoRand Store.empty 3 2 [["a"], ["b"]]
        = Except.error Fault.outOfRange ∧
      InitSampling demoRandMax demoRand Store.empty 0 2 [["a"], ["b"]]
        = Except.error Fault.configExit := by
  refine ⟨?_, ?_, ?_⟩ <;> rfl

/-! ## The initial draw (C11) -/

theorem initTopicDraw_in_range (RAND_MAX : Nat) (K : Int) (r : Nat) (hK : 0 < K)
    (hr : r < RAND_MAX) :
    0 ≤ initTopicDraw RAND_MAX K r ∧ initTopicDraw RAND_MAX K r < K := by
  unfold initTopicDraw
  have h0 : (0 : Int) ≤ (r : Int) * K := Int.mul_nonneg (Int.ofNat_nonneg r) (le_of_lt hK)
  have hR : (0 : Int) < (RAND_MAX : Int) := by omega
  rw [Int.tdiv_eq_ediv h0 (le_of_lt hR)]
  refine ⟨Int.ediv_nonneg h0 (le_of_lt hR), Int.ediv_lt_of_lt_mul hR ?_⟩
  have hlt : (r : Int) < (RAND_MAX : Int) := by omega
  calc (r : Int) * K < (RAND_MAX : Int) * K := Int.mul_lt_mul_of_pos_right hlt hK
    _ = K * (RAND_MAX : Int) := Int.mul_comm _ _

theorem initTopicDraw_at_max (RAND_MAX : Nat) (K : Int) (hR : 0 < RAND_MAX) :
    initTopicDraw RAND_MAX K RAND_MAX = K := by
  unfold initTopicDraw
  rw [Int.mul_comm]
  exact Int.mul_tdiv_cancel K (by omega)

/-- C11 fails on the code: when `rand()` returns `RAND_MAX` the initial topic computed by
`InitTopicIndex` for `K = 2` is `2`, which is not below `K`, and `InitSampling` then indexes
`doc_topic_count[0]` outside its two cells. -/
theorem init_draw_reaches_K :
    initTopicDraw demoRandMax 2 demoRandMax = 2 ∧
      InitSampling demoRandMax (fun _ => demoRandMax) Store.empty 1 2 [["a"]]
        = Except.error Fault.outOfRange := by
  refine ⟨?_, ?_⟩ <;> rfl

/-! ## Zero iterations (C13) -/

/-- C13. Zero iterations is a no-op sampling loop: for every input, prior content of the
tables and sampler, `GibbsSampling` with `iter_num = 0` returns exactly what `InitSampling`
returns on the same arguments and draws, with `Z` and the four count tables as `InitSampling`
left them and an empty list of sampler calls. -/
theorem zero_iterations_noop (RAND_MAX : Nat) (rand : Nat → Nat) (sampler : Sampler)
    (s0 : Store) (num_of_docs num_of_topics : Int) (num_of_words : Nat) (alpha beta : ℚ)
    (word_matrix : WordMatrix) :
    GibbsSampling RAND_MAX rand sampler s0 num_of_docs num_of_topics num_of_words alpha beta 0
        word_matrix
      = Except.map (fun s => (⟨s, []⟩ : Run))
          (InitSampling RAND_MAX rand s0 num_of_docs num_of_topics word_matrix) := by
  unfold GibbsSampling
  cases InitSampling RAND_MAX rand s0 num_of_docs num_of_topics word_matrix <;> rfl

/-! ## What `UpdateTopic` writes (C19) -/

theorem foldlM_range_post {σ : Type} (P : Nat → σ → Prop) (f : σ → Nat → Except Fault σ)
    (n : Nat) (hf : ∀ k s s1, k < n → P k s → f s k = Except.ok s1 → P (k + 1) s1)
    (s s1 : σ) (h0 : P 0 s) (h : (List.range n).foldlM f s = Except.ok s1) : P n s1 := by
  induction n generalizing s1 with
  | zero =>
    simp only [List.range_zero, List.foldlM_nil, pure_eq_ok] at h
    exact h ▸ h0
  | succ n ih =>
    rw [List.range_succ, List.foldlM_append, bind_eq_ok] at h
    obtain ⟨s2, h2, h3⟩ := h
    simp only [List.foldlM_cons, List.foldlM_nil, bind_eq_ok, pure_eq_ok] at h3
    obtain ⟨s3, h4, rfl⟩ := h3
    exact hf n s2 s3 (Nat.lt_succ_self n)
      (ih (fun k s s1 hk => hf k s s1 (Nat.lt_succ_of_lt hk)) s2 h2) h4

theorem TermMap.hasKey_index_iff (m : TermMap) (t u : String) :
    TermMap.hasKey (TermMap.index m t) u = true ↔ TermMap.hasKey m u = true ∨ u = t := by
  unfold TermMap.index
  split
  · rename_i h
    constructor
    · exact Or.inl
    · rintro (h1 | h1)
      · exact h1
      · rw [h1]; exact h
  · rw [TermMap.hasKey_iff_mem_keys, TermMap.mem_keys_insertKey, TermMap.hasKey_iff_mem_keys]
    exact Or.comm

theorem topicWeights_keys {index_doc num_of_words : Nat} {num_of_topics : Int}
    {alpha beta : ℚ} {term : String} {s : Store} {out : Store × List Dbl}
    (h : topicWeights index_doc num_of_words num_of_topics alpha beta term s = Except.ok out) :
    ∀ (k : Nat) (u : String), TermMap.hasKey (out.1.ttcMap k) u = true ↔
      TermMap.hasKey (s.ttcMap k) u = true ∨ (k < num_of_topics.toNat ∧ u = term) := by
  unfold topicWeights at h
  have := foldlM_range_post
    (fun j (acc : Store × List Dbl) => ∀ (k : Nat) (u : String),
      TermMap.hasKey (acc.1.ttcMap k) u = true ↔
        TermMap.hasKey (s.ttcMap k) u = true ∨ (k < j ∧ u = term))
    _ num_of_topics.toNat ?_ (s, []) out ?_ h
  · exact this
  · intro j acc acc1 _ hacc hstep
    simp only [bind_eq_ok, pure_eq_ok] at hstep
    obtain ⟨o, ho, rfl⟩ := hstep
    obtain ⟨nk, nm, m, row, c, _, _, h3, _, _, rfl⟩ :=
      (topicWeight_eq_ok _ _ _ _ _ _ _ _ _).mp ho
    obtain ⟨hj, _⟩ := List.getElem?_eq_some_iff.mp h3
    intro k u
    simp only [Store.ttcMap]
    rw [getD_set _ _ _ _ _ hj]
    by_cases hkj : k = j
    · subst hkj
      simp only [if_true, TermMap.hasKey_index_iff]
      have hm : acc.1.ttcMap k = m := by simp [Store.ttcMap, h3]
      have := hacc k u
      rw [hm] at this
      rw [this]
      constructor
      · rintro ((h1 | ⟨h1, _⟩) | h1)
        · exact Or.inl h1
        · exact absurd h1 (Nat.lt_irrefl k)
        · exact Or.inr ⟨Nat.lt_succ_self k, h1⟩
      · rintro (h1 | ⟨_, h1⟩)
        · exact Or.inl (Or.inl h1)
        · exact Or.inr h1
    · simp only [hkj, if_false]
      have := hacc k u
      simp only [Store.ttcMap] at this
      rw [this]
      constructor
      · rintro (h1 | ⟨h1, h2⟩)
        · exact Or.inl h1
        · exact Or.inr ⟨Nat.lt_succ_of_lt h1, h2⟩
      · rintro (h1 | ⟨h1, h2⟩)
        · exact Or.inl h1
        · exact Or.inr ⟨by omega, h2⟩
  · intro k u
    simp

/-- C19 fails as stated: `UpdateTopic` for token `(0, 1)` of `demoStore`, whose term is `b`,
returns a store in which `topic_term_count[0]` stores the term `b`, which it did not before. -/
theorem update_topic_inserts_key :
    ∃ k s1, UpdateTopic (demoSampler 0) demoStore 0 1 2 2 (1 / 10) (1 / 10) scenarioB
        = Except.ok (k, s1) ∧
      demoStore.topic_term_count = [[("a", 2)], [("a", 1), ("b", 1)]] ∧
      s1.topic_term_count = [[("a", 2), ("b", 0)], [("a", 1), ("b", 1)]] :=
  ⟨_, _, rfl, rfl, rfl⟩

/-- C19 as amended: a call of `UpdateTopic` that returns leaves `topic_index_Zmn`,
`doc_topic_count`, `doc_topic_sum` and `topic_term_sum` exactly as they were, keeps the number
of maps, every count `topic_term_count[k][t]` (an absent term read as `0`) and the sum of every
map; the terms stored in `topic_term_count[k]` afterwards are the terms stored before and, for
`k < num_of_topics`, the term of the token. -/
theorem update_topic_frame (g : Int → List Dbl → Int) (s : Store)
    (index_doc index_word num_of_words : Nat) (num_of_topics : Int) (alpha beta : ℚ)
    (wm : WordMatrix) (out : Int × Store)
    (h : UpdateTopic g s index_doc index_word num_of_words num_of_topics alpha beta wm
      = Except.ok out) :
    ∃ term, termAt wm index_doc index_word = some term ∧
      UpdateTopicFrame s out.2 num_of_topics term := by
  obtain ⟨hS, _⟩ := UpdateTopic_sameCounts h
  obtain ⟨_, term, s1, w, _, ht, hw, rfl⟩ := (UpdateTopic_eq_ok _ _ _ _ _ _ _ _ _ _).mp h
  exact ⟨term, ht, hS.z_eq, hS.dtc_eq, hS.dts_eq, hS.tts_eq, hS.ttc_len, hS.ttc, hS.total,
    topicWeights_keys hw⟩

/-- C19 as amended, at token `(0, 1)` of `demoStore`. -/
theorem update_topic_frame_witness :
    UpdateTopic (demoSampler 0) demoStore 0 1 2 2 (1 / 10) (1 / 10) scenarioB
        = Except.ok (1, demoStoreRead) ∧
    ∃ term, termAt scenarioB 0 1 = some term ∧ UpdateTopicFrame demoStore demoStoreRead 2 term :=
  ⟨rfl, update_topic_frame (demoSampler 0) demoStore 0 1 2 2 (1 / 10) (1 / 10) scenarioB
    (1, demoStoreRead) rfl⟩

/-! ## Decrement undoes increment (C20) -/

theorem list2_ext (T T1 : List (List Int)) (hlen : T1.map List.length = T.map List.length)
    (h : ∀ m k : Nat, ((T1[m]?).bind (fun r => r[k]?)).getD 0
      = ((T[m]?).bind (fun r => r[k]?)).getD 0) : T1 = T := by
  apply List.ext_getElem?
  intro m
  have hl : T1.length = T.length := by simpa using congrArg List.length hlen
  by_cases hm : m < T.length
  · have hm1 : m < T1.length := by rw [hl]; exact hm
    have e1 : T1[m]? = some T1[m] := List.getElem?_eq_getElem hm1
    have e2 : T[m]? = some T[m] := List.getElem?_eq_getElem hm
    rw [e1, e2]
    congr 1
    have hrow : T1[m].length = T[m].length := by
      have := congrArg (fun l => l[m]?) hlen
      simpa [e1, e2] using this
    apply list_ext_getD _ _ hrow
    intro k
    have := h m k
    simpa [e1, e2] using this
  · rw [List.getElem?_eq_none (by omega), List.getElem?_eq_none (by omega)]

theorem sameValues_of {s s1 : Store} (hz : s1.topic_index_Zmn = s.topic_index_Zmn)
    (hdims : SameDims s s1) (hdtc : ∀ m k, s1.dtc m k = s.dtc m k)
    (hdts : ∀ m, s1.dts m = s.dts m) (htts : ∀ k, s1.tts k = s.tts k)
    (httc : ∀ (k : Nat) (u : String), s1.ttc k u = s.ttc k u) : SameValues s s1 :=
  ⟨hz, list2_ext _ _ hdims.dtc_rows hdtc, list_ext_getD _ _ hdims.dts_len hdts,
    list_ext_getD _ _ hdims.tts_len htts, httc⟩

theorem incre_decre_values {s s1 s2 s3 s4 : Store} {d p : Nat} {wm : WordMatrix}
    (h1 : IncreDocTopic s d p = Except.ok s1) (h2 : IncreTopicTerm s1 d p wm = Except.ok s2)
    (h3 : DecreDocTopic s2 d p = Except.ok s3) (h4 : DecreTopicTerm s3 d p wm = Except.ok s4) :
    SameValues s s4 := by
  obtain ⟨i1, hz1, _, hb1⟩ := IncreDocTopic_bump h1
  obtain ⟨i2, t2, hz2, ht2, _, hb2⟩ := IncreTopicTerm_bump h2
  obtain ⟨i3, hz3, _, hb3⟩ := DecreDocTopic_bump h3
  obtain ⟨i4, t4, hz4, ht4, _, hb4⟩ := DecreTopicTerm_bump h4
  have e2 : i2 = i1 := by
    rw [Store.zAt_congr hb1.z_eq, hz1] at hz2; exact (Option.some.inj hz2).symm
  have e3 : i3 = i1 := by
    rw [Store.zAt_congr hb2.z_eq, Store.zAt_congr hb1.z_eq, hz1] at hz3
    exact (Option.some.inj hz3).symm
  have e4 : i4 = i1 := by
    rw [Store.zAt_congr hb3.z_eq, Store.zAt_congr hb2.z_eq, Store.zAt_congr hb1.z_eq, hz1] at hz4
    exact (Option.some.inj hz4).symm
  have e5 : t4 = t2 := by rw [ht2] at ht4; exact (Option.some.inj ht4).symm
  subst e2; subst e3; subst e4; subst e5
  apply sameValues_of
  · rw [hb4.z_eq, hb3.z_eq, hb2.z_eq, hb1.z_eq]
  · exact ((hb1.dims.trans_dims hb2.dims).trans_dims hb3.dims).trans_dims hb4.dims
  · intro m k
    rw [Store.dtc_congr hb4.dtc_eq, hb3.dtc, Store.dtc_congr hb2.dtc_eq, hb1.dtc]
    by_cases hmk : m = d ∧ k = i4.toNat <;> simp [hmk]
  · intro m
    rw [Store.dts_congr hb4.dts_eq, hb3.dts, Store.dts_congr hb2.dts_eq, hb1.dts]
    by_cases hm : m = d <;> simp [hm]
  · intro k
    rw [hb4.tts, Store.tts_congr hb3.tts_eq, hb2.tts, Store.tts_congr hb1.tts_eq]
    by_cases hk : k = i4.toNat <;> simp [hk]
  · intro k u
    have e : s3.ttc k u = s2.ttc k u := by
      simp only [Store.ttc, Store.ttcMap_congr hb3.ttc_eq]
    have e0 : s1.ttc k u = s.ttc k u := by
      simp only [Store.ttc, Store.ttcMap_congr hb1.ttc_eq]
    rw [hb4.ttc, e, hb2.ttc, e0]
    by_cases hk : k = i4.toNat ∧ u = t4 <;> simp [hk]

theorem incre_decre_ok {M K : Nat} {s : Store} (hsh : Shaped M K s) {d p : Nat} (hd : d < M)
    {i : Int} (hz : s.zAt d p = some i) (h0 : 0 ≤ i) (hK : i < (K : Int)) {wm : WordMatrix}
    {t : String} (ht : termAt wm d p = some t) :
    ∃ s1 s2 s3 s4, IncreDocTopic s d p = Except.ok s1 ∧
      IncreTopicTerm s1 d p wm = Except.ok s2 ∧ DecreDocTopic s2 d p = Except.ok s3 ∧
      DecreTopicTerm s3 d p wm = Except.ok s4 := by
  obtain ⟨s1, h1⟩ := IncreDocTopic_ok hsh hz h0 hK hd
  obtain ⟨_, _, _, hb1⟩ := IncreDocTopic_bump h1
  have hz1 : s1.zAt d p = some i := by rw [Store.zAt_congr hb1.z_eq]; exact hz
  have hsh1 := hb1.dims.shaped hsh
  obtain ⟨s2, h2⟩ := IncreTopicTerm_ok hsh1 hz1 ht h0 hK
  obtain ⟨_, _, _, _, _, hb2⟩ := IncreTopicTerm_bump h2
  have hz2 : s2.zAt d p = some i := by rw [Store.zAt_congr hb2.z_eq]; exact hz1
  have hsh2 := hb2.dims.shaped hsh1
  obtain ⟨s3, h3⟩ := DecreDocTopic_ok hsh2 hz2 h0 hK hd
  obtain ⟨_, _, _, hb3⟩ := DecreDocTopic_bump h3
  have hz3 : s3.zAt d p = some i := by rw [Store.zAt_congr hb3.z_eq]; exact hz2
  obtain ⟨s4, h4⟩ := DecreTopicTerm_ok (hb3.dims.shaped hsh2) hz3 ht h0 hK
  exact ⟨s1, s2, s3, s4, h1, h2, h3, h4⟩

theorem visit_z_list {sampler : Sampler} {V : Nat} {K : Int} {alpha beta : ℚ}
    {wm : WordMatrix} {d p : Nat} {r r1 : Run}
    (h : visit sampler V K alpha beta wm d r p = Except.ok r1) :
    ∃ zrow old k, r.store.topic_index_Zmn[d]? = some zrow ∧ zrow[p]? = some old ∧
      r1.store.topic_index_Zmn = r.store.topic_index_Zmn.set d (zrow.set p k) ∧
      r1.store.zAt d p = some k := by
  obtain ⟨s1, s2, k, s3, s4, s5, s6, h1, h2, h3, h4, h5, h6, rfl⟩ :=
    (visit_eq_ok _ _ _ _ _ _ _ _ _ _).mp h
  obtain ⟨_, _, _, hb1⟩ := DecreDocTopic_bump h1
  obtain ⟨_, _, _, _, _, hb2⟩ := DecreTopicTerm_bump h2
  obtain ⟨hS3, _⟩ := UpdateTopic_sameCounts h3
  obtain ⟨_, _, _, hb5⟩ := IncreDocTopic_bump h5
  obtain ⟨_, _, _, _, _, hb6⟩ := IncreTopicTerm_bump h6
  obtain ⟨_, _, _, _, a5, _⟩ := assignTopic_tables h4
  obtain ⟨zrow, old, e1, e2, rfl⟩ := (assignTopic_eq_ok s3 s4 d p k).mp h4
  have hz3 : s3.topic_index_Zmn = r.store.topic_index_Zmn :=
    hS3.z_eq.trans (hb2.z_eq.trans hb1.z_eq)
  rw [hz3] at e1
  refine ⟨zrow, old, k, e1, e2, ?_, ?_⟩
  · show s6.topic_index_Zmn = _
    rw [hb6.z_eq, hb5.z_eq]
    show s3.topic_index_Zmn.set d (zrow.set p k) = _
    rw [hz3]
  · show s6.zAt d p = some k
    rw [Store.zAt_congr hb6.z_eq, Store.zAt_congr hb5.z_eq]; exact a5

theorem visit_same_topic_values {sampler : Sampler} {V : Nat} {K : Int} {alpha beta : ℚ}
    {wm : WordMatrix} {d p : Nat} {r r1 : Run}
    (h : visit sampler V K alpha beta wm d r p = Except.ok r1)
    (hsame : r1.store.zAt d p = r.store.zAt d p) : SameValues r.store r1.store := by
  obtain ⟨i, j, t, s1, s2, s3, s4, s5, hz1, _, _, hb1, hb2, hS3, ⟨a1, a2, a3, a4, a5, a6⟩, hb5,
    hb6, _, _, _⟩ := visit_bumps h
  have hzj : r1.store.zAt d p = some j := by
    rw [Store.zAt_congr hb6.z_eq, Store.zAt_congr hb5.z_eq]; exact a5
  have e : j = i := by
    rw [hsame, hz1] at hzj; exact (Option.some.inj hzj).symm
  subst e
  have hzall : ∀ m q, r1.store.zAt m q = r.store.zAt m q := by
    intro m q
    rw [Store.zAt_congr hb6.z_eq, Store.zAt_congr hb5.z_eq, a6 m q]
    simp only [setCounted]
    split
    · rename_i hmq; rw [hmq.1, hmq.2, hz1]
    · rfl
  have hd4 : SameDims s3 s4 := ⟨by rw [a1], by rw [a2], by rw [a3], by rw [a4]⟩
  have hdims : SameDims r.store r1.store :=
    ((((hb1.dims.trans_dims hb2.dims).trans_dims hS3.dims).trans_dims hd4).trans_dims
      hb5.dims).trans_dims hb6.dims
  have hZlist : r1.store.topic_index_Zmn = r.store.topic_index_Zmn := by
    obtain ⟨zrow, old, k, e1, e2, e3, e4⟩ := visit_z_list h
    have hk : k = old := by
      have h5 : r.store.zAt d p = some old := (zAt_eq_some r.store d p old).mpr ⟨zrow, e1, e2⟩
      rw [hsame, h5] at e4
      exact (Option.some.inj e4).symm
    rw [e3, hk, set_self zrow p old e2, set_self _ d zrow e1]
  apply sameValues_of hZlist hdims
  · intro m k
    rw [Store.dtc_congr hb6.dtc_eq, hb5.dtc, Store.dtc_congr a1, Store.dtc_congr hS3.dtc_eq,
      Store.dtc_congr hb2.dtc_eq, hb1.dtc]
    by_cases hmk : m = d ∧ k = j.toNat <;> simp [hmk]
  · intro m
    rw [Store.dts_congr hb6.dts_eq, hb5.dts, Store.dts_congr a2, Store.dts_congr hS3.dts_eq,
      Store.dts_congr hb2.dts_eq, hb1.dts]
    by_cases hm : m = d <;> simp [hm]
  · intro k
    rw [hb6.tts, Store.tts_congr hb5.tts_eq, Store.tts_congr a4, Store.tts_congr hS3.tts_eq,
      hb2.tts, Store.tts_congr hb1.tts_eq]
    by_cases hk : k = j.toNat <;> simp [hk]
  · intro k u
    have e5 : s5.ttc k u = s4.ttc k u := by
      simp only [Store.ttc, Store.ttcMap_congr hb5.ttc_eq]
    have e4 : s4.ttc k u = s3.ttc k u := by
      simp only [Store.ttc, Store.ttcMap_congr a3]
    have e1 : s1.ttc k u = r.store.ttc k u := by
      simp only [Store.ttc, Store.ttcMap_congr hb1.ttc_eq]
    rw [hb6.ttc, e5, e4, hS3.ttc, hb2.ttc, e1]
    by_cases hk : k = j.toNat ∧ u = t <;> simp [hk]

/-- C20. Decrement undoes increment: for every state and every token `(doc, pos)` with
`Z[doc][pos] = i`, the four calls `IncreDocTopic`, `IncreTopicTerm`, `DecreDocTopic`,
`DecreTopicTerm` for that token all return when the tables have `M` rows and `K` topics and
`i` lies in `[0, K)`; whenever they return, `Z`, `doc_topic_count`, `doc_topic_sum` and
`topic_term_sum` are the vectors they were and every `topic_term_count[k][t]` (an absent term
read as `0`) has its old value; and a visit to the token that returns with `Z[doc][pos] = i`
again leaves `Z` and all these count values unchanged. -/
theorem decrement_undoes_increment (s : Store) (d p : Nat) (i : Int) (wm : WordMatrix)
    (hz : s.zAt d p = some i) :
    (∀ (M K : Nat) (t : String), Shaped M K s → d < M → 0 ≤ i → i < (K : Int) →
      termAt wm d p = some t →
      ∃ s1 s2 s3 s4, IncreDocTopic s d p = Except.ok s1 ∧
        IncreTopicTerm s1 d p wm = Except.ok s2 ∧ DecreDocTopic s2 d p = Except.ok s3 ∧
        DecreTopicTerm s3 d p wm = Except.ok s4) ∧
    (∀ s1 s2 s3 s4, IncreDocTopic s d p = Except.ok s1 →
      IncreTopicTerm s1 d p wm = Except.ok s2 → DecreDocTopic s2 d p = Except.ok s3 →
      DecreTopicTerm s3 d p wm = Except.ok s4 → SameValues s s4) ∧
    (∀ (sampler : Sampler) (V : Nat) (K : Int) (alpha beta : ℚ) (calls : List (Nat × Nat))
      (r1 : Run), visit sampler V K alpha beta wm d ⟨s, calls⟩ p = Except.ok r1 →
      r1.store.zAt d p = some i → SameValues s r1.store) := by
  refine ⟨fun M K t hsh hd h0 hK ht => incre_decre_ok hsh hd hz h0 hK ht,
    fun s1 s2 s3 s4 h1 h2 h3 h4 => incre_decre_values h1 h2 h3 h4, ?_⟩
  intro sampler V K alpha beta calls r1 h hsame
  exact visit_same_topic_values h (by rw [hsame]; exact hz.symm)

/-- C20, at token `(0, 1)` of `demoStore`, whose topic is `1`. -/
theorem decrement_undoes_increment_witness :
    demoStore.zAt 0 1 = some 1 ∧
    ((∀ (M K : Nat) (t : String), Shaped M K demoStore → 0 < M → (0 : Int) ≤ 1 →
      (1 : Int) < (K : Int) → termAt scenarioB 0 1 = some t →
      ∃ s1 s2 s3 s4, IncreDocTopic demoStore 0 1 = Except.ok s1 ∧
        IncreTopicTerm s1 0 1 scenarioB = Except.ok s2 ∧ DecreDocTopic s2 0 1 = Except.ok s3 ∧
        DecreTopicTerm s3 0 1 scenarioB = Except.ok s4) ∧
    (∀ s1 s2 s3 s4, IncreDocTopic demoStore 0 1 = Except.ok s1 →
      IncreTopicTerm s1 0 1 scenarioB = Except.ok s2 → DecreDocTopic s2 0 1 = Except.ok s3 →
      DecreTopicTerm s3 0 1 scenarioB = Except.ok s4 → SameValues demoStore s4) ∧
    (∀ (sampler : Sampler) (V : Nat) (K : Int) (alpha beta : ℚ) (calls : List (Nat × Nat))
      (r1 : Run), visit sampler V K alpha beta scenarioB 0 ⟨demoStore, calls⟩ 1 = Except.ok r1 →
      r1.store.zAt 0 1 = some 1 → SameValues demoStore r1.store)) :=
  ⟨by decide, decrement_undoes_increment demoStore 0 1 1 scenarioB (by decide)⟩

/-! ## A second initialisation (C12) -/

theorem InitCountVariables_prior_z (s : Store) (z0 : List (List Int)) (M K : Int) :
    InitCountVariables { s with topic_index_Zmn := z0 } M K
      = Except.map (fun x => { x with topic_index_Zmn := z0 }) (InitCountVariables s M K) := by
  unfold InitCountVariables
  simp only [bind, Except.bind, pure, Except.pure, Except.map]
  cases vResizeInt s.doc_topic_count M [] with
  | error e => rfl
  | ok dtc =>
    simp only
    cases List.mapM (fun vt => vResizeInt vt K 0) dtc with
    | error e => rfl
    | ok dtc1 =>
      simp only
      cases vResizeInt s.doc_topic_sum M 0 with
      | error e => rfl
      | ok dts =>
        simp only
        cases vResizeInt s.topic_term_count K [] with
        | error e => rfl
        | ok ttc =>
          simp only
          cases vResizeInt s.topic_term_sum K 0 <;> rfl

theorem InitTopicIndex_prior_z (RAND_MAX : Nat) (rand : Nat → Nat) (s : Store)
    (z0 : List (List Int)) (M K : Int) (wm : WordMatrix) :
    InitTopicIndex RAND_MAX rand { s with topic_index_Zmn := z0 } M K wm
      = InitTopicIndex RAND_MAX rand s M K wm := by
  unfold InitTopicIndex vResizeInt
  by_cases hM : 0 ≤ M
  · simp only [hM, if_true, bind, Except.bind, vResize_length]
  · simp only [hM, if_false, bind, Except.bind]

theorem InitSampling_prior_z (RAND_MAX : Nat) (rand : Nat → Nat) (z0 : List (List Int))
    (M K : Int) (wm : WordMatrix) :
    InitSampling RAND_MAX rand ⟨z0, [], [], [], []⟩ M K wm
      = InitSampling RAND_MAX rand Store.empty M K wm := by
  unfold InitSampling
  by_cases hg : 0 = M ∧ M ≠ (wm.length : Int)
  · rw [if_pos hg, if_pos hg]
  · rw [if_neg hg, if_neg hg]
    have h1 := InitCountVariables_prior_z Store.empty z0 M K
    have h1' : InitCountVariables ⟨z0, [], [], [], []⟩ M K
        = Except.map (fun x => { x with topic_index_Zmn := z0 })
          (InitCountVariables Store.empty M K) := h1
    rw [h1']
    cases InitCountVariables Store.empty M K with
    | error e => rfl
    | ok x =>
      show (InitTopicIndex RAND_MAX rand { x with topic_index_Zmn := z0 } M K wm >>= _) = _
      rw [InitTopicIndex_prior_z]
      rfl

theorem initDoc_z {wm : WordMatrix} {s s1 : Store} {d : Nat}
    (h : initDoc wm s d = Except.ok s1) : s1.topic_index_Zmn = s.topic_index_Zmn := by
  simp only [initDoc, bind_eq_ok] at h
  obtain ⟨zrow, _, h2⟩ := h
  refine foldlM_preserves (fun x : Store => x.topic_index_Zmn = s.topic_index_Zmn) _ ?_ _ _ _
    rfl h2
  intro x p x1 hx hstep
  simp only [bind_eq_ok] at hstep
  obtain ⟨y, hy1, hy2⟩ := hstep
  obtain ⟨_, _, _, hb1⟩ := IncreDocTopic_bump hy1
  obtain ⟨_, _, _, _, _, hb2⟩ := IncreTopicTerm_bump hy2
  exact hb2.z_eq.trans (hb1.z_eq.trans hx)

theorem InitSampling_z (RAND_MAX : Nat) (rand : Nat → Nat) (s0 s : Store) (M K : Int)
    (wm : WordMatrix) (h : InitSampling RAND_MAX rand s0 M K wm = Except.ok s) :
    s.topic_index_Zmn = generateRows (fun n => initTopicDraw RAND_MAX K (rand n)) 0
      ((wm.take M.toNat).map List.length) := by
  unfold InitSampling at h
  split at h
  · cases h
  · simp only [bind_eq_ok] at h
    obtain ⟨sA, _, sB, hB, hloop⟩ := h
    have hzB : sB.topic_index_Zmn = generateRows (fun n => initTopicDraw RAND_MAX K (rand n)) 0
        ((wm.take M.toNat).map List.length) := by
      simp only [InitTopicIndex, bind_eq_ok, vResizeInt] at hB
      obtain ⟨z, hz, hB2⟩ := hB
      split at hz
      · simp only [Except.ok.injEq] at hz
        split at hB2
        · cases hB2
        · simp only [pure_eq_ok] at hB2
          rw [← hB2, ← hz, vResize_length]
      · cases hz
    rw [← hzB]
    exact foldlM_preserves (fun x : Store => x.topic_index_Zmn = sB.topic_index_Zmn) _
      (fun x d x1 hx hstep => (initDoc_z hstep).trans hx) _ _ _ rfl hloop

/-- C12, a fault of the code: `InitCountVariables`, documented as "Init all count variables",
only resizes the four count tables, and a resize to the size a table already has keeps its
cells.  After a completed run of `GibbsSampling` on Scenario A, a second `InitSampling` on the
same arguments and draws returns `doc_topic_sum = [8]` and `doc_topic_count = [[4, 4]]` for a
document of four tokens, where `InitSampling` on the empty tables returns `[4]` and
`[[2, 2]]`: the result depends on the prior content of the tables and does not satisfy the
count invariants, while `Z`, which `InitTopicIndex` overwrites, is the same in both. -/
theorem second_init_keeps_counts :
    ∃ r s s1,
      GibbsSampling demoRandMax demoRand demoSampler Store.empty 1 2 1 (1 / 10) (1 / 10) 1
        scenarioA = Except.ok r ∧
      InitSampling demoRandMax demoRand r.store 1 2 scenarioA = Except.ok s ∧
      InitSampling demoRandMax demoRand Store.empty 1 2 scenarioA = Except.ok s1 ∧
      s.doc_topic_sum = [8] ∧ s1.doc_topic_sum = [4] ∧
      s.doc_topic_count = [[4, 4]] ∧ s1.doc_topic_count = [[2, 2]] ∧
      s.topic_index_Zmn = s1.topic_index_Zmn :=
  ⟨_, _, _, rfl, rfl, rfl, rfl, rfl, rfl, rfl, rfl⟩

/-- The part of a fresh start that `InitSampling` does give: the `Z` it produces with given
draws is the same for every prior content of the five tables; when the four count tables are
empty on entry, as at process start, the whole result is the same for every prior content of
`topic_index_Zmn`, and for `num_of_docs = word_matrix.size()` and initial topics in `[0, K)`
it satisfies the count invariants. -/
theorem init_from_empty_counts (RAND_MAX : Nat) (rand : Nat → Nat) (K : Nat) (wm : WordMatrix)
    (z0 : List (List Int)) (hdraw : DrawsInRange RAND_MAX K rand) :
    (∀ (s0 s : Store) (M : Int) (K1 : Int),
      InitSampling RAND_MAX rand s0 M K1 wm = Except.ok s →
      s.topic_index_Zmn = generateRows (fun n => initTopicDraw RAND_MAX K1 (rand n)) 0
        ((wm.take M.toNat).map List.length)) ∧
    (∀ (M : Int) (K1 : Int), InitSampling RAND_MAX rand ⟨z0, [], [], [], []⟩ M K1 wm
      = InitSampling RAND_MAX rand Store.empty M K1 wm) ∧
    ∃ s, InitSampling RAND_MAX rand ⟨z0, [], [], [], []⟩ (wm.length : Int) (K : Int) wm
        = Except.ok s ∧
      DocCountInvariant wm s ∧ TopicTermInvariant K s ∧ TalliesOfZ wm K s := by
  refine ⟨fun s0 s M K1 h => InitSampling_z RAND_MAX rand s0 s M K1 wm h,
    fun M K1 => InitSampling_prior_z RAND_MAX rand z0 M K1 wm, ?_⟩
  obtain ⟨s, h, hQ, _⟩ := InitSampling_quiet RAND_MAX rand K wm hdraw
  refine ⟨s, ?_, hQ.docCountInvariant, hQ.topicTermInvariant, hQ.talliesOfZ⟩
  rw [InitSampling_prior_z]
  exact h

/-- Scenario A with stale topics `[[5, 5]]` left in `topic_index_Zmn` and empty count
tables. -/
theorem init_from_empty_counts_witness :
    DrawsInRange demoRandMax 2 demoRand ∧
    ((∀ (s0 s : Store) (M : Int) (K1 : Int),
      InitSampling demoRandMax demoRand s0 M K1 scenarioA = Except.ok s →
      s.topic_index_Zmn = generateRows (fun n => initTopicDraw demoRandMax K1 (demoRand n)) 0
        ((scenarioA.take M.toNat).map List.length)) ∧
    (∀ (M : Int) (K1 : Int), InitSampling demoRandMax demoRand ⟨[[5, 5]], [], [], [], []⟩ M K1
        scenarioA
      = InitSampling demoRandMax demoRand Store.empty M K1 scenarioA) ∧
    ∃ s, InitSampling demoRandMax demoRand ⟨[[5, 5]], [], [], [], []⟩ (scenarioA.length : Int)
        ((2 : Nat) : Int) scenarioA = Except.ok s ∧
      DocCountInvariant scenarioA s ∧ TopicTermInvariant 2 s ∧ TalliesOfZ scenarioA 2 s) :=
  ⟨demoRand_inRange,
    init_from_empty_counts demoRandMax demoRand 2 scenarioA [[5, 5]] demoRand_inRange⟩

/-! ## Calls that cannot stop with the configuration error -/

theorem noExit_ok {α : Type} (a : α) : NoExit (Except.ok a : Except Fault α) := by
  intro h; cases h

theorem noExit_bind {α β : Type} {x : Except Fault α} {f : α → Except Fault β}
    (hx : NoExit x) (hf : ∀ a, NoExit (f a)) : NoExit (x >>= f) := by
  cases x with
  | error e =>
    intro h
    have h1 : (Except.error e : Except Fault β) = Except.error Fault.configExit := h
    exact hx (by rw [Except.error.inj h1])
  | ok a => exact hf a

theorem noExit_vAt {α : Type} (v : List α) (i : Nat) : NoExit (vAt v i) := by
  unfold vAt NoExit
  cases v[i]? <;> simp

theorem noExit_vAtInt {α : Type} (v : List α) (i : Int) : NoExit (vAtInt v i) := by
  unfold vAtInt
  split
  · exact noExit_vAt v _
  · intro h; cases h

theorem noExit_vAt2 {α : Type} (v : List (List α)) (i j : Nat) : NoExit (vAt2 v i j) := by
  unfold vAt2
  cases v[i]? with
  | none => intro h; cases h
  | some row => exact noExit_vAt row j

theorem noExit_vResizeInt {α : Type} (v : List α) (n : Int) (d : α) :
    NoExit (vResizeInt v n d) := by
  unfold vResizeInt
  split
  · exact noExit_ok _
  · intro h; cases h

theorem noExit_foldlM {σ α : Type} (f : σ → α → Except Fault σ)
    (hf : ∀ s a, NoExit (f s a)) (l : List α) (s : σ) : NoExit (l.foldlM f s) := by
  induction l generalizing s with
  | nil => exact noExit_ok s
  | cons a rest ih =>
    rw [List.foldlM_cons]
    exact noExit_bind (hf s a) (fun s1 => ih s1)

theorem noExit_mapM {α β : Type} (f : α → Except Fault β) (hf : ∀ a, NoExit (f a))
    (l : List α) : NoExit (l.mapM f) := by
  induction l with
  | nil => exact noExit_ok _
  | cons a rest ih =>
    rw [List.mapM_cons]
    exact noExit_bind (hf a) (fun b => noExit_bind ih (fun bs => noExit_ok _))

theorem noExit_IncreDocTopic (s : Store) (d p : Nat) : NoExit (IncreDocTopic s d p) :=
  noExit_bind (noExit_vAt2 _ _ _) (fun _ => noExit_bind (noExit_vAt _ _) (fun _ =>
    noExit_bind (noExit_vAtInt _ _) (fun _ => noExit_bind (noExit_vAt _ _) (fun _ =>
      noExit_ok _))))

theorem noExit_DecreDocTopic (s : Store) (d p : Nat) : NoExit (DecreDocTopic s d p) :=
  noExit_bind (noExit_vAt2 _ _ _) (fun _ => noExit_bind (noExit_vAt _ _) (fun _ =>
    noExit_bind (noExit_vAtInt _ _) (fun _ => noExit_bind (noExit_vAt _ _) (fun _ =>
      noExit_ok _))))

theorem noExit_IncreTopicTerm (s : Store) (d p : Nat) (wm : WordMatrix) :
    NoExit (IncreTopicTerm s d p wm) :=
  noExit_bind (noExit_vAt2 _ _ _) (fun _ => noExit_bind (noExit_vAt2 _ _ _) (fun _ =>
    noExit_bind (noExit_vAtInt _ _) (fun _ => noExit_bind (noExit_vAtInt _ _) (fun _ =>
      noExit_ok _))))

theorem noExit_DecreTopicTerm (s : Store) (d p : Nat) (wm : WordMatrix) :
    NoExit (DecreTopicTerm s d p wm) :=
  noExit_bind (noExit_vAt2 _ _ _) (fun _ => noExit_bind (noExit_vAt2 _ _ _) (fun _ =>
    noExit_bind (noExit_vAtInt _ _) (fun _ => noExit_bind (noExit_vAtInt _ _) (fun _ =>
      noExit_ok _))))

theorem noExit_InitCountVariables (s : Store) (M K : Int) :
    NoExit (InitCountVariables s M K) :=
  noExit_bind (noExit_vResizeInt _ _ _) (fun _ =>
    noExit_bind (noExit_mapM _ (fun _ => noExit_vResizeInt _ _ _) _) (fun _ =>
      noExit_bind (noExit_vResizeInt _ _ _) (fun _ =>
        noExit_bind (noExit_vResizeInt _ _ _) (fun _ =>
          noExit_bind (noExit_vResizeInt _ _ _) (fun _ => noExit_ok _)))))

theorem noExit_InitTopicIndex (RAND_MAX : Nat) (rand : Nat → Nat) (s : Store) (M K : Int)
    (wm : WordMatrix) : NoExit (InitTopicIndex RAND_MAX rand s M K wm) := by
  unfold InitTopicIndex
  refine noExit_bind (noExit_vResizeInt _ _ _) (fun z => ?_)
  split
  · intro h; cases h
  · exact noExit_ok _

theorem noExit_initDoc (wm : WordMatrix) (s : Store) (d : Nat) : NoExit (initDoc wm s d) :=
  noExit_bind (noExit_vAt _ _) (fun _ => noExit_foldlM _
    (fun x p => noExit_bind (noExit_IncreDocTopic x d p)
      (fun y => noExit_IncreTopicTerm y d p wm)) _ _)

theorem noExit_topicWeights (d V : Nat) (K : Int) (alpha beta : ℚ) (term : String)
    (s : Store) : NoExit (topicWeights d V K alpha beta term s) :=
  noExit_foldlM _ (fun _ _ => noExit_bind
    (noExit_bind (noExit_vAt _ _) (fun _ => noExit_bind (noExit_vAt _ _) (fun _ =>
      noExit_bind (noExit_vAt _ _) (fun _ => noExit_bind (noExit_vAt _ _) (fun _ =>
        noExit_bind (noExit_vAt _ _) (fun _ => noExit_ok _))))))
    (fun _ => noExit_ok _)) _ _

theorem noExit_UpdateTopic (g : Int → List Dbl → Int) (s : Store) (d p V : Nat) (K : Int)
    (alpha beta : ℚ) (wm : WordMatrix) : NoExit (UpdateTopic g s d p V K alpha beta wm) :=
  noExit_bind (noExit_vAt2 _ _ _) (fun _ => noExit_bind (noExit_vAt2 _ _ _) (fun _ =>
    noExit_bind (noExit_topicWeights _ _ _ _ _ _ _) (fun _ => noExit_ok _)))

theorem noExit_assignTopic (s : Store) (d p : Nat) (k : Int) : NoExit (assignTopic s d p k) :=
  noExit_bind (noExit_vAt _ _) (fun _ => noExit_bind (noExit_vAt _ _) (fun _ => noExit_ok _))

theorem noExit_visit (sampler : Sampler) (V : Nat) (K : Int) (alpha beta : ℚ)
    (wm : WordMatrix) (d : Nat) (r : Run) (p : Nat) :
    NoExit (visit sampler V K alpha beta wm d r p) :=
  noExit_bind (noExit_DecreDocTopic _ _ _) (fun _ =>
    noExit_bind (noExit_DecreTopicTerm _ _ _ _) (fun _ =>
      noExit_bind (noExit_UpdateTopic _ _ _ _ _ _ _ _ _) (fun _ =>
        noExit_bind (noExit_assignTopic _ _ _ _) (fun _ =>
          noExit_bind (noExit_IncreDocTopic _ _ _) (fun _ =>
            noExit_bind (noExit_IncreTopicTerm _ _ _ _) (fun _ => noExit_ok _))))))

theorem noExit_sweeps (sampler : Sampler) (V : Nat) (K : Int) (alpha beta : ℚ)
    (wm : WordMatrix) (n : Nat) (r : Run) : NoExit (sweeps sampler V K alpha beta wm n r) := by
  induction n generalizing r with
  | zero => exact noExit_ok r
  | succ n ih =>
    refine noExit_bind ?_ (fun r1 => ih r1)
    exact noExit_foldlM _ (fun x d => noExit_bind (noExit_vAt _ _) (fun _ =>
      noExit_foldlM _ (fun y p => noExit_visit sampler V K alpha beta wm d y p) _ _)) _ _

theorem GibbsSampling_exit_iff (RAND_MAX : Nat) (rand : Nat → Nat) (sampler : Sampler)
    (s0 : Store) (M K : Int) (V : Nat) (alpha beta : ℚ) (iter_num : Int) (wm : WordMatrix) :
    GibbsSampling RAND_MAX rand sampler s0 M K V alpha beta iter_num wm
        = Except.error Fault.configExit ↔ (0 = M ∧ M ≠ (wm.length : Int)) := by
  unfold GibbsSampling InitSampling
  by_cases hg : 0 = M ∧ M ≠ (wm.length : Int)
  · rw [if_pos hg]
    exact ⟨fun _ => hg, fun _ => rfl⟩
  · rw [if_neg hg]
    refine ⟨fun h => absurd h ?_, fun h => absurd h hg⟩
    exact noExit_bind
      (noExit_bind (noExit_InitCountVariables _ _ _) (fun _ =>
        noExit_bind (noExit_InitTopicIndex _ _ _ _ _ _) (fun _ =>
          noExit_foldlM _ (fun x d => noExit_initDoc wm x d) _ _)))
      (fun _ => noExit_sweeps _ _ _ _ _ _ _ _)

/-! ## The weights of `UpdateTopic` -/

theorem topicWeight_value {index_doc num_of_words : Nat} {num_of_topics : Int}
    {alpha beta : ℚ} {term : String} {s : Store} {k : Nat} {out : Store × Dbl}
    (h : topicWeight index_doc num_of_words num_of_topics alpha beta term s k = Except.ok out) :
    out.2 = s.weight index_doc num_of_words num_of_topics alpha beta term k := by
  obtain ⟨nk, nm, m, row, c, h1, h2, h3, h4, h5, rfl⟩ :=
    (topicWeight_eq_ok _ _ _ _ _ _ _ _ _).mp h
  simp [Store.weight, Store.ttc, Store.ttcMap, Store.dtc, Store.tts, Store.dts, h1, h2, h3, h4,
    h5]

theorem Store.weight_congr {s s1 : Store} (h : SameCounts s s1) (index_doc num_of_words : Nat)
    (num_of_topics : Int) (alpha beta : ℚ) (term : String) (k : Nat) :
    s1.weight index_doc num_of_words num_of_topics alpha beta term k
      = s.weight index_doc num_of_words num_of_topics alpha beta term k := by
  simp only [Store.weight, h.ttc, Store.dtc_congr h.dtc_eq, Store.tts_congr h.tts_eq,
    Store.dts_congr h.dts_eq]

theorem topicWeights_values {M K : Nat} {s : Store} (hs : Shaped M K s) {index_doc : Nat}
    (hd : index_doc < M) (num_of_words : Nat) (alpha beta : ℚ) (term : String) :
    ∃ s1, topicWeights index_doc num_of_words (K : Int) alpha beta term s
        = Except.ok (s1, (List.range K).map
          (s.weight index_doc num_of_words (K : Int) alpha beta term)) ∧
      SameCounts s s1 := by
  have hK : ((K : Int)).toNat = K := by simp
  obtain ⟨out, h, hS, hv⟩ := foldlM_range_inv
    (fun k (acc : Store × List Dbl) => SameCounts s acc.1 ∧
      acc.2 = (List.range k).map (s.weight index_doc num_of_words (K : Int) alpha beta term))
    (fun (acc : Store × List Dbl) k => do
      let (s1, w) ← topicWeight index_doc num_of_words (K : Int) alpha beta term acc.1 k
      pure (s1, acc.2 ++ [w]))
    K
    (by
      intro k acc hk hacc
      obtain ⟨hacc1, hacc2⟩ := hacc
      obtain ⟨o, ho⟩ := topicWeight_ok (hacc1.dims.shaped hs) hd hk num_of_words (K : Int)
        alpha beta term
      refine ⟨(o.1, acc.2 ++ [o.2]), ?_, hacc1.trans_counts (topicWeight_sameCounts ho), ?_⟩
      · simp only [bind_eq_ok, pure_eq_ok]
        exact ⟨o, ho, rfl⟩
      · show acc.2 ++ [o.2] = _
        rw [List.range_succ, List.map_append, hacc2, topicWeight_value ho,
          Store.weight_congr hacc1]
        rfl)
    (s, []) ⟨sameCounts_refl s, rfl⟩
  refine ⟨out.1, ?_, hS⟩
  unfold topicWeights
  rw [hK, h]
  rw [← hv]

/-! ## The counts after the decrement -/

theorem countAll_row (wm : WordMatrix) (d : Nat) (hd : d < wm.length) (g : Nat → Bool) :
    countAll wm (fun m q => decide (m = d) && g q) = countRow wm d g := by
  have h := sum_range_update (fun _ => 0)
    (fun m => countRow wm m (fun q => decide (m = d) && g q)) wm.length d 0
    (countRow wm d g) hd
    (by
      intro m hm
      show countRow wm m _ = 0
      rw [← countRow_false wm m]
      apply countRow_congr
      intro q _
      simp [hm])
    (by
      show countRow wm d _ + 0 = 0 + countRow wm d g
      rw [Nat.add_zero, Nat.zero_add]
      apply countRow_congr
      intro q _
      simp)
  unfold countAll
  simpa using h

theorem Tallied.counted {wm : WordMatrix} {K : Nat} {c : Nat → Nat → Option Int} {s : Store}
    (hT : Tallied wm K c s) : Counted wm K c s :=
  ⟨hT.shaped, hT.dtc_eq, hT.dts_eq, hT.ttc_eq, hT.tts_eq⟩

theorem Counted.bump_step {wm : WordMatrix} {K : Nat} {c : Nat → Nat → Option Int}
    {s s1 s2 : Store} {d p i : Nat} {t : String} {delta : Int} {v : Option Int}
    (hT : Counted wm K c s) (hd : d < wm.length) (hp : p < rowLen wm d)
    (ht : termAt wm d p = some t)
    (hdoc : DocBump s s1 d i delta) (hterm : TermBump s1 s2 i t delta)
    (hv : ∀ k : Nat, (((v == some (k : Int)).toNat : Nat) : Int)
      = (((c d p == some (k : Int)).toNat : Nat) : Int) + if k = i then delta else 0)
    (hvs : (((v.isSome).toNat : Nat) : Int) = ((((c d p).isSome).toNat : Nat) : Int) + delta) :
    Counted wm K (setCounted c d p v) s2 := by
  have hoff : ∀ m q, ¬ (m = d ∧ q = p) → setCounted c d p v m q = c m q := by
    intro m q h; simp [setCounted, h]
  have hon : setCounted c d p v d p = v := by simp [setCounted]
  refine ⟨hterm.dims.shaped (hdoc.dims.shaped hT.shaped), ?_, ?_, ?_, ?_⟩
  · intro m k hm hk
    rw [Store.dtc_congr hterm.dtc_eq, hdoc.dtc, hT.dtc_eq m k hm hk]
    by_cases hmd : m = d
    · subst hmd
      have := countRow_update wm m p (fun q => c m q == some (k : Int))
        (fun q => setCounted c m p v m q == some (k : Int)) hp
        (fun q hq => by simp only [hoff m q (fun hc => hq hc.2)])
      simp only [hon] at this
      have h2 := hv k
      by_cases hki : k = i
      · subst hki; simp only [and_self, if_true] at h2 ⊢; omega
      · simp only [hki, and_false, if_false] at h2 ⊢; omega
    · have := countRow_congr wm m (fun q => c m q == some (k : Int))
        (fun q => setCounted c d p v m q == some (k : Int))
        (fun q _ => by simp only [hoff m q (fun hc => hmd hc.1)])
      simp only [hmd, false_and, if_false, this]; omega
  · intro m hm
    rw [Store.dts_congr hterm.dts_eq, hdoc.dts, hT.dts_eq m hm]
    by_cases hmd : m = d
    · subst hmd
      have := countRow_update wm m p (fun q => (c m q).isSome)
        (fun q => (setCounted c m p v m q).isSome) hp
        (fun q hq => by simp only [hoff m q (fun hc => hq hc.2)])
      simp only [hon] at this
      simp only [if_true]; omega
    · have := countRow_congr wm m (fun q => (c m q).isSome)
        (fun q => (setCounted c d p v m q).isSome)
        (fun q _ => by simp only [hoff m q (fun hc => hmd hc.1)])
      simp only [hmd, if_false, this]; omega
  · intro k u hk
    rw [hterm.ttc]
    have e1 : s1.ttc k u = s.ttc k u := by
      simp only [Store.ttc, Store.ttcMap_congr hdoc.ttc_eq]
    rw [e1, hT.ttc_eq k u hk]
    have := countAll_update wm d p
      (fun m q => c m q == some (k : Int) && termAt wm m q == some u)
      (fun m q => setCounted c d p v m q == some (k : Int) && termAt wm m q == some u) hd hp
      (fun m q hq => by simp only [hoff m q hq])
    simp only [hon, ht] at this
    have h2 := hv k
    by_cases hut : u = t
    · subst hut
      simp only [beq_self_eq_true, Bool.and_true] at this
      by_cases hki : k = i
      · subst hki; simp only [and_self, if_true] at h2 ⊢; omega
      · simp only [hki, false_and, if_false] at h2 ⊢; omega
    · have hne : (some t == some u) = false := by
        simp only [beq_eq_false_iff_ne, ne_eq, Option.some.injEq]
        exact fun e => hut e.symm
      simp only [hne, Bool.and_false, Bool.toNat_false, add_zero] at this
      simp only [hut, and_false, if_false, this]; omega
  · intro k hk
    rw [hterm.tts, Store.tts_congr hdoc.tts_eq, hT.tts_eq k hk]
    have := countAll_update wm d p
      (fun m q => c m q == some (k : Int))
      (fun m q => setCounted c d p v m q == some (k : Int)) hd hp
      (fun m q hq => by simp only [hoff m q hq])
    simp only [hon] at this
    have h2 := hv k
    by_cases hki : k = i
    · subst hki; simp only [if_true] at h2 ⊢; omega
    · simp only [hki, if_false] at h2 ⊢; omega

theorem Counted.decrement_pair {wm : WordMatrix} {K : Nat} {c : Nat → Nat → Option Int} {s : Store}
    (hT : Counted wm K c s) {d p : Nat} {i : Int} {t : String}
    (hc : c d p = some i) (hz : s.zAt d p = some i) (h0 : 0 ≤ i) (hi : i < (K : Int))
    (ht : termAt wm d p = some t) :
    ∃ s1 s2, DecreDocTopic s d p = Except.ok s1 ∧ DecreTopicTerm s1 d p wm = Except.ok s2 ∧
      Counted wm K (setCounted c d p none) s2 ∧
      s2.topic_index_Zmn = s.topic_index_Zmn := by
  obtain ⟨hd, hp⟩ := termAt_bounds ht
  obtain ⟨s1, h1⟩ := DecreDocTopic_ok hT.shaped hz h0 hi hd
  obtain ⟨i1, hz1, _, hb1⟩ := DecreDocTopic_bump h1
  have e1 : i1 = i := by rw [hz] at hz1; exact (Option.some.inj hz1).symm
  subst e1
  have hz2 : s1.zAt d p = some i1 := by rw [Store.zAt_congr hb1.z_eq]; exact hz
  obtain ⟨s2, h2⟩ := DecreTopicTerm_ok (hb1.dims.shaped hT.shaped) hz2 ht h0 hi
  obtain ⟨i2, t2, hz3, ht2, _, hb2⟩ := DecreTopicTerm_bump h2
  have e2 : i2 = i1 := by rw [hz2] at hz3; exact (Option.some.inj hz3).symm
  have e3 : t2 = t := by rw [ht] at ht2; exact (Option.some.inj ht2).symm
  subst e2; subst e3
  refine ⟨s1, s2, h1, h2, ?_, hb2.z_eq.trans hb1.z_eq⟩
  apply hT.bump_step hd hp ht hb1 hb2
  · intro k
    rw [hc, beq_some_cast i2 k h0]
    by_cases h : k = i2.toNat <;> simp [h]
  · simp [hc]

theorem Counted.others {wm : WordMatrix} {K : Nat} {z : Nat → Nat → Option Int} {s2 : Store}
    {d p : Nat} (hT : Counted wm K (setCounted z d p none) s2) (hd : d < wm.length)
    (hp : p < rowLen wm d) (hz : countRow wm d (fun q => (z d q).isSome) = rowLen wm d)
    (hzp : (z d p).isSome = true)
    (V : Nat) (alpha beta : ℚ) (t : String) (k : Nat) (hk : k < K) :
    s2.weight d V (K : Int) alpha beta t k = conditionalWeight wm z d p t V K alpha beta k := by
  have e1 : s2.ttc k t = (countOthers wm d p
      (fun m q => termAt wm m q == some t && z m q == some (k : Int)) : Nat) := by
    rw [hT.ttc_eq k t hk]
    congr 1
    unfold countOthers
    apply countAll_congr
    intro m q _ _
    by_cases h : m = d ∧ q = p
    · simp [setCounted, h]
    · simp [setCounted, h, Bool.and_comm]
  have e2 : s2.dtc d k = (countOthers wm d p
      (fun m q => decide (m = d) && z m q == some (k : Int)) : Nat) := by
    rw [hT.dtc_eq d k hd hk]
    congr 1
    unfold countOthers
    rw [← countAll_row wm d hd]
    apply countAll_congr
    intro m q _ _
    by_cases h1 : m = d
    · subst h1
      by_cases h2 : q = p
      · simp [setCounted, h2]
      · simp [setCounted, h2]
    · simp [h1]
  have e3 : s2.tts k = (countOthers wm d p (fun m q => z m q == some (k : Int)) : Nat) := by
    rw [hT.tts_eq k hk]
    congr 1
    unfold countOthers
    apply countAll_congr
    intro m q _ _
    by_cases h : m = d ∧ q = p
    · simp [setCounted, h]
    · simp [setCounted, h]
  have e4 : s2.dts d = (rowLen wm d : Int) - 1 := by
    rw [hT.dts_eq d hd]
    have h := countRow_update wm d p (fun q => (z d q).isSome)
      (fun q => (setCounted z d p none d q).isSome) hp
      (by intro q hq; simp [setCounted, hq])
    simp only [setCounted, hzp, and_self, if_true, Option.isSome_none, Bool.toNat_true,
      Bool.toNat_false, Nat.add_zero] at h
    rw [hz] at h
    simp only [setCounted]
    omega
  unfold Store.weight conditionalWeight
  rw [e1, e2, e3, e4]

theorem Counted.others_exact {wm : WordMatrix} {K : Nat} {z : Nat → Nat → Option Int}
    {s2 : Store} {d p : Nat} (hT : Counted wm K (setCounted z d p none) s2) (hd : d < wm.length)
    (hp : p < rowLen wm d) (hz : countRow wm d (fun q => (z d q).isSome) = rowLen wm d)
    (hzp : (z d p).isSome = true)
    (V : Nat) (alpha beta : ℚ) (t : String) (k : Nat) (hk : k < K) :
    s2.exactWeight d V (K : Int) alpha beta t k = exactWeight wm z d p t V K alpha beta k := by
  have e1 : s2.ttc k t = (countOthers wm d p
      (fun m q => termAt wm m q == some t && z m q == some (k : Int)) : Nat) := by
    rw [hT.ttc_eq k t hk]
    congr 1
    unfold countOthers
    apply countAll_congr
    intro m q _ _
    by_cases h : m = d ∧ q = p
    · simp [setCounted, h]
    · simp [setCounted, h, Bool.and_comm]
  have e2 : s2.dtc d k = (countOthers wm d p
      (fun m q => decide (m = d) && z m q == some (k : Int)) : Nat) := by
    rw [hT.dtc_eq d k hd hk]
    congr 1
    unfold countOthers
    rw [← countAll_row wm d hd]
    apply countAll_congr
    intro m q _ _
    by_cases h1 : m = d
    · subst h1
      by_cases h2 : q = p
      · simp [setCounted, h2]
      · simp [setCounted, h2]
    · simp [h1]
  have e3 : s2.tts k = (countOthers wm d p (fun m q => z m q == some (k : Int)) : Nat) := by
    rw [hT.tts_eq k hk]
    congr 1
    unfold countOthers
    apply countAll_congr
    intro m q _ _
    by_cases h : m = d ∧ q = p
    · simp [setCounted, h]
    · simp [setCounted, h]
  have e4 : s2.dts d = (rowLen wm d : Int) - 1 := by
    rw [hT.dts_eq d hd]
    have h := countRow_update wm d p (fun q => (z d q).isSome)
      (fun q => (setCounted z d p none d q).isSome) hp
      (by intro q hq; simp [setCounted, hq])
    simp only [setCounted, hzp, and_self, if_true, Option.isSome_none, Bool.toNat_true,
      Bool.toNat_false, Nat.add_zero] at h
    rw [hz] at h
    simp only [setCounted]
    omega
  unfold Store.exactWeight exactWeight
  rw [e1, e2, e3, e4]
  push_cast
  rfl

/-! ## One visit in detail -/

theorem visit_result {sampler : Sampler} {V : Nat} {K : Int} {alpha beta : ℚ} {wm : WordMatrix}
    {d p : Nat} {r r1 : Run} (h : visit sampler V K alpha beta wm d r p = Except.ok r1) :
    ∃ s1 s2 k s3, DecreDocTopic r.store d p = Except.ok s1 ∧
      DecreTopicTerm s1 d p wm = Except.ok s2 ∧
      UpdateTopic (sampler r.calls.length) s2 d p V K alpha beta wm = Except.ok (k, s3) ∧
      (∀ m q, r1.store.zAt m q = setCounted r.store.zAt d p (some k) m q) ∧
      r1.calls = r.calls ++ [(d, p)] := by
  obtain ⟨s1, s2, k, s3, s4, s5, s6, h1, h2, h3, h4, h5, h6, rfl⟩ :=
    (visit_eq_ok _ _ _ _ _ _ _ _ _ _).mp h
  obtain ⟨_, _, _, hb1⟩ := DecreDocTopic_bump h1
  obtain ⟨_, _, _, _, _, hb2⟩ := DecreTopicTerm_bump h2
  obtain ⟨hS3, _⟩ := UpdateTopic_sameCounts h3
  obtain ⟨_, _, _, _, _, a6⟩ := assignTopic_tables h4
  obtain ⟨_, _, _, hb5⟩ := IncreDocTopic_bump h5
  obtain ⟨_, _, _, _, _, hb6⟩ := IncreTopicTerm_bump h6
  have hz3 : ∀ m q, s3.zAt m q = r.store.zAt m q := fun m q =>
    Store.zAt_congr (hS3.z_eq.trans (hb2.z_eq.trans hb1.z_eq)) m q
  refine ⟨s1, s2, k, s3, h1, h2, h3, ?_, rfl⟩
  intro m q
  show s6.zAt m q = _
  rw [Store.zAt_congr (hb6.z_eq.trans hb5.z_eq), a6 m q]
  simp only [setCounted, hz3]

theorem ZValid.row_all_counted {wm : WordMatrix} {K : Nat} {s : Store} (hZ : ZValid wm K s)
    {m : Nat} (hm : m < wm.length) :
    countRow wm m (fun p => (s.zAt m p).isSome) = rowLen wm m := by
  rw [← countRow_true wm m]
  apply countRow_congr
  intro q hq
  obtain ⟨i, hi, _⟩ := hZ.zAt_some hm hq
  simp [hi]

theorem visit_conditional {wm : WordMatrix} {K : Nat} {s : Store} (hZ : ZValid wm K s)
    (hC : Counted wm K s.zAt s)
    {d p : Nat} (hd : d < wm.length) (hp : p < rowLen wm d) (V : Nat) (alpha beta : ℚ) :
    ∃ t s1 s2 s3, termAt wm d p = some t ∧
      DecreDocTopic s d p = Except.ok s1 ∧ DecreTopicTerm s1 d p wm = Except.ok s2 ∧
      Counted wm K (setCounted s.zAt d p none) s2 ∧
      topicWeights d V (K : Int) alpha beta t s2 = Except.ok (s3, (List.range K).map
        (conditionalWeight wm s.zAt d p t V K alpha beta)) ∧
      ∀ g : Int → List Dbl → Int, UpdateTopic g s2 d p V (K : Int) alpha beta wm
        = Except.ok (g (K : Int) (normalise ((List.range K).map
            (conditionalWeight wm s.zAt d p t V K alpha beta))), s3) := by
  obtain ⟨i, hz, h0, hi⟩ := hZ.zAt_some hd hp
  obtain ⟨t, ht⟩ := termAt_of_bounds hd hp
  obtain ⟨s1, s2, h1, h2, hT2, hZ2⟩ := hC.decrement_pair hz hz h0 hi ht
  have hz2 : s2.zAt d p = some i := by rw [Store.zAt_congr hZ2]; exact hz
  obtain ⟨s3, h3, _⟩ := topicWeights_values hT2.shaped hd V alpha beta t
  have hW : (List.range K).map (s2.weight d V (K : Int) alpha beta t)
      = (List.range K).map (conditionalWeight wm s.zAt d p t V K alpha beta) := by
    apply List.map_congr_left
    intro k hk
    exact hT2.others hd hp (hZ.row_all_counted hd) (by simp [hz]) V alpha beta t k
      (List.mem_range.mp hk)
  rw [hW] at h3
  refine ⟨t, s1, s2, s3, ht, h1, h2, hT2, h3, fun g => ?_⟩
  exact (UpdateTopic_eq_ok _ _ _ _ _ _ _ _ _ _).mpr ⟨i, t, s3, _, hz2, ht, h3, rfl⟩

theorem visit_draw {wm : WordMatrix} {K : Nat} {r : Run} (hZ : ZValid wm K r.store)
    (hC : Counted wm K r.store.zAt r.store) {d p : Nat} (hd : d < wm.length) (hp : p < rowLen wm d) {sampler : Sampler}
    {V : Nat} {alpha beta : ℚ} {r1 : Run}
    (h : visit sampler V (K : Int) alpha beta wm d r p = Except.ok r1) :
    ∃ t, termAt wm d p = some t ∧
      ∀ m q, r1.store.zAt m q = setCounted r.store.zAt d p
        (some (sampler r.calls.length (K : Int) (normalise ((List.range K).map
          (conditionalWeight wm r.store.zAt d p t V K alpha beta))))) m q := by
  obtain ⟨t, s1, s2, s3, ht, h1, h2, _, _, h3⟩ := visit_conditional hZ hC hd hp V alpha beta
  obtain ⟨s1a, s2a, k, s3a, h1a, h2a, h3a, hz, _⟩ := visit_result h
  have e1 : s1a = s1 := Except.ok.inj (h1a.symm.trans h1)
  subst e1
  have e2 : s2a = s2 := Except.ok.inj (h2a.symm.trans h2)
  subst e2
  have e3 := Except.ok.inj (h3a.symm.trans (h3 (sampler r.calls.length)))
  have e4 : k = _ := congrArg Prod.fst e3
  subst e4
  exact ⟨t, ht, hz⟩

theorem visit_full {wm : WordMatrix} {K : Nat} {r : Run} (hQ : Quiet wm K r.store)
    {d p : Nat} (hd : d < wm.length) (hp : p < rowLen wm d) (sampler : Sampler)
    (hsamp : ∀ n v, 0 ≤ sampler n (K : Int) v ∧ sampler n (K : Int) v < (K : Int))
    (V : Nat) (alpha beta : ℚ) :
    ∃ r1 t, visit sampler V (K : Int) alpha beta wm d r p = Except.ok r1 ∧
      Quiet wm K r1.store ∧ r1.calls = r.calls ++ [(d, p)] ∧ termAt wm d p = some t ∧
      ∀ m q, r1.store.zAt m q = setCounted r.store.zAt d p
        (some (sampler r.calls.length (K : Int) (normalise ((List.range K).map
          (conditionalWeight wm r.store.zAt d p t V K alpha beta))))) m q := by
  obtain ⟨r1, h, hQ1, hc⟩ := visit_quiet hQ hd hp sampler hsamp V alpha beta
  obtain ⟨t, ht, hz⟩ := visit_draw hQ.zvalid hQ.tallied.counted hd hp h
  exact ⟨r1, t, h, hQ1, hc, ht, hz⟩

theorem normalise_eq_dividedBySum (W : List Dbl) : normalise W = dividedBySum W := rfl

theorem exactWeight_pos (wm : WordMatrix) (z : Nat → Nat → Option Int) {d p : Nat}
    (t : String) {V K : Nat} {alpha beta : ℚ} (ha : 0 < alpha) (hb : 0 < beta) (hK : 0 < K)
    (hV : 0 < V) (hlen : p < rowLen wm d) (k : Nat) :
    0 < exactWeight wm z d p t V K alpha beta k := by
  unfold exactWeight
  have h1 : (1 : ℚ) ≤ (rowLen wm d : ℚ) := by exact_mod_cast (by omega : 1 ≤ rowLen wm d)
  have hV1 : (0 : ℚ) < (V : ℚ) := by exact_mod_cast hV
  have hK1 : (0 : ℚ) < (K : ℚ) := by exact_mod_cast hK
  have n1 : ∀ n : Nat, (0 : ℚ) ≤ (n : ℚ) := fun n => Nat.cast_nonneg n
  apply div_pos
  · apply mul_pos
    · have := n1 (countOthers wm d p
        (fun m q => termAt wm m q == some t && z m q == some (k : Int)))
      linarith
    · have := n1 (countOthers wm d p (fun m q => decide (m = d) && z m q == some (k : Int)))
      linarith
  · apply mul_pos
    · have := n1 (countOthers wm d p (fun m q => z m q == some (k : Int)))
      have := mul_pos hV1 hb
      linarith
    · have := mul_pos hK1 ha
      linarith

theorem list_sum_pos (W : List ℚ) (hne : W ≠ []) (hpos : ∀ w ∈ W, 0 < w) : 0 < W.sum := by
  induction W with
  | nil => exact absurd rfl hne
  | cons a W ih =>
    rw [List.sum_cons]
    have ha := hpos a (List.mem_cons_self a W)
    by_cases hW : W = []
    · subst hW; simpa using ha
    · have := ih hW (fun w hw => hpos w (List.mem_cons_of_mem a hw))
      linarith

theorem demoStore_quiet : Quiet scenarioB 2 demoStore := by
  obtain ⟨s, h, hQ, _⟩ := InitSampling_quiet demoRandMax demoRand 2 scenarioB demoRand_inRange
  have e : InitSampling demoRandMax demoRand Store.empty (scenarioB.length : Int)
      ((2 : Nat) : Int) scenarioB = Except.ok demoStore := by rfl
  have e1 : s = demoStore := Except.ok.inj (h.symm.trans e)
  rw [← e1]; exact hQ

theorem demoStore_reachable :
    Reachable demoRandMax demoRand demoSampler ((2 : Nat) : Int) 2 (1 / 10) (1 / 10) scenarioB
      ⟨demoStore, []⟩ :=
  Reachable.init demoStore (by rfl)

/-- Scenario B, token `(0, 1)` from the state after initialization, `alpha = beta = 1/10`: the
two weights in `double` are `6004799503160662 * 2^-57` and `8006399337547550 * 2^-60`, the
doubles nearest to `1/24` and `1/144` that the operations of the formula produce. -/
theorem conditionalWeight_demo :
    (List.range 2).map (conditionalWeight scenarioB demoStore.zAt 0 1 "b" 2 2 (1 / 10) (1 / 10))
      = [Dbl.fin false 6004799503160662 (-57), Dbl.fin false 8006399337547550 (-60)] := by
  decide!

/-- The same weights in exact arithmetic are `1/24` and `1/144`. -/
theorem exactWeight_demo :
    (List.range 2).map (exactWeight scenarioB demoStore.zAt 0 1 "b" 2 2 (1 / 10) (1 / 10))
      = [1 / 24, 1 / 144] := by
  have c1 : countOthers scenarioB 0 1
      (fun m q => termAt scenarioB m q == some "b" && demoStore.zAt m q == some ((0 : Nat) : Int))
      = 0 := by decide
  have c2 : countOthers scenarioB 0 1
      (fun m q => decide (m = 0) && demoStore.zAt m q == some ((0 : Nat) : Int)) = 1 := by decide
  have c3 : countOthers scenarioB 0 1
      (fun m q => demoStore.zAt m q == some ((0 : Nat) : Int)) = 2 := by decide
  have c4 : countOthers scenarioB 0 1
      (fun m q => termAt scenarioB m q == some "b" && demoStore.zAt m q == some ((1 : Nat) : Int))
      = 0 := by decide
  have c5 : countOthers scenarioB 0 1
      (fun m q => decide (m = 0) && demoStore.zAt m q == some ((1 : Nat) : Int)) = 0 := by decide
  have c6 : countOthers scenarioB 0 1
      (fun m q => demoStore.zAt m q == some ((1 : Nat) : Int)) = 1 := by decide
  have c7 : rowLen scenarioB 0 = 2 := by decide
  simp only [List.range_succ, List.range_zero, List.nil_append, List.map_cons, List.map_nil,
    List.cons_append, exactWeight, c1, c2, c3, c4, c5, c6, c7]
  norm_num

/-- The vector handed to the sampler at that token: the two weights divided by their sum,
`7720456504063707 * 2^-53` and `5146971002709138 * 2^-55`, the doubles next to `6/7` and
`1/7`. -/
theorem dividedBySum_demo :
    dividedBySum ((List.range 2).map
      (conditionalWeight scenarioB demoStore.zAt 0 1 "b" 2 2 (1 / 10) (1 / 10)))
      = [Dbl.fin false 7720456504063707 (-53), Dbl.fin false 5146971002709138 (-55)] := by
  decide!

/-- With `alpha = 0` and the corpus of one token the weights are `0.0 / 0.0`, not a number. -/
theorem conditionalWeight_alpha_zero :
    (List.range 2).map (conditionalWeight [["x"]] (fun _ _ => some 0) 0 0 "x" 1 2 0 (1 / 10))
      = [Dbl.nan, Dbl.nan] := by
  decide!

/-- C16. The conditional excludes the token being resampled. From a state whose `Z` is valid
(the shape of the token matrix, topics in `[0, K)`) and whose tables are the tallies of `Z`,
a visit to token `(d, p)` with term `t` runs the two
decrements, after which the loop of `UpdateTopic` returns for the topics `k = 0, ..., K - 1`
the weights `((n_kt + beta) * (n_dk + alpha)) / ((n_k + V*beta) * (len(d) - 1 + K*alpha))`
computed in `double`,
where `n_kt`, `n_dk` and `n_k` count the tokens other than `(d, p)` that have term `t` and
topic `k`, that are in document `d` with topic `k`, and that have topic `k`; `UpdateTopic`
hands to the sampler these `K` weights each divided by their sum (`dividedBySum`: the sum
accumulated from `0.0` in the order of the topics, then one division per weight), and the
visit stores the index the sampler returns for that vector in `Z[d][p]`. No condition on
`alpha`, `beta`, `K` or `V`: the equalities are between the doubles the code computes and
the doubles of the formula, not-a-number included. -/
theorem conditional_excludes_token (wm : WordMatrix) (K V : Nat) (alpha beta : ℚ)
    (sampler : Sampler) (r : Run) (d p : Nat)
    (hZ : ZValid wm K r.store) (hC : Counted wm K r.store.zAt r.store)
    (hd : d < wm.length) (hp : p < rowLen wm d) :
    ∃ t s1 s2 s3, termAt wm d p = some t ∧
      DecreDocTopic r.store d p = Except.ok s1 ∧ DecreTopicTerm s1 d p wm = Except.ok s2 ∧
      topicWeights d V (K : Int) alpha beta t s2 = Except.ok (s3, (List.range K).map
        (conditionalWeight wm r.store.zAt d p t V K alpha beta)) ∧
      UpdateTopic (sampler r.calls.length) s2 d p V (K : Int) alpha beta wm
        = Except.ok (sampler r.calls.length (K : Int) (dividedBySum ((List.range K).map
            (conditionalWeight wm r.store.zAt d p t V K alpha beta))), s3) ∧
      (∀ r1, visit sampler V (K : Int) alpha beta wm d r p = Except.ok r1 →
        r1.store.zAt d p = some (sampler r.calls.length (K : Int)
          (dividedBySum ((List.range K).map
            (conditionalWeight wm r.store.zAt d p t V K alpha beta))))) ∧
      (SamplerInRange K sampler →
        ∃ r1, visit sampler V (K : Int) alpha beta wm d r p = Except.ok r1) := by
  obtain ⟨t, s1, s2, s3, ht, h1, h2, _, h3, h4⟩ := visit_conditional hZ hC hd hp V alpha beta
  have h5 := h4 (sampler r.calls.length)
  rw [normalise_eq_dividedBySum] at h5
  refine ⟨t, s1, s2, s3, ht, h1, h2, h3, h5, ?_, ?_⟩
  · intro r1 h
    obtain ⟨t1, ht1, hz⟩ := visit_draw hZ hC hd hp h
    have e : t1 = t := by rw [ht] at ht1; exact (Option.some.inj ht1).symm
    subst e
    rw [hz d p, normalise_eq_dividedBySum]
    simp [setCounted]
  · intro hsamp
    obtain ⟨i, hz, h0, hi⟩ := hZ.zAt_some hd hp
    exact visit_ok_of_shaped hC.shaped hd hz h0 hi ht sampler (fun v => hsamp _ v) V alpha beta

/-- C16, Scenario B: the visit to token `(0, 1)` from the state after initialization. -/
theorem conditional_excludes_token_witness :
    ZValid scenarioB 2 demoStore ∧ Counted scenarioB 2 demoStore.zAt demoStore ∧
    0 < scenarioB.length ∧ 1 < rowLen scenarioB 0 ∧
    ∃ t s1 s2 s3, termAt scenarioB 0 1 = some t ∧
      DecreDocTopic demoStore 0 1 = Except.ok s1 ∧
      DecreTopicTerm s1 0 1 scenarioB = Except.ok s2 ∧
      topicWeights 0 2 ((2 : Nat) : Int) (1 / 10) (1 / 10) t s2 = Except.ok (s3,
        (List.range 2).map (conditionalWeight scenarioB demoStore.zAt 0 1 t 2 2 (1 / 10)
          (1 / 10))) ∧
      UpdateTopic (demoSampler 0) s2 0 1 2 ((2 : Nat) : Int) (1 / 10) (1 / 10) scenarioB
        = Except.ok (demoSampler 0 ((2 : Nat) : Int) (dividedBySum ((List.range 2).map
            (conditionalWeight scenarioB demoStore.zAt 0 1 t 2 2 (1 / 10) (1 / 10)))), s3) ∧
      (∀ r1, visit demoSampler 2 ((2 : Nat) : Int) (1 / 10) (1 / 10) scenarioB 0
          ⟨demoStore, []⟩ 1 = Except.ok r1 →
        r1.store.zAt 0 1 = some (demoSampler 0 ((2 : Nat) : Int)
          (dividedBySum ((List.range 2).map
            (conditionalWeight scenarioB demoStore.zAt 0 1 t 2 2 (1 / 10) (1 / 10)))))) ∧
      (SamplerInRange 2 demoSampler →
        ∃ r1, visit demoSampler 2 ((2 : Nat) : Int) (1 / 10) (1 / 10) scenarioB 0
          ⟨demoStore, []⟩ 1 = Except.ok r1) :=
  ⟨demoStore_quiet.zvalid, demoStore_quiet.tallied.counted, by decide, by decide,
    conditional_excludes_token scenarioB 2 2 (1 / 10) (1 / 10) demoSampler ⟨demoStore, []⟩ 0 1
      demoStore_quiet.zvalid demoStore_quiet.tallied.counted (by decide) (by decide)⟩

theorem eq_ok_of_toOption {ε α : Type} {x : Except ε α} {v : α}
    (h : x.toOption = some v) : x = Except.ok v := by
  cases x with
  | error e => simp [Except.toOption] at h
  | ok a => simp only [Except.toOption, Option.some.injEq] at h; rw [h]

theorem weight_underflow_values :
    (List.range 2).map (Store.weight ⟨[[0]], [[0, 0]], [0], [[("x", 0)], []], [0, 0]⟩
      0 1 ((2 : Nat) : Int) (1 / 10 ^ 200) (1 / 10 ^ 200) "x") = [Dbl.nan, Dbl.nan] := by
  decide!

/-- With `alpha = 0`, `beta = 1/10`, `K = 2`, `V = 1` and every count at `0`, as after the
decrements of the visit to the only token of a corpus, the loop of `UpdateTopic` returns
`0.0 / 0.0` for both topics. -/
theorem topicWeights_alpha_zero :
    topicWeights 0 1 ((2 : Nat) : Int) 0 (1 / 10) "x"
        ⟨[[0]], [[0, 0]], [0], [[("x", 0)], []], [0, 0]⟩
      = Except.ok (⟨[[0]], [[0, 0]], [0], [[("x", 0)], [("x", 0)]], [0, 0]⟩,
          [Dbl.nan, Dbl.nan]) :=
  eq_ok_of_toOption (by decide!)

/-- C17 fails on the code, whose weights are doubles. With `alpha = beta = 10^-200` (the double
`6894565328877484 * 2^-717`), `K = 2`, `V = 1` and the corpus of the single token `x`, whose
initial topic is `0`: the state after `InitSampling` on the empty tables is reachable, the two
decrements bring every count to `0`, and for both topics the numerator `(0 + beta) * (0 +
alpha)` and the second factor of the denominator underflow, the product `10^-400` being
below the least positive double, so that both weights are `0.0 / 0.0`, not a number. No weight
is strictly positive, the sum is not a number, and the sampler receives the vector
`[NaN, NaN]`. -/
theorem weights_underflow :
    (0 : ℚ) < 1 / 10 ^ 200 ∧ DrawsInRange demoRandMax 2 demoRand ∧
    SamplerInRange 2 demoSampler ∧
    Reachable demoRandMax demoRand demoSampler ((2 : Nat) : Int) 1 (1 / 10 ^ 200)
      (1 / 10 ^ 200) [["x"]] ⟨⟨[[0]], [[1, 0]], [1], [[("x", 1)], []], [1, 0]⟩, []⟩ ∧
    Dbl.ofRat (1 / 10 ^ 200) = Dbl.fin false 6894565328877484 (-717) ∧
    DecreDocTopic ⟨[[0]], [[1, 0]], [1], [[("x", 1)], []], [1, 0]⟩ 0 0
      = Except.ok ⟨[[0]], [[0, 0]], [0], [[("x", 1)], []], [1, 0]⟩ ∧
    DecreTopicTerm ⟨[[0]], [[0, 0]], [0], [[("x", 1)], []], [1, 0]⟩ 0 0 [["x"]]
      = Except.ok ⟨[[0]], [[0, 0]], [0], [[("x", 0)], []], [0, 0]⟩ ∧
    topicWeights 0 1 ((2 : Nat) : Int) (1 / 10 ^ 200) (1 / 10 ^ 200) "x"
        ⟨[[0]], [[0, 0]], [0], [[("x", 0)], []], [0, 0]⟩
      = Except.ok (⟨[[0]], [[0, 0]], [0], [[("x", 0)], [("x", 0)]], [0, 0]⟩,
          [Dbl.nan, Dbl.nan]) ∧
    Dbl.isPos Dbl.nan = false ∧
    [Dbl.nan, Dbl.nan].foldl Dbl.add Dbl.zero = Dbl.nan ∧
    UpdateTopic (demoSampler 0) ⟨[[0]], [[0, 0]], [0], [[("x", 0)], []], [0, 0]⟩ 0 0 1
        ((2 : Nat) : Int) (1 / 10 ^ 200) (1 / 10 ^ 200) [["x"]]
      = Except.ok (demoSampler 0 ((2 : Nat) : Int) [Dbl.nan, Dbl.nan],
          ⟨[[0]], [[0, 0]], [0], [[("x", 0)], [("x", 0)]], [0, 0]⟩) := by
  refine ⟨by positivity, demoRand_inRange, demoSampler_inRange, Reachable.init _ rfl,
    by decide!, rfl, rfl, ?_, rfl, rfl, ?_⟩
  · exact eq_ok_of_toOption (by decide!)
  · exact eq_ok_of_toOption (by decide!)

/-- C17 as amended, in exact arithmetic. For `alpha > 0`, `beta > 0`, `K > 0`, `V > 0`, initial
topics and sampler results in `[0, K)`, and a visit to any token `(d, p)` from any state
reached by `InitSampling` on the empty tables and complete visits: the two decrements succeed,
the four counts `UpdateTopic` reads for every topic `k` are `>= 0`, the exact value of the
weight expression on these four counts, which is the weight of C16 in exact arithmetic, is
strictly positive, the exact sum of the `K` values is strictly positive, and the visit
completes. -/
theorem exact_weights_positive (RAND_MAX : Nat) (rand : Nat → Nat) (sampler : Sampler)
    (K V : Nat) (alpha beta : ℚ) (wm : WordMatrix) (r : Run) (d p : Nat)
    (hdraw : DrawsInRange RAND_MAX K rand) (hsamp : SamplerInRange K sampler)
    (ha : 0 < alpha) (hb : 0 < beta) (hK : 0 < K) (hV : 0 < V)
    (hr : Reachable RAND_MAX rand sampler (K : Int) V alpha beta wm r)
    (hd : d < wm.length) (hp : p < rowLen wm d) :
    ∃ t s1 s2, termAt wm d p = some t ∧
      DecreDocTopic r.store d p = Except.ok s1 ∧ DecreTopicTerm s1 d p wm = Except.ok s2 ∧
      (∀ k : Nat, k < K → ∃ (nk nm : Int) (m : TermMap) (row : List Int) (c : Int),
        s2.topic_term_sum[k]? = some nk ∧
        s2.doc_topic_sum[d]? = some nm ∧ s2.topic_term_count[k]? = some m ∧
        s2.doc_topic_count[d]? = some row ∧ row[k]? = some c ∧
        0 ≤ nk ∧ 0 ≤ nm ∧ 0 ≤ m.read t ∧ 0 ≤ c ∧
        s2.exactWeight d V (K : Int) alpha beta t k
          = (((m.read t : ℚ) + beta) * ((c : ℚ) + alpha)) /
            (((nk : ℚ) + (V : ℚ) * beta) * ((nm : ℚ) + ((K : Int) : ℚ) * alpha)) ∧
        s2.exactWeight d V (K : Int) alpha beta t k
          = exactWeight wm r.store.zAt d p t V K alpha beta k ∧
        0 < s2.exactWeight d V (K : Int) alpha beta t k) ∧
      0 < ((List.range K).map (s2.exactWeight d V (K : Int) alpha beta t)).sum ∧
      ∃ r1, visit sampler V (K : Int) alpha beta wm d r p = Except.ok r1 := by
  have hQ := hr.quiet hdraw hsamp
  obtain ⟨t, s1, s2, s3, ht, h1, h2, hT2, _, _⟩ :=
    visit_conditional hQ.zvalid hQ.tallied.counted hd hp V alpha beta
  obtain ⟨i, hz, _, _⟩ := hQ.zvalid.zAt_some hd hp
  have hex : ∀ k, k < K → s2.exactWeight d V (K : Int) alpha beta t k
      = exactWeight wm r.store.zAt d p t V K alpha beta k := fun k hk =>
    hT2.others_exact hd hp (hQ.zvalid.row_all_counted hd) (by simp [hz]) V alpha beta t k hk
  have hpos : ∀ k, k < K → 0 < s2.exactWeight d V (K : Int) alpha beta t k := by
    intro k hk
    rw [hex k hk]
    exact exactWeight_pos wm _ t ha hb hK hV hp k
  refine ⟨t, s1, s2, ht, h1, h2, ?_, ?_, ?_⟩
  · intro k hk
    obtain ⟨row, c, hrow, hc⟩ := hT2.shaped.dtc_cell hd hk
    obtain ⟨nm, hnm⟩ := hT2.shaped.dts_cell hd
    obtain ⟨m, hm⟩ := hT2.shaped.ttc_cell hk
    obtain ⟨nk, hnk⟩ := hT2.shaped.tts_cell hk
    have e1 := hT2.tts_eq k hk
    have e2 := hT2.dts_eq d hd
    have e3 := hT2.ttc_eq k t hk
    have e4 := hT2.dtc_eq d k hd hk
    simp only [Store.tts, hnk, Option.getD_some] at e1
    simp only [Store.dts, hnm, Option.getD_some] at e2
    simp only [Store.ttc, Store.ttcMap, hm, Option.getD_some] at e3
    simp only [Store.dtc, hrow, Option.some_bind, hc, Option.getD_some] at e4
    refine ⟨nk, nm, m, row, c, hnk, hnm, hm, hrow, hc, ?_, ?_, ?_, ?_, ?_, hex k hk, hpos k hk⟩
    · rw [e1]; exact Int.natCast_nonneg _
    · rw [e2]; exact Int.natCast_nonneg _
    · rw [e3]; exact Int.natCast_nonneg _
    · rw [e4]; exact Int.natCast_nonneg _
    · simp [Store.exactWeight, Store.tts, Store.dts, Store.ttc, Store.ttcMap, Store.dtc, hnk,
        hnm, hm, hrow, hc]
  · apply list_sum_pos
    · intro h
      have := congrArg List.length h
      simp at this
      omega
    · intro w hw
      obtain ⟨k, hk, rfl⟩ := List.mem_map.mp hw
      exact hpos k (List.mem_range.mp hk)
  · obtain ⟨r1, h, _⟩ := visit_quiet hQ hd hp sampler hsamp V alpha beta
    exact ⟨r1, h⟩

/-- C17 as amended, Scenario B: the visit to token `(0, 1)` from the state after
initialization, with `alpha = beta = 1/10`. -/
theorem exact_weights_positive_witness :
    DrawsInRange demoRandMax 2 demoRand ∧ SamplerInRange 2 demoSampler ∧
    (0 : ℚ) < 1 / 10 ∧ 0 < 2 ∧
    Reachable demoRandMax demoRand demoSampler ((2 : Nat) : Int) 2 (1 / 10) (1 / 10) scenarioB
      ⟨demoStore, []⟩ ∧
    0 < scenarioB.length ∧ 1 < rowLen scenarioB 0 ∧
    ∃ t s1 s2, termAt scenarioB 0 1 = some t ∧
      DecreDocTopic demoStore 0 1 = Except.ok s1 ∧
      DecreTopicTerm s1 0 1 scenarioB = Except.ok s2 ∧
      (∀ k : Nat, k < 2 → ∃ (nk nm : Int) (m : TermMap) (row : List Int) (c : Int),
        s2.topic_term_sum[k]? = some nk ∧
        s2.doc_topic_sum[0]? = some nm ∧ s2.topic_term_count[k]? = some m ∧
        s2.doc_topic_count[0]? = some row ∧ row[k]? = some c ∧
        0 ≤ nk ∧ 0 ≤ nm ∧ 0 ≤ m.read t ∧ 0 ≤ c ∧
        s2.exactWeight 0 2 ((2 : Nat) : Int) (1 / 10) (1 / 10) t k
          = (((m.read t : ℚ) + 1 / 10) * ((c : ℚ) + 1 / 10)) /
            (((nk : ℚ) + ((2 : Nat) : ℚ) * (1 / 10)) *
              ((nm : ℚ) + (((2 : Nat) : Int) : ℚ) * (1 / 10))) ∧
        s2.exactWeight 0 2 ((2 : Nat) : Int) (1 / 10) (1 / 10) t k
          = exactWeight scenarioB demoStore.zAt 0 1 t 2 2 (1 / 10) (1 / 10) k ∧
        0 < s2.exactWeight 0 2 ((2 : Nat) : Int) (1 / 10) (1 / 10) t k) ∧
      0 < ((List.range 2).map
        (s2.exactWeight 0 2 ((2 : Nat) : Int) (1 / 10) (1 / 10) t)).sum ∧
      ∃ r1, visit demoSampler 2 ((2 : Nat) : Int) (1 / 10) (1 / 10) scenarioB 0
        ⟨demoStore, []⟩ 1 = Except.ok r1 :=
  ⟨demoRand_inRange, demoSampler_inRange, by norm_num, by decide, demoStore_reachable,
    by decide, by decide,
    exact_weights_positive demoRandMax demoRand demoSampler 2 2 (1 / 10) (1 / 10) scenarioB
      ⟨demoStore, []⟩ 0 1 demoRand_inRange demoSampler_inRange (by norm_num) (by norm_num)
      (by decide) (by decide) demoStore_reachable (by decide) (by decide)⟩

/-! ## A sweep is the visits in row-major order -/

theorem visitAll_nil (sampler : Sampler) (V : Nat) (K : Int) (alpha beta : ℚ) (wm : WordMatrix)
    (r : Run) : visitAll sampler V K alpha beta wm r [] = Except.ok r := rfl

theorem visitAll_append (sampler : Sampler) (V : Nat) (K : Int) (alpha beta : ℚ)
    (wm : WordMatrix) (r : Run) (a b : List (Nat × Nat)) :
    visitAll sampler V K alpha beta wm r (a ++ b)
      = (visitAll sampler V K alpha beta wm r a >>= fun x =>
          visitAll sampler V K alpha beta wm x b) := by
  unfold visitAll
  rw [List.foldlM_append]

theorem visitAll_cons (sampler : Sampler) (V : Nat) (K : Int) (alpha beta : ℚ)
    (wm : WordMatrix) (r : Run) (t : Nat × Nat) (b : List (Nat × Nat)) :
    visitAll sampler V K alpha beta wm r (t :: b)
      = (visit sampler V K alpha beta wm t.1 r t.2 >>= fun x =>
          visitAll sampler V K alpha beta wm x b) := by
  unfold visitAll
  rw [List.foldlM_cons]

theorem sweepDoc_eq_visitAll (sampler : Sampler) (V : Nat) (K : Int) (alpha beta : ℚ)
    (wm : WordMatrix) (r : Run) {d : Nat} (hd : d < wm.length) :
    sweepDoc sampler V K alpha beta wm r d
      = visitAll sampler V K alpha beta wm r (docTokens wm d) := by
  have hw : wm[d]? = some wm[d] := List.getElem?_eq_getElem hd
  have hvat : vAt wm d = Except.ok wm[d] := (vAt_eq_ok _ _ _).mpr hw
  have hlen : wm[d].length = rowLen wm d := by simp [rowLen, hw]
  unfold sweepDoc visitAll docTokens
  rw [hvat, List.foldlM_map]
  show (List.range wm[d].length).foldlM _ r = _
  rw [hlen]

theorem sweep_prefix (sampler : Sampler) (V : Nat) (K : Int) (alpha beta : ℚ)
    (wm : WordMatrix) (n : Nat) (hn : n ≤ wm.length) (r : Run) :
    (List.range n).foldlM (sweepDoc sampler V K alpha beta wm) r
      = visitAll sampler V K alpha beta wm r ((List.range n).flatMap (docTokens wm)) := by
  induction n with
  | zero => rfl
  | succ n ih =>
    rw [List.range_succ, List.foldlM_append, List.flatMap_append, visitAll_append,
      ih (Nat.le_of_succ_le hn)]
    congr 1
    funext x
    simp only [List.foldlM_cons, List.foldlM_nil, List.flatMap_cons, List.flatMap_nil,
      List.append_nil]
    rw [← sweepDoc_eq_visitAll sampler V K alpha beta wm x hn]
    cases sweepDoc sampler V K alpha beta wm x n <;> rfl

theorem sweep_eq_visitAll (sampler : Sampler) (V : Nat) (K : Int) (alpha beta : ℚ)
    (wm : WordMatrix) (r : Run) :
    sweep sampler V K alpha beta wm r = visitAll sampler V K alpha beta wm r (tokenOrder wm) :=
  sweep_prefix sampler V K alpha beta wm wm.length (Nat.le_refl _) r

/-! ## The row-major order -/

theorem mem_docTokens (wm : WordMatrix) (d : Nat) (t : Nat × Nat) :
    t ∈ docTokens wm d ↔ t.1 = d ∧ t.2 < rowLen wm d := by
  unfold docTokens
  simp only [List.mem_map, List.mem_range]
  constructor
  · rintro ⟨p, hp, rfl⟩
    exact ⟨rfl, hp⟩
  · rintro ⟨h1, h2⟩
    exact ⟨t.2, h2, by rw [← h1]⟩

theorem mem_tokenOrder (wm : WordMatrix) (t : Nat × Nat) :
    t ∈ tokenOrder wm ↔ t.1 < wm.length ∧ t.2 < rowLen wm t.1 := by
  unfold tokenOrder
  simp only [List.mem_flatMap, List.mem_range, mem_docTokens]
  constructor
  · rintro ⟨d, hd, h1, h2⟩
    subst h1
    exact ⟨hd, h2⟩
  · rintro ⟨h1, h2⟩
    exact ⟨t.1, h1, rfl, h2⟩

theorem tokenOrder_sorted (wm : WordMatrix) : (tokenOrder wm).Pairwise tokenBefore := by
  unfold tokenOrder
  rw [List.pairwise_flatMap]
  constructor
  · intro d _
    unfold docTokens
    rw [List.pairwise_map]
    exact List.Pairwise.imp (fun h => Or.inr ⟨rfl, h⟩) (List.pairwise_lt_range _)
  · refine List.Pairwise.imp ?_ (List.pairwise_lt_range _)
    intro a b hab x hx y hy
    rw [mem_docTokens] at hx hy
    left
    rw [hx.1, hy.1]
    exact hab

theorem tokenOrder_nodup (wm : WordMatrix) : (tokenOrder wm).Nodup := by
  refine List.Pairwise.imp ?_ (tokenOrder_sorted wm)
  intro a b hab heq
  subst heq
  unfold tokenBefore at hab
  omega

theorem tokenOrder_length (wm : WordMatrix) : (tokenOrder wm).length = numTokens wm := by
  unfold tokenOrder
  rw [List.length_flatMap, numTokens_eq]
  congr 1
  apply List.map_congr_left
  intro d _
  simp [docTokens]

/-! ## The visits of a list of tokens -/

theorem visitAll_quiet {wm : WordMatrix} {K : Nat} (sampler : Sampler)
    (hsamp : ∀ n v, 0 ≤ sampler n (K : Int) v ∧ sampler n (K : Int) v < (K : Int))
    (V : Nat) (alpha beta : ℚ) (ts : List (Nat × Nat))
    (hts : ∀ t ∈ ts, t.1 < wm.length ∧ t.2 < rowLen wm t.1)
    {r : Run} (hQ : Quiet wm K r.store) :
    ∃ r1, visitAll sampler V (K : Int) alpha beta wm r ts = Except.ok r1 ∧
      Quiet wm K r1.store ∧ r1.calls = r.calls ++ ts := by
  induction ts generalizing r with
  | nil => exact ⟨r, rfl, hQ, by simp⟩
  | cons t ts ih =>
    obtain ⟨hd, hp⟩ := hts t (List.mem_cons_self t ts)
    obtain ⟨r1, h1, hQ1, hc1⟩ := visit_quiet hQ hd hp sampler hsamp V alpha beta
    obtain ⟨r2, h2, hQ2, hc2⟩ := ih (fun u hu => hts u (List.mem_cons_of_mem t hu)) hQ1
    refine ⟨r2, ?_, hQ2, ?_⟩
    · rw [visitAll_cons, bind_eq_ok]
      exact ⟨r1, h1, h2⟩
    · rw [hc2, hc1]; simp

theorem visitAll_frame {sampler : Sampler} {V : Nat} {K : Int} {alpha beta : ℚ}
    {wm : WordMatrix} (ts : List (Nat × Nat)) {r r1 : Run}
    (h : visitAll sampler V K alpha beta wm r ts = Except.ok r1) {d p : Nat}
    (hn : (d, p) ∉ ts) : r1.store.zAt d p = r.store.zAt d p := by
  induction ts generalizing r with
  | nil =>
    rw [visitAll_nil] at h
    rw [← Except.ok.inj h]
  | cons t ts ih =>
    rw [visitAll_cons, bind_eq_ok] at h
    obtain ⟨r2, h2, h3⟩ := h
    obtain ⟨_, _, k, _, _, _, _, hz, _⟩ := visit_result h2
    rw [ih h3 (fun hm => hn (List.mem_cons_of_mem t hm)), hz d p]
    have hne : ¬ (d = t.1 ∧ p = t.2) := by
      rintro ⟨e1, e2⟩
      apply hn
      rw [e1, e2]
      exact List.mem_cons_self t ts
    simp only [setCounted, hne, if_false]

theorem visitAll_at {wm : WordMatrix} {K : Nat} (sampler : Sampler)
    (hsamp : ∀ n v, 0 ≤ sampler n (K : Int) v ∧ sampler n (K : Int) v < (K : Int))
    (V : Nat) (alpha beta : ℚ) (a : List (Nat × Nat)) (d p : Nat) (b : List (Nat × Nat))
    (hts : ∀ t ∈ a ++ (d, p) :: b, t.1 < wm.length ∧ t.2 < rowLen wm t.1)
    (hn : (d, p) ∉ b) {r : Run} (hQ : Quiet wm K r.store) :
    ∃ ri r1 t, visitAll sampler V (K : Int) alpha beta wm r a = Except.ok ri ∧
      ri.calls = r.calls ++ a ∧
      visitAll sampler V (K : Int) alpha beta wm r (a ++ (d, p) :: b) = Except.ok r1 ∧
      termAt wm d p = some t ∧
      r1.store.zAt d p = some (sampler (r.calls.length + a.length) (K : Int)
        (normalise ((List.range K).map
          (conditionalWeight wm ri.store.zAt d p t V K alpha beta)))) := by
  obtain ⟨ri, hi, hQi, hci⟩ := visitAll_quiet sampler hsamp V alpha beta a
    (fun t ht => hts t (List.mem_append_left _ ht)) hQ
  obtain ⟨hd, hp⟩ := hts (d, p) (List.mem_append_right _ (List.mem_cons_self _ _))
  obtain ⟨r2, t, h2, hQ2, hc2, ht, hz2⟩ := visit_full hQi hd hp sampler hsamp V alpha beta
  obtain ⟨r1, h1, _, _⟩ := visitAll_quiet sampler hsamp V alpha beta b
    (fun t ht => hts t (List.mem_append_right _ (List.mem_cons_of_mem _ ht))) hQ2
  refine ⟨ri, r1, t, hi, hci, ?_, ht, ?_⟩
  · rw [visitAll_append, bind_eq_ok]
    refine ⟨ri, hi, ?_⟩
    rw [visitAll_cons, bind_eq_ok]
    exact ⟨r2, h2, h1⟩
  · rw [visitAll_frame b h1 hn, hz2 d p]
    have hlen : ri.calls.length = r.calls.length + a.length := by
      rw [hci, List.length_append]
    simp only [setCounted, and_self, if_true, hlen]

theorem sweeps_calls {wm : WordMatrix} {K : Nat} (sampler : Sampler)
    (hsamp : ∀ n v, 0 ≤ sampler n (K : Int) v ∧ sampler n (K : Int) v < (K : Int))
    (V : Nat) (alpha beta : ℚ) (n : Nat) {r : Run} (hQ : Quiet wm K r.store) :
    ∃ r1, sweeps sampler V (K : Int) alpha beta wm n r = Except.ok r1 ∧
      Quiet wm K r1.store ∧
      r1.calls = r.calls ++ (List.replicate n (tokenOrder wm)).flatten := by
  induction n generalizing r with
  | zero => exact ⟨r, rfl, hQ, by simp⟩
  | succ n ih =>
    obtain ⟨r1, h1, hQ1, hc1⟩ := visitAll_quiet sampler hsamp V alpha beta (tokenOrder wm)
      (fun t ht => (mem_tokenOrder wm t).mp ht) hQ
    obtain ⟨r2, h2, hQ2, hc2⟩ := ih hQ1
    refine ⟨r2, ?_, hQ2, ?_⟩
    · simp only [sweeps, bind_eq_ok]
      exact ⟨r1, by rw [sweep_eq_visitAll]; exact h1, h2⟩
    · rw [hc2, hc1, List.replicate_succ, List.flatten_cons, List.append_assoc]

theorem length_flatten_replicate (n : Nat) (ts : List (Nat × Nat)) :
    (List.replicate n ts).flatten.length = n * ts.length := by
  induction n with
  | zero => simp
  | succ n ih =>
    rw [List.replicate_succ, List.flatten_cons, List.length_append, ih]
    ring

theorem take_append_getElem_drop {α : Type} (l : List α) (i : Nat) (x : α)
    (h : l[i]? = some x) : l = l.take i ++ x :: l.drop (i + 1) := by
  obtain ⟨hi, hx⟩ := List.getElem?_eq_some_iff.mp h
  rw [← hx, List.getElem_cons_drop, List.take_append_drop]

theorem not_mem_drop_of_nodup {α : Type} (l : List α) (hl : l.Nodup) (i : Nat) (x : α)
    (h : l[i]? = some x) : x ∉ l.drop (i + 1) := by
  have e := take_append_getElem_drop l i x h
  rw [e] at hl
  have h1 := (List.nodup_append.mp hl).2.1
  exact (List.nodup_cons.mp h1).1

theorem GibbsSampling_calls {RAND_MAX : Nat} {rand : Nat → Nat} {sampler : Sampler}
    {K : Nat} (V : Nat) (alpha beta : ℚ) (wm : WordMatrix)
    (hdraw : ∀ n, 0 ≤ initTopicDraw RAND_MAX (K : Int) (rand n) ∧
      initTopicDraw RAND_MAX (K : Int) (rand n) < (K : Int))
    (hsamp : ∀ n v, 0 ≤ sampler n (K : Int) v ∧ sampler n (K : Int) v < (K : Int))
    (iter_num : Int) :
    ∃ r, GibbsSampling RAND_MAX rand sampler Store.empty (wm.length : Int) (K : Int) V alpha
        beta iter_num wm = Except.ok r ∧ Quiet wm K r.store ∧
      r.calls = (List.replicate iter_num.toNat (tokenOrder wm)).flatten ∧
      r.calls.length = iter_num.toNat * numTokens wm := by
  obtain ⟨s, h1, hQ, _⟩ := InitSampling_quiet RAND_MAX rand K wm hdraw
  obtain ⟨r, h2, hQ2, hc⟩ := @sweeps_calls wm K sampler hsamp V alpha beta iter_num.toNat
    ⟨s, []⟩ hQ
  simp only [List.nil_append] at hc
  refine ⟨r, ?_, hQ2, hc, ?_⟩
  · simp only [GibbsSampling, bind_eq_ok]
    exact ⟨s, h1, h2⟩
  · rw [hc, length_flatten_replicate, tokenOrder_length]

/-- C18. Each sweep visits every token exactly once in row-major order. The row-major list of
the tokens has `N` entries, is strictly increasing in (document, then position) order and
holds exactly the tokens of the matrix. From a state between two visits (`Z` valid, the tables
the tallies of `Z`, the stored counts of every map adding up to `topic_term_sum`), with sampler
results in `[0, K)`, one sweep returns; it appends the
row-major list to the log of sampler calls, so it makes `N` calls and the `i`-th of them is
made for the `i`-th token; after the sweep `Z[d][p]` of the `i`-th token `(d, p)` is the index
the sampler returned on that call, for the vector computed in the state the visits to the
first `i` tokens lead to. `n` sweeps append `n` copies of the list, `n * N` calls, and
`GibbsSampling` on the empty tables makes `iter_num * N` calls. -/
theorem sweep_visits_row_major (wm : WordMatrix) (K V : Nat) (alpha beta : ℚ)
    (sampler : Sampler) (r : Run) (hQ : Quiet wm K r.store) (hsamp : SamplerInRange K sampler) :
    ((tokenOrder wm).length = numTokens wm ∧ (tokenOrder wm).Pairwise tokenBefore ∧
      ∀ d p, (d, p) ∈ tokenOrder wm ↔ d < wm.length ∧ p < rowLen wm d) ∧
    (∃ r1, sweep sampler V (K : Int) alpha beta wm r = Except.ok r1 ∧
      r1.calls = r.calls ++ tokenOrder wm ∧
      r1.calls.length = r.calls.length + numTokens wm ∧
      ∀ i d p, (tokenOrder wm)[i]? = some (d, p) →
        r1.calls[r.calls.length + i]? = some (d, p) ∧
        ∃ ri t, visitAll sampler V (K : Int) alpha beta wm r ((tokenOrder wm).take i)
            = Except.ok ri ∧
          ri.calls.length = r.calls.length + i ∧ termAt wm d p = some t ∧
          r1.store.zAt d p = some (sampler (r.calls.length + i) (K : Int)
            (normalise ((List.range K).map
              (conditionalWeight wm ri.store.zAt d p t V K alpha beta))))) ∧
    (∀ n : Nat, ∃ rn, sweeps sampler V (K : Int) alpha beta wm n r = Except.ok rn ∧
      rn.calls = r.calls ++ (List.replicate n (tokenOrder wm)).flatten ∧
      rn.calls.length = r.calls.length + n * numTokens wm) ∧
    (∀ (RAND_MAX : Nat) (rand : Nat → Nat) (iter_num : Int), DrawsInRange RAND_MAX K rand →
      ∃ rn, GibbsSampling RAND_MAX rand sampler Store.empty (wm.length : Int) (K : Int) V alpha
          beta iter_num wm = Except.ok rn ∧
        rn.calls = (List.replicate iter_num.toNat (tokenOrder wm)).flatten ∧
        rn.calls.length = iter_num.toNat * numTokens wm ∧
        (0 ≤ iter_num → (rn.calls.length : Int) = iter_num * (numTokens wm : Int))) := by
  refine ⟨⟨tokenOrder_length wm, tokenOrder_sorted wm, fun d p => mem_tokenOrder wm (d, p)⟩,
    ?_, ?_, ?_⟩
  · obtain ⟨r1, h1, _, hc1⟩ := visitAll_quiet sampler hsamp V alpha beta (tokenOrder wm)
      (fun t ht => (mem_tokenOrder wm t).mp ht) hQ
    refine ⟨r1, by rw [sweep_eq_visitAll]; exact h1, hc1, ?_, ?_⟩
    · rw [hc1, List.length_append, tokenOrder_length]
    · intro i d p hi
      have hsplit := take_append_getElem_drop (tokenOrder wm) i (d, p) hi
      have hnot := not_mem_drop_of_nodup (tokenOrder wm) (tokenOrder_nodup wm) i (d, p) hi
      have hilt : i < (tokenOrder wm).length := (List.getElem?_eq_some_iff.mp hi).1
      have htake : ((tokenOrder wm).take i).length = i := by
        rw [List.length_take]; omega
      obtain ⟨ri, r2, t, h3, hci, h4, ht, hz⟩ := visitAll_at sampler hsamp V alpha beta
        ((tokenOrder wm).take i) d p ((tokenOrder wm).drop (i + 1))
        (by rw [← hsplit]; exact fun t ht => (mem_tokenOrder wm t).mp ht) hnot hQ
      rw [← hsplit] at h4
      have e : r2 = r1 := Except.ok.inj (h4.symm.trans h1)
      subst e
      rw [htake] at hz
      refine ⟨?_, ri, t, h3, by rw [hci, List.length_append, htake], ht, hz⟩
      rw [hc1, List.getElem?_append_right (Nat.le_add_right _ _), Nat.add_sub_cancel_left]
      exact hi
  · intro n
    obtain ⟨rn, h, _, hc⟩ := sweeps_calls sampler hsamp V alpha beta n hQ
    refine ⟨rn, h, hc, ?_⟩
    rw [hc, List.length_append, length_flatten_replicate, tokenOrder_length]
  · intro RAND_MAX rand iter_num hdraw
    obtain ⟨rn, h, _, hc, hl⟩ := GibbsSampling_calls V alpha beta wm hdraw hsamp iter_num
    refine ⟨rn, h, hc, hl, fun h0 => ?_⟩
    rw [hl]
    push_cast
    rw [Int.toNat_of_nonneg h0]

/-- C18, Scenario B: the sweeps from the state after initialization, four tokens in two
documents. -/
theorem sweep_visits_row_major_witness :
    Quiet scenarioB 2 demoStore ∧ SamplerInRange 2 demoSampler ∧
    (((tokenOrder scenarioB).length = numTokens scenarioB ∧
      (tokenOrder scenarioB).Pairwise tokenBefore ∧
      ∀ d p, (d, p) ∈ tokenOrder scenarioB ↔ d < scenarioB.length ∧ p < rowLen scenarioB d) ∧
    (∃ r1, sweep demoSampler 2 ((2 : Nat) : Int) (1 / 10) (1 / 10) scenarioB ⟨demoStore, []⟩
        = Except.ok r1 ∧
      r1.calls = (⟨demoStore, []⟩ : Run).calls ++ tokenOrder scenarioB ∧
      r1.calls.length = (⟨demoStore, []⟩ : Run).calls.length + numTokens scenarioB ∧
      ∀ i d p, (tokenOrder scenarioB)[i]? = some (d, p) →
        r1.calls[(⟨demoStore, []⟩ : Run).calls.length + i]? = some (d, p) ∧
        ∃ ri t, visitAll demoSampler 2 ((2 : Nat) : Int) (1 / 10) (1 / 10) scenarioB
            ⟨demoStore, []⟩ ((tokenOrder scenarioB).take i) = Except.ok ri ∧
          ri.calls.length = (⟨demoStore, []⟩ : Run).calls.length + i ∧
          termAt scenarioB d p = some t ∧
          r1.store.zAt d p = some (demoSampler ((⟨demoStore, []⟩ : Run).calls.length + i)
            ((2 : Nat) : Int) (normalise ((List.range 2).map
              (conditionalWeight scenarioB ri.store.zAt d p t 2 2 (1 / 10) (1 / 10)))))) ∧
    (∀ n : Nat, ∃ rn, sweeps demoSampler 2 ((2 : Nat) : Int) (1 / 10) (1 / 10) scenarioB n
        ⟨demoStore, []⟩ = Except.ok rn ∧
      rn.calls = (⟨demoStore, []⟩ : Run).calls ++
        (List.replicate n (tokenOrder scenarioB)).flatten ∧
      rn.calls.length = (⟨demoStore, []⟩ : Run).calls.length + n * numTokens scenarioB) ∧
    (∀ (RAND_MAX : Nat) (rand : Nat → Nat) (iter_num : Int), DrawsInRange RAND_MAX 2 rand →
      ∃ rn, GibbsSampling RAND_MAX rand demoSampler Store.empty (scenarioB.length : Int)
          ((2 : Nat) : Int) 2 (1 / 10) (1 / 10) iter_num scenarioB = Except.ok rn ∧
        rn.calls = (List.replicate iter_num.toNat (tokenOrder scenarioB)).flatten ∧
        rn.calls.length = iter_num.toNat * numTokens scenarioB ∧
        (0 ≤ iter_num → (rn.calls.length : Int) = iter_num * (numTokens scenarioB : Int)))) :=
  ⟨demoStore_quiet, demoSampler_inRange,
    sweep_visits_row_major scenarioB 2 2 (1 / 10) (1 / 10) demoSampler ⟨demoStore, []⟩
      demoStore_quiet demoSampler_inRange⟩

/-- The sweep of Scenario B evaluated: the log of calls and the assignment after it. -/
theorem sweep_demo :
    tokenOrder scenarioB = [(0, 0), (0, 1), (1, 0), (1, 1)] ∧
    (sweep demoSampler 2 ((2 : Nat) : Int) (1 / 10) (1 / 10) scenarioB ⟨demoStore, []⟩).map
        (fun r => (r.calls, r.store.topic_index_Zmn))
      = Except.ok ([(0, 0), (0, 1), (1, 0), (1, 1)], [[1, 0], [1, 0]]) := by
  constructor
  · decide
  · rfl

/-! ## No validation of the hyperparameters (C14) -/

/-- C14 fails on the code: no call with a malformed hyperparameter stops with the
configuration error.  With iteration count `0` the run returns the tables built by
`InitSampling`; so does the run with `V = 0`, `alpha = 0`, `beta = -1` and iteration count `-3`;
with `alpha = 0` and one iteration all four tokens are sampled; with `K = 0` the run on the
empty matrix returns and the run on two documents runs past the end of a count row; with
`K = -1` the resize of a count table fails. -/
theorem hyperparameters_unchecked :
    GibbsSampling demoRandMax demoRand demoSampler Store.empty 2 2 2 (1 / 10) (1 / 10) 0
        scenarioB = Except.ok ⟨demoStore, []⟩ ∧
    GibbsSampling demoRandMax demoRand demoSampler Store.empty 2 2 0 0 (-1) (-3) scenarioB
      = Except.ok ⟨demoStore, []⟩ ∧
    (GibbsSampling demoRandMax demoRand demoSampler Store.empty 2 2 2 0 (1 / 10) 1
        scenarioB).map (fun r => (r.calls, r.store.topic_index_Zmn))
      = Except.ok ([(0, 0), (0, 1), (1, 0), (1, 1)], [[1, 0], [1, 0]]) ∧
    GibbsSampling demoRandMax demoRand demoSampler Store.empty 0 0 2 (1 / 10) (1 / 10) 1 []
      = Except.ok ⟨⟨[], [], [], [], []⟩, []⟩ ∧
    GibbsSampling demoRandMax demoRand demoSampler Store.empty 2 0 2 (1 / 10) (1 / 10) 1
        scenarioB = Except.error Fault.outOfRange ∧
    GibbsSampling demoRandMax demoRand demoSampler Store.empty 2 (-1) 2 (1 / 10) (1 / 10) 1
        scenarioB = Except.error Fault.lengthError := by
  refine ⟨?_, ?_, ?_, ?_, ?_, ?_⟩ <;> rfl

/-- C14 as amended: the hyperparameters are not validated.  Whether `GibbsSampling` stops
with the configuration error does not depend on the topic count, `V`, `alpha`, `beta` or the
iteration count: two calls on the same tables, document count and token matrix either both
stop with it or both do not.  With the document count of the matrix no call stops with the
configuration error, whatever the tables on entry, the topic count, `V`, `alpha`, `beta` and
the iteration count.  And with initial topics and sampler results in `[0, K)`, for every `V`,
`alpha`, `beta` and iteration count the run on the empty tables with the document count of the
matrix returns, after `max(iter_num, 0) * N` sampler calls, `N` the number of tokens. -/
theorem hyperparameters_not_validated (RAND_MAX : Nat) (rand : Nat → Nat) (sampler : Sampler)
    (K V : Nat) (alpha beta : ℚ) (iter_num : Int) (wm : WordMatrix)
    (hdraw : DrawsInRange RAND_MAX K rand) (hsamp : SamplerInRange K sampler) :
    (∀ (s0 : Store) (M K1 K2 : Int) (V2 : Nat) (alpha2 beta2 : ℚ) (iter2 : Int),
      GibbsSampling RAND_MAX rand sampler s0 M K1 V alpha beta iter_num wm
          = Except.error Fault.configExit ↔
        GibbsSampling RAND_MAX rand sampler s0 M K2 V2 alpha2 beta2 iter2 wm
          = Except.error Fault.configExit) ∧
    (∀ (s0 : Store) (K1 : Int),
      GibbsSampling RAND_MAX rand sampler s0 (wm.length : Int) K1 V alpha beta iter_num wm
        ≠ Except.error Fault.configExit) ∧
    ∃ r, GibbsSampling RAND_MAX rand sampler Store.empty (wm.length : Int) (K : Int) V alpha
        beta iter_num wm = Except.ok r ∧
      r.calls.length = iter_num.toNat * numTokens wm := by
  refine ⟨fun s0 M K1 K2 V2 alpha2 beta2 iter2 => ?_, fun s0 K1 hexit => ?_, ?_⟩
  · rw [GibbsSampling_exit_iff, GibbsSampling_exit_iff]
  · exact ((GibbsSampling_exit_iff RAND_MAX rand sampler s0 (wm.length : Int) K1 V alpha beta
      iter_num wm).mp hexit).2 rfl
  · obtain ⟨r, h, _, _, hl⟩ := GibbsSampling_calls V alpha beta wm hdraw hsamp iter_num
    exact ⟨r, h, hl⟩

/-- C14 as amended, Scenario B with `V = 0`, `alpha = 0`, `beta = -1` and iteration count
`-3`. -/
theorem hyperparameters_not_validated_witness :
    DrawsInRange demoRandMax 2 demoRand ∧ SamplerInRange 2 demoSampler ∧
    ((∀ (s0 : Store) (M K1 K2 : Int) (V2 : Nat) (alpha2 beta2 : ℚ) (iter2 : Int),
      GibbsSampling demoRandMax demoRand demoSampler s0 M K1 0 0 (-1) (-3) scenarioB
          = Except.error Fault.configExit ↔
        GibbsSampling demoRandMax demoRand demoSampler s0 M K2 V2 alpha2 beta2 iter2 scenarioB
          = Except.error Fault.configExit) ∧
    (∀ (s0 : Store) (K1 : Int),
      GibbsSampling demoRandMax demoRand demoSampler s0 (scenarioB.length : Int) K1 0 0 (-1)
        (-3) scenarioB ≠ Except.error Fault.configExit) ∧
    ∃ r, GibbsSampling demoRandMax demoRand demoSampler Store.empty (scenarioB.length : Int)
        ((2 : Nat) : Int) 0 0 (-1) (-3) scenarioB = Except.ok r ∧
      r.calls.length = (-3 : Int).toNat * numTokens scenarioB) :=
  ⟨demoRand_inRange, demoSampler_inRange,
    hyperparameters_not_validated demoRandMax demoRand demoSampler 2 0 0 (-1) (-3) scenarioB
      demoRand_inRange demoSampler_inRange⟩

/-! ## The stored terms -/

theorem TermMap.hasKey_incr_iff (m : TermMap) (t u : String) :
    TermMap.hasKey (TermMap.incr m t) u = true ↔ TermMap.hasKey m u = true ∨ u = t := by
  unfold TermMap.incr
  rw [TermMap.hasKey_iff_mem_keys, TermMap.keys_update, ← TermMap.hasKey_iff_mem_keys,
    TermMap.hasKey_index_iff]

theorem TermMap.hasKey_decr_iff (m : TermMap) (t u : String) :
    TermMap.hasKey (TermMap.decr m t) u = true ↔ TermMap.hasKey m u = true ∨ u = t := by
  unfold TermMap.decr
  rw [TermMap.hasKey_iff_mem_keys, TermMap.keys_update, ← TermMap.hasKey_iff_mem_keys,
    TermMap.hasKey_index_iff]

theorem ttcMap_set (l : List TermMap) (i k : Nat) (m m1 : TermMap) (hm : l[i]? = some m) :
    ((l.set i m1)[k]?).getD [] = if k = i then m1 else (l[k]?).getD [] :=
  getD_set l i k m1 [] (List.getElem?_eq_some_iff.mp hm).1

theorem IncreTopicTerm_keys {s s1 : Store} {d p : Nat} {wm : WordMatrix}
    (h : IncreTopicTerm s d p wm = Except.ok s1) :
    ∃ t, termAt wm d p = some t ∧ ∀ (k : Nat) (u : String),
      (TermMap.hasKey (s.ttcMap k) u = true → TermMap.hasKey (s1.ttcMap k) u = true) ∧
      (TermMap.hasKey (s1.ttcMap k) u = true → TermMap.hasKey (s.ttcMap k) u = true ∨ u = t) := by
  obtain ⟨i, t, m, n, _, ht, _, hm, _, rfl⟩ := (IncreTopicTerm_eq_ok s s1 d p wm).mp h
  refine ⟨t, ht, fun k u => ?_⟩
  simp only [Store.ttcMap]
  rw [ttcMap_set _ _ _ m _ hm]
  by_cases hk : k = i.toNat
  · subst hk
    simp only [if_true, hm, Option.getD_some, TermMap.hasKey_incr_iff]
    exact ⟨Or.inl, id⟩
  · simp only [hk, if_false]
    exact ⟨id, Or.inl⟩

theorem DecreTopicTerm_keys {s s1 : Store} {d p : Nat} {wm : WordMatrix}
    (h : DecreTopicTerm s d p wm = Except.ok s1) :
    ∃ t, termAt wm d p = some t ∧ ∀ (k : Nat) (u : String),
      (TermMap.hasKey (s.ttcMap k) u = true → TermMap.hasKey (s1.ttcMap k) u = true) ∧
      (TermMap.hasKey (s1.ttcMap k) u = true → TermMap.hasKey (s.ttcMap k) u = true ∨ u = t) := by
  obtain ⟨i, t, m, n, _, ht, _, hm, _, rfl⟩ := (DecreTopicTerm_eq_ok s s1 d p wm).mp h
  refine ⟨t, ht, fun k u => ?_⟩
  simp only [Store.ttcMap]
  rw [ttcMap_set _ _ _ m _ hm]
  by_cases hk : k = i.toNat
  · subst hk
    simp only [if_true, hm, Option.getD_some, TermMap.hasKey_decr_iff]
    exact ⟨Or.inl, id⟩
  · simp only [hk, if_false]
    exact ⟨id, Or.inl⟩

theorem visit_keys {sampler : Sampler} {V : Nat} {K : Int} {alpha beta : ℚ}
    {wm : WordMatrix} {d p : Nat} {r r1 : Run}
    (h : visit sampler V K alpha beta wm d r p = Except.ok r1) :
    ∃ t, termAt wm d p = some t ∧ ∀ (k : Nat) (u : String),
      (TermMap.hasKey (r.store.ttcMap k) u = true →
        TermMap.hasKey (r1.store.ttcMap k) u = true) ∧
      (TermMap.hasKey (r1.store.ttcMap k) u = true →
        TermMap.hasKey (r.store.ttcMap k) u = true ∨ u = t) ∧
      (k < K.toNat → TermMap.hasKey (r1.store.ttcMap k) t = true) := by
  obtain ⟨s1, s2, k0, s3, s4, s5, s6, h1, h2, h3, h4, h5, h6, rfl⟩ :=
    (visit_eq_ok _ _ _ _ _ _ _ _ _ _).mp h
  obtain ⟨_, _, _, hb1⟩ := DecreDocTopic_bump h1
  obtain ⟨t, ht, hk2⟩ := DecreTopicTerm_keys h2
  obtain ⟨_, term, s3a, w, _, ht3, hw, he⟩ := (UpdateTopic_eq_ok _ _ _ _ _ _ _ _ _ _).mp h3
  have e3 : term = t := by rw [ht] at ht3; exact (Option.some.inj ht3).symm
  subst e3
  have hk3 := topicWeights_keys hw
  simp only [Prod.mk.injEq] at he
  obtain ⟨_, he2⟩ := he
  subst he2
  obtain ⟨_, _, a3, _⟩ := assignTopic_tables h4
  obtain ⟨_, _, _, hb5⟩ := IncreDocTopic_bump h5
  obtain ⟨t6, ht6, hk6⟩ := IncreTopicTerm_keys h6
  have e6 : t6 = term := by rw [ht] at ht6; exact (Option.some.inj ht6).symm
  subst e6
  have m1 : ∀ k, s1.ttcMap k = r.store.ttcMap k := Store.ttcMap_congr hb1.ttc_eq
  have m5 : ∀ k, s5.ttcMap k = s3.ttcMap k := fun k =>
    (Store.ttcMap_congr hb5.ttc_eq k).trans (Store.ttcMap_congr a3 k)
  refine ⟨t6, ht, fun k u => ⟨?_, ?_, ?_⟩⟩
  · intro hu
    apply (hk6 k u).1
    rw [m5, hk3 k u]
    left
    apply (hk2 k u).1
    rw [m1]; exact hu
  · intro hu
    rcases (hk6 k u).2 hu with h7 | h7
    · rw [m5, hk3 k u] at h7
      rcases h7 with h8 | h8
      · rcases (hk2 k u).2 h8 with h9 | h9
        · left; rw [← m1]; exact h9
        · right; exact h9
      · right; exact h8.2
    · right; exact h7
  · intro hk
    apply (hk6 k t6).1
    rw [m5, hk3 k t6]
    right
    exact ⟨hk, rfl⟩

theorem keysFromCorpus_of_eq {wm : WordMatrix} {s s1 : Store}
    (h : s1.topic_term_count = s.topic_term_count) (hs : KeysFromCorpus wm s) :
    KeysFromCorpus wm s1 := by
  intro k u hu
  rw [Store.ttcMap_congr h] at hu
  exact hs k u hu

theorem IncreTopicTerm_keysFrom {s s1 : Store} {d p : Nat} {wm : WordMatrix}
    (h : IncreTopicTerm s d p wm = Except.ok s1) (hs : KeysFromCorpus wm s) :
    KeysFromCorpus wm s1 := by
  obtain ⟨t, ht, hk⟩ := IncreTopicTerm_keys h
  intro k u hu
  rcases (hk k u).2 hu with h1 | h1
  · exact hs k u h1
  · exact ⟨d, p, by rw [h1]; exact ht⟩

theorem initDoc_keysFrom {wm : WordMatrix} {s s1 : Store} {d : Nat}
    (h : initDoc wm s d = Except.ok s1) (hs : KeysFromCorpus wm s) : KeysFromCorpus wm s1 := by
  simp only [initDoc, bind_eq_ok] at h
  obtain ⟨zrow, _, h2⟩ := h
  refine foldlM_preserves (KeysFromCorpus wm) _ ?_ _ _ _ hs h2
  intro x p x1 hx hstep
  simp only [bind_eq_ok] at hstep
  obtain ⟨y, hy1, hy2⟩ := hstep
  obtain ⟨_, _, _, hb⟩ := IncreDocTopic_bump hy1
  exact IncreTopicTerm_keysFrom hy2 (keysFromCorpus_of_eq hb.ttc_eq hx)

theorem InitSampling_keysFrom {RAND_MAX : Nat} {rand : Nat → Nat} {K : Nat} {wm : WordMatrix}
    {s : Store}
    (h : InitSampling RAND_MAX rand Store.empty (wm.length : Int) (K : Int) wm = Except.ok s) :
    KeysFromCorpus wm s := by
  unfold InitSampling at h
  have hguard : ¬ (0 = (wm.length : Int) ∧ (wm.length : Int) ≠ (wm.length : Int)) := by
    rintro ⟨_, h⟩; exact h rfl
  rw [if_neg hguard, InitCountVariables_empty] at h
  have h' : (InitTopicIndex RAND_MAX rand
      ⟨[], List.replicate wm.length (List.replicate K 0), List.replicate wm.length 0,
        List.replicate K [], List.replicate K 0⟩ (wm.length : Int) (K : Int) wm >>= fun s =>
      (List.range s.topic_index_Zmn.length).foldlM (initDoc wm) s) = Except.ok s := h
  rw [bind_eq_ok] at h'
  obtain ⟨s0, h0, h1⟩ := h'
  have hs0 : KeysFromCorpus wm s0 := by
    simp only [InitTopicIndex, bind_eq_ok] at h0
    obtain ⟨z, _, hz⟩ := h0
    split at hz
    · cases hz
    · simp only [pure_eq_ok] at hz
      rw [← hz]
      intro k u hu
      exfalso
      simp only [Store.ttcMap, List.getElem?_replicate] at hu
      split at hu <;> simp [TermMap.hasKey] at hu
  exact foldlM_preserves (KeysFromCorpus wm) _
    (fun x d x1 hx hstep => initDoc_keysFrom hstep hx) _ _ _ hs0 h1

theorem Reachable.keysFrom {RAND_MAX : Nat} {rand : Nat → Nat} {sampler : Sampler} {K V : Nat}
    {alpha beta : ℚ} {wm : WordMatrix} {r : Run}
    (hr : Reachable RAND_MAX rand sampler (K : Int) V alpha beta wm r) :
    KeysFromCorpus wm r.store := by
  induction hr with
  | init s h => exact InitSampling_keysFrom h
  | visit r r1 d p _ h ih =>
    obtain ⟨t, ht, hk⟩ := visit_keys h
    intro k u hu
    rcases (hk k u).2.1 hu with h1 | h1
    · exact ih k u h1
    · exact ⟨d, p, by rw [h1]; exact ht⟩

theorem visitAll_keys {sampler : Sampler} {V K : Nat} {alpha beta : ℚ} {wm : WordMatrix}
    (ts : List (Nat × Nat)) {r r1 : Run}
    (h : visitAll sampler V (K : Int) alpha beta wm r ts = Except.ok r1) :
    (∀ (k : Nat) (u : String), TermMap.hasKey (r.store.ttcMap k) u = true →
      TermMap.hasKey (r1.store.ttcMap k) u = true) ∧
    ∀ d p t, (d, p) ∈ ts → termAt wm d p = some t → StoresTerm K r1.store t := by
  induction ts generalizing r with
  | nil =>
    rw [visitAll_nil] at h
    rw [← Except.ok.inj h]
    exact ⟨fun _ _ hu => hu, fun d p t hm => absurd hm (List.not_mem_nil _)⟩
  | cons x ts ih =>
    rw [visitAll_cons, bind_eq_ok] at h
    obtain ⟨r2, h2, h3⟩ := h
    obtain ⟨t2, ht2, hk2⟩ := visit_keys h2
    obtain ⟨hmono, hst⟩ := ih h3
    refine ⟨fun k u hu => hmono k u ((hk2 k u).1 hu), ?_⟩
    intro d p t hm ht
    rcases List.mem_cons.mp hm with h4 | h4
    · intro k hk
      have e : t = t2 := by
        rw [← h4] at ht2
        rw [ht2] at ht
        exact (Option.some.inj ht).symm
      rw [e]
      exact hmono k t2 ((hk2 k t2).2.2 (by simpa using hk))
    · exact hst d p t h4 ht

theorem sweeps_keys {sampler : Sampler} {V K : Nat} {alpha beta : ℚ} {wm : WordMatrix}
    (n : Nat) {r r1 : Run} (h : sweeps sampler V (K : Int) alpha beta wm n r = Except.ok r1) :
    (∀ (k : Nat) (u : String), TermMap.hasKey (r.store.ttcMap k) u = true →
      TermMap.hasKey (r1.store.ttcMap k) u = true) ∧
    (0 < n → ∀ d p t, termAt wm d p = some t → StoresTerm K r1.store t) := by
  induction n generalizing r with
  | zero =>
    have e : r1 = r := (Except.ok.inj h).symm
    rw [e]
    exact ⟨fun _ _ hu => hu, fun h0 => absurd h0 (Nat.lt_irrefl 0)⟩
  | succ n ih =>
    simp only [sweeps, bind_eq_ok] at h
    obtain ⟨r2, h2, h3⟩ := h
    rw [sweep_eq_visitAll] at h2
    obtain ⟨hm2, hs2⟩ := visitAll_keys _ h2
    obtain ⟨hm3, _⟩ := ih h3
    refine ⟨fun k u hu => hm3 k u (hm2 k u hu), fun _ d p t ht k hk => ?_⟩
    obtain ⟨hd, hp⟩ := termAt_bounds ht
    exact hm3 k t (hs2 d p t ((mem_tokenOrder wm (d, p)).mpr ⟨hd, hp⟩) ht k hk)

theorem SingleTerm.term_eq {wm : WordMatrix} {x : String} (hx : SingleTerm wm x) {d p : Nat}
    {t : String} (ht : termAt wm d p = some t) : t = x := by
  obtain ⟨row, h1, h2⟩ := (termAt_eq_some wm d p t).mp ht
  exact hx row (List.getElem?_mem h1) t (List.getElem?_mem h2)

theorem Quiet.single_term_counts {wm : WordMatrix} {K : Nat} {s : Store} (hQ : Quiet wm K s)
    {x : String} (hx : SingleTerm wm x) {k : Nat} (hk : k < K) : s.ttc k x = s.tts k := by
  rw [hQ.tallied.ttc_eq k x hk, hQ.tallied.tts_eq k hk]
  congr 1
  apply countAll_congr
  intro m q hm hq
  obtain ⟨t, ht⟩ := termAt_of_bounds hm hq
  have e := hx.term_eq ht
  subst e
  simp [ht]

theorem phiMap_single (pm : PhiMap) (x : String) (hs : KeysSorted (pm.map Prod.fst))
    (hall : ∀ t ∈ pm.map Prod.fst, t = x) : pm = [] ∨ pm = [(x, PhiMap.read pm x)] := by
  match pm, hs, hall with
  | [], _, _ => exact Or.inl rfl
  | [(a, v)], _, hall =>
    right
    have e : a = x := hall a (by simp)
    subst e
    simp [PhiMap.read]
  | (a, v) :: (b, w) :: rest, hs, hall =>
    exfalso
    have ea : a = x := hall a (by simp)
    have eb : b = x := hall b (by simp)
    unfold KeysSorted at hs
    simp only [List.map_cons, List.pairwise_cons, List.mem_cons] at hs
    have hlt := hs.1 b (Or.inl rfl)
    rw [ea, eb] at hlt
    exact lt_irrefl _ hlt

theorem scenarioA_single : SingleTerm scenarioA "x" := by
  intro row hrow t ht
  simp only [scenarioA, List.mem_singleton] at hrow
  subst hrow
  simp only [List.mem_cons, List.mem_singleton, List.not_mem_nil, or_false, or_self] at ht
  exact ht

theorem IncreTopicTerm_keysCounted {s s1 : Store} {d p : Nat} {wm : WordMatrix}
    (h : IncreTopicTerm s d p wm = Except.ok s1) (hs : KeysCounted s) : KeysCounted s1 := by
  obtain ⟨i, t, m, n, hz, ht, _, hm, _, he⟩ := (IncreTopicTerm_eq_ok s s1 d p wm).mp h
  obtain ⟨i1, t1, hz1, ht1, _, hb⟩ := IncreTopicTerm_bump h
  have ei : i1 = i := by rw [hz] at hz1; exact (Option.some.inj hz1).symm
  have et : t1 = t := by rw [ht] at ht1; exact (Option.some.inj ht1).symm
  subst ei et
  intro k u hu
  rw [hb.ttc k u]
  have hmap : s1.ttcMap k = if k = i1.toNat then m.incr t1 else s.ttcMap k := by
    rw [he]
    simp only [Store.ttcMap]
    exact ttcMap_set _ _ _ m _ hm
  rw [hmap] at hu
  by_cases hk : k = i1.toNat
  · rw [if_pos hk] at hu
    have hmk : s.ttcMap k = m := by simp [Store.ttcMap, hk, hm]
    by_cases hut : u = t1
    · rw [if_pos ⟨hk, hut⟩]
      by_cases hold : TermMap.hasKey (s.ttcMap k) u = true
      · have := hs k u hold
        omega
      · have h0 : s.ttc k u = 0 :=
          TermMap.read_of_not_hasKey _ _ (by simpa using hold)
        omega
    · rw [if_neg (fun hh => hut hh.2)]
      rcases (TermMap.hasKey_incr_iff m t1 u).mp hu with h1 | h1
      · rw [← hmk] at h1
        have := hs k u h1
        omega
      · exact absurd h1 hut
  · rw [if_neg hk] at hu
    rw [if_neg (fun hh => hk hh.1)]
    have := hs k u hu
    omega

theorem keysCounted_of_eq {s s1 : Store}
    (h : s1.topic_term_count = s.topic_term_count) (hs : KeysCounted s) : KeysCounted s1 := by
  intro k u hu
  have e := Store.ttcMap_congr h k
  rw [e] at hu
  have := hs k u hu
  simp only [Store.ttc] at this ⊢
  rw [e]
  exact this

theorem initDoc_keysCounted {wm : WordMatrix} {s s1 : Store} {d : Nat}
    (h : initDoc wm s d = Except.ok s1) (hs : KeysCounted s) : KeysCounted s1 := by
  simp only [initDoc, bind_eq_ok] at h
  obtain ⟨zrow, _, h2⟩ := h
  refine foldlM_preserves KeysCounted _ ?_ _ _ _ hs h2
  intro x p x1 hx hstep
  simp only [bind_eq_ok] at hstep
  obtain ⟨y, hy1, hy2⟩ := hstep
  obtain ⟨_, _, _, hb⟩ := IncreDocTopic_bump hy1
  exact IncreTopicTerm_keysCounted hy2 (keysCounted_of_eq hb.ttc_eq hx)

theorem InitSampling_keysCounted {RAND_MAX : Nat} {rand : Nat → Nat} {K : Nat}
    {wm : WordMatrix} {s : Store}
    (h : InitSampling RAND_MAX rand Store.empty (wm.length : Int) (K : Int) wm = Except.ok s) :
    KeysCounted s := by
  unfold InitSampling at h
  have hguard : ¬ (0 = (wm.length : Int) ∧ (wm.length : Int) ≠ (wm.length : Int)) := by
    rintro ⟨_, h⟩; exact h rfl
  rw [if_neg hguard, InitCountVariables_empty] at h
  have h' : (InitTopicIndex RAND_MAX rand
      ⟨[], List.replicate wm.length (List.replicate K 0), List.replicate wm.length 0,
        List.replicate K [], List.replicate K 0⟩ (wm.length : Int) (K : Int) wm >>= fun s =>
      (List.range s.topic_index_Zmn.length).foldlM (initDoc wm) s) = Except.ok s := h
  rw [bind_eq_ok] at h'
  obtain ⟨s0, h0, h1⟩ := h'
  have hs0 : KeysCounted s0 := by
    simp only [InitTopicIndex, bind_eq_ok] at h0
    obtain ⟨z, _, hz⟩ := h0
    split at hz
    · cases hz
    · simp only [pure_eq_ok] at hz
      rw [← hz]
      intro k u hu
      exfalso
      simp only [Store.ttcMap, List.getElem?_replicate] at hu
      split at hu <;> simp [TermMap.hasKey] at hu
  exact foldlM_preserves KeysCounted _
    (fun x d x1 hx hstep => initDoc_keysCounted hstep hx) _ _ _ hs0 h1

theorem GibbsSampling_no_sweep {RAND_MAX : Nat} {rand : Nat → Nat} {sampler : Sampler}
    {K V : Nat} {alpha beta : ℚ} {wm : WordMatrix} {iter_num : Int} {r : Run}
    (hi : iter_num ≤ 0)
    (h : GibbsSampling RAND_MAX rand sampler Store.empty (wm.length : Int) (K : Int) V alpha
      beta iter_num wm = Except.ok r) :
    InitSampling RAND_MAX rand Store.empty (wm.length : Int) (K : Int) wm
      = Except.ok r.store := by
  simp only [GibbsSampling, bind_eq_ok] at h
  obtain ⟨s, h1, h2⟩ := h
  have e : iter_num.toNat = 0 := by omega
  rw [e] at h2
  have e2 : r = ⟨s, []⟩ := (Except.ok.inj h2).symm
  rw [e2]
  exact h1

theorem Quiet.no_token_count {wm : WordMatrix} {K : Nat} {s : Store} (hQ : Quiet wm K s)
    {k : Nat} (hk : k < K) (hno : ∀ d p, s.zAt d p ≠ some (k : Int)) (u : String) :
    s.ttc k u = 0 := by
  rw [hQ.tallied.ttc_eq k u hk]
  have e : countAll wm (fun m p => s.zAt m p == some (k : Int) && termAt wm m p == some u)
      = countAll wm (fun _ _ => false) := by
    apply countAll_congr
    intro m q _ _
    have := hno m q
    simp [this]
  rw [e, countAll_false]
  rfl

/-- C15 fails on the code: with `K = 2`, iteration count `0` and the corpus of the single token
`x`, whose initial topic is `0`, the run returns the tables of `InitSampling`, in which
`topic_term_count[1]` stores nothing; the first loop of `EstimatePhi` then leaves `phi[1]`
empty, without an entry for `x`, and `EstimatePhi` itself runs past the end of `phi_sorted[0]`
in the listing at its end. -/
theorem single_term_missing_entry :
    GibbsSampling demoRandMax demoRand demoSampler Store.empty 1 2 1 (1 / 10) (1 / 10) 0 [["x"]]
      = Except.ok ⟨⟨[[0]], [[1, 0]], [1], [[("x", 1)], []], [1, 0]⟩, []⟩ ∧
    phiTables ⟨[[0]], [[1, 0]], [1], [[("x", 1)], []], [1, 0]⟩ 2 1 (1 / 10) [[], []] [[], []]
      = Except.ok ([[("x", 1)], []], [[("x", 1)], []]) ∧
    EstimatePhi ⟨[[0]], [[1, 0]], [1], [[("x", 1)], []], [1, 0]⟩ 2 1 (1 / 10) (1 / 10)
        [[], []] [[], []] = Except.error Fault.outOfRange := by
  refine ⟨rfl, ?_, rfl⟩
  have e : (((1 : Int) : ℚ) + 1 / 10) / (((1 : Int) : ℚ) + 1 / 10 * ((1 : Int) : ℚ)) = 1 := by
    norm_num
  have h : phiTables ⟨[[0]], [[1, 0]], [1], [[("x", 1)], []], [1, 0]⟩ 2 1 (1 / 10) [[], []]
      [[], []] = Except.ok
        ([[("x", (((1 : Int) : ℚ) + 1 / 10) / (((1 : Int) : ℚ) + 1 / 10 * ((1 : Int) : ℚ)))],
            []],
          [[("x", (((1 : Int) : ℚ) + 1 / 10) / (((1 : Int) : ℚ) + 1 / 10 * ((1 : Int) : ℚ)))],
            []]) := rfl
  rw [e] at h
  exact h

/-- C15 as amended: for `beta > 0`, a corpus whose tokens are all the term `x`, `V = 1`, and
initial topics and sampler results in `[0, K)`, `GibbsSampling` returns for every iteration
count, the first loop of `EstimatePhi`, started with empty tables, returns, and the tables
`EstimatePhi` returns, when it returns, are the ones this loop leaves.  For every topic `k`,
`phi[k]` is either empty or holds the single entry `x` with value exactly `1`, and it holds the
entry exactly when `topic_term_count[k]` stores `x`.  With an iteration count of at least `1`
and a corpus of at least one token, every topic holds the entry.  With an iteration count of
`0` or less the tables are those `InitSampling` returns, and `phi[k]` is empty for every topic
`k` that is the initial topic of no token. -/
theorem single_term_phi (RAND_MAX : Nat) (rand : Nat → Nat) (sampler : Sampler) (K : Nat)
    (alpha beta : ℚ) (wm : WordMatrix) (x : String) (iter_num : Int)
    (hdraw : DrawsInRange RAND_MAX K rand) (hsamp : SamplerInRange K sampler)
    (hb : 0 < beta) (hx : SingleTerm wm x) :
    ∃ r out,
      GibbsSampling RAND_MAX rand sampler Store.empty (wm.length : Int) (K : Int) 1 alpha beta
        iter_num wm = Except.ok r ∧
      phiTables r.store (K : Int) 1 beta (List.replicate K []) (List.replicate K [])
        = Except.ok out ∧
      (∀ out1, EstimatePhi r.store (K : Int) 1 alpha beta (List.replicate K [])
        (List.replicate K []) = Except.ok out1 → out1 = out) ∧
      (∀ k : Nat, k < K → ∃ pm, out.1[k]? = some pm ∧ (pm = [] ∨ pm = [(x, 1)]) ∧
        (pm = [(x, 1)] ↔ TermMap.hasKey (r.store.ttcMap k) x = true)) ∧
      (1 ≤ iter_num → 0 < numTokens wm → ∀ k : Nat, k < K → out.1[k]? = some [(x, 1)]) ∧
      (iter_num ≤ 0 →
        InitSampling RAND_MAX rand Store.empty (wm.length : Int) (K : Int) wm
          = Except.ok r.store ∧
        ∀ k : Nat, k < K → (∀ d p, r.store.zAt d p ≠ some (k : Int)) →
          out.1[k]? = some []) := by
  obtain ⟨r, hr, hreach⟩ := GibbsSampling_reachable 1 alpha beta wm hdraw hsamp iter_num
  have hQ := hreach.quiet hdraw hsamp
  have hready := hreach.phiReady hdraw hsamp
  obtain ⟨out, hout, hspec⟩ := phiTables_spec r.store K 1 beta _ _ hready
    (emptyOnEntry_replicate K)
  have hentry : ∀ k : Nat, k < K →
      (phiOf (r.store.ttcMap k) (r.store.tts k) beta 1 = [] ∨
        phiOf (r.store.ttcMap k) (r.store.tts k) beta 1 = [(x, 1)]) ∧
      (phiOf (r.store.ttcMap k) (r.store.tts k) beta 1 = [(x, 1)] ↔
        TermMap.hasKey (r.store.ttcMap k) x = true) := by
    intro k hk
    have hkeys := phiOf_keys (r.store.ttcMap k) (r.store.tts k) beta 1
    have hsorted : KeysSorted ((phiOf (r.store.ttcMap k) (r.store.tts k) beta 1).map
        Prod.fst) := by
      obtain ⟨tm, _, htm, _, hs⟩ := hready k hk
      rw [hkeys]
      simpa [Store.ttcMap, htm] using hs
    have hall : ∀ t ∈ (phiOf (r.store.ttcMap k) (r.store.tts k) beta 1).map Prod.fst,
        t = x := by
      intro t ht
      rw [hkeys, ← TermMap.hasKey_iff_mem_keys] at ht
      obtain ⟨d, p, hdp⟩ := hreach.keysFrom k t ht
      exact hx.term_eq hdp
    have hval : TermMap.hasKey (r.store.ttcMap k) x = true →
        PhiMap.read (phiOf (r.store.ttcMap k) (r.store.tts k) beta 1) x = 1 := by
      intro hkey
      rw [phiOf_read _ _ _ _ _ hkey]
      have e : (r.store.ttcMap k).read x = r.store.tts k := hQ.single_term_counts hx hk
      have hn : (0 : ℚ) ≤ (r.store.tts k : ℚ) := by
        rw [hQ.tallied.tts_eq k hk]
        exact_mod_cast Int.natCast_nonneg _
      rw [e]
      have hne : (r.store.tts k : ℚ) + beta ≠ 0 := by linarith
      simp only [Int.cast_one, mul_one]
      exact div_self hne
    have hmem : x ∈ (phiOf (r.store.ttcMap k) (r.store.tts k) beta 1).map Prod.fst ↔
        TermMap.hasKey (r.store.ttcMap k) x = true := by
      rw [hkeys, ← TermMap.hasKey_iff_mem_keys]
    rcases phiMap_single _ x hsorted hall with h1 | h1
    · refine ⟨Or.inl h1, ?_⟩
      rw [← hmem, h1]
      simp
    · have hin : x ∈ (phiOf (r.store.ttcMap k) (r.store.tts k) beta 1).map Prod.fst := by
        rw [h1]; simp
      have hkey := hmem.mp hin
      rw [hval hkey] at h1
      exact ⟨Or.inr h1, fun _ => hkey, fun _ => h1⟩
  refine ⟨r, out, hr, hout, ?_, ?_, ?_, ?_⟩
  · intro out1 ho
    have := EstimatePhi_eq_ok ho
    rw [hout] at this
    exact (Except.ok.inj this).symm
  · intro k hk
    exact ⟨_, (hspec k hk).1, hentry k hk⟩
  · intro hiter htok k hk
    rw [(hspec k hk).1]
    congr 1
    apply (hentry k hk).2.mpr
    simp only [GibbsSampling, bind_eq_ok] at hr
    obtain ⟨s, _, h2⟩ := hr
    have hn : 0 < iter_num.toNat := by omega
    have hne : tokenOrder wm ≠ [] := by
      intro h
      have := tokenOrder_length wm
      rw [h] at this
      simp at this
      omega
    obtain ⟨tok, htokmem⟩ := List.exists_mem_of_ne_nil _ hne
    obtain ⟨hd, hp⟩ := (mem_tokenOrder wm tok).mp htokmem
    obtain ⟨t, ht⟩ := termAt_of_bounds hd hp
    have e := hx.term_eq ht
    subst e
    exact (sweeps_keys iter_num.toNat h2).2 hn tok.1 tok.2 t ht k hk
  · intro hiter
    have hinit := GibbsSampling_no_sweep hiter hr
    refine ⟨hinit, fun k hk hno => ?_⟩
    rw [(hspec k hk).1]
    congr 1
    rcases (hentry k hk).1 with h1 | h1
    · exact h1
    · exfalso
      have hkey := (hentry k hk).2.mp h1
      have hpos := InitSampling_keysCounted hinit k x hkey
      rw [hQ.no_token_count hk hno x] at hpos
      exact lt_irrefl _ hpos

/-- C15 as amended, Scenario A: four tokens `x`, `K = 2`, one iteration. -/
theorem single_term_phi_witness :
    DrawsInRange demoRandMax 2 demoRand ∧ SamplerInRange 2 demoSampler ∧ (0 : ℚ) < 1 / 10 ∧
    SingleTerm scenarioA "x" ∧
    ∃ r out,
      GibbsSampling demoRandMax demoRand demoSampler Store.empty (scenarioA.length : Int)
        ((2 : Nat) : Int) 1 (1 / 10) (1 / 10) 1 scenarioA = Except.ok r ∧
      phiTables r.store ((2 : Nat) : Int) 1 (1 / 10) (List.replicate 2 []) (List.replicate 2 [])
        = Except.ok out ∧
      (∀ out1, EstimatePhi r.store ((2 : Nat) : Int) 1 (1 / 10) (1 / 10) (List.replicate 2 [])
        (List.replicate 2 []) = Except.ok out1 → out1 = out) ∧
      (∀ k : Nat, k < 2 → ∃ pm, out.1[k]? = some pm ∧ (pm = [] ∨ pm = [("x", 1)]) ∧
        (pm = [("x", 1)] ↔ TermMap.hasKey (r.store.ttcMap k) "x" = true)) ∧
      (1 ≤ (1 : Int) → 0 < numTokens scenarioA → ∀ k : Nat, k < 2 →
        out.1[k]? = some [("x", 1)]) ∧
      ((1 : Int) ≤ 0 →
        InitSampling demoRandMax demoRand Store.empty (scenarioA.length : Int)
          ((2 : Nat) : Int) scenarioA = Except.ok r.store ∧
        ∀ k : Nat, k < 2 → (∀ d p, r.store.zAt d p ≠ some (k : Int)) →
          out.1[k]? = some []) :=
  ⟨demoRand_inRange, demoSampler_inRange, by norm_num, scenarioA_single,
    single_term_phi demoRandMax demoRand demoSampler 2 (1 / 10) (1 / 10) scenarioA "x" 1
      demoRand_inRange demoSampler_inRange (by norm_num) scenarioA_single⟩

/-! ## The frame of a visit (C21) -/

theorem IncreDocTopic_rows {s s1 : Store} {d p : Nat} (h : IncreDocTopic s d p = Except.ok s1)
    (m : Nat) (hm : m ≠ d) :
    s1.doc_topic_count[m]? = s.doc_topic_count[m]? ∧
      s1.doc_topic_sum[m]? = s.doc_topic_sum[m]? := by
  obtain ⟨i, row, c, n, _, _, _, _, _, rfl⟩ := (IncreDocTopic_eq_ok s s1 d p).mp h
  have hdm : ¬ d = m := fun e => hm e.symm
  exact ⟨by simp [List.getElem?_set, hdm], by simp [List.getElem?_set, hdm]⟩

theorem DecreDocTopic_rows {s s1 : Store} {d p : Nat} (h : DecreDocTopic s d p = Except.ok s1)
    (m : Nat) (hm : m ≠ d) :
    s1.doc_topic_count[m]? = s.doc_topic_count[m]? ∧
      s1.doc_topic_sum[m]? = s.doc_topic_sum[m]? := by
  obtain ⟨i, row, c, n, _, _, _, _, _, rfl⟩ := (DecreDocTopic_eq_ok s s1 d p).mp h
  have hdm : ¬ d = m := fun e => hm e.symm
  exact ⟨by simp [List.getElem?_set, hdm], by simp [List.getElem?_set, hdm]⟩

theorem visit_rows {sampler : Sampler} {V : Nat} {K : Int} {alpha beta : ℚ} {wm : WordMatrix}
    {d p : Nat} {r r1 : Run} (h : visit sampler V K alpha beta wm d r p = Except.ok r1)
    (m : Nat) (hm : m ≠ d) :
    r1.store.topic_index_Zmn[m]? = r.store.topic_index_Zmn[m]? ∧
      r1.store.doc_topic_count[m]? = r.store.doc_topic_count[m]? ∧
      r1.store.doc_topic_sum[m]? = r.store.doc_topic_sum[m]? := by
  obtain ⟨zrow, old, k, _, _, hzl, _⟩ := visit_z_list h
  obtain ⟨s1, s2, k0, s3, s4, s5, s6, h1, h2, h3, h4, h5, h6, rfl⟩ :=
    (visit_eq_ok _ _ _ _ _ _ _ _ _ _).mp h
  obtain ⟨e1, e1s⟩ := DecreDocTopic_rows h1 m hm
  obtain ⟨_, _, _, _, _, hb2⟩ := DecreTopicTerm_bump h2
  obtain ⟨hS3, _⟩ := UpdateTopic_sameCounts h3
  obtain ⟨a1, a2, _, _, _, _⟩ := assignTopic_tables h4
  obtain ⟨e5, e5s⟩ := IncreDocTopic_rows h5 m hm
  obtain ⟨_, _, _, _, _, hb6⟩ := IncreTopicTerm_bump h6
  have hdm : ¬ d = m := fun e => hm e.symm
  refine ⟨?_, ?_, ?_⟩
  · show s6.topic_index_Zmn[m]? = _
    rw [hzl]
    simp [List.getElem?_set, hdm]
  · show s6.doc_topic_count[m]? = _
    rw [hb6.dtc_eq, e5, a1, hS3.dtc_eq, hb2.dtc_eq, e1]
  · show s6.doc_topic_sum[m]? = _
    rw [hb6.dts_eq, e5s, a2, hS3.dts_eq, hb2.dts_eq, e1s]

theorem visit_counts_frame {sampler : Sampler} {V : Nat} {K : Int} {alpha beta : ℚ}
    {wm : WordMatrix} {d p : Nat} {r r1 : Run}
    (h : visit sampler V K alpha beta wm d r p = Except.ok r1) :
    ∃ (k_old k_new : Int) (t : String), r.store.zAt d p = some k_old ∧
      r1.store.zAt d p = some k_new ∧ termAt wm d p = some t ∧ 0 ≤ k_old ∧ 0 ≤ k_new ∧
      ∀ (k : Nat) (u : String), r1.store.ttc k u = r.store.ttc k u
        + (if k = k_old.toNat ∧ u = t then -1 else 0)
        + (if k = k_new.toNat ∧ u = t then 1 else 0) := by
  obtain ⟨i, j, t, s1, s2, s3, s4, s5, hz1, ht, _, hb1, hb2, hS3, ⟨_, _, a3, _, a5, _⟩, hb5, hb6,
    h0i, h0j, _⟩ := visit_bumps h
  have hzj : r1.store.zAt d p = some j := by
    rw [Store.zAt_congr hb6.z_eq, Store.zAt_congr hb5.z_eq]; exact a5
  refine ⟨i, j, t, hz1, hzj, ht, h0i, h0j, fun k u => ?_⟩
  have e5 : s5.ttc k u = s3.ttc k u := by
    simp only [Store.ttc, Store.ttcMap_congr hb5.ttc_eq, Store.ttcMap_congr a3]
  have e1 : s1.ttc k u = r.store.ttc k u := by
    simp only [Store.ttc, Store.ttcMap_congr hb1.ttc_eq]
  rw [hb6.ttc, e5, hS3.ttc, hb2.ttc, e1]

/-- C21. A visit touches only its own token's rows. In any state whose tables have `M` rows and
`K` topics, a visit to a token `(d, p)` with term `t`, old topic `k_old` in `[0, K)` and a
sampler result in `[0, K)` completes; and every visit that completes, with new topic `k_new`,
leaves `Z` at every other (document, position) unchanged, leaves the rows `Z[m]`,
`doc_topic_count[m]` and `doc_topic_sum[m]` of every document `m != d` unchanged, and leaves
`topic_term_count[k][t']` (an absent term read as `0`) unchanged for every pair `(k, t')` other
than `(k_old, t)` and `(k_new, t)`; a term other than `t` is stored in `topic_term_count[k]`
afterwards exactly when it was before. -/
theorem visit_frame (sampler : Sampler) (V K : Nat) (alpha beta : ℚ) (wm : WordMatrix)
    (r : Run) (d p : Nat) (k_old : Int) (t : String)
    (hz : r.store.zAt d p = some k_old) (ht : termAt wm d p = some t) :
    (∀ M, Shaped M K r.store → d < M → 0 ≤ k_old → k_old < (K : Int) →
      (∀ v, 0 ≤ sampler r.calls.length (K : Int) v ∧
        sampler r.calls.length (K : Int) v < (K : Int)) →
      ∃ r1, visit sampler V (K : Int) alpha beta wm d r p = Except.ok r1) ∧
    (∀ r1, visit sampler V (K : Int) alpha beta wm d r p = Except.ok r1 →
      ∃ k_new, r1.store.zAt d p = some k_new ∧
        (∀ m q : Nat, ¬ (m = d ∧ q = p) → r1.store.zAt m q = r.store.zAt m q) ∧
        (∀ m : Nat, m ≠ d →
          r1.store.topic_index_Zmn[m]? = r.store.topic_index_Zmn[m]? ∧
          r1.store.doc_topic_count[m]? = r.store.doc_topic_count[m]? ∧
          r1.store.doc_topic_sum[m]? = r.store.doc_topic_sum[m]?) ∧
        (∀ (k : Nat) (u : String), ¬ (((k : Int) = k_old ∨ (k : Int) = k_new) ∧ u = t) →
          r1.store.ttc k u = r.store.ttc k u) ∧
        (∀ (k : Nat) (u : String), u ≠ t →
          TermMap.hasKey (r1.store.ttcMap k) u = TermMap.hasKey (r.store.ttcMap k) u)) := by
  refine ⟨fun M hsh hd h0 hK hnew =>
    visit_ok_of_shaped hsh hd hz h0 hK ht sampler hnew V alpha beta, ?_⟩
  intro r1 h
  obtain ⟨i, j, t1, hzi, hzj, ht1, h0i, h0j, httc⟩ := visit_counts_frame h
  have ei : i = k_old := by rw [hz] at hzi; exact (Option.some.inj hzi).symm
  have et : t1 = t := by rw [ht] at ht1; exact (Option.some.inj ht1).symm
  subst ei; subst et
  obtain ⟨_, _, _, _, _, _, _, hzf, _⟩ := visit_result h
  obtain ⟨t2, ht2, hkeys⟩ := visit_keys h
  have et2 : t2 = t1 := by rw [ht] at ht2; exact (Option.some.inj ht2).symm
  subst et2
  refine ⟨j, hzj, ?_, fun m hm => visit_rows h m hm, ?_, ?_⟩
  · intro m q hmq
    rw [hzf m q]
    simp only [setCounted, hmq, if_false]
  · intro k u hku
    rw [httc k u]
    have h1 : ¬ (k = i.toNat ∧ u = t2) := by
      rintro ⟨e1, e2⟩
      exact hku ⟨Or.inl (by omega), e2⟩
    have h2 : ¬ (k = j.toNat ∧ u = t2) := by
      rintro ⟨e1, e2⟩
      exact hku ⟨Or.inr (by omega), e2⟩
    simp only [h1, h2, if_false, add_zero]
  · intro k u hu
    cases hb : TermMap.hasKey (r.store.ttcMap k) u with
    | true => exact (hkeys k u).1 hb
    | false =>
      cases hb1 : TermMap.hasKey (r1.store.ttcMap k) u with
      | false => rfl
      | true =>
        rcases (hkeys k u).2.1 hb1 with h3 | h3
        · rw [hb] at h3; cases h3
        · exact absurd h3 hu

/-- C21, Scenario B: the visit to token `(0, 1)` of `demoStore`, whose term is `b` and whose
topic is `1`. -/
theorem visit_frame_witness :
    demoStore.zAt 0 1 = some 1 ∧ termAt scenarioB 0 1 = some "b" ∧
    ((∀ M, Shaped M 2 demoStore → 0 < M → (0 : Int) ≤ 1 → (1 : Int) < ((2 : Nat) : Int) →
      (∀ v, 0 ≤ demoSampler 0 ((2 : Nat) : Int) v ∧
        demoSampler 0 ((2 : Nat) : Int) v < ((2 : Nat) : Int)) →
      ∃ r1, visit demoSampler 2 ((2 : Nat) : Int) (1 / 10) (1 / 10) scenarioB 0
        ⟨demoStore, []⟩ 1 = Except.ok r1) ∧
    (∀ r1, visit demoSampler 2 ((2 : Nat) : Int) (1 / 10) (1 / 10) scenarioB 0
        ⟨demoStore, []⟩ 1 = Except.ok r1 →
      ∃ k_new, r1.store.zAt 0 1 = some k_new ∧
        (∀ m q : Nat, ¬ (m = 0 ∧ q = 1) → r1.store.zAt m q = demoStore.zAt m q) ∧
        (∀ m : Nat, m ≠ 0 →
          r1.store.topic_index_Zmn[m]? = demoStore.topic_index_Zmn[m]? ∧
          r1.store.doc_topic_count[m]? = demoStore.doc_topic_count[m]? ∧
          r1.store.doc_topic_sum[m]? = demoStore.doc_topic_sum[m]?) ∧
        (∀ (k : Nat) (u : String), ¬ (((k : Int) = 1 ∨ (k : Int) = k_new) ∧ u = "b") →
          r1.store.ttc k u = demoStore.ttc k u) ∧
        (∀ (k : Nat) (u : String), u ≠ "b" →
          TermMap.hasKey (r1.store.ttcMap k) u = TermMap.hasKey (demoStore.ttcMap k) u))) :=
  ⟨by decide, by decide,
    visit_frame demoSampler 2 2 (1 / 10) (1 / 10) scenarioB ⟨demoStore, []⟩ 0 1 1 "b"
      (by decide) (by decide)⟩

/-- The visit of Scenario B evaluated: the store after the visit to token `(0, 1)`, in which
the sampler's answer for call `0` is topic `1`, the old topic. -/
theorem visit_demo :
    visit demoSampler 2 ((2 : Nat) : Int) (1 / 10) (1 / 10) scenarioB 0 ⟨demoStore, []⟩ 1
      = Except.ok ⟨⟨[[0, 1], [0, 1]], [[1, 1], [1, 1]], [2, 2],
          [[("a", 2), ("b", 0)], [("a", 1), ("b", 1)]], [2, 2]⟩, [(0, 1)]⟩ := by
  rfl

/-! ## The listing loop of `EstimatePhi` (C22) -/

theorem mapM_eq_ok {α β : Type} (f : α → Except Fault β) (l : List α) (out : List β)
    (h : l.mapM f = Except.ok out) : ∀ x ∈ l, ∃ y, f x = Except.ok y := by
  induction l generalizing out with
  | nil => intro x hx; exact absurd hx (List.not_mem_nil _)
  | cons a rest ih =>
    rw [List.mapM_cons] at h
    cases ha : f a with
    | error e => rw [ha] at h; cases h
    | ok y =>
      rw [ha] at h
      cases hr : rest.mapM f with
      | error e => rw [hr] at h; cases h
      | ok ys =>
        intro x hx
        rcases List.mem_cons.mp hx with h1 | h1
        · exact ⟨y, by rw [h1]; exact ha⟩
        · exact ih ys hr x h1

theorem mapM_error {α β : Type} (f : α → Except Fault β) (l : List α) (e0 e : Fault)
    (hf : ∀ x ∈ l, ∀ e1, f x = Except.error e1 → e1 = e0)
    (h : l.mapM f = Except.error e) : e = e0 := by
  induction l generalizing e with
  | nil => cases h
  | cons a rest ih =>
    rw [List.mapM_cons] at h
    cases ha : f a with
    | error e1 =>
      rw [ha] at h
      have := hf a (List.mem_cons_self _ _) e1 ha
      have h2 : (Except.error e1 : Except Fault (List β)) = Except.error e := h
      rw [← Except.error.inj h2]; exact this
    | ok y =>
      rw [ha] at h
      cases hr : rest.mapM f with
      | error e1 =>
        rw [hr] at h
        have h2 : (Except.error e1 : Except Fault (List β)) = Except.error e := h
        rw [← Except.error.inj h2]
        exact ih e1 (fun x hx => hf x (List.mem_cons_of_mem _ hx)) hr
      | ok ys => rw [hr] at h; cases h

theorem vAt2_fault {α : Type} (v : List (List α)) (i j : Nat) (e : Fault)
    (h : vAt2 v i j = Except.error e) : e = Fault.outOfRange := by
  unfold vAt2 at h
  split at h
  · unfold vAt at h
    split at h
    · cases h
    · exact (Except.error.inj h).symm
  · exact (Except.error.inj h).symm

theorem printTop_fault (phi_sorted : List (List (String × ℚ))) (n : Int) (e : Fault)
    (h : printTop phi_sorted n = Except.error e) : e = Fault.outOfRange := by
  unfold printTop at h
  refine mapM_error _ _ Fault.outOfRange e ?_ h
  intro i _ e1 h1
  refine mapM_error _ _ Fault.outOfRange e1 ?_ h1
  intro j _ e2 h2
  exact vAt2_fault _ _ _ _ h2

theorem listingInRange_iff (phi_sorted : List (List (String × ℚ))) (n : Int) :
    ListingInRange phi_sorted n ↔
      ∀ i : Nat, i < n.toNat → ∃ row, phi_sorted[i]? = some row ∧ 50 ≤ row.length := by
  constructor
  · intro h i hi
    obtain ⟨e, he⟩ := h i 49 hi (by decide)
    cases hrow : phi_sorted[i]? with
    | none => rw [hrow] at he; cases he
    | some row =>
      rw [hrow] at he
      simp only [Option.some_bind] at he
      have := (List.getElem?_eq_some_iff.mp he).1
      exact ⟨row, rfl, by omega⟩
  · intro h i j hi hj
    obtain ⟨row, hrow, hlen⟩ := h i hi
    have hj1 : j < row.length := by omega
    exact ⟨row[j], by rw [hrow]; simp [List.getElem?_eq_getElem hj1]⟩

theorem printTop_ok_iff (phi_sorted : List (List (String × ℚ))) (n : Int) :
    (∃ printed, printTop phi_sorted n = Except.ok printed) ↔ ListingInRange phi_sorted n := by
  constructor
  · rintro ⟨printed, h⟩ i j hi hj
    unfold printTop at h
    obtain ⟨row, hrow⟩ := mapM_eq_ok _ _ _ h i (List.mem_range.mpr hi)
    obtain ⟨e, he⟩ := mapM_eq_ok _ _ _ hrow j (List.mem_range.mpr hj)
    obtain ⟨r, h1, h2⟩ := (vAt2_eq_ok _ _ _ _).mp he
    exact ⟨e, by rw [h1]; exact h2⟩
  · intro h
    have h1 := (listingInRange_iff phi_sorted n).mp h
    obtain ⟨printed, hp⟩ := printTop_ok phi_sorted n.toNat h1
    refine ⟨printed, ?_⟩
    unfold printTop at hp ⊢
    rw [Int.toNat_ofNat] at hp
    exact hp

theorem EstimatePhi_ok_iff (s : Store) (n V : Int) (alpha beta : ℚ) (phi : List PhiMap)
    (phi_sorted : List (List (String × ℚ))) (out : List PhiMap × List (List (String × ℚ)))
    (h : phiTables s n V beta phi phi_sorted = Except.ok out) :
    (EstimatePhi s n V alpha beta phi phi_sorted = Except.ok out ↔ ListingInRange out.2 n) ∧
    (¬ ListingInRange out.2 n →
      EstimatePhi s n V alpha beta phi phi_sorted = Except.error Fault.outOfRange) := by
  have hE : EstimatePhi s n V alpha beta phi phi_sorted
      = (printTop out.2 n >>= fun _ => pure out) := by
    unfold EstimatePhi
    rw [h]
    rfl
  constructor
  · constructor
    · intro hok
      rw [hE, bind_eq_ok] at hok
      obtain ⟨printed, hp, _⟩ := hok
      exact (printTop_ok_iff out.2 n).mp ⟨printed, hp⟩
    · intro hin
      obtain ⟨printed, hp⟩ := (printTop_ok_iff out.2 n).mpr hin
      rw [hE, hp]
      rfl
  · intro hnot
    rw [hE]
    cases hp : printTop out.2 n with
    | ok printed => exact absurd ((printTop_ok_iff out.2 n).mp ⟨printed, hp⟩) hnot
    | error e =>
      rw [printTop_fault out.2 n e hp]
      rfl

theorem termAt_mem_distinct {wm : WordMatrix} {d p : Nat} {t : String}
    (h : termAt wm d p = some t) : t ∈ distinctTerms wm := by
  obtain ⟨row, h1, h2⟩ := (termAt_eq_some wm d p t).mp h
  unfold distinctTerms
  rw [List.mem_dedup, List.mem_flatten]
  exact ⟨row, List.getElem?_mem h1, List.getElem?_mem h2⟩

theorem keys_le_distinct {wm : WordMatrix} {s : Store} (hk : KeysFromCorpus wm s) {k : Nat}
    (hs : KeysSorted (s.ttcMap k).keys) :
    (s.ttcMap k).keys.length ≤ (distinctTerms wm).length := by
  apply List.Subperm.length_le
  apply List.subperm_of_subset (keysSorted_nodup hs)
  intro u hu
  obtain ⟨d, p, hdp⟩ := hk k u ((TermMap.hasKey_iff_mem_keys _ _).mpr hu)
  exact termAt_mem_distinct hdp

theorem phiTables_lengths (s : Store) (K : Nat) (V : Int) (beta : ℚ) (phi : List PhiMap)
    (phi_sorted : List (List (String × ℚ))) (hs : PhiReady K s)
    (hempty : EmptyOnEntry K phi phi_sorted) :
    ∃ out, phiTables s (K : Int) V beta phi phi_sorted = Except.ok out ∧
      ∀ i : Nat, i < K → ∃ row, out.2[i]? = some row ∧
        row.length = (s.ttcMap i).keys.length := by
  obtain ⟨out, hout, hspec⟩ := phiTables_spec s K V beta phi phi_sorted hs hempty
  refine ⟨out, hout, fun i hi => ⟨_, (hspec i hi).2, ?_⟩⟩
  rw [stdSort_length, phiOf, List.length_map, TermMap.keys, List.length_map]

theorem scenarioB_terms : (distinctTerms scenarioB).length < 50 := by decide

/-- C22. The top-50 listing of `EstimatePhi` is in bounds only for large topics. For every
table `phi_sorted` and topic count, the listing loop returns exactly when every read
`phi_sorted[i][j]`, `i < K`, `j < 50`, is in range, which holds exactly when every
`phi_sorted[i]` has at least 50 entries, and it fails with no other fault than the
out-of-range read. `EstimatePhi` returns exactly when the table its first loop leaves, after
sorting, has at least 50 entries for every topic, and otherwise makes an out-of-range read.
When the maps are well formed and `phi`, `phi_sorted` are empty on entry, `phi_sorted[i]` has
after sorting as many entries as `topic_term_count[i]` stores terms, so `EstimatePhi` returns
exactly when every topic stores at least 50 terms. For `K > 0`, a corpus with fewer than 50
distinct terms, and initial topics and sampler results in `[0, K)`, `GibbsSampling` returns a
state on which some read of the listing is out of range and `EstimatePhi`, started with empty
tables, fails with it. -/
theorem listing_needs_fifty_terms (RAND_MAX : Nat) (rand : Nat → Nat) (sampler : Sampler)
    (K V : Nat) (alpha beta : ℚ) (wm : WordMatrix) (iter_num : Int)
    (hdraw : DrawsInRange RAND_MAX K rand) (hsamp : SamplerInRange K sampler)
    (hK : 0 < K) (hterms : (distinctTerms wm).length < 50) :
    (∀ (ps : List (List (String × ℚ))) (n : Int),
      ((∃ printed, printTop ps n = Except.ok printed) ↔ ListingInRange ps n) ∧
      (ListingInRange ps n ↔
        ∀ i : Nat, i < n.toNat → ∃ row, ps[i]? = some row ∧ 50 ≤ row.length) ∧
      (∀ e, printTop ps n = Except.error e → e = Fault.outOfRange)) ∧
    (∀ (s : Store) (n V1 : Int) (a b : ℚ) (phi : List PhiMap) (ps : List (List (String × ℚ)))
      (out : List PhiMap × List (List (String × ℚ))),
      phiTables s n V1 b phi ps = Except.ok out →
      (EstimatePhi s n V1 a b phi ps = Except.ok out ↔
        ∀ i : Nat, i < n.toNat → ∃ row, out.2[i]? = some row ∧ 50 ≤ row.length) ∧
      (¬ (∀ i : Nat, i < n.toNat → ∃ row, out.2[i]? = some row ∧ 50 ≤ row.length) →
        EstimatePhi s n V1 a b phi ps = Except.error Fault.outOfRange)) ∧
    (∀ (s : Store) (K1 : Nat) (V1 : Int) (a b : ℚ) (phi : List PhiMap)
      (ps : List (List (String × ℚ))), PhiReady K1 s → EmptyOnEntry K1 phi ps →
      ∃ out, phiTables s (K1 : Int) V1 b phi ps = Except.ok out ∧
        (∀ i : Nat, i < K1 → ∃ row, out.2[i]? = some row ∧
          row.length = (s.ttcMap i).keys.length) ∧
        (EstimatePhi s (K1 : Int) V1 a b phi ps = Except.ok out ↔
          ∀ i : Nat, i < K1 → 50 ≤ (s.ttcMap i).keys.length)) ∧
    (∃ r out, GibbsSampling RAND_MAX rand sampler Store.empty (wm.length : Int) (K : Int) V
          alpha beta iter_num wm = Except.ok r ∧
      phiTables r.store (K : Int) (V : Int) beta (List.replicate K []) (List.replicate K [])
        = Except.ok out ∧
      (∃ i j : Nat, i < K ∧ j < 50 ∧ (out.2[i]?).bind (fun row => row[j]?) = none) ∧
      EstimatePhi r.store (K : Int) (V : Int) alpha beta (List.replicate K [])
        (List.replicate K []) = Except.error Fault.outOfRange) := by
  refine ⟨fun ps n => ⟨printTop_ok_iff ps n, listingInRange_iff ps n, printTop_fault ps n⟩,
    ?_, ?_, ?_⟩
  · intro s n V1 a b phi ps out hout
    obtain ⟨h1, h2⟩ := EstimatePhi_ok_iff s n V1 a b phi ps out hout
    rw [listingInRange_iff] at h1 h2
    exact ⟨h1, h2⟩
  · intro s K1 V1 a b phi ps hs hempty
    obtain ⟨out, hout, hlen⟩ := phiTables_lengths s K1 V1 b phi ps hs hempty
    refine ⟨out, hout, hlen, ?_⟩
    rw [(EstimatePhi_ok_iff s (K1 : Int) V1 a b phi ps out hout).1, listingInRange_iff,
      Int.toNat_ofNat]
    constructor
    · intro h i hi
      obtain ⟨row, hrow, h50⟩ := h i hi
      obtain ⟨row1, hrow1, hl⟩ := hlen i hi
      rw [hrow] at hrow1
      rw [← hl, ← Option.some.inj hrow1]
      exact h50
    · intro h i hi
      obtain ⟨row, hrow, hl⟩ := hlen i hi
      exact ⟨row, hrow, by rw [hl]; exact h i hi⟩
  · obtain ⟨r, hr, hreach⟩ := GibbsSampling_reachable V alpha beta wm hdraw hsamp iter_num
    have hready := hreach.phiReady hdraw hsamp
    obtain ⟨out, hout, hlen⟩ := phiTables_lengths r.store K (V : Int) beta _ _ hready
      (emptyOnEntry_replicate K)
    obtain ⟨row, hrow, hl⟩ := hlen 0 hK
    have hshort : row.length < 50 := by
      rw [hl]
      exact Nat.lt_of_le_of_lt (keys_le_distinct hreach.keysFrom (hready.cell hK).2.2) hterms
    have hnone : (out.2[0]?).bind (fun row => row[49]?) = none := by
      rw [hrow]
      simp only [Option.some_bind]
      exact List.getElem?_eq_none (by omega)
    refine ⟨r, out, hr, hout, ⟨0, 49, hK, by decide, hnone⟩, ?_⟩
    apply (EstimatePhi_ok_iff r.store (K : Int) (V : Int) alpha beta _ _ out hout).2
    intro hin
    obtain ⟨e, he⟩ := hin 0 49 (by simpa using hK) (by decide)
    rw [hnone] at he
    cases he

/-- C22, Scenario B: two topics, two distinct terms, one iteration. -/
theorem listing_needs_fifty_terms_witness :
    DrawsInRange demoRandMax 2 demoRand ∧ SamplerInRange 2 demoSampler ∧ 0 < 2 ∧
    (distinctTerms scenarioB).length < 50 ∧
    ((∀ (ps : List (List (String × ℚ))) (n : Int),
      ((∃ printed, printTop ps n = Except.ok printed) ↔ ListingInRange ps n) ∧
      (ListingInRange ps n ↔
        ∀ i : Nat, i < n.toNat → ∃ row, ps[i]? = some row ∧ 50 ≤ row.length) ∧
      (∀ e, printTop ps n = Except.error e → e = Fault.outOfRange)) ∧
    (∀ (s : Store) (n V1 : Int) (a b : ℚ) (phi : List PhiMap) (ps : List (List (String × ℚ)))
      (out : List PhiMap × List (List (String × ℚ))),
      phiTables s n V1 b phi ps = Except.ok out →
      (EstimatePhi s n V1 a b phi ps = Except.ok out ↔
        ∀ i : Nat, i < n.toNat → ∃ row, out.2[i]? = some row ∧ 50 ≤ row.length) ∧
      (¬ (∀ i : Nat, i < n.toNat → ∃ row, out.2[i]? = some row ∧ 50 ≤ row.length) →
        EstimatePhi s n V1 a b phi ps = Except.error Fault.outOfRange)) ∧
    (∀ (s : Store) (K1 : Nat) (V1 : Int) (a b : ℚ) (phi : List PhiMap)
      (ps : List (List (String × ℚ))), PhiReady K1 s → EmptyOnEntry K1 phi ps →
      ∃ out, phiTables s (K1 : Int) V1 b phi ps = Except.ok out ∧
        (∀ i : Nat, i < K1 → ∃ row, out.2[i]? = some row ∧
          row.length = (s.ttcMap i).keys.length) ∧
        (EstimatePhi s (K1 : Int) V1 a b phi ps = Except.ok out ↔
          ∀ i : Nat, i < K1 → 50 ≤ (s.ttcMap i).keys.length)) ∧
    (∃ r out, GibbsSampling demoRandMax demoRand demoSampler Store.empty
          (scenarioB.length : Int) ((2 : Nat) : Int) 2 (1 / 10) (1 / 10) 1 scenarioB
          = Except.ok r ∧
      phiTables r.store ((2 : Nat) : Int) ((2 : Nat) : Int) (1 / 10) (List.replicate 2 [])
        (List.replicate 2 []) = Except.ok out ∧
      (∃ i j : Nat, i < 2 ∧ j < 50 ∧ (out.2[i]?).bind (fun row => row[j]?) = none) ∧
      EstimatePhi r.store ((2 : Nat) : Int) ((2 : Nat) : Int) (1 / 10) (1 / 10)
        (List.replicate 2 []) (List.replicate 2 []) = Except.error Fault.outOfRange)) :=
  ⟨demoRand_inRange, demoSampler_inRange, by decide, scenarioB_terms,
    listing_needs_fifty_terms demoRandMax demoRand demoSampler 2 2 (1 / 10) (1 / 10) scenarioB 1
      demoRand_inRange demoSampler_inRange (by decide) scenarioB_terms⟩

/-- The terms stored after one iteration on Scenario B: two for each topic, fewer than the 50
entries the listing reads. -/
theorem listing_demo :
    (GibbsSampling demoRandMax demoRand demoSampler Store.empty 2 2 2 (1 / 10) (1 / 10) 1
        scenarioB).map (fun r => r.store.topic_term_count.map TermMap.keys)
      = Except.ok [["a", "b"], ["a", "b"]] := by
  rfl

end Ldacc
